import Mathlib

/-!
Unordered-Map: a verification development for `unordered_map.h`.

The header implements `List<T, Alloc>` (a doubly linked ring with a sentinel
`root`) and `UnorderedMap<Key, Value, Hash, Equal, Alloc>` (a hash table whose
buckets are runs of one shared `List`, with a `std::vector<BaseNode*>` of
chain heads).

Embedding.
* A heap node `TemplateNode<T>` is a record of its address and its payload; the
  ring `root.next, root.next->next, …, root.previous` is the Lean list of the
  nodes in that order.  Addresses come from an allocation watermark that only
  grows, so the address of a destroyed node is never handed out again.
* A `BaseNode*` is `null`, the sentinel `root` (what `end()` wraps), or the
  address of a heap node.
* Operations that dereference a pointer return `Option`; `none` stands for
  "no defined result" (a pointer that refers to no live node, an index outside
  the vector, a remainder by zero, or an exhausted recursion budget).
* `size_t` values are natural numbers: the only arithmetic on them is `%`,
  `++`, `--` on a positive counter and `2 * buckets.size()`, and a vector of
  pointers cannot hold enough slots for the product to wrap.
* A `float` is the rational number it stands for. The conversion of a `size_t`
  to `float` and the division of two `float`s round to binary32 (to nearest,
  ties to even, 24 significant bits); the exponent range is taken as unbounded,
  which is binary32 arithmetic as long as no result overflows or is subnormal
  (the quotient of two sizes below `2^64` never is). Infinities and NaN are not
  values of the model.
* `Hash` is a pure function and `Equal` is equality of keys (`std::equal_to`).
-/

namespace UMap

/-- The number of binary digits of `n`; the first argument bounds the number of
halvings (`n` itself is enough). -/
def bit_length : Nat → Nat → Nat
  | 0, _ => 0
  | fuel + 1, n => if n = 0 then 0 else bit_length fuel (n / 2) + 1

/-- The binary exponent of a positive rational `x`: the integer `e` with
`2^e <= x < 2^(e+1)`. -/
def exponent (x : ℚ) : ℤ :=
  if (2 : ℚ) ^ ((bit_length x.num.natAbs x.num.natAbs : ℤ) - (bit_length x.den x.den : ℤ)) ≤ x
  then (bit_length x.num.natAbs x.num.natAbs : ℤ) - (bit_length x.den x.den : ℤ)
  else (bit_length x.num.natAbs x.num.natAbs : ℤ) - (bit_length x.den x.den : ℤ) - 1

/-- Rounding to the nearest integer, ties to the even one. -/
def round_even (y : ℚ) : ℤ :=
  if y - ⌊y⌋ < 1 / 2 then ⌊y⌋
  else if 1 / 2 < y - ⌊y⌋ then ⌊y⌋ + 1
  else if ⌊y⌋ % 2 = 0 then ⌊y⌋ else ⌊y⌋ + 1

/-- The binary32 value nearest to a positive `x`: the significand `x / 2^(e-23)`,
`e` the binary exponent of `x`, is rounded to an integer (ties to even). -/
def round32_positive (x : ℚ) : ℚ :=
  (round_even (x / 2 ^ (exponent x - 23)) : ℚ) * 2 ^ (exponent x - 23)

/-- Rounding to binary32, to nearest and ties to even: what `static_cast<float>`
does to a `size_t` and what a `float` operation does to its exact result. -/
def round32 (x : ℚ) : ℚ :=
  if 0 < x then round32_positive x
  else if x < 0 then -round32_positive (-x)
  else 0

/-- A value of type `BaseNode*`. -/
inductive BasePtr where
  | null : BasePtr
  | root : BasePtr
  | node (addr : Nat) : BasePtr
deriving DecidableEq, Repr

/-- A heap-allocated `TemplateNode<T>`: its address and its `value`. The links
`previous`/`next` are given by the position in the ring. -/
structure TemplateNode (T : Type) where
  addr : Nat
  value : T
deriving DecidableEq, Repr

/-- The class `List<T, Alloc>`: the ring of nodes between `root.next` and
`root.previous`, the counter `list_size`, and the allocation watermark. -/
structure ListT (T : Type) where
  nodes : List (TemplateNode T)
  list_size : Nat
  alloc : Nat
deriving DecidableEq, Repr

namespace ListT

variable {T : Type}

/-- The iterator `begin()`: `root.next`. -/
def begin_ptr : List (TemplateNode T) → BasePtr
  | [] => BasePtr.root
  | n :: _ => BasePtr.node n.addr

/-- The method `List::begin`. -/
def begin (l : ListT T) : BasePtr := begin_ptr l.nodes

/-- The method `List::end`: the sentinel. -/
def «end» (_l : ListT T) : BasePtr := BasePtr.root

/-- The method `List::size`. -/
def size (l : ListT T) : Nat := l.list_size

/-- The nodes visited by `for (it = iterator(p); it != end(); ++it)` when `p` is
the address `a` of a live node; `none` when no live node has that address. -/
def nodes_from : List (TemplateNode T) → Nat → Option (List (TemplateNode T))
  | [], _ => none
  | n :: rest, a => if n.addr = a then some (n :: rest) else nodes_from rest a

/-- Dereferencing `static_cast<Node*>(p)`: the live node at address `a`. -/
def node_at : List (TemplateNode T) → Nat → Option (TemplateNode T)
  | [], _ => none
  | n :: rest, a => if n.addr = a then some n else node_at rest a

/-- Linking `new_node` between `insertion_node->previous` and `insertion_node`,
the latter being the live node at address `a`. -/
def link_before : List (TemplateNode T) → Nat → TemplateNode T →
    Option (List (TemplateNode T))
  | [], _, _ => none
  | n :: rest, a, new_node =>
    if n.addr = a then some (new_node :: n :: rest)
    else (link_before rest a new_node).map (fun r => n :: r)

/-- The method `List::insert(iterator it, value_type&& value)`: allocate a node,
link it before `it`, bump `list_size`, return an iterator to the new node. -/
def insert (l : ListT T) (it : BasePtr) (value : T) : Option (ListT T × BasePtr) :=
  let new_node : TemplateNode T := { addr := l.alloc, value := value }
  match it with
  | BasePtr.null => none
  | BasePtr.root =>
    some ({ nodes := l.nodes ++ [new_node], list_size := l.list_size + 1,
            alloc := l.alloc + 1 }, BasePtr.node new_node.addr)
  | BasePtr.node a =>
    (link_before l.nodes a new_node).map (fun r =>
      ({ nodes := r, list_size := l.list_size + 1, alloc := l.alloc + 1 },
        BasePtr.node new_node.addr))

/-- Unlinking the live node at address `a`; also yields its `next`. -/
def unlink : List (TemplateNode T) → Nat → Option (List (TemplateNode T) × BasePtr)
  | [], _ => none
  | n :: rest, a =>
    if n.addr = a then some (rest, begin_ptr rest)
    else (unlink rest a).map (fun r => (n :: r.1, r.2))

/-- The method `List::erase(iterator it)`: unlink and destroy the node, decrement
`list_size`, return an iterator to the following node. -/
def erase (l : ListT T) (it : BasePtr) : Option (ListT T × BasePtr) :=
  match it with
  | BasePtr.node a =>
    (unlink l.nodes a).map (fun r =>
      ({ nodes := r.1, list_size := l.list_size - 1, alloc := l.alloc }, r.2))
  | _ => none

/-- The loop of the move constructor `List(List&& other)`: while `other` is not
empty (its counter is not zero), unlink `other.begin()` and link it after the
last node of the list under construction, adjusting both counters. The first
argument is `other.list_size`; `none` when the counter outlives the ring. -/
def move_nodes : Nat → List (TemplateNode T) → ListT T →
    Option (ListT T × List (TemplateNode T))
  | 0, other_nodes, this => some (this, other_nodes)
  | _ + 1, [], _ => none
  | k + 1, n :: other_nodes, this =>
    move_nodes k other_nodes
      { this with nodes := this.nodes ++ [n], list_size := this.list_size + 1 }

/-- The move constructor `List(List&& other)`: the constructed list and `other`
as it is left behind. Nodes keep their addresses. -/
def move_construct (other : ListT T) : Option (ListT T × ListT T) :=
  (move_nodes other.list_size other.nodes
    { nodes := [], list_size := 0, alloc := other.alloc }).map fun r =>
    (r.1, { nodes := r.2, list_size := 0, alloc := other.alloc })

end ListT

/-- The struct `UnorderedMap::HashedNode`. -/
structure HashedNode (K V : Type) where
  element : K × V
  hash : Nat
deriving DecidableEq, Repr

/-- The class `UnorderedMap`: the members `hash`, `max_load_factor_value` (a
`float`), `list` and `buckets` (`equal` is equality of keys). -/
structure UnorderedMap (K V : Type) where
  hash : K → Nat
  max_load_factor_value : ℚ
  list : ListT (HashedNode K V)
  buckets : List BasePtr

/-- The exception type thrown by `at`. -/
inductive UnorderedMapAtKeyNotFoundException where
  | mk : UnorderedMapAtKeyNotFoundException
deriving DecidableEq, Repr

/-- The constant `default_bucket_count`. -/
def default_bucket_count : Nat := 5

namespace UnorderedMap

variable {K V : Type}

/-- The method `bucketId`: `given_hash % buckets.size()`. -/
def bucketId (m : UnorderedMap K V) (given_hash : Nat) : Nat :=
  given_hash % m.buckets.length

/-- The method `size`. -/
def size (m : UnorderedMap K V) : Nat := m.list.size

/-- The method `max_load_factor()`. -/
def max_load_factor (m : UnorderedMap K V) : ℚ := m.max_load_factor_value

/-- The method `max_load_factor(float ml)`. -/
def set_max_load_factor (m : UnorderedMap K V) (ml : ℚ) : UnorderedMap K V :=
  { m with max_load_factor_value := ml }

/-- The method `load_factor`:
`static_cast<float>(size()) / static_cast<float>(buckets.size())`, both
conversions and the division in binary32. Without buckets the quotient of the
source is `0/0`, which is not a number; the value `0` given here is not used:
`insert_impl` calls the method after its guard has provided buckets. -/
def load_factor (m : UnorderedMap K V) : ℚ :=
  round32 (round32 (m.size : ℚ) / round32 (m.buckets.length : ℚ))

/-- The iterator `end()`. -/
def «end» (_m : UnorderedMap K V) : BasePtr := BasePtr.root

/-- The loop of `find` over the nodes from the chain head on: leave the loop at
the first node of another bucket, return the first node with an equal key. -/
def find_loop [DecidableEq K] (bucket_count shrinked_hash : Nat) (key : K) :
    List (TemplateNode (HashedNode K V)) → BasePtr
  | [] => BasePtr.root
  | n :: rest =>
    if n.value.hash % bucket_count ≠ shrinked_hash then BasePtr.root
    else if n.value.element.1 = key then BasePtr.node n.addr
    else find_loop bucket_count shrinked_hash key rest

/-- The method `find`. -/
def find [DecidableEq K] (m : UnorderedMap K V) (key : K) : Option BasePtr :=
  if m.buckets = [] then some BasePtr.root
  else
    let key_hash := m.hash key
    let shrinked_hash := m.bucketId key_hash
    match m.buckets[shrinked_hash]? with
    | none => none
    | some BasePtr.null => some BasePtr.root
    | some BasePtr.root => some BasePtr.root
    | some (BasePtr.node a) =>
      (ListT.nodes_from m.list.nodes a).map
        (find_loop m.buckets.length shrinked_hash key)

/-- The presence loop of `insert_impl` over the nodes from the chain head on:
leave the loop at the first node whose cached hash differs from `key_hash`,
return the first node with an equal key. -/
def insert_loop [DecidableEq K] (key_hash : Nat) (key : K) :
    List (TemplateNode (HashedNode K V)) → Option Nat
  | [] => none
  | n :: rest =>
    if n.value.hash ≠ key_hash then none
    else if n.value.element.1 = key then some n.addr
    else insert_loop key_hash key rest

/-- The tail of `insert_impl` once the new node is linked and recorded as the
head: the load-factor check, the doubling rehash, and the returned pair, read
from `buckets[shrinked_hash]` with the index computed before the rehash. -/
def insert_finish (rehash : UnorderedMap K V → Nat → Option (UnorderedMap K V))
    (m : UnorderedMap K V) (shrinked_hash : Nat) :
    Option (UnorderedMap K V × BasePtr × Bool) :=
  (if m.load_factor > m.max_load_factor then rehash m (2 * m.buckets.length)
   else some m).bind fun m1 =>
  (m1.buckets[shrinked_hash]?).map fun p => (m1, p, true)

/-- The part of `insert_impl` after the `buckets.empty()` guard, with the callee
`rehash` as a parameter: hash the key, run the presence loop from the chain
head, link the new node before the head (or at `list.end()` for an empty
bucket), record it as the head, and finish. -/
def insert_main [DecidableEq K]
    (rehash : UnorderedMap K V → Nat → Option (UnorderedMap K V))
    (m : UnorderedMap K V) (element : K × V) :
    Option (UnorderedMap K V × BasePtr × Bool) :=
  if m.buckets = [] then none
  else
    let key_hash := m.hash element.1
    let shrinked_hash := m.bucketId key_hash
    match m.buckets[shrinked_hash]? with
    | none => none
    | some BasePtr.null =>
      (m.list.insert m.list.end { element := element, hash := key_hash }).bind fun r =>
      insert_finish rehash
        { m with list := r.1, buckets := m.buckets.set shrinked_hash r.2 } shrinked_hash
    | some BasePtr.root =>
      (m.list.insert BasePtr.root { element := element, hash := key_hash }).bind fun r =>
      insert_finish rehash
        { m with list := r.1, buckets := m.buckets.set shrinked_hash r.2 } shrinked_hash
    | some (BasePtr.node a) =>
      (ListT.nodes_from m.list.nodes a).bind fun scanned =>
      match insert_loop key_hash element.1 scanned with
      | some found => some (m, BasePtr.node found, false)
      | none =>
        (m.list.insert (BasePtr.node a) { element := element, hash := key_hash }).bind
          fun r =>
        insert_finish rehash
          { m with list := r.1, buckets := m.buckets.set shrinked_hash r.2 } shrinked_hash

/-- The body of `insert_impl`, with the callee `rehash` as a parameter: the guard
`if (buckets.empty()) rehash(default_bucket_count)` and then the rest. -/
def insert_body [DecidableEq K]
    (rehash : UnorderedMap K V → Nat → Option (UnorderedMap K V))
    (m0 : UnorderedMap K V) (element : K × V) :
    Option (UnorderedMap K V × BasePtr × Bool) :=
  (if m0.buckets = [] then rehash m0 default_bucket_count else some m0).bind fun m =>
  insert_main rehash m element

/-- The method `rehash`: move-construct `moved_list` from `list`, reset the
bucket vector, and pass every element of `moved_list` to `insert_impl` again
(which hashes the key anew). The first argument bounds the depth of the mutual
recursion between `rehash` and `insert_impl`. -/
def rehash [DecidableEq K] : Nat → UnorderedMap K V → Nat → Option (UnorderedMap K V)
  | 0, _, _ => none
  | fuel + 1, m, new_bucket_count =>
    m.list.move_construct.bind fun moved =>
    let moved_list := moved.1
    let cleared : UnorderedMap K V :=
      { m with list := moved.2,
               buckets := List.replicate new_bucket_count BasePtr.null }
    moved_list.nodes.foldlM
      (fun acc n => (insert_body (rehash fuel) acc n.value.element).map Prod.fst) cleared

/-- The method `insert_impl`. -/
def insert_impl [DecidableEq K] (fuel : Nat) (m : UnorderedMap K V) (element : K × V) :
    Option (UnorderedMap K V × BasePtr × Bool) :=
  insert_body (rehash fuel) m element

/-- The method `insert(NodeType&& element)`, which returns what `insert_impl`
returns. The overload `insert(const NodeType&)` makes the same call but has no
`return` statement; it is not modelled. -/
def insert [DecidableEq K] (fuel : Nat) (m : UnorderedMap K V) (element : K × V) :
    Option (UnorderedMap K V × BasePtr × Bool) :=
  insert_impl fuel m element

/-- Reading `*it` for an iterator of the table: the `element` of the live node
the iterator refers to. -/
def deref (m : UnorderedMap K V) (it : BasePtr) : Option (K × V) :=
  match it with
  | BasePtr.node a => (ListT.node_at m.list.nodes a).map (fun n => n.value.element)
  | _ => none

/-- The method `erase(const_iterator pos)`. -/
def erase (m : UnorderedMap K V) (pos : BasePtr) : Option (UnorderedMap K V × BasePtr) :=
  match pos with
  | BasePtr.node a =>
    (ListT.node_at m.list.nodes a).bind fun erased =>
    if m.buckets = [] then none
    else
      let key_hash := erased.value.hash
      let shrinked_hash := m.bucketId key_hash
      (m.buckets[shrinked_hash]?).bind fun head =>
      (m.list.erase pos).bind fun r =>
      if head = BasePtr.node a then
        match r.2 with
        | BasePtr.node b =>
          (ListT.node_at r.1.nodes b).map fun next_node =>
          if next_node.value.hash = key_hash then
            ({ m with list := r.1, buckets := m.buckets.set shrinked_hash r.2 }, r.2)
          else
            ({ m with list := r.1, buckets := m.buckets.set shrinked_hash BasePtr.null }, r.2)
        | _ =>
          some ({ m with list := r.1,
                         buckets := m.buckets.set shrinked_hash BasePtr.null }, r.2)
      else some ({ m with list := r.1 }, r.2)
  | _ => none

/-- The method `at`: the mapped value, or the exception when `find` returns
`end()`. -/
def at_ [DecidableEq K] (m : UnorderedMap K V) (key : K) :
    Option (Except UnorderedMapAtKeyNotFoundException V) :=
  (m.find key).bind fun it =>
  if it = m.list.end then some (Except.error UnorderedMapAtKeyNotFoundException.mk)
  else (m.deref it).map fun e => Except.ok e.2

/-- The method `operator[]`: the table afterwards and the node whose `second`
the returned reference designates. -/
def operator_index [DecidableEq K] [Inhabited V] (fuel : Nat) (m : UnorderedMap K V)
    (key : K) : Option (UnorderedMap K V × BasePtr) :=
  (m.find key).bind fun it =>
  if it = m.list.end then
    (m.insert fuel (key, default)).bind fun result =>
    (result.1.deref result.2.1).map fun _ => (result.1, result.2.1)
  else some (m, it)

/-- Assigning `value` through a reference to the `second` of the node at `a`. -/
def assign_node (a : Nat) (value : V) :
    List (TemplateNode (HashedNode K V)) → Option (List (TemplateNode (HashedNode K V)))
  | [] => none
  | n :: rest =>
    if n.addr = a then
      some ({ n with value := { n.value with element := (n.value.element.1, value) } } :: rest)
    else (assign_node a value rest).map (fun r => n :: r)

/-- Assigning `value` through the reference designated by `ref`. -/
def assign (m : UnorderedMap K V) (ref : BasePtr) (value : V) : Option (UnorderedMap K V) :=
  match ref with
  | BasePtr.node a =>
    (assign_node a value m.list.nodes).map fun r =>
      { m with list := { m.list with nodes := r } }
  | _ => none

/-- The statement `m[key] = value`. -/
def index_assign [DecidableEq K] [Inhabited V] (fuel : Nat) (m : UnorderedMap K V)
    (key : K) (value : V) : Option (UnorderedMap K V) :=
  (m.operator_index fuel key).bind fun r => r.1.assign r.2 value

/-- The constructor `UnorderedMap() = default`, for a given hash functor. -/
def default_constructed (hash : K → Nat) : UnorderedMap K V :=
  { hash := hash, max_load_factor_value := 1,
    list := { nodes := [], list_size := 0, alloc := 0 }, buckets := [] }

/-- The constructor `UnorderedMap(size_t bucket_count, const Hash& hash, ...)`:
the members are initialised and `rehash(bucket_count)` is called. -/
def construct [DecidableEq K] (fuel : Nat) (bucket_count : Nat) (hash : K → Nat) :
    Option (UnorderedMap K V) :=
  rehash fuel (default_constructed hash) bucket_count

/-- The keys of the entries, in list order. -/
def keys (m : UnorderedMap K V) : List K := m.list.nodes.map fun n => n.value.element.1

/-- The entries, in list order. -/
def entries (m : UnorderedMap K V) : List (K × V) := m.list.nodes.map fun n => n.value.element

/-- A sequence of `insert` calls, left to right. -/
def insert_all [DecidableEq K] (fuel : Nat) (m : UnorderedMap K V) (elements : List (K × V)) :
    Option (UnorderedMap K V) :=
  elements.foldlM (fun acc e => (acc.insert fuel e).map Prod.fst) m

end UnorderedMap

end UMap

/-! ## Invariants -/

namespace UMap

variable {K V : Type}

/-- The slot value that head correctness prescribes for bucket `b`: the address
of the first node whose cached hash maps to `b`, `null` when there is none. -/
def first_in (B b : Nat) : List (TemplateNode (HashedNode K V)) → BasePtr
  | [] => BasePtr.null
  | n :: rest => if n.value.hash % B = b then BasePtr.node n.addr else first_in B b rest

/-- Chain contiguity for bucket count `B`: whenever the bucket of a node occurs
again later in the list, the node's immediate successor is in that bucket. -/
def Contiguous (B : Nat) : List (TemplateNode (HashedNode K V)) → Prop
  | [] => True
  | x :: l =>
    (∀ y ∈ l, y.value.hash % B = x.value.hash % B →
      ∃ z, l.head? = some z ∧ z.value.hash % B = x.value.hash % B) ∧ Contiguous B l

/-- The position at which `insert_impl` links a node when the bucket heads are
correct: immediately before the first node of the same bucket, at the end of the
list when the bucket has no node. -/
def place (B : Nat) (nd : TemplateNode (HashedNode K V)) :
    List (TemplateNode (HashedNode K V)) → List (TemplateNode (HashedNode K V))
  | [] => [nd]
  | x :: l =>
    if x.value.hash % B = nd.value.hash % B then nd :: x :: l else x :: place B nd l

/-- Well-formedness, which the constructors establish and `insert`, `operator[]`,
`erase`, an assignment through a returned reference and `max_load_factor(ml)`
preserve: the counter agrees with the ring, node addresses are distinct and
below the allocation watermark, cached hashes are the hashes of the keys, a
table with entries has buckets, and every non-null slot refers to a live node
of its own bucket. -/
structure WF (m : UnorderedMap K V) : Prop where
  size_eq : m.list.list_size = m.list.nodes.length
  addr_nodup : (m.list.nodes.map TemplateNode.addr).Nodup
  addr_lt : ∀ n ∈ m.list.nodes, n.addr < m.list.alloc
  hash_eq : ∀ n ∈ m.list.nodes, n.value.hash = m.hash n.value.element.1
  buckets_ne : m.list.nodes ≠ [] → m.buckets ≠ []
  head_live : ∀ b p, m.buckets[b]? = some p →
    p = BasePtr.null ∨
      ∃ n ∈ m.list.nodes, p = BasePtr.node n.addr ∧ n.value.hash % m.buckets.length = b

/-- The structural invariants of the specification on top of `WF`: head
correctness and chain contiguity. -/
structure Inv (m : UnorderedMap K V) extends WF m : Prop where
  heads : ∀ b, b < m.buckets.length →
    m.buckets[b]? = some (first_in m.buckets.length b m.list.nodes)
  contiguous : Contiguous m.buckets.length m.list.nodes

/-- The entries `out` kept from the entries `inp`: nothing is invented, and
every key of `inp` still has an entry. -/
def Retained (inp out : List (K × V)) : Prop :=
  out.Subperm inp ∧ ∀ x ∈ inp, ∃ y ∈ out, y.1 = x.1

/-- The value of `load_factor()` on a table of `n` entries and `B >= 1` buckets:
`static_cast<float>(n) / static_cast<float>(B)` in binary32. (For `B = 0` the
quotient of the source is not a number and the value here is `0`; the test of
`insert_impl` is never evaluated without buckets.) -/
def load_of (n B : Nat) : ℚ := round32 (round32 (n : ℚ) / round32 (B : ℚ))

/-- With `n` entries in `B` buckets the test `load_factor() > max_load_factor()`
of `insert_impl` is false for the limit `mlf`, so that no rehash is triggered. -/
def Fits (mlf : ℚ) (n B : Nat) : Prop := load_of n B ≤ mlf

/-- The load bound `load_factor() <= max_load_factor()`, both sides as the
methods return them. -/
def LoadOk (m : UnorderedMap K V) : Prop :=
  m.load_factor ≤ m.max_load_factor

/-- The table as `rehash(new_bucket_count)` leaves it before the first
re-insertion: the list moved away, the bucket vector reset. -/
def cleared (m : UnorderedMap K V) (new_bucket_count : Nat) : UnorderedMap K V :=
  { m with list := { nodes := [], list_size := 0, alloc := m.list.alloc },
           buckets := List.replicate new_bucket_count BasePtr.null }

/-- The table `insert_impl` works on after its guard
`if (buckets.empty()) rehash(default_bucket_count)`. -/
def prepared (m : UnorderedMap K V) : UnorderedMap K V :=
  if m.buckets = [] then cleared m default_bucket_count else m

/-- The state `insert_impl` is in once the node for `element` is linked and
recorded as the head of its bucket. -/
def IsLinked (m : UnorderedMap K V) (element : K × V) (m2 : UnorderedMap K V) : Prop :=
  m2.hash = m.hash ∧ m2.max_load_factor_value = m.max_load_factor_value ∧
  m2.buckets = m.buckets.set (m.hash element.1 % m.buckets.length)
    (BasePtr.node m.list.alloc) ∧
  m2.list.alloc = m.list.alloc + 1 ∧ m2.list.list_size = m.list.list_size + 1 ∧
  m2.list.nodes.Perm
    ({ addr := m.list.alloc, value := { element := element, hash := m.hash element.1 } } ::
      m.list.nodes) ∧
  (∃ s, ListT.nodes_from m2.list.nodes m.list.alloc =
    some ({ addr := m.list.alloc,
            value := { element := element, hash := m.hash element.1 } } :: s)) ∧
  (Inv m → m2.list.nodes = place m.buckets.length
    { addr := m.list.alloc, value := { element := element, hash := m.hash element.1 } }
    m.list.nodes)

/-- What `rehash(c)` establishes from the table `m`. -/
def RehashPost (m : UnorderedMap K V) (c : Nat) (m1 : UnorderedMap K V) : Prop :=
  Inv m1 ∧ m1.hash = m.hash ∧ m1.max_load_factor_value = m.max_load_factor_value ∧
  c ≤ m1.buckets.length ∧ LoadOk m1 ∧ Retained m.entries m1.entries ∧
  m.list.alloc ≤ m1.list.alloc

/-- What a completed `rehash(c)` yields whatever the load factors are: `RehashPost`
without the load bound. -/
def RehashSound (m : UnorderedMap K V) (c : Nat) (m1 : UnorderedMap K V) : Prop :=
  Inv m1 ∧ m1.hash = m.hash ∧ m1.max_load_factor_value = m.max_load_factor_value ∧
  c ≤ m1.buckets.length ∧ Retained m.entries m1.entries ∧ m.list.alloc ≤ m1.list.alloc

/-- Every result of the callee `R` is a result of a completed rehash. -/
def Sound (R : UnorderedMap K V → Nat → Option (UnorderedMap K V)) : Prop :=
  ∀ (m : UnorderedMap K V) (c : Nat) (m1 : UnorderedMap K V),
    m.list.list_size = m.list.nodes.length → R m c = some m1 → RehashSound m c m1

/-- What a completed `insert_impl` leaves behind, whatever the recursion budget
and the load factors. -/
def InsertSound (m : UnorderedMap K V) (e : K × V) (m1 : UnorderedMap K V) : Prop :=
  WF m1 ∧ (Inv m → Inv m1) ∧ m1.hash = m.hash ∧
  m1.max_load_factor_value = m.max_load_factor_value ∧
  (m.buckets ≠ [] → m.buckets.length ≤ m1.buckets.length) ∧ m1.buckets ≠ [] ∧
  Retained (e :: m.entries) m1.entries ∧ m.list.alloc ≤ m1.list.alloc

/-- What a completed `insert_impl` on a table `m` with buckets returns: the
entry that made the presence loop stop and `false`; or the linked state, the
new node and `true`; or the result of the doubling rehash of the linked state,
the slot content at the index computed before that rehash, and `true`. -/
def InsertPost (m : UnorderedMap K V) (element : K × V)
    (r : UnorderedMap K V × BasePtr × Bool) : Prop :=
  (r.2.2 = false ∧ r.1 = m ∧
    ∃ n ∈ m.list.nodes, r.2.1 = BasePtr.node n.addr ∧ n.value.element.1 = element.1) ∨
  (r.2.2 = true ∧ IsLinked m element r.1 ∧ ¬ r.1.load_factor > r.1.max_load_factor ∧
    r.2.1 = BasePtr.node m.list.alloc) ∨
  (r.2.2 = true ∧ ∃ m2, IsLinked m element m2 ∧ m2.load_factor > m2.max_load_factor ∧
    RehashPost m2 (2 * m2.buckets.length) r.1 ∧
    r.1.buckets[m.hash element.1 % m.buckets.length]? = some r.2.1)

/-- The callee `R` completes the doubling rehash of every well-formed table that
has at most `N` nodes, at least `c` buckets and an exceeded load factor. -/
def Grows (R : UnorderedMap K V → Nat → Option (UnorderedMap K V)) (N c : Nat)
    (mlf : ℚ) : Prop :=
  ∀ m2 : UnorderedMap K V, WF m2 → m2.max_load_factor_value = mlf →
    c ≤ m2.buckets.length → m2.list.nodes.length ≤ N →
    m2.load_factor > m2.max_load_factor →
    ∃ m1, R m2 (2 * m2.buckets.length) = some m1 ∧ RehashPost m2 (2 * m2.buckets.length) m1

/-- The callee `R` completes `rehash(c)`, `c >= 1`, on every table whose counter
agrees with its ring and whose nodes fit into `c * 2^F` buckets. -/
def RehashSpec (R : UnorderedMap K V → Nat → Option (UnorderedMap K V)) (F : Nat) : Prop :=
  ∀ (m : UnorderedMap K V) (c : Nat), m.list.list_size = m.list.nodes.length →
    0 < m.max_load_factor_value → 1 ≤ c →
    Fits m.max_load_factor_value m.list.nodes.length (c * 2 ^ F) →
    ∃ m1, R m c = some m1 ∧ RehashPost m c m1

end UMap

/-! ## Concrete runs

Tables over `Nat` keys with the identity as hash function, built by the
constructor with five buckets followed by a sequence of `insert` calls. -/

namespace UMap

deriving instance DecidableEq for Except

/-- The table `UnorderedMap<Nat, Nat>(5)` with identity hash after inserting
`elements` in order. -/
def table5 (elements : List (Nat × Nat)) : Option (UnorderedMap Nat Nat) :=
  (UnorderedMap.construct 3 5 id).bind fun t => t.insert_all 3 elements

end UMap

/-! ## Further operations -/

namespace UMap

namespace UnorderedMap

variable {K V : Type}

/-- The method `reserve`: `rehash(std::ceil(count / max_load_factor()))`;
`count` is converted to `float` and the quotient is a `float`, both rounded to
binary32, and `std::ceil` of a `float` is exact. The argument of `rehash` is a
`size_t`, so there is no defined result when the quotient is not a number
(`max_load_factor() == 0`) or its ceiling is negative. -/
def reserve [DecidableEq K] (fuel : Nat) (m : UnorderedMap K V) (count : Nat) :
    Option (UnorderedMap K V) :=
  if m.max_load_factor = 0 then none
  else if ⌈round32 (round32 (count : ℚ) / m.max_load_factor)⌉ < 0 then none
  else rehash fuel m ⌈round32 (round32 (count : ℚ) / m.max_load_factor)⌉.toNat

end UnorderedMap

variable {K V : Type}

/-- The three ways in which `insert_impl`, called with the callee `R` on a table
with buckets, completes with the result `r`: the presence loop found the key;
the node was linked and the load factor is not exceeded; the node was linked
and the doubling rehash of the linked state `m2` returned `m1`. -/
def InsertCases (R : UnorderedMap K V → Nat → Option (UnorderedMap K V))
    (m : UnorderedMap K V) (e : K × V) (r : UnorderedMap K V × BasePtr × Bool) : Prop :=
  (∃ n ∈ m.list.nodes, n.value.element.1 = e.1 ∧ r = (m, BasePtr.node n.addr, false)) ∨
  (∃ m2, IsLinked m e m2 ∧ ¬ m2.load_factor > m2.max_load_factor ∧
    r = (m2, BasePtr.node m.list.alloc, true)) ∨
  (∃ m2 m1 p, IsLinked m e m2 ∧ m2.load_factor > m2.max_load_factor ∧
    R m2 (2 * m2.buckets.length) = some m1 ∧
    m1.buckets[m.hash e.1 % m.buckets.length]? = some p ∧ r = (m1, p, true))

/-- Every result of the callee `R` on a table with a non-negative
`max_load_factor` satisfies the load bound. -/
def LoadSound (R : UnorderedMap K V → Nat → Option (UnorderedMap K V)) : Prop :=
  ∀ (m : UnorderedMap K V) (c : Nat) (m1 : UnorderedMap K V),
    m.list.list_size = m.list.nodes.length → 0 ≤ m.max_load_factor_value →
    R m c = some m1 → LoadOk m1

/-- The tables reachable from a newly constructed one by the public operations
`insert`, `operator[]`, an assignment through a returned reference, `erase`,
`reserve` and `max_load_factor(ml)` with a positive `ml` that `allow` admits for
the table at hand. -/
inductive ReachableBy [DecidableEq K] [Inhabited V]
    (allow : UnorderedMap K V → ℚ → Prop) : UnorderedMap K V → Prop
  | default_constructed (hash : K → Nat) :
      ReachableBy allow (UnorderedMap.default_constructed hash)
  | construct {fuel bucket_count : Nat} {hash : K → Nat} {t : UnorderedMap K V} :
      UnorderedMap.construct fuel bucket_count hash = some t → ReachableBy allow t
  | insert {m : UnorderedMap K V} {fuel : Nat} {e : K × V}
      {r : UnorderedMap K V × BasePtr × Bool} :
      ReachableBy allow m → m.insert fuel e = some r → ReachableBy allow r.1
  | operator_index {m : UnorderedMap K V} {fuel : Nat} {key : K}
      {r : UnorderedMap K V × BasePtr} :
      ReachableBy allow m → m.operator_index fuel key = some r → ReachableBy allow r.1
  | assign {m m1 : UnorderedMap K V} {ref : BasePtr} {value : V} :
      ReachableBy allow m → m.assign ref value = some m1 → ReachableBy allow m1
  | erase {m : UnorderedMap K V} {pos : BasePtr} {r : UnorderedMap K V × BasePtr} :
      ReachableBy allow m → m.erase pos = some r → ReachableBy allow r.1
  | reserve {m m1 : UnorderedMap K V} {fuel count : Nat} :
      ReachableBy allow m → m.reserve fuel count = some m1 → ReachableBy allow m1
  | max_load_factor {m : UnorderedMap K V} {ml : ℚ} :
      ReachableBy allow m → 0 < ml → allow m ml →
      ReachableBy allow (m.set_max_load_factor ml)

/-- The tables reachable by the public operations, `max_load_factor(ml)` with
any positive `ml`. -/
def Reachable [DecidableEq K] [Inhabited V] (t : UnorderedMap K V) : Prop :=
  ReachableBy (fun _ _ => True) t

/-- Every node of a result of the callee `R` was allocated during the call. -/
def FreshSound (R : UnorderedMap K V → Nat → Option (UnorderedMap K V)) : Prop :=
  ∀ (m : UnorderedMap K V) (c : Nat) (m1 : UnorderedMap K V),
    m.list.list_size = m.list.nodes.length → R m c = some m1 →
    ∀ n ∈ m1.list.nodes, m.list.alloc ≤ n.addr

/-- The bucket count that `rehash(c)` works towards: `c`, and
`default_bucket_count` when `c` is zero while the table has entries (the first
re-insertion then finds `buckets.empty()` and rehashes to the default). -/
def rehash_target (m : UnorderedMap K V) (c : Nat) : Nat :=
  if c = 0 ∧ m.list.nodes.length ≠ 0 then default_bucket_count else c

/-- The bucket count that `reserve(count)` works towards: the target of
`rehash(std::ceil(count / max_load_factor()))`, the quotient in binary32. -/
def reserve_target (m : UnorderedMap K V) (count : Nat) : Nat :=
  rehash_target m ⌈round32 (round32 (count : ℚ) / m.max_load_factor)⌉.toNat

/-- A table as three inserts leave it: the entries `(5,20)`, `(0,10)`, `(1,30)`
in five buckets with identity hash, the nodes at the addresses `1`, `0`, `2`. -/
def sample_table : UnorderedMap Nat Nat :=
  { list :=
      { nodes := [{ addr := 1, value := { element := (5, 20), hash := 5 } },
                  { addr := 0, value := { element := (0, 10), hash := 0 } },
                  { addr := 2, value := { element := (1, 30), hash := 1 } }],
        list_size := 3, alloc := 3 },
    buckets := [BasePtr.node 1, BasePtr.node 2, BasePtr.null, BasePtr.null, BasePtr.null],
    hash := id,
    max_load_factor_value := 1 }

/-- A decidable rendering of `WF`, for concrete tables. -/
def WFCheck (m : UnorderedMap K V) : Prop :=
  m.list.list_size = m.list.nodes.length ∧
  (m.list.nodes.map TemplateNode.addr).Nodup ∧
  (∀ n ∈ m.list.nodes, n.addr < m.list.alloc) ∧
  (∀ n ∈ m.list.nodes, n.value.hash = m.hash n.value.element.1) ∧
  (m.list.nodes.length ≠ 0 → m.buckets.length ≠ 0) ∧
  ∀ p ∈ m.buckets.enum, p.2 = BasePtr.null ∨
    ∃ n ∈ m.list.nodes, p.2 = BasePtr.node n.addr ∧ n.value.hash % m.buckets.length = p.1

instance (m : UnorderedMap K V) : Decidable (WFCheck m) := by
  unfold WFCheck
  infer_instance

end UMap

/-! ## The ring of `List` at the level of links

The table model above keeps the ring of a `List` as a sequence. The model of
this section keeps the links themselves: the fields `next` and `previous` of
every live `BaseNode` and the field `value` of every live heap node, so that
`List::insert`, `List::erase` and the move operations are the pointer
assignments of the source, in the order of the source. -/

namespace UMap

/-- A `BaseNode*` that refers to a `BaseNode`: the member `root` of the list
object `list`, or the heap node at address `addr`. -/
inductive Link where
  | root (list : Nat) : Link
  | node (addr : Nat) : Link
deriving DecidableEq, Repr

/-- The memory: the fields `next` and `previous` of the live `BaseNode`s, the
field `value` of the live heap nodes, and the allocation watermark (addresses
are handed out in increasing order and never again). A field of an object that
is not live reads as `none`. -/
structure Memory (T : Type) where
  next : Link → Option Link
  previous : Link → Option Link
  value : Nat → Option T
  watermark : Nat

/-- A `List` object: the identity of its member `root`, and its member
`list_size`. -/
structure ListObj where
  id : Nat
  list_size : Nat
deriving DecidableEq, Repr

namespace Memory

variable {T : Type}

/-- The assignment `p->next = q`; `p` has to be live. -/
def set_next (mem : Memory T) (p q : Link) : Option (Memory T) :=
  (mem.next p).map fun _ => { mem with next := Function.update mem.next p (some q) }

/-- The assignment `p->previous = q`; `p` has to be live. -/
def set_previous (mem : Memory T) (p q : Link) : Option (Memory T) :=
  (mem.previous p).map fun _ =>
    { mem with previous := Function.update mem.previous p (some q) }

/-- The expression `static_cast<Node*>(p)->value`. -/
def value_at (mem : Memory T) : Link → Option T
  | Link.node a => mem.value a
  | Link.root _ => none

/-- The values of the nodes `ps`, read in order. -/
def read_values (mem : Memory T) : List Link → Option (List T)
  | [] => some []
  | p :: rest => (mem.value_at p).bind fun v => (read_values mem rest).map fun vs => v :: vs

/-- The nodes that `for (it = iterator(p); it != iterator(root); ++it)` visits;
`fuel` bounds the number of increments. -/
def traverse (mem : Memory T) (root : Link) : Nat → Link → Option (List Link)
  | 0, it => if it = root then some [] else none
  | fuel + 1, it =>
    if it = root then some []
    else (mem.next it).bind fun following =>
      (traverse mem root fuel following).map fun visited => it :: visited

end Memory

namespace ListObj

variable {T : Type}

/-- The address of the member `root`. -/
def root (l : ListObj) : Link := Link.root l.id

/-- The method `List::end`: `iterator(&root)`. -/
def «end» (l : ListObj) : Link := l.root

/-- The method `List::begin`: `iterator(root.next)`. -/
def begin (mem : Memory T) (l : ListObj) : Option Link := mem.next l.root

/-- The method `List::cbegin`: `iterator(root.next)`. -/
def cbegin (mem : Memory T) (l : ListObj) : Option Link := mem.next l.root

/-- The method `List::cend`, which the `const` overload of `end` returns:
`iterator(root.next->previous)`. -/
def cend (mem : Memory T) (l : ListObj) : Option Link :=
  (mem.next l.root).bind mem.previous

/-- The method `List::size`. -/
def size (l : ListObj) : Nat := l.list_size

/-- The method `List::empty`: `list_size == 0`. -/
def empty (l : ListObj) : Bool := l.list_size == 0

/-- The nodes visited from `begin()` to `end()` by at most `fuel` increments. -/
def nodes (mem : Memory T) (l : ListObj) (fuel : Nat) : Option (List Link) :=
  (l.begin mem).bind (mem.traverse l.end fuel)

/-- The values visited from `begin()` to `end()`. -/
def to_list (mem : Memory T) (l : ListObj) : Option (List T) :=
  (l.nodes mem l.list_size).bind mem.read_values

/-- The constructor `List(const Alloc&)`, and the initialisation that every
other constructor starts with: `root` refers to itself both ways, `list_size`
is `0`. -/
def construct (mem : Memory T) (id : Nat) : Memory T × ListObj :=
  ({ mem with next := Function.update mem.next (Link.root id) (some (Link.root id)),
              previous := Function.update mem.previous (Link.root id) (some (Link.root id)) },
    { id := id, list_size := 0 })

/-- The method `List::insert(iterator it, value_type&& value)`: read
`insertion_node->previous`, allocate and construct `new_node` with the links
`(previos_node, insertion_node)`, then `insertion_node->previous = new_node`,
`previos_node->next = new_node`, `++list_size`, and return `new_node`. -/
def insert (mem : Memory T) (l : ListObj) (it : Link) (value : T) :
    Option (Memory T × ListObj × Link) :=
  let insertion_node := it
  (mem.previous insertion_node).bind fun previos_node =>
  let new_node := Link.node mem.watermark
  let mem1 : Memory T :=
    { next := Function.update mem.next new_node (some insertion_node),
      previous := Function.update mem.previous new_node (some previos_node),
      value := Function.update mem.value mem.watermark (some value),
      watermark := mem.watermark + 1 }
  (mem1.set_previous insertion_node new_node).bind fun mem2 =>
  (mem2.set_next previos_node new_node).bind fun mem3 =>
  some (mem3, { l with list_size := l.list_size + 1 }, new_node)

/-- The loop of `pointer_inserter` for a given `value`: every iteration executes
the statements of `insert` for the same `it` and keeps the node it allocated
in `new_node`. -/
def pointer_inserter_loop (it : Link) (value : T) :
    Nat → Memory T → ListObj → Link → Option (Memory T × ListObj × Link)
  | 0, mem, l, new_node => some (mem, l, new_node)
  | remaining + 1, mem, l, _ =>
    (insert mem l it value).bind fun r =>
      pointer_inserter_loop it value remaining r.1 r.2.1 r.2.2

/-- The method `pointer_inserter(it, &value, number_of_elements)`, which
`insert(iterator, const value_type&)` calls with `number_of_elements = 1`:
`new_node` starts as `it.node` and `iterator(new_node)` is returned. -/
def pointer_inserter (mem : Memory T) (l : ListObj) (it : Link) (value : T)
    (number_of_elements : Nat) : Option (Memory T × ListObj × Link) :=
  pointer_inserter_loop it value number_of_elements mem l it

/-- The method `List::erase(iterator it)`: read `erasing_node->next` and
`erasing_node->previous`, destroy and deallocate the node, then
`next->previous = previous`, `previous->next = next`, `--list_size`, and return
`next`. The sentinel is no `Node`, so erasing it has no defined result. -/
def erase (mem : Memory T) (l : ListObj) (it : Link) : Option (Memory T × ListObj × Link) :=
  match it with
  | Link.root _ => none
  | Link.node a =>
    (mem.next (Link.node a)).bind fun next =>
    (mem.previous (Link.node a)).bind fun previous =>
    (mem.value a).bind fun _ =>
    let mem1 : Memory T :=
      { mem with next := Function.update mem.next (Link.node a) none,
                 previous := Function.update mem.previous (Link.node a) none,
                 value := Function.update mem.value a none }
    (mem1.set_previous next previous).bind fun mem2 =>
    (mem2.set_next previous next).bind fun mem3 =>
    some (mem3, { l with list_size := l.list_size - 1 }, next)

/-- The method `List::pop_back`: `erase(--end())`. -/
def pop_back (mem : Memory T) (l : ListObj) : Option (Memory T × ListObj) :=
  (mem.previous l.end).bind fun last =>
  (l.erase mem last).map fun r => (r.1, r.2.1)

/-- The loop `while (!empty()) pop_back();` of the destructor and of the move
assignment; `fuel` bounds the number of iterations. -/
def pop_while : Nat → Memory T → ListObj → Option (Memory T × ListObj)
  | 0, mem, l => if l.empty then some (mem, l) else none
  | fuel + 1, mem, l =>
    if l.empty then some (mem, l)
    else (l.pop_back mem).bind fun r => pop_while fuel r.1 r.2

/-- A loop `while (!other.empty()) body` over the pair of lists `this`, `other`;
`fuel` bounds the number of iterations. -/
def move_while (body : Memory T → ListObj → ListObj → Option (Memory T × ListObj × ListObj)) :
    Nat → Memory T → ListObj → ListObj → Option (Memory T × ListObj × ListObj)
  | 0, mem, this, other => if other.empty then some (mem, this, other) else none
  | fuel + 1, mem, this, other =>
    if other.empty then some (mem, this, other)
    else (body mem this other).bind fun r => move_while body fuel r.1 r.2.1 r.2.2

/-- The first statements of both relinking loop bodies: `node` is
`other.begin()`, then `node->previous->next = node->next` and
`node->next->previous = node->previous`. -/
def take_first (mem : Memory T) (other : ListObj) : Option (Memory T × Link) :=
  (other.begin mem).bind fun node =>
  (mem.previous node).bind fun node_previous =>
  (mem.next node).bind fun node_next =>
  (mem.set_next node_previous node_next).bind fun mem1 =>
  (mem1.next node).bind fun node_next1 =>
  (mem1.previous node).bind fun node_previous1 =>
  (mem1.set_previous node_next1 node_previous1).map fun mem2 => (mem2, node)

/-- The loop body of the move constructor `List(List&& other)`. -/
def move_construct_body (mem : Memory T) (this other : ListObj) :
    Option (Memory T × ListObj × ListObj) :=
  (take_first mem other).bind fun r =>
  let node := r.2
  (r.1.previous this.end).bind fun last =>
  (r.1.next last).bind fun after_last =>
  (r.1.set_next node after_last).bind fun mem3 =>
  (mem3.set_previous node last).bind fun mem4 =>
  (mem4.set_next last node).bind fun mem5 =>
  (mem5.set_previous after_last node).bind fun mem6 =>
  some (mem6, { this with list_size := this.list_size + 1 },
    { other with list_size := other.list_size - 1 })

/-- The move constructor `List(List&& other)`, the new object being the list
`id`: the list constructed and `other` as it is left behind. -/
def move_construct (mem : Memory T) (other : ListObj) (id : Nat) :
    Option (Memory T × ListObj × ListObj) :=
  move_while move_construct_body other.list_size (construct mem id).1 (construct mem id).2 other

/-- The loop body of `move_ones_nodes_to_the_other`. -/
def move_ones_body (mem : Memory T) (this other : ListObj) :
    Option (Memory T × ListObj × ListObj) :=
  (take_first mem other).bind fun r =>
  let node := r.2
  (r.1.previous this.end).bind fun last =>
  (r.1.next last).bind fun last_next =>
  (r.1.set_previous last_next node).bind fun mem3 =>
  (mem3.next last).bind fun last_next1 =>
  (mem3.set_next node last_next1).bind fun mem4 =>
  (mem4.set_previous node last).bind fun mem5 =>
  (mem5.set_next last node).bind fun mem6 =>
  some (mem6, { this with list_size := this.list_size + 1 },
    { other with list_size := other.list_size - 1 })

/-- The method `move_ones_nodes_to_the_other`. -/
def move_ones_nodes_to_the_other (mem : Memory T) (this other : ListObj) :
    Option (Memory T × ListObj × ListObj) :=
  move_while move_ones_body other.list_size mem this other

/-- The loop body of the reconstructing branch of `operator=(List&&)`: allocate
`new_node`, construct it with the links `(last, last->next)` and the value moved
from `other.begin()`, `other.erase(other.begin())`, then
`last->next->previous = new_node`, `last->next = new_node`, `++list_size`. -/
def move_reconstruct_body (mem : Memory T) (this other : ListObj) :
    Option (Memory T × ListObj × ListObj) :=
  (other.begin mem).bind fun node =>
  let new_node := Link.node mem.watermark
  (mem.previous this.end).bind fun last =>
  (mem.next last).bind fun last_next =>
  (mem.value_at node).bind fun moved_value =>
  let mem1 : Memory T :=
    { next := Function.update mem.next new_node (some last_next),
      previous := Function.update mem.previous new_node (some last),
      value := Function.update mem.value mem.watermark (some moved_value),
      watermark := mem.watermark + 1 }
  (other.begin mem1).bind fun first =>
  (other.erase mem1 first).bind fun erased =>
  (erased.1.next last).bind fun last_next1 =>
  (erased.1.set_previous last_next1 new_node).bind fun mem3 =>
  (mem3.set_next last new_node).bind fun mem4 =>
  some (mem4, { this with list_size := this.list_size + 1 }, erased.2.1)

/-- The operator `operator=(List&& other)`; `allocators_equal` is the outcome of
`alloc == other_alloc` after the optional propagation of the allocator. -/
def move_assign (allocators_equal : Bool) (mem : Memory T) (this other : ListObj) :
    Option (Memory T × ListObj × ListObj) :=
  if this.id = other.id then some (mem, this, other)
  else
    (pop_while this.list_size mem this).bind fun emptied =>
    if allocators_equal then move_ones_nodes_to_the_other emptied.1 emptied.2 other
    else move_while move_reconstruct_body other.list_size emptied.1 emptied.2 other

end ListObj

variable {T : Type}

/-- The links between `p` and `q` run through exactly the nodes `ps`, in both
directions. -/
def Seg (mem : Memory T) : Link → List Link → Link → Prop
  | p, [], q => mem.next p = some q ∧ mem.previous q = some p
  | p, a :: rest, q => mem.next p = some a ∧ mem.previous a = some p ∧ Seg mem a rest q

/-- The last of `p :: ps`. -/
def seg_last : Link → List Link → Link
  | p, [] => p
  | _, a :: rest => seg_last a rest

/-- The first of `ps ++ [q]`. -/
def seg_head : List Link → Link → Link
  | [], q => q
  | a :: _, _ => a

/-- The ring of the list `l` consists of the heap nodes at the addresses
`addrs`, in this order from `root.next` to `root.previous`: the links are
consistent in both directions, the addresses are pairwise distinct and
allocated, every node is live, and `list_size` is their number. -/
structure Ring (mem : Memory T) (l : ListObj) (addrs : List Nat) : Prop where
  seg : Seg mem l.root (addrs.map Link.node) l.root
  nodup : addrs.Nodup
  live : ∀ a ∈ addrs, ∃ v, mem.value a = some v
  below : ∀ a ∈ addrs, a < mem.watermark
  size_eq : l.list_size = addrs.length

/-- The states of a list and the memory it lives in that are reachable from a
construction by `insert` at a position of the list (a node of the list, or
`end()`), `erase` of a node of the list, `pop_back` on a non-empty list, an
assignment to the `value` of a node of the list through a reference, and move
construction, which yields a new list and leaves the source behind. -/
inductive ListReachable : Memory T → ListObj → Prop
  | construct (mem : Memory T) (id : Nat) :
      ListReachable (ListObj.construct mem id).1 (ListObj.construct mem id).2
  | insert {mem : Memory T} {l : ListObj} {it : Link} {value : T}
      {r : Memory T × ListObj × Link} :
      ListReachable mem l →
      (it = l.end ∨ ∃ fuel visited, l.nodes mem fuel = some visited ∧ it ∈ visited) →
      l.insert mem it value = some r → ListReachable r.1 r.2.1
  | erase {mem : Memory T} {l : ListObj} {it : Link} {r : Memory T × ListObj × Link} :
      ListReachable mem l →
      (∃ fuel visited, l.nodes mem fuel = some visited ∧ it ∈ visited) →
      l.erase mem it = some r → ListReachable r.1 r.2.1
  | pop_back {mem : Memory T} {l : ListObj} {r : Memory T × ListObj} :
      ListReachable mem l → l.empty = false →
      l.pop_back mem = some r → ListReachable r.1 r.2
  | assign {mem : Memory T} {l : ListObj} {a : Nat} (value : T) :
      ListReachable mem l →
      (∃ fuel visited, l.nodes mem fuel = some visited ∧ Link.node a ∈ visited) →
      ListReachable { mem with value := Function.update mem.value a (some value) } l
  | move_construct {mem : Memory T} {other : ListObj} {id : Nat}
      {r : Memory T × ListObj × ListObj} :
      ListReachable mem other → id ≠ other.id →
      ListObj.move_construct mem other id = some r → ListReachable r.1 r.2.1
  | moved_from {mem : Memory T} {other : ListObj} {id : Nat}
      {r : Memory T × ListObj × ListObj} :
      ListReachable mem other → id ≠ other.id →
      ListObj.move_construct mem other id = some r → ListReachable r.1 r.2.2

end UMap

namespace UMap

/-- A memory with two lists: the list `0` with the nodes at the addresses `0`
and `1` holding `10` and `20`, and the list `1` with the node at address `2`
holding `30`. -/
def sample_memory : Memory Nat :=
  { next := fun p =>
      match p with
      | Link.root 0 => some (Link.node 0)
      | Link.node 0 => some (Link.node 1)
      | Link.node 1 => some (Link.root 0)
      | Link.root 1 => some (Link.node 2)
      | Link.node 2 => some (Link.root 1)
      | _ => none,
    previous := fun p =>
      match p with
      | Link.root 0 => some (Link.node 1)
      | Link.node 0 => some (Link.root 0)
      | Link.node 1 => some (Link.node 0)
      | Link.root 1 => some (Link.node 2)
      | Link.node 2 => some (Link.root 1)
      | _ => none,
    value := fun a =>
      match a with
      | 0 => some 10
      | 1 => some 20
      | 2 => some 30
      | _ => none,
    watermark := 3 }

/-- The state after `insert(end(), 7)` into the list `5` newly constructed in
`sample_memory`. -/
def sample_inserted : Option (Memory Nat × ListObj × Link) :=
  ListObj.insert (ListObj.construct sample_memory 5).1 (ListObj.construct sample_memory 5).2
    (ListObj.construct sample_memory 5).2.end 7

end UMap

namespace UMap

variable {T : Type}

/-- The list object `l` in the memory `mem` holds the list `s` of the table
model: its ring consists of the nodes of `s` in order, every node holds the
value that `s` gives it, and counter and allocation watermark agree. -/
structure Represents (mem : Memory T) (l : ListObj) (s : ListT T) : Prop where
  ring : Ring mem l (s.nodes.map TemplateNode.addr)
  values : ∀ n ∈ s.nodes, mem.value n.addr = some n.value
  size_eq : l.list_size = s.list_size
  alloc_eq : mem.watermark = s.alloc

/-- The result of `insert (0,10)` into the table constructed with five buckets
and identity hash. -/
def sample_reached : Option (UnorderedMap Nat Nat × BasePtr × Bool) :=
  (cleared (UnorderedMap.default_constructed id : UnorderedMap Nat Nat) 5).insert 3 (0, 10)

end UMap

/-! ## Calls that raise

`rehash` and `insert_impl` contain no `try` block, so an exception of the hash
functor passes through them. The definitions of this section repeat both
methods with that path made explicit: `raises key` tells whether
`hash(key)` raises, and a call ends in an `Outcome`. When `rehash` is left by
an exception, the local `moved_list` is destroyed with all nodes it still
holds. -/

namespace UMap

/-- How a call ends: by returning a value or by raising, in both cases with the
table as the call leaves it. -/
inductive Outcome (K V α : Type) where
  | returned (table : UnorderedMap K V) (value : α) : Outcome K V α
  | raised (table : UnorderedMap K V) : Outcome K V α

namespace Outcome

variable {K V α : Type}

/-- The table a call leaves behind. -/
def table : Outcome K V α → UnorderedMap K V
  | returned t _ => t
  | raised t => t

/-- Whether the call ended by raising. -/
def is_raised : Outcome K V α → Bool
  | returned _ _ => false
  | raised _ => true

end Outcome

namespace UnorderedMap

variable {K V : Type}

/-- The tail of `insert_impl` as in `insert_finish`, the doubling rehash being a
call that may raise. -/
def insert_finish_raising
    (rehash : UnorderedMap K V → Nat → Option (Outcome K V Unit))
    (m : UnorderedMap K V) (shrinked_hash : Nat) :
    Option (Outcome K V (BasePtr × Bool)) :=
  if m.load_factor > m.max_load_factor then
    (rehash m (2 * m.buckets.length)).bind fun o =>
      match o with
      | Outcome.raised s => some (Outcome.raised s)
      | Outcome.returned m1 _ =>
        (m1.buckets[shrinked_hash]?).map fun p => Outcome.returned m1 (p, true)
  else (m.buckets[shrinked_hash]?).map fun p => Outcome.returned m (p, true)

/-- The part of `insert_impl` after the `buckets.empty()` guard as in
`insert_main`: `hash(element.first)` raises when `raises element.1`, before
anything is changed. -/
def insert_main_raising [DecidableEq K] (raises : K → Bool)
    (rehash : UnorderedMap K V → Nat → Option (Outcome K V Unit))
    (m : UnorderedMap K V) (element : K × V) :
    Option (Outcome K V (BasePtr × Bool)) :=
  if raises element.1 then some (Outcome.raised m)
  else if m.buckets = [] then none
  else
    let key_hash := m.hash element.1
    let shrinked_hash := m.bucketId key_hash
    match m.buckets[shrinked_hash]? with
    | none => none
    | some BasePtr.null =>
      (m.list.insert m.list.end { element := element, hash := key_hash }).bind fun r =>
      insert_finish_raising rehash
        { m with list := r.1, buckets := m.buckets.set shrinked_hash r.2 } shrinked_hash
    | some BasePtr.root =>
      (m.list.insert BasePtr.root { element := element, hash := key_hash }).bind fun r =>
      insert_finish_raising rehash
        { m with list := r.1, buckets := m.buckets.set shrinked_hash r.2 } shrinked_hash
    | some (BasePtr.node a) =>
      (ListT.nodes_from m.list.nodes a).bind fun scanned =>
      match insert_loop key_hash element.1 scanned with
      | some found => some (Outcome.returned m (BasePtr.node found, false))
      | none =>
        (m.list.insert (BasePtr.node a) { element := element, hash := key_hash }).bind
          fun r =>
        insert_finish_raising rehash
          { m with list := r.1, buckets := m.buckets.set shrinked_hash r.2 } shrinked_hash

/-- The method `insert_impl` as in `insert_body`, with calls that may raise. -/
def insert_body_raising [DecidableEq K] (raises : K → Bool)
    (rehash : UnorderedMap K V → Nat → Option (Outcome K V Unit))
    (m0 : UnorderedMap K V) (element : K × V) :
    Option (Outcome K V (BasePtr × Bool)) :=
  (if m0.buckets = [] then rehash m0 default_bucket_count
   else some (Outcome.returned m0 ())).bind fun o =>
  match o with
  | Outcome.raised s => some (Outcome.raised s)
  | Outcome.returned m _ => insert_main_raising raises rehash m element

/-- The loop of `rehash` over `moved_list`: an exception of `insert_impl` ends
the loop and leaves the table as that call left it. -/
def reinsert_raising
    (insert_impl : UnorderedMap K V → K × V → Option (Outcome K V (BasePtr × Bool))) :
    List (TemplateNode (HashedNode K V)) → UnorderedMap K V → Option (Outcome K V Unit)
  | [], acc => some (Outcome.returned acc ())
  | n :: rest, acc =>
    (insert_impl acc n.value.element).bind fun o =>
      match o with
      | Outcome.raised s => some (Outcome.raised s)
      | Outcome.returned acc1 _ => reinsert_raising insert_impl rest acc1

/-- The method `rehash` as in `rehash`, with calls that may raise. -/
def rehash_raising [DecidableEq K] (raises : K → Bool) :
    Nat → UnorderedMap K V → Nat → Option (Outcome K V Unit)
  | 0, _, _ => none
  | fuel + 1, m, new_bucket_count =>
    m.list.move_construct.bind fun moved =>
    let moved_list := moved.1
    let cleared : UnorderedMap K V :=
      { m with list := moved.2,
               buckets := List.replicate new_bucket_count BasePtr.null }
    reinsert_raising (insert_body_raising raises (rehash_raising raises fuel))
      moved_list.nodes cleared

/-- The method `reserve` as in `reserve`, with calls that may raise. -/
def reserve_raising [DecidableEq K] (raises : K → Bool) (fuel : Nat) (m : UnorderedMap K V)
    (count : Nat) : Option (Outcome K V Unit) :=
  if m.max_load_factor = 0 then none
  else if ⌈round32 (round32 (count : ℚ) / m.max_load_factor)⌉ < 0 then none
  else rehash_raising raises fuel m ⌈round32 (round32 (count : ℚ) / m.max_load_factor)⌉.toNat

end UnorderedMap

end UMap

/-! ## Doublings, range `erase`, the full rebuild of the heads, copies -/

namespace UMap

variable {K V : Type}

/-- Every completed call `R m c` of the callee, `c >= 1`, on a table whose nodes
fit into `c * 2^k` buckets ends with `c * 2^j` buckets for some `j <= k`. -/
def DoubleSound (R : UnorderedMap K V → Nat → Option (UnorderedMap K V)) : Prop :=
  ∀ (m : UnorderedMap K V) (c k : Nat) (m1 : UnorderedMap K V),
    m.list.list_size = m.list.nodes.length → 0 < m.max_load_factor_value → 1 ≤ c →
    Fits m.max_load_factor_value m.list.nodes.length (c * 2 ^ k) →
    R m c = some m1 → ∃ j, j ≤ k ∧ m1.buckets.length = c * 2 ^ j

namespace UnorderedMap

/-- The method `erase(const_iterator first, const_iterator last)`:
`it = first; while (it != last) it = erase(it);` and an iterator at `last` is
returned. The first argument bounds the number of iterations. -/
def erase_range : Nat → UnorderedMap K V → BasePtr → BasePtr →
    Option (UnorderedMap K V × BasePtr)
  | 0, m, it, last => if it = last then some (m, last) else none
  | fuel + 1, m, it, last =>
    if it = last then some (m, last)
    else (m.erase it).bind fun r => erase_range fuel r.1 r.2 last

end UnorderedMap

/-- The table of `sample_reached` after `erase` of the iterator that the insert
returned. -/
def sample_erased : Option (UnorderedMap Nat Nat × BasePtr) :=
  sample_reached.bind fun r => r.1.erase r.2.1

/-- A computable rendering of `Contiguous`: for every node, if a later node is
in its bucket then the next node is. -/
def contiguous_check (B : Nat) : List (TemplateNode (HashedNode K V)) → Bool
  | [] => true
  | x :: l =>
    ((!(l.any fun y => y.value.hash % B == x.value.hash % B)) ||
      (match l.head? with
       | some z => z.value.hash % B == x.value.hash % B
       | none => false)) && contiguous_check B l

/-- A decidable rendering of `Inv`, for concrete tables. -/
def InvCheck (m : UnorderedMap K V) : Prop :=
  WFCheck m ∧
  (∀ b, b < m.buckets.length →
    m.buckets[b]? = some (first_in m.buckets.length b m.list.nodes)) ∧
  contiguous_check m.buckets.length m.list.nodes = true

instance (m : UnorderedMap K V) : Decidable (InvCheck m) := by
  unfold InvCheck
  infer_instance

/-- The slot content that `erase` stores when the erased node, with cached hash
`key_hash`, was the recorded head and `following` are the nodes after it: the
next node if `next_it != end() && next_it->hash == key_hash`, `nullptr`
otherwise. -/
def promoted (key_hash : Nat) : List (TemplateNode (HashedNode K V)) → BasePtr
  | [] => BasePtr.null
  | y :: _ => if y.value.hash = key_hash then BasePtr.node y.addr else BasePtr.null

/-- The table built by `insert (0,10)`, `insert (5,20)`, `insert (1,30)` into five
buckets, then `erase(find(5))` and `insert (10,40)`. -/
def sample_interleaved : Option (UnorderedMap Nat Nat) :=
  (table5 [(0, 10), (5, 20), (1, 30)]).bind fun t =>
  (t.find 5).bind fun it =>
  (t.erase it).bind fun r => (r.1.insert 3 (10, 40)).map Prod.fst

/-- The table `sample_table` after the state of its hash functor changed: the
functor now yields `k + 1`, the nodes still hold the cached hashes `5`, `0`, `1`
computed when they were inserted. -/
def sample_reseeded : UnorderedMap Nat Nat :=
  { sample_table with hash := fun k => k + 1 }

namespace ListT

variable {T : Type}

/-- The method `List::push_back`: `insert(end(), value)`. -/
def push_back (l : ListT T) (value : T) : Option (ListT T) :=
  (l.insert l.end value).map Prod.fst

/-- The copy constructor `List(const List& other)`: starting from the empty
list, `push_back(*it)` for every node of `other` in order. The new nodes get
addresses that `other` has not handed out. -/
def copy_construct (other : ListT T) : Option (ListT T) :=
  other.nodes.foldlM (fun acc n => acc.push_back n.value)
    { nodes := [], list_size := 0, alloc := other.alloc }

end ListT

namespace UnorderedMap

/-- The loop of `update_buckets` over the nodes after the first: whenever the
bucket of a node differs from `shrinked_hash`, the bucket becomes the new
`shrinked_hash` and its slot is set to the node. -/
def update_buckets_loop (bucket_count : Nat) :
    List (TemplateNode (HashedNode K V)) → Nat → List BasePtr → List BasePtr
  | [], _, buckets => buckets
  | n :: rest, shrinked_hash, buckets =>
    if n.value.hash % bucket_count ≠ shrinked_hash then
      update_buckets_loop bucket_count rest (n.value.hash % bucket_count)
        (buckets.set (n.value.hash % bucket_count) (BasePtr.node n.addr))
    else update_buckets_loop bucket_count rest shrinked_hash buckets

/-- The method `update_buckets`: a new vector of `new_bucket_count` null slots;
nothing more when `size() == 0`; otherwise the slot of the bucket of
`list.begin()` is set to it and the loop runs over the following nodes. There
is no defined result when the counter is positive while the ring is empty, or
when `bucketId` divides by a bucket count of zero. -/
def update_buckets (m : UnorderedMap K V) (new_bucket_count : Nat) :
    Option (UnorderedMap K V) :=
  if m.size = 0 then some { m with buckets := List.replicate new_bucket_count BasePtr.null }
  else
    match m.list.nodes with
    | [] => none
    | n :: rest =>
      if new_bucket_count = 0 then none
      else
        some { m with
          buckets := update_buckets_loop new_bucket_count rest
            (n.value.hash % new_bucket_count)
            ((List.replicate new_bucket_count BasePtr.null).set
              (n.value.hash % new_bucket_count) (BasePtr.node n.addr)) }

/-- The copy constructor `UnorderedMap(const UnorderedMap& other)`: `hash`,
`max_load_factor_value` and the list are copied, the bucket vector starts
empty, and `update_buckets(other.buckets.size())` rebuilds it. -/
def copy_construct (other : UnorderedMap K V) : Option (UnorderedMap K V) :=
  other.list.copy_construct.bind fun list =>
  update_buckets
    { hash := other.hash, max_load_factor_value := other.max_load_factor_value,
      list := list, buckets := [] }
    other.buckets.length

end UnorderedMap

namespace ListObj

variable {T : Type}

/-- The method `List::push_back(const value_type&)`: `insert(end(), value)`, which
for a `const` reference is `pointer_inserter(end(), &value, 1)`. -/
def push_back (mem : Memory T) (l : ListObj) (value : T) : Option (Memory T × ListObj) :=
  (l.pointer_inserter mem l.end value 1).map fun r => (r.1, r.2.1)

/-- The method `List::pop_front`: `erase(begin())`. -/
def pop_front (mem : Memory T) (l : ListObj) : Option (Memory T × ListObj) :=
  (l.begin mem).bind fun first => (l.erase mem first).map fun r => (r.1, r.2.1)

/-- The loop `for (auto it = other.begin(); it != other.end(); ++it)
push_back(*it);` of the copy constructor and of the copy assignment, from the
iterator `it` on; `other` is `const`, so `other.end()` is `cend()`. The first
argument bounds the number of iterations. -/
def copy_loop (other : ListObj) : Nat → Memory T → ListObj → Link →
    Option (Memory T × ListObj)
  | 0, mem, this, it =>
    (other.cend mem).bind fun last => if it = last then some (mem, this) else none
  | fuel + 1, mem, this, it =>
    (other.cend mem).bind fun last =>
    if it = last then some (mem, this)
    else
      (mem.value_at it).bind fun value =>
      (this.push_back mem value).bind fun r =>
      (r.1.next it).bind fun following => copy_loop other fuel r.1 r.2 following

/-- The copy constructor `List(const List& other)`, the new object being the
list `id`. -/
def copy_construct (fuel : Nat) (mem : Memory T) (other : ListObj) (id : Nat) :
    Option (Memory T × ListObj) :=
  (other.cbegin (construct mem id).1).bind fun first =>
  copy_loop other fuel (construct mem id).1 (construct mem id).2 first

/-- The loop `while (previous_size--) pop_front();`. -/
def pop_front_times : Nat → Memory T → ListObj → Option (Memory T × ListObj)
  | 0, mem, l => some (mem, l)
  | previous_size + 1, mem, l =>
    (l.pop_front mem).bind fun r => pop_front_times previous_size r.1 r.2

/-- The operator `operator=(const List& other)`: nothing on self-assignment;
otherwise `previous_size = size()`, a copy of every element of `other` is
pushed at the back, and `previous_size` elements are popped from the front. -/
def copy_assign (fuel : Nat) (mem : Memory T) (this other : ListObj) :
    Option (Memory T × ListObj) :=
  if this.id = other.id then some (mem, this)
  else
    (other.cbegin mem).bind fun first =>
    (copy_loop other fuel mem this first).bind fun r =>
    pop_front_times this.size r.1 r.2

end ListObj

end UMap

/-! ## Tables at limits that are not dyadic -/

namespace UMap

/-- The value of `0.7f`, the binary32 number nearest to `7/10`. -/
def point_seven : ℚ := 11744051 / 16777216

/-- The table `UnorderedMap<Nat, Nat>(10)` with identity hash after
`max_load_factor(0.7f)` and the inserts of `elements` in order. -/
def table10 (elements : List (Nat × Nat)) : Option (UnorderedMap Nat Nat) :=
  (UnorderedMap.construct 3 10 id).bind fun t =>
    (t.set_max_load_factor point_seven).insert_all 3 elements

end UMap
/-! ## Rounding to binary32 -/

namespace UMap

theorem bit_length_zero_arg : ∀ fuel, bit_length fuel (1 / 2) = 0 := by
  intro fuel
  cases fuel <;> simp [bit_length]

theorem bit_length_spec : ∀ (fuel n : Nat), n ≤ fuel →
    n < 2 ^ bit_length fuel n ∧ (n ≠ 0 → 2 ^ bit_length fuel n ≤ 2 * n) := by
  intro fuel
  induction fuel with
  | zero =>
    intro n hn
    have : n = 0 := Nat.le_zero.1 hn
    subst this
    simp [bit_length]
  | succ fuel ih =>
    intro n hn
    by_cases h0 : n = 0
    · subst h0
      simp [bit_length]
    · simp only [bit_length, h0, if_false]
      obtain ⟨h1, h2⟩ := ih (n / 2) (by omega)
      rw [pow_succ]
      refine ⟨by omega, fun _ => ?_⟩
      by_cases h3 : n / 2 = 0
      · have hn1 : n = 1 := by omega
        subst hn1
        simp [bit_length_zero_arg fuel]
      · have := h2 h3
        omega

theorem exponent_spec {x : ℚ} (hx : 0 < x) :
    (2 : ℚ) ^ exponent x ≤ x ∧ x < (2 : ℚ) ^ (exponent x + 1) := by
  have hnum : 0 < x.num := Rat.num_pos.2 hx
  have hp0 : x.num.natAbs ≠ 0 := by
    intro h
    have := Int.natAbs_eq_zero.1 h
    omega
  have hq0 : x.den ≠ 0 := x.den_nz
  obtain ⟨hp1, hp2⟩ := bit_length_spec x.num.natAbs x.num.natAbs (le_refl _)
  obtain ⟨hq1, hq2⟩ := bit_length_spec x.den x.den (le_refl _)
  have hp2 := hp2 hp0
  have hq2 := hq2 hq0
  have hxeq : x = (x.num.natAbs : ℚ) / (x.den : ℚ) := by
    have h0 := Int.natAbs_of_nonneg hnum.le
    have h1 : (x.num : ℚ) = ((x.num.natAbs : ℕ) : ℚ) := by
      calc (x.num : ℚ) = (((x.num.natAbs : ℕ) : ℤ) : ℚ) := by rw [h0]
        _ = ((x.num.natAbs : ℕ) : ℚ) := Int.cast_natCast _
    rw [← h1]
    exact (Rat.num_div_den x).symm
  set p := x.num.natAbs with hp
  set q := x.den with hq
  set bp := bit_length p p with hbp
  set bq := bit_length q q with hbq
  have hqpos : (0 : ℚ) < (q : ℚ) := by exact_mod_cast Nat.pos_of_ne_zero hq0
  have hd : (2 : ℚ) ^ ((bp : ℤ) - (bq : ℤ)) = (2 : ℚ) ^ bp / (2 : ℚ) ^ bq := by
    rw [zpow_sub₀ (two_ne_zero), zpow_natCast, zpow_natCast]
  have hP1 : (p : ℚ) < (2 : ℚ) ^ bp := by exact_mod_cast hp1
  have hP2 : (2 : ℚ) ^ bp ≤ 2 * (p : ℚ) := by exact_mod_cast hp2
  have hQ1 : (q : ℚ) < (2 : ℚ) ^ bq := by exact_mod_cast hq1
  have hQ2 : (2 : ℚ) ^ bq ≤ 2 * (q : ℚ) := by exact_mod_cast hq2
  have hbqpos : (0 : ℚ) < (2 : ℚ) ^ bq := by positivity
  have hbppos : (0 : ℚ) < (2 : ℚ) ^ bp := by positivity
  have hppos : (0 : ℚ) < (p : ℚ) := by exact_mod_cast Nat.pos_of_ne_zero hp0
  unfold exponent
  by_cases hc : (2 : ℚ) ^ ((bp : ℤ) - (bq : ℤ)) ≤ x
  · rw [if_pos hc]
    refine ⟨hc, ?_⟩
    rw [zpow_add₀ (two_ne_zero), hd, zpow_one, hxeq, div_mul_eq_mul_div, div_lt_div_iff₀ hqpos hbqpos]
    nlinarith
  · rw [if_neg hc]
    refine ⟨?_, ?_⟩
    · rw [zpow_sub₀ (two_ne_zero), hd, zpow_one, hxeq, div_div, div_le_div_iff₀ (by positivity) hqpos]
      nlinarith
    · rw [sub_add_cancel]
      exact not_le.1 hc

theorem exponent_unique {x : ℚ} (hx : 0 < x) {e : ℤ} (h1 : (2 : ℚ) ^ e ≤ x)
    (h2 : x < (2 : ℚ) ^ (e + 1)) : exponent x = e := by
  obtain ⟨s1, s2⟩ := exponent_spec hx
  have ha : (2 : ℚ) ^ e < (2 : ℚ) ^ (exponent x + 1) := lt_of_le_of_lt h1 s2
  have hb : (2 : ℚ) ^ exponent x < (2 : ℚ) ^ (e + 1) := lt_of_le_of_lt s1 h2
  have ha' := (zpow_lt_zpow_iff_right₀ (by norm_num : (1 : ℚ) < 2)).1 ha
  have hb' := (zpow_lt_zpow_iff_right₀ (by norm_num : (1 : ℚ) < 2)).1 hb
  omega

theorem round_even_error (y : ℚ) : |(round_even y : ℚ) - y| ≤ 1 / 2 := by
  have h1 := Int.floor_le y
  have h2 := Int.lt_floor_add_one y
  unfold round_even
  split
  · rw [abs_le]
    constructor <;> linarith
  · split
    · push_cast
      rw [abs_le]
      constructor <;> linarith
    · split
      · rw [abs_le]
        constructor <;> linarith
      · push_cast
        rw [abs_le]
        constructor <;> linarith

theorem round_even_int (k : ℤ) : round_even (k : ℚ) = k := by
  unfold round_even
  simp

theorem round_even_mono {y z : ℚ} (h : y ≤ z) : round_even y ≤ round_even z := by
  have hf : ⌊y⌋ ≤ ⌊z⌋ := Int.floor_mono h
  have hy1 : round_even y ≤ ⌊y⌋ + 1 := by
    unfold round_even
    split
    · omega
    · split
      · omega
      · split <;> omega
  have hz0 : ⌊z⌋ ≤ round_even z := by
    unfold round_even
    split
    · omega
    · split
      · omega
      · split <;> omega
  by_cases hlt : ⌊y⌋ < ⌊z⌋
  · omega
  · have heq : ⌊y⌋ = ⌊z⌋ := by omega
    have hd : y - ⌊y⌋ ≤ z - ⌊z⌋ := by
      rw [heq]
      linarith
    unfold round_even
    rw [heq] at hd ⊢
    by_cases ha : y - (⌊z⌋ : ℚ) < 1 / 2
    · rw [if_pos ha]
      split
      · omega
      · split
        · omega
        · split <;> omega
    · rw [if_neg ha]
      by_cases hb : 1 / 2 < y - (⌊z⌋ : ℚ)
      · rw [if_pos hb]
        have hz1 : ¬ z - (⌊z⌋ : ℚ) < 1 / 2 := by linarith
        have hz2 : 1 / 2 < z - (⌊z⌋ : ℚ) := by linarith
        rw [if_neg hz1, if_pos hz2]
      · rw [if_neg hb]
        have hz1 : ¬ z - (⌊z⌋ : ℚ) < 1 / 2 := by linarith
        rw [if_neg hz1]
        by_cases hz2 : 1 / 2 < z - (⌊z⌋ : ℚ)
        · rw [if_pos hz2]
          split <;> omega
        · rw [if_neg hz2]

theorem round32_of_pos {x : ℚ} (hx : 0 < x) :
    round32 x = (round_even (x / 2 ^ (exponent x - 23)) : ℚ) * 2 ^ (exponent x - 23) := by
  simp [round32, hx, round32_positive]

theorem round32_zero : round32 0 = 0 := by
  simp [round32]

theorem scaled_bounds {x : ℚ} (hx : 0 < x) :
    (2 : ℚ) ^ (23 : ℕ) ≤ x / 2 ^ (exponent x - 23) ∧
    x / 2 ^ (exponent x - 23) < (2 : ℚ) ^ (24 : ℕ) := by
  obtain ⟨s1, s2⟩ := exponent_spec hx
  have hu : (0 : ℚ) < 2 ^ (exponent x - 23) := by positivity
  have e1 : (2 : ℚ) ^ exponent x = 2 ^ (23 : ℕ) * 2 ^ (exponent x - 23) := by
    rw [← zpow_natCast, ← zpow_add₀ (two_ne_zero)]
    congr 1
    push_cast
    ring
  have e2 : (2 : ℚ) ^ (exponent x + 1) = 2 ^ (24 : ℕ) * 2 ^ (exponent x - 23) := by
    rw [← zpow_natCast, ← zpow_add₀ (two_ne_zero)]
    congr 1
    push_cast
    ring
  constructor
  · rw [le_div_iff₀ hu, ← e1]
    exact s1
  · rw [div_lt_iff₀ hu, ← e2]
    exact s2

theorem round32_error {x : ℚ} (hx : 0 < x) : |round32 x - x| ≤ x / 2 ^ (24 : ℕ) := by
  obtain ⟨b1, _⟩ := scaled_bounds hx
  have hu : (0 : ℚ) < 2 ^ (exponent x - 23) := by positivity
  have herr := round_even_error (x / 2 ^ (exponent x - 23))
  rw [round32_of_pos hx]
  have hx' : x = x / 2 ^ (exponent x - 23) * 2 ^ (exponent x - 23) := by
    field_simp
  have h1 : (round_even (x / 2 ^ (exponent x - 23)) : ℚ) * 2 ^ (exponent x - 23) - x =
      ((round_even (x / 2 ^ (exponent x - 23)) : ℚ) - x / 2 ^ (exponent x - 23)) *
        2 ^ (exponent x - 23) := by
    field_simp
  rw [h1, abs_mul, abs_of_pos hu]
  have h2 : x / 2 ^ (24 : ℕ) =
      (x / 2 ^ (exponent x - 23) / 2 ^ (24 : ℕ)) * 2 ^ (exponent x - 23) := by
    field_simp
    ring
  rw [h2]
  apply mul_le_mul_of_nonneg_right _ hu.le
  refine le_trans herr ?_
  rw [le_div_iff₀ (by positivity)]
  have : (2 : ℚ) ^ (24 : ℕ) = 2 * 2 ^ (23 : ℕ) := by norm_num
  rw [this]
  linarith

theorem round32_le {x : ℚ} (hx : 0 < x) : round32 x ≤ x * (1 + 1 / 2 ^ (24 : ℕ)) := by
  have := (abs_le.1 (round32_error hx)).2
  have h2 : x * (1 + 1 / 2 ^ (24 : ℕ)) = x + x / 2 ^ (24 : ℕ) := by ring
  rw [h2]
  linarith

theorem round32_ge {x : ℚ} (hx : 0 < x) : x * (1 - 1 / 2 ^ (24 : ℕ)) ≤ round32 x := by
  have := (abs_le.1 (round32_error hx)).1
  have h2 : x * (1 - 1 / 2 ^ (24 : ℕ)) = x - x / 2 ^ (24 : ℕ) := by ring
  rw [h2]
  linarith

theorem round32_pos {x : ℚ} (hx : 0 < x) : 0 < round32 x := by
  have h1 := round32_ge hx
  have h2 : (0 : ℚ) < x * (1 - 1 / 2 ^ (24 : ℕ)) := by
    apply mul_pos hx
    norm_num
  linarith

theorem round32_nonneg {x : ℚ} (hx : 0 ≤ x) : 0 ≤ round32 x := by
  rcases eq_or_lt_of_le hx with h | h
  · rw [← h, round32_zero]
  · exact (round32_pos h).le

theorem round32_mono_pos {x z : ℚ} (hx : 0 < x) (h : x ≤ z) : round32 x ≤ round32 z := by
  have hz : 0 < z := lt_of_lt_of_le hx h
  obtain ⟨sx1, sx2⟩ := exponent_spec hx
  obtain ⟨sz1, sz2⟩ := exponent_spec hz
  obtain ⟨bx1, bx2⟩ := scaled_bounds hx
  obtain ⟨bz1, bz2⟩ := scaled_bounds hz
  have hle : exponent x ≤ exponent z := by
    have ha : (2 : ℚ) ^ exponent x < (2 : ℚ) ^ (exponent z + 1) :=
      lt_of_le_of_lt sx1 (lt_of_le_of_lt h sz2)
    have := (zpow_lt_zpow_iff_right₀ (by norm_num : (1 : ℚ) < 2)).1 ha
    omega
  rw [round32_of_pos hx, round32_of_pos hz]
  have hux : (0 : ℚ) < 2 ^ (exponent x - 23) := by positivity
  have huz : (0 : ℚ) < 2 ^ (exponent z - 23) := by positivity
  rcases eq_or_lt_of_le hle with heq | hlt
  · rw [heq]
    apply mul_le_mul_of_nonneg_right _ huz.le
    have : x / 2 ^ (exponent z - 23) ≤ z / 2 ^ (exponent z - 23) :=
      div_le_div_of_nonneg_right h huz.le
    rw [heq] at *
    exact_mod_cast round_even_mono this
  · have h1 : (round_even (x / 2 ^ (exponent x - 23)) : ℚ) ≤ 2 ^ (24 : ℕ) := by
      have := round_even_mono bx2.le
      have h24 : ((2 : ℚ) ^ (24 : ℕ)) = (((2 : ℤ) ^ (24 : ℕ) : ℤ) : ℚ) := by norm_num
      rw [h24, round_even_int] at this
      rw [h24]
      exact_mod_cast this
    have h2 : (2 : ℚ) ^ (23 : ℕ) ≤ (round_even (z / 2 ^ (exponent z - 23)) : ℚ) := by
      have := round_even_mono bz1
      have h23 : ((2 : ℚ) ^ (23 : ℕ)) = (((2 : ℤ) ^ (23 : ℕ) : ℤ) : ℚ) := by norm_num
      rw [h23, round_even_int] at this
      rw [h23]
      exact_mod_cast this
    have h3 : (2 : ℚ) ^ (24 : ℕ) * 2 ^ (exponent x - 23) ≤
        2 ^ (23 : ℕ) * 2 ^ (exponent z - 23) := by
      rw [← zpow_natCast, ← zpow_natCast, ← zpow_add₀ (two_ne_zero),
        ← zpow_add₀ (two_ne_zero)]
      apply zpow_le_zpow_right₀ (by norm_num : (1 : ℚ) ≤ 2)
      push_cast
      omega
    calc (round_even (x / 2 ^ (exponent x - 23)) : ℚ) * 2 ^ (exponent x - 23)
        ≤ 2 ^ (24 : ℕ) * 2 ^ (exponent x - 23) := mul_le_mul_of_nonneg_right h1 hux.le
      _ ≤ 2 ^ (23 : ℕ) * 2 ^ (exponent z - 23) := h3
      _ ≤ (round_even (z / 2 ^ (exponent z - 23)) : ℚ) * 2 ^ (exponent z - 23) :=
        mul_le_mul_of_nonneg_right h2 huz.le

/-- Rounding to binary32 is monotone. -/
theorem round32_mono {x z : ℚ} (hx : 0 ≤ x) (h : x ≤ z) : round32 x ≤ round32 z := by
  rcases eq_or_lt_of_le hx with h0 | h0
  · rw [← h0, round32_zero]
    exact round32_nonneg (le_trans hx h)
  · exact round32_mono_pos h0 h

/-- Multiplication by two is exact. -/
theorem round32_two_mul {x : ℚ} (hx : 0 < x) : round32 (2 * x) = 2 * round32 x := by
  obtain ⟨s1, s2⟩ := exponent_spec hx
  have h2x : 0 < 2 * x := by linarith
  have he : exponent (2 * x) = exponent x + 1 := by
    apply exponent_unique h2x
    · rw [zpow_add₀ (two_ne_zero), zpow_one]
      linarith
    · rw [zpow_add₀ (two_ne_zero) (exponent x + 1), zpow_one]
      linarith
  rw [round32_of_pos h2x, round32_of_pos hx, he]
  have hu : (2 : ℚ) ^ (exponent x + 1 - 23) = 2 * 2 ^ (exponent x - 23) := by
    have : exponent x + 1 - 23 = 1 + (exponent x - 23) := by ring
    rw [this, zpow_add₀ (two_ne_zero), zpow_one]
  rw [hu]
  have hy : 2 * x / (2 * 2 ^ (exponent x - 23)) = x / 2 ^ (exponent x - 23) := by
    field_simp
    ring
  rw [hy]
  ring

/-- A value with a significand below `2^24` is a binary32 value. -/
theorem round32_exact {m : ℕ} (k : ℤ) (hm : 0 < m) (hm2 : m < 2 ^ 24) :
    round32 ((m : ℚ) * 2 ^ k) = (m : ℚ) * 2 ^ k := by
  have hmq : (0 : ℚ) < (m : ℚ) := by exact_mod_cast hm
  have hx : (0 : ℚ) < (m : ℚ) * 2 ^ k := by positivity
  obtain ⟨s1, s2⟩ := exponent_spec hx
  have hlt : (2 : ℚ) ^ exponent ((m : ℚ) * 2 ^ k) < (2 : ℚ) ^ (24 + k) := by
    refine lt_of_le_of_lt s1 ?_
    rw [zpow_add₀ (two_ne_zero)]
    apply mul_lt_mul_of_pos_right _ (by positivity)
    have h24 : (2 : ℚ) ^ (24 : ℤ) = ((2 ^ 24 : ℕ) : ℚ) := by norm_num
    rw [h24]
    exact_mod_cast hm2
  have he := (zpow_lt_zpow_iff_right₀ (by norm_num : (1 : ℚ) < 2)).1 hlt
  rw [round32_of_pos hx]
  generalize exponent ((m : ℚ) * 2 ^ k) = e at he ⊢
  obtain ⟨j, hj⟩ : ∃ j : ℕ, k = (j : ℤ) + (e - 23) :=
    ⟨(k - (e - 23)).toNat, by
      rw [Int.toNat_of_nonneg (by omega)]
      ring⟩
  have h2k : (2 : ℚ) ^ k = 2 ^ j * 2 ^ (e - 23) := by
    conv_lhs => rw [hj]
    rw [zpow_add₀ (two_ne_zero), zpow_natCast]
  have hu : (0 : ℚ) < 2 ^ (e - 23) := by positivity
  have hy : (m : ℚ) * 2 ^ k / 2 ^ (e - 23) = (((m * 2 ^ j : ℕ) : ℤ) : ℚ) := by
    rw [h2k]
    push_cast
    field_simp
    ring
  rw [hy, round_even_int, h2k]
  push_cast
  ring

theorem round32_natCast {n : ℕ} (h : n ≤ 2 ^ 24) : round32 (n : ℚ) = (n : ℚ) := by
  rcases Nat.eq_zero_or_pos n with h0 | h0
  · subst h0
    simp [round32_zero]
  · rcases Nat.lt_or_ge n (2 ^ 24) with hlt | hge
    · have := round32_exact 0 h0 hlt
      simpa using this
    · have hn : n = 2 ^ 24 := le_antisymm h hge
      subst hn
      have := round32_exact (m := 1) 24 (by norm_num) (by norm_num)
      have e : ((1 : ℕ) : ℚ) * 2 ^ (24 : ℤ) = (((2 : ℕ) ^ 24 : ℕ) : ℚ) := by norm_num
      rw [e] at this
      exact this

end UMap

namespace UMap

variable {K V : Type}

theorem load_factor_eq (m : UnorderedMap K V) :
    m.load_factor = load_of m.size m.buckets.length := rfl

theorem load_of_zero (B : Nat) : load_of 0 B = 0 := by
  unfold load_of
  rw [Nat.cast_zero, round32_zero, zero_div, round32_zero]

theorem round32_natCast_pos {n : Nat} (h : 1 ≤ n) : 0 < round32 (n : ℚ) :=
  round32_pos (by exact_mod_cast h)

theorem load_of_nonneg (n B : Nat) : 0 ≤ load_of n B := by
  unfold load_of
  apply round32_nonneg
  exact div_nonneg (round32_nonneg (Nat.cast_nonneg n)) (round32_nonneg (Nat.cast_nonneg B))

theorem load_of_mono {n n1 B B1 : Nat} (hn : n1 ≤ n) (hB : B ≤ B1) (h1 : 1 ≤ B) :
    load_of n1 B1 ≤ load_of n B := by
  unfold load_of
  have h2 : round32 (n1 : ℚ) ≤ round32 (n : ℚ) :=
    round32_mono (Nat.cast_nonneg n1) (by exact_mod_cast hn)
  have h3 : round32 (B : ℚ) ≤ round32 (B1 : ℚ) :=
    round32_mono (Nat.cast_nonneg B) (by exact_mod_cast hB)
  have h4 : 0 < round32 (B : ℚ) := round32_natCast_pos h1
  have h5 : 0 ≤ round32 (n1 : ℚ) := round32_nonneg (Nat.cast_nonneg n1)
  apply round32_mono (div_nonneg h5 (le_trans h4.le h3))
  exact div_le_div₀ (le_trans h5 h2) h2 h4 h3

theorem load_of_no_buckets (n : Nat) : load_of n 0 = 0 := by
  unfold load_of
  rw [Nat.cast_zero, round32_zero, div_zero, round32_zero]

theorem load_of_mono_left {n n1 : Nat} (hn : n1 ≤ n) (B : Nat) :
    load_of n1 B ≤ load_of n B := by
  rcases Nat.eq_zero_or_pos B with h0 | hB
  · subst h0
    rw [load_of_no_buckets, load_of_no_buckets]
  · exact load_of_mono hn (le_refl _) hB

theorem fits_mono {mlf : ℚ} {n n1 B B1 : Nat} (h : Fits mlf n B) (hn : n1 ≤ n) (hB : B ≤ B1)
    (h1 : 1 ≤ B) : Fits mlf n1 B1 :=
  le_trans (load_of_mono hn hB h1) h

theorem load_of_pos {n B : Nat} (hn : 1 ≤ n) (hB : 1 ≤ B) : 0 < load_of n B := by
  unfold load_of
  exact round32_pos (div_pos (round32_natCast_pos hn) (round32_natCast_pos hB))

theorem load_of_le {n B : Nat} (hB : 1 ≤ B) :
    load_of n B ≤ (n : ℚ) / (B : ℚ) * ((1 + 1 / 2 ^ (24 : ℕ)) ^ 2 / (1 - 1 / 2 ^ (24 : ℕ))) := by
  have hBq : (0 : ℚ) < (B : ℚ) := by exact_mod_cast hB
  rcases Nat.eq_zero_or_pos n with h0 | hn
  · subst h0
    rw [load_of_zero]
    simp
  · have hnq : (0 : ℚ) < (n : ℚ) := by exact_mod_cast hn
    have h1 := round32_le hnq
    have h2 := round32_ge hBq
    have h3 : 0 < round32 (n : ℚ) := round32_pos hnq
    have h4 : 0 < round32 (B : ℚ) := round32_pos hBq
    have hu : (0 : ℚ) < 1 - 1 / 2 ^ (24 : ℕ) := by norm_num
    have h5 := round32_le (div_pos h3 h4)
    unfold load_of
    refine le_trans h5 ?_
    have h6 : round32 (n : ℚ) / round32 (B : ℚ) ≤
        (n : ℚ) * (1 + 1 / 2 ^ (24 : ℕ)) / ((B : ℚ) * (1 - 1 / 2 ^ (24 : ℕ))) :=
      div_le_div₀ (le_trans h3.le h1) h1 (mul_pos hBq hu) h2
    have h7 : (0 : ℚ) ≤ 1 + 1 / 2 ^ (24 : ℕ) := by norm_num
    calc round32 (n : ℚ) / round32 (B : ℚ) * (1 + 1 / 2 ^ (24 : ℕ))
        ≤ (n : ℚ) * (1 + 1 / 2 ^ (24 : ℕ)) / ((B : ℚ) * (1 - 1 / 2 ^ (24 : ℕ))) *
            (1 + 1 / 2 ^ (24 : ℕ)) := mul_le_mul_of_nonneg_right h6 h7
      _ = (n : ℚ) / (B : ℚ) * ((1 + 1 / 2 ^ (24 : ℕ)) ^ 2 / (1 - 1 / 2 ^ (24 : ℕ))) := by
          field_simp
          ring

theorem load_of_ge {n B : Nat} (hB : 1 ≤ B) :
    (n : ℚ) / (B : ℚ) * ((1 - 1 / 2 ^ (24 : ℕ)) ^ 2 / (1 + 1 / 2 ^ (24 : ℕ))) ≤ load_of n B := by
  have hBq : (0 : ℚ) < (B : ℚ) := by exact_mod_cast hB
  rcases Nat.eq_zero_or_pos n with h0 | hn
  · subst h0
    rw [load_of_zero]
    simp
  · have hnq : (0 : ℚ) < (n : ℚ) := by exact_mod_cast hn
    have h1 := round32_ge hnq
    have h2 := round32_le hBq
    have h3 : 0 < round32 (n : ℚ) := round32_pos hnq
    have h4 : 0 < round32 (B : ℚ) := round32_pos hBq
    have hu : (0 : ℚ) < 1 - 1 / 2 ^ (24 : ℕ) := by norm_num
    have hv : (0 : ℚ) < 1 + 1 / 2 ^ (24 : ℕ) := by norm_num
    have h5 := round32_ge (div_pos h3 h4)
    unfold load_of
    refine le_trans ?_ h5
    have h6 : (n : ℚ) * (1 - 1 / 2 ^ (24 : ℕ)) / ((B : ℚ) * (1 + 1 / 2 ^ (24 : ℕ))) ≤
        round32 (n : ℚ) / round32 (B : ℚ) :=
      div_le_div₀ h3.le h1 h4 h2
    calc (n : ℚ) / (B : ℚ) * ((1 - 1 / 2 ^ (24 : ℕ)) ^ 2 / (1 + 1 / 2 ^ (24 : ℕ)))
        = (n : ℚ) * (1 - 1 / 2 ^ (24 : ℕ)) / ((B : ℚ) * (1 + 1 / 2 ^ (24 : ℕ))) *
            (1 - 1 / 2 ^ (24 : ℕ)) := by
          field_simp
          ring
      _ ≤ round32 (n : ℚ) / round32 (B : ℚ) * (1 - 1 / 2 ^ (24 : ℕ)) :=
          mul_le_mul_of_nonneg_right h6 hu.le

theorem fits_of_roomy {mlf : ℚ} {n B : Nat} (hB : 1 ≤ B)
    (h : 2 * (n : ℚ) ≤ mlf * (B : ℚ)) : Fits mlf n B := by
  have hBq : (0 : ℚ) < (B : ℚ) := by exact_mod_cast hB
  unfold Fits
  refine le_trans (load_of_le hB) ?_
  have h1 : (n : ℚ) / (B : ℚ) ≤ mlf / 2 := by
    rw [div_le_iff₀ hBq]
    linarith
  have h2 : (0 : ℚ) ≤ (n : ℚ) / (B : ℚ) := div_nonneg (Nat.cast_nonneg n) hBq.le
  have h3 : ((1 : ℚ) + 1 / 2 ^ (24 : ℕ)) ^ 2 / (1 - 1 / 2 ^ (24 : ℕ)) ≤ 2 := by norm_num
  calc (n : ℚ) / (B : ℚ) * ((1 + 1 / 2 ^ (24 : ℕ)) ^ 2 / (1 - 1 / 2 ^ (24 : ℕ)))
      ≤ (n : ℚ) / (B : ℚ) * 2 := mul_le_mul_of_nonneg_left h3 h2
    _ ≤ mlf / 2 * 2 := mul_le_mul_of_nonneg_right h1 (by norm_num)
    _ = mlf := by ring

theorem bound_of_fits {mlf : ℚ} {n B : Nat} (hB : 1 ≤ B) (hmlf : 0 ≤ mlf)
    (h : Fits mlf n B) : (n : ℚ) ≤ mlf * (B : ℚ) * (1 + 1 / 2 ^ (22 : ℕ)) := by
  have hBq : (0 : ℚ) < (B : ℚ) := by exact_mod_cast hB
  have h1 := le_trans (load_of_ge hB) h
  have h2 : (0 : ℚ) < (1 - 1 / 2 ^ (24 : ℕ)) ^ 2 / (1 + 1 / 2 ^ (24 : ℕ)) := by norm_num
  have h3 : (n : ℚ) / (B : ℚ) ≤ mlf / ((1 - 1 / 2 ^ (24 : ℕ)) ^ 2 / (1 + 1 / 2 ^ (24 : ℕ))) := by
    rw [le_div_iff₀ h2]
    exact h1
  have h4 : mlf / ((1 - 1 / 2 ^ (24 : ℕ)) ^ 2 / (1 + 1 / 2 ^ (24 : ℕ))) ≤
      mlf * (1 + 1 / 2 ^ (22 : ℕ)) := by
    rw [div_eq_mul_inv]
    apply mul_le_mul_of_nonneg_left _ hmlf
    norm_num
  have h5 := le_trans h3 h4
  rw [div_le_iff₀ hBq] at h5
  linarith

theorem exists_fits {mlf : ℚ} (hmlf : 0 < mlf) {c : Nat} (hc : 1 ≤ c) (n : Nat) :
    ∃ F : Nat, Fits mlf n (c * 2 ^ F) := by
  obtain ⟨F, hF⟩ := pow_unbounded_of_one_lt (2 * (n : ℚ) / mlf) (by norm_num : (1 : ℚ) < 2)
  refine ⟨F, fits_of_roomy (Nat.one_le_iff_ne_zero.2 (by positivity)) ?_⟩
  have h1 : 2 * (n : ℚ) ≤ mlf * 2 ^ F := by
    rw [div_lt_iff₀ hmlf] at hF
    linarith
  have h2 : (1 : ℚ) ≤ (c : ℚ) := by exact_mod_cast hc
  have h3 : (0 : ℚ) ≤ mlf * 2 ^ F := by positivity
  push_cast
  nlinarith

theorem round32_one : round32 1 = 1 := by
  have := @round32_natCast 1 (by norm_num)
  simpa using this

theorem fits_one {n B : Nat} (h : n ≤ B) : Fits 1 n B := by
  unfold Fits load_of
  rcases Nat.eq_zero_or_pos B with h0 | hB
  · subst h0
    have : n = 0 := Nat.le_zero.1 h
    subst this
    simp [round32_zero]
  · have h1 : round32 (n : ℚ) ≤ round32 (B : ℚ) :=
      round32_mono (Nat.cast_nonneg n) (by exact_mod_cast h)
    have h2 : 0 < round32 (B : ℚ) := round32_natCast_pos hB
    have h3 : round32 (n : ℚ) / round32 (B : ℚ) ≤ 1 := by
      rw [div_le_iff₀ h2]
      linarith
    have h4 := round32_mono (div_nonneg (round32_nonneg (Nat.cast_nonneg n)) h2.le) h3
    rwa [round32_one] at h4

theorem load_of_self {B : Nat} (hB : 1 ≤ B) : load_of B B = 1 := by
  unfold load_of
  rw [div_self (ne_of_gt (round32_natCast_pos hB)), round32_one]

theorem round32_gt_one {x : ℚ} (h : 1 + 1 / 2 ^ (24 : ℕ) < x) : 1 < round32 x := by
  have hx : 0 < x := lt_trans (by norm_num) h
  rcases le_or_lt 2 x with h2 | h2
  · have h3 := round32_mono (by norm_num : (0 : ℚ) ≤ 2) h2
    have h4 : round32 2 = 2 := by
      have := @round32_natCast 2 (by norm_num)
      simpa using this
    rw [h4] at h3
    linarith
  · have he : exponent x = 0 :=
      exponent_unique hx (by norm_num; linarith [show (0 : ℚ) < 1 / 2 ^ (24 : ℕ) by norm_num])
        (by norm_num; exact h2)
    rw [round32_of_pos hx, he]
    have h5 := round_even_error (x / 2 ^ ((0 : ℤ) - 23))
    have h6 : (2 : ℚ) ^ ((0 : ℤ) - 23) = 1 / 2 ^ (23 : ℕ) := by
      rw [zero_sub, zpow_neg, one_div]
      norm_cast
    rw [h6] at h5 ⊢
    have h7 : (2 : ℚ) ^ (23 : ℕ) + 1 / 2 < x / (1 / 2 ^ (23 : ℕ)) := by
      rw [lt_div_iff₀ (by norm_num)]
      have : ((2 : ℚ) ^ (23 : ℕ) + 1 / 2) * (1 / 2 ^ (23 : ℕ)) = 1 + 1 / 2 ^ (24 : ℕ) := by
        norm_num
      rw [this]
      exact h
    have h8 : (2 : ℚ) ^ (23 : ℕ) < (round_even (x / (1 / 2 ^ (23 : ℕ))) : ℚ) := by
      have := (abs_le.1 h5).1
      linarith
    have h9 : (2 : ℤ) ^ (23 : ℕ) < round_even (x / (1 / 2 ^ (23 : ℕ))) := by
      exact_mod_cast h8
    have h10 : (2 : ℤ) ^ (23 : ℕ) + 1 ≤ round_even (x / (1 / 2 ^ (23 : ℕ))) := h9
    have h11 : ((2 : ℚ) ^ (23 : ℕ) + 1) ≤ (round_even (x / (1 / 2 ^ (23 : ℕ))) : ℚ) := by
      exact_mod_cast h10
    have h12 : (1 : ℚ) < ((2 : ℚ) ^ (23 : ℕ) + 1) * (1 / 2 ^ (23 : ℕ)) := by norm_num
    refine lt_of_lt_of_le h12 ?_
    exact mul_le_mul_of_nonneg_right h11 (by norm_num)

theorem not_fits_succ {B : Nat} (h1 : 1 ≤ B) (h : B < 2 ^ 24) : ¬ Fits 1 (B + 1) B := by
  unfold Fits load_of
  rw [not_le, round32_natCast (Nat.succ_le_of_lt h), round32_natCast (le_of_lt h)]
  apply round32_gt_one
  have hBq : (0 : ℚ) < (B : ℚ) := by exact_mod_cast h1
  have hB2 : (B : ℚ) < 2 ^ (24 : ℕ) := by exact_mod_cast h
  rw [lt_div_iff₀ hBq]
  push_cast
  have : 1 / 2 ^ (24 : ℕ) * (B : ℚ) < 1 := by
    rw [one_div, inv_mul_lt_iff₀ (by norm_num)]
    simpa using hB2
  linarith

theorem fits_of_exact {mlf : ℚ} {n B : Nat} (hn : n ≤ 2 ^ 24) (hB : B ≤ 2 ^ 24) (h1 : 1 ≤ B)
    (hm : round32 mlf = mlf) (h : (n : ℚ) ≤ mlf * (B : ℚ)) : Fits mlf n B := by
  unfold Fits load_of
  rw [round32_natCast hn, round32_natCast hB]
  have hBq : (0 : ℚ) < (B : ℚ) := by exact_mod_cast h1
  have h2 : (n : ℚ) / (B : ℚ) ≤ mlf := by
    rw [div_le_iff₀ hBq]
    exact h
  have h3 := round32_mono (div_nonneg (Nat.cast_nonneg n) hBq.le) h2
  rwa [hm] at h3

end UMap

/-! ## The node list -/

namespace UMap

variable {K V T : Type}

theorem nodes_from_of_mem {l : List (TemplateNode T)} {n : TemplateNode T} (h : n ∈ l) :
    ∃ s, ListT.nodes_from l n.addr = some s := by
  induction l with
  | nil => cases h
  | cons x l ih =>
    by_cases hx : x.addr = n.addr
    · exact ⟨x :: l, by simp [ListT.nodes_from, hx]⟩
    · rcases List.mem_cons.1 h with rfl | h'
      · exact absurd rfl hx
      · obtain ⟨s, hs⟩ := ih h'
        exact ⟨s, by simp [ListT.nodes_from, hx, hs]⟩

theorem nodes_from_suffix {l s : List (TemplateNode T)} {a : Nat}
    (h : ListT.nodes_from l a = some s) : ∃ pre, l = pre ++ s := by
  induction l with
  | nil => simp [ListT.nodes_from] at h
  | cons x l ih =>
    by_cases hx : x.addr = a
    · simp [ListT.nodes_from, hx] at h
      exact ⟨[], by simp [h]⟩
    · simp [ListT.nodes_from, hx] at h
      obtain ⟨pre, hpre⟩ := ih h
      exact ⟨x :: pre, by simp [hpre]⟩

theorem nodes_from_subset {l s : List (TemplateNode T)} {a : Nat}
    (h : ListT.nodes_from l a = some s) : ∀ x ∈ s, x ∈ l := by
  obtain ⟨pre, rfl⟩ := nodes_from_suffix h
  intro x hx
  exact List.mem_append_right _ hx

theorem nodes_from_head {l s : List (TemplateNode T)} {a : Nat}
    (h : ListT.nodes_from l a = some s) : ∃ x r, s = x :: r ∧ x.addr = a := by
  induction l with
  | nil => simp [ListT.nodes_from] at h
  | cons x l ih =>
    by_cases hx : x.addr = a
    · simp [ListT.nodes_from, hx] at h
      exact ⟨x, l, h.symm, hx⟩
    · simp [ListT.nodes_from, hx] at h
      exact ih h

theorem node_at_of_mem {l : List (TemplateNode T)} {n : TemplateNode T}
    (hnd : (l.map TemplateNode.addr).Nodup) (h : n ∈ l) :
    ListT.node_at l n.addr = some n := by
  induction l with
  | nil => cases h
  | cons x l ih =>
    rw [List.map_cons, List.nodup_cons] at hnd
    rcases List.mem_cons.1 h with rfl | h'
    · simp [ListT.node_at]
    · have hx : x.addr ≠ n.addr := by
        intro e
        exact hnd.1 (e ▸ List.mem_map_of_mem _ h')
      simp [ListT.node_at, hx, ih hnd.2 h']

theorem link_before_of_mem {l : List (TemplateNode T)} {n : TemplateNode T}
    (nd : TemplateNode T) (h : n ∈ l) : ∃ r, ListT.link_before l n.addr nd = some r := by
  induction l with
  | nil => cases h
  | cons x l ih =>
    by_cases hx : x.addr = n.addr
    · exact ⟨nd :: x :: l, by simp [ListT.link_before, hx]⟩
    · rcases List.mem_cons.1 h with rfl | h'
      · exact absurd rfl hx
      · obtain ⟨r, hr⟩ := ih h'
        exact ⟨x :: r, by simp [ListT.link_before, hx, hr]⟩

theorem link_before_perm {l r : List (TemplateNode T)} {a : Nat} {nd : TemplateNode T}
    (h : ListT.link_before l a nd = some r) : r.Perm (nd :: l) := by
  induction l generalizing r with
  | nil => simp [ListT.link_before] at h
  | cons x l ih =>
    by_cases hx : x.addr = a
    · simp [ListT.link_before, hx] at h
      subst h
      exact List.Perm.refl _
    · simp [ListT.link_before, hx] at h
      obtain ⟨r', hr', rfl⟩ := h
      exact ((ih hr').cons x).trans (List.Perm.swap nd x l)

theorem link_before_nodes_from {l r : List (TemplateNode T)} {a : Nat} {nd : TemplateNode T}
    (hfresh : ∀ x ∈ l, x.addr ≠ nd.addr)
    (h : ListT.link_before l a nd = some r) :
    ∃ s, ListT.nodes_from r nd.addr = some (nd :: s) := by
  induction l generalizing r with
  | nil => simp [ListT.link_before] at h
  | cons x l ih =>
    by_cases hx : x.addr = a
    · simp [ListT.link_before, hx] at h
      subst h
      exact ⟨x :: l, by simp [ListT.nodes_from]⟩
    · simp [ListT.link_before, hx] at h
      obtain ⟨r', hr', rfl⟩ := h
      obtain ⟨s, hs⟩ := ih (fun y hy => hfresh y (List.mem_cons_of_mem _ hy)) hr'
      exact ⟨s, by simp [ListT.nodes_from, hfresh x (List.mem_cons_self _ _), hs]⟩

theorem append_nodes_from {l : List (TemplateNode T)} {nd : TemplateNode T}
    (hfresh : ∀ x ∈ l, x.addr ≠ nd.addr) :
    ListT.nodes_from (l ++ [nd]) nd.addr = some [nd] := by
  induction l with
  | nil => simp [ListT.nodes_from]
  | cons x l ih =>
    simp [ListT.nodes_from, hfresh x (List.mem_cons_self _ _),
      ih (fun y hy => hfresh y (List.mem_cons_of_mem _ hy))]

theorem move_nodes_all (o : List (TemplateNode T)) (this : ListT T) :
    ListT.move_nodes o.length o this =
      some ({ this with nodes := this.nodes ++ o,
                        list_size := this.list_size + o.length }, []) := by
  induction o generalizing this with
  | nil => simp [ListT.move_nodes]
  | cons x o ih =>
    simp [ListT.move_nodes, ih, Nat.add_assoc, Nat.add_comm 1]

theorem move_construct_eq {l : ListT T} (h : l.list_size = l.nodes.length) :
    l.move_construct =
      some ({ nodes := l.nodes, list_size := l.list_size, alloc := l.alloc },
            { nodes := [], list_size := 0, alloc := l.alloc }) := by
  unfold ListT.move_construct
  rw [h, move_nodes_all]
  simp

end UMap

/-! ## Scanning a chain -/

namespace UMap

variable {K V : Type}

theorem find_loop_eq_node [DecidableEq K] {B b : Nat} {key : K}
    {s : List (TemplateNode (HashedNode K V))} {a : Nat}
    (h : UnorderedMap.find_loop B b key s = BasePtr.node a) :
    ∃ n ∈ s, n.addr = a ∧ n.value.element.1 = key ∧ n.value.hash % B = b := by
  induction s with
  | nil => simp [UnorderedMap.find_loop] at h
  | cons x s ih =>
    unfold UnorderedMap.find_loop at h
    by_cases hb : x.value.hash % B = b
    · by_cases hk : x.value.element.1 = key
      · simp [hb, hk] at h
        exact ⟨x, List.mem_cons_self _ _, h, hk, hb⟩
      · simp [hb, hk] at h
        obtain ⟨n, hn, hrest⟩ := ih h
        exact ⟨n, List.mem_cons_of_mem _ hn, hrest⟩
    · simp [hb] at h

theorem find_loop_root_or_node [DecidableEq K] (B b : Nat) (key : K)
    (s : List (TemplateNode (HashedNode K V))) :
    UnorderedMap.find_loop B b key s = BasePtr.root ∨
      ∃ a, UnorderedMap.find_loop B b key s = BasePtr.node a := by
  induction s with
  | nil => exact Or.inl rfl
  | cons x s ih =>
    unfold UnorderedMap.find_loop
    by_cases hb : x.value.hash % B = b
    · by_cases hk : x.value.element.1 = key
      · exact Or.inr ⟨x.addr, by simp [hb, hk]⟩
      · simpa [hb, hk] using ih
    · exact Or.inl (by simp [hb])

/-- In a contiguous list that starts inside bucket `b`, the loop of `find`
reaches every node of bucket `b`. -/
theorem find_loop_complete [DecidableEq K] {B b : Nat} (key : K)
    {s : List (TemplateNode (HashedNode K V))} (hc : Contiguous B s)
    (hhead : ∀ x, s.head? = some x → x.value.hash % B = b)
    {n : TemplateNode (HashedNode K V)} (hn : n ∈ s) (hnb : n.value.hash % B = b)
    (hnk : n.value.element.1 = key) :
    ∃ a, UnorderedMap.find_loop B b key s = BasePtr.node a := by
  induction s with
  | nil => cases hn
  | cons x s ih =>
    have hxb : x.value.hash % B = b := hhead x rfl
    unfold UnorderedMap.find_loop
    by_cases hk : x.value.element.1 = key
    · exact ⟨x.addr, by simp [hxb, hk]⟩
    · have hns : n ∈ s := by
        rcases List.mem_cons.1 hn with rfl | h'
        · exact absurd hnk hk
        · exact h'
      obtain ⟨z, hz, hzb⟩ := hc.1 n hns (by rw [hnb, hxb])
      have hhead' : ∀ y, s.head? = some y → y.value.hash % B = b := by
        intro y hy
        rw [hz] at hy
        cases hy
        rw [hzb, hxb]
      simpa [hxb, hk] using ih hc.2 hhead' hns

theorem insert_loop_eq_some [DecidableEq K] {key_hash : Nat} {key : K}
    {s : List (TemplateNode (HashedNode K V))} {a : Nat}
    (h : UnorderedMap.insert_loop key_hash key s = some a) :
    ∃ n ∈ s, n.addr = a ∧ n.value.element.1 = key := by
  induction s with
  | nil => simp [UnorderedMap.insert_loop] at h
  | cons x s ih =>
    unfold UnorderedMap.insert_loop at h
    by_cases hb : x.value.hash = key_hash
    · by_cases hk : x.value.element.1 = key
      · simp [hb, hk] at h
        exact ⟨x, List.mem_cons_self _ _, h, hk⟩
      · simp [hb, hk] at h
        obtain ⟨n, hn, hrest⟩ := ih h
        exact ⟨n, List.mem_cons_of_mem _ hn, hrest⟩
    · simp [hb] at h

/-! ## Head correctness and contiguity on lists -/

theorem first_in_eq_node {B b : Nat} {l : List (TemplateNode (HashedNode K V))} {a : Nat}
    (h : first_in B b l = BasePtr.node a) :
    ∃ n ∈ l, n.addr = a ∧ n.value.hash % B = b := by
  induction l with
  | nil => simp [first_in] at h
  | cons x l ih =>
    unfold first_in at h
    by_cases hx : x.value.hash % B = b
    · simp [hx] at h
      exact ⟨x, List.mem_cons_self _ _, h, hx⟩
    · simp [hx] at h
      obtain ⟨n, hn, hrest⟩ := ih h
      exact ⟨n, List.mem_cons_of_mem _ hn, hrest⟩

theorem first_in_eq_null {B b : Nat} {l : List (TemplateNode (HashedNode K V))}
    (h : first_in B b l = BasePtr.null) : ∀ n ∈ l, n.value.hash % B ≠ b := by
  induction l with
  | nil => intro n hn; cases hn
  | cons x l ih =>
    unfold first_in at h
    by_cases hx : x.value.hash % B = b
    · simp [hx] at h
    · simp [hx] at h
      intro n hn
      rcases List.mem_cons.1 hn with rfl | h'
      · exact hx
      · exact ih h n h'

theorem first_in_null_or_node (B b : Nat) (l : List (TemplateNode (HashedNode K V))) :
    first_in B b l = BasePtr.null ∨ ∃ a, first_in B b l = BasePtr.node a := by
  induction l with
  | nil => exact Or.inl rfl
  | cons x l ih =>
    unfold first_in
    by_cases hx : x.value.hash % B = b
    · exact Or.inr ⟨x.addr, by simp [hx]⟩
    · simpa [hx] using ih

theorem first_in_place (B b : Nat) (nd : TemplateNode (HashedNode K V))
    (l : List (TemplateNode (HashedNode K V))) :
    first_in B b (place B nd l) =
      if nd.value.hash % B = b then BasePtr.node nd.addr else first_in B b l := by
  induction l with
  | nil => simp [place, first_in]
  | cons x l ih =>
    unfold place
    by_cases hx : x.value.hash % B = nd.value.hash % B
    · simp only [hx, if_true]
      by_cases hb : nd.value.hash % B = b
      · simp [first_in, hb]
      · simp [first_in, hb, hx]
    · simp only [hx, if_false]
      by_cases hb : nd.value.hash % B = b
      · have hxb : ¬ x.value.hash % B = b := fun e => hx (e.trans hb.symm)
        simp only [first_in, hxb, if_false, ih, hb, if_true]
      · by_cases hxb : x.value.hash % B = b
        · simp [first_in, hxb, hb]
        · simp only [first_in, hxb, if_false, ih, hb]

theorem place_perm (B : Nat) (nd : TemplateNode (HashedNode K V))
    (l : List (TemplateNode (HashedNode K V))) : (place B nd l).Perm (nd :: l) := by
  induction l with
  | nil => exact List.Perm.refl _
  | cons x l ih =>
    unfold place
    by_cases hx : x.value.hash % B = nd.value.hash % B
    · simp [hx]
    · simp only [hx, if_false]
      exact (ih.cons x).trans (List.Perm.swap nd x l)

theorem place_head (B : Nat) (nd : TemplateNode (HashedNode K V))
    (x : TemplateNode (HashedNode K V)) (l : List (TemplateNode (HashedNode K V)))
    (hx : x.value.hash % B ≠ nd.value.hash % B) :
    (place B nd (x :: l)).head? = some x := by
  simp [place, hx]

theorem contiguous_place {B : Nat} (nd : TemplateNode (HashedNode K V))
    {l : List (TemplateNode (HashedNode K V))} (hc : Contiguous B l) :
    Contiguous B (place B nd l) := by
  induction l with
  | nil =>
    refine ⟨?_, trivial⟩
    intro y hy
    cases hy
  | cons x l ih =>
    unfold place
    by_cases hx : x.value.hash % B = nd.value.hash % B
    · simp only [hx, if_true]
      exact ⟨fun _ _ _ => ⟨x, rfl, hx⟩, hc⟩
    · simp only [hx, if_false]
      refine ⟨?_, ih hc.2⟩
      intro y hy hyb
      have hyl : y ∈ l := by
        rcases List.mem_cons.1 ((place_perm B nd l).subset hy) with rfl | h'
        · exact absurd hyb.symm hx
        · exact h'
      obtain ⟨z, hz, hzb⟩ := hc.1 y hyl hyb
      cases l with
      | nil => cases hyl
      | cons w l' =>
        simp only [List.head?_cons, Option.some.injEq] at hz
        subst hz
        refine ⟨w, ?_, hzb⟩
        exact place_head B nd w l' (fun e => hx (hzb.symm.trans e))

theorem place_eq_append {B : Nat} (nd : TemplateNode (HashedNode K V))
    {l : List (TemplateNode (HashedNode K V))}
    (h : ∀ n ∈ l, n.value.hash % B ≠ nd.value.hash % B) : place B nd l = l ++ [nd] := by
  induction l with
  | nil => rfl
  | cons x l ih =>
    simp [place, h x (List.mem_cons_self _ _),
      ih (fun n hn => h n (List.mem_cons_of_mem _ hn))]

theorem link_before_eq_place {B : Nat} (nd : TemplateNode (HashedNode K V))
    {l : List (TemplateNode (HashedNode K V))} {a : Nat}
    (hnd : (l.map TemplateNode.addr).Nodup)
    (h : first_in B (nd.value.hash % B) l = BasePtr.node a) :
    ListT.link_before l a nd = some (place B nd l) := by
  induction l with
  | nil => simp [first_in] at h
  | cons x l ih =>
    rw [List.map_cons, List.nodup_cons] at hnd
    unfold first_in at h
    by_cases hx : x.value.hash % B = nd.value.hash % B
    · simp [hx] at h
      simp [ListT.link_before, place, hx, h]
    · simp [hx] at h
      obtain ⟨n, hn, hna, _⟩ := first_in_eq_node h
      have hxa : x.addr ≠ a := by
        intro e
        exact hnd.1 (by rw [e, ← hna]; exact List.mem_map_of_mem _ hn)
      simp [ListT.link_before, place, hx, hxa, ih hnd.2 h]

/-- With distinct addresses, the nodes from the recorded head of bucket `b` on
form a list that starts inside bucket `b`. -/
theorem nodes_from_first_in {B b : Nat} {l : List (TemplateNode (HashedNode K V))} {a : Nat}
    (hnd : (l.map TemplateNode.addr).Nodup) (hc : Contiguous B l)
    (h : first_in B b l = BasePtr.node a) :
    ∃ s, ListT.nodes_from l a = some s ∧ Contiguous B s ∧
      (∀ x, s.head? = some x → x.value.hash % B = b) ∧
      ∀ n ∈ l, n.value.hash % B = b → n ∈ s := by
  induction l with
  | nil => simp [first_in] at h
  | cons x l ih =>
    rw [List.map_cons, List.nodup_cons] at hnd
    unfold first_in at h
    by_cases hx : x.value.hash % B = b
    · simp [hx] at h
      refine ⟨x :: l, by simp [ListT.nodes_from, h], hc, ?_, fun n hn _ => hn⟩
      intro y hy
      cases hy
      exact hx
    · simp [hx] at h
      obtain ⟨n, hn, hna, _⟩ := first_in_eq_node h
      have hxa : x.addr ≠ a := by
        intro e
        exact hnd.1 (by rw [e, ← hna]; exact List.mem_map_of_mem _ hn)
      obtain ⟨s, hs, hcs, hhead, hall⟩ := ih hnd.2 hc.2 h
      refine ⟨s, by simp [ListT.nodes_from, hxa, hs], hcs, hhead, ?_⟩
      intro y hy hyb
      rcases List.mem_cons.1 hy with rfl | h'
      · exact absurd hyb hx
      · exact hall y h' hyb

end UMap

/-! ## `find`, `at` and dereferencing on well-formed tables -/

namespace UMap

variable {K V : Type}

theorem bucket_lt {m : UnorderedMap K V} (hne : m.buckets ≠ []) (h : Nat) :
    h % m.buckets.length < m.buckets.length :=
  Nat.mod_lt _ (List.length_pos.2 hne)

theorem find_spec [DecidableEq K] {m : UnorderedMap K V} (hw : WF m) (key : K) :
    m.find key = some BasePtr.root ∨
      ∃ n ∈ m.list.nodes, m.find key = some (BasePtr.node n.addr) ∧
        n.value.element.1 = key := by
  unfold UnorderedMap.find
  by_cases hne : m.buckets = []
  · exact Or.inl (by simp [hne])
  · have hlt := bucket_lt hne (m.hash key)
    have hp : m.buckets[m.hash key % m.buckets.length]? =
        some (m.buckets[m.hash key % m.buckets.length]) := by
      simp [List.getElem?_eq_getElem hlt]
    rcases hw.head_live _ _ hp with h0 | ⟨n, hn, hpn, _⟩
    · rw [h0] at hp
      exact Or.inl (by simp [hne, hp, UnorderedMap.bucketId])
    · rw [hpn] at hp
      obtain ⟨s, hs⟩ := nodes_from_of_mem hn
      simp only [hne, if_false, UnorderedMap.bucketId, hp, hs, Option.map_some']
      rcases find_loop_root_or_node m.buckets.length (m.hash key % m.buckets.length) key s with
        h1 | ⟨a, ha⟩
      · exact Or.inl (by rw [h1])
      · obtain ⟨n', hn', hna, hnk, _⟩ := find_loop_eq_node ha
        exact Or.inr ⟨n', nodes_from_subset hs n' hn', by rw [ha, hna], hnk⟩

theorem find_complete [DecidableEq K] {m : UnorderedMap K V} (hi : Inv m)
    {n : TemplateNode (HashedNode K V)} (hn : n ∈ m.list.nodes) :
    ∃ n' ∈ m.list.nodes, m.find n.value.element.1 = some (BasePtr.node n'.addr) ∧
      n'.value.element.1 = n.value.element.1 := by
  have hne : m.buckets ≠ [] := hi.buckets_ne (List.ne_nil_of_mem hn)
  have hlt := bucket_lt hne (m.hash n.value.element.1)
  have hnb : n.value.hash % m.buckets.length = m.hash n.value.element.1 % m.buckets.length := by
    rw [hi.hash_eq n hn]
  have hp := hi.heads _ hlt
  rcases first_in_null_or_node m.buckets.length
      (m.hash n.value.element.1 % m.buckets.length) m.list.nodes with h0 | ⟨a, ha⟩
  · exact absurd hnb (first_in_eq_null h0 n hn)
  · obtain ⟨s, hs, hcs, hhead, hall⟩ := nodes_from_first_in hi.addr_nodup hi.contiguous ha
    obtain ⟨a', ha'⟩ := find_loop_complete n.value.element.1 hcs hhead
      (hall n hn hnb) hnb rfl
    obtain ⟨n', hn', hna, hnk, _⟩ := find_loop_eq_node ha'
    refine ⟨n', nodes_from_subset hs n' hn', ?_, hnk⟩
    rw [ha] at hp
    simp [UnorderedMap.find, hne, UnorderedMap.bucketId, hp, hs, ha', hna]

theorem deref_of_mem {m : UnorderedMap K V} (hw : WF m)
    {n : TemplateNode (HashedNode K V)} (hn : n ∈ m.list.nodes) :
    m.deref (BasePtr.node n.addr) = some n.value.element := by
  simp [UnorderedMap.deref, node_at_of_mem hw.addr_nodup hn]

theorem mem_entries {m : UnorderedMap K V} {n : TemplateNode (HashedNode K V)}
    (hn : n ∈ m.list.nodes) : n.value.element ∈ m.entries :=
  List.mem_map_of_mem (fun n => n.value.element) hn

theorem mem_keys {m : UnorderedMap K V} {n : TemplateNode (HashedNode K V)}
    (hn : n ∈ m.list.nodes) : n.value.element.1 ∈ m.keys :=
  List.mem_map_of_mem (fun n => n.value.element.1) hn

end UMap

/-! ## Linking a node -/

namespace UMap

variable {K V : Type}

theorem IsLinked.length {m m2 : UnorderedMap K V} {e : K × V} (hl : IsLinked m e m2) :
    m2.list.nodes.length = m.list.nodes.length + 1 := by
  rw [hl.2.2.2.2.2.1.length_eq, List.length_cons]

theorem IsLinked.buckets_length {m m2 : UnorderedMap K V} {e : K × V}
    (hl : IsLinked m e m2) : m2.buckets.length = m.buckets.length := by
  rw [hl.2.2.1, List.length_set]

theorem IsLinked.entries_perm {m m2 : UnorderedMap K V} {e : K × V} (hl : IsLinked m e m2) :
    m2.entries.Perm (e :: m.entries) := by
  have h := hl.2.2.2.2.2.1.map (fun n : TemplateNode (HashedNode K V) => n.value.element)
  simpa [UnorderedMap.entries] using h

theorem IsLinked.mem_nodes {m m2 : UnorderedMap K V} {e : K × V} (hl : IsLinked m e m2)
    {n : TemplateNode (HashedNode K V)} :
    n ∈ m2.list.nodes ↔
      n = { addr := m.list.alloc, value := { element := e, hash := m.hash e.1 } } ∨
        n ∈ m.list.nodes := by
  rw [hl.2.2.2.2.2.1.mem_iff, List.mem_cons]

theorem IsLinked.wf {m m2 : UnorderedMap K V} {e : K × V} (hw : WF m)
    (hne : m.buckets ≠ []) (hl : IsLinked m e m2) : WF m2 := by
  have hmem := @IsLinked.mem_nodes _ _ _ _ _ hl
  have hlength := hl.length
  have hblen := hl.buckets_length
  obtain ⟨hh, _, hb, ha, hs, hp, _, _⟩ := hl
  refine ⟨?_, ?_, ?_, ?_, ?_, ?_⟩
  · rw [hs, hlength, hw.size_eq]
  · have h1 := (hp.map TemplateNode.addr).nodup_iff
    rw [h1, List.map_cons, List.nodup_cons]
    refine ⟨?_, hw.addr_nodup⟩
    intro hin
    obtain ⟨x, hx, hxa⟩ := List.mem_map.1 hin
    have := hw.addr_lt x hx
    simp only at hxa
    omega
  · intro n hn
    rw [ha]
    rcases hmem.1 hn with rfl | h'
    · exact Nat.lt_succ_self _
    · exact Nat.lt_succ_of_lt (hw.addr_lt n h')
  · intro n hn
    rw [hh]
    rcases hmem.1 hn with rfl | h'
    · rfl
    · exact hw.hash_eq n h'
  · intro _ hnil
    rw [hb] at hnil
    exact hne (by simpa using hnil)
  · intro b p hbp
    rw [hblen]
    rw [hb, List.getElem?_set] at hbp
    by_cases hbb : m.hash e.1 % m.buckets.length = b
    · have hlt := bucket_lt hne (m.hash e.1)
      simp only [hbb, if_true] at hbp
      rw [hbb] at hlt
      simp only [hlt, if_true, Option.some.injEq] at hbp
      refine Or.inr ⟨_, hmem.2 (Or.inl rfl), hbp.symm, ?_⟩
      exact hbb
    · simp only [hbb, if_false] at hbp
      rcases hw.head_live b p hbp with h0 | ⟨n, hn, hpn, hnb⟩
      · exact Or.inl h0
      · exact Or.inr ⟨n, hmem.2 (Or.inr hn), hpn, hnb⟩

theorem IsLinked.inv {m m2 : UnorderedMap K V} {e : K × V} (hi : Inv m)
    (hne : m.buckets ≠ []) (hl : IsLinked m e m2) : Inv m2 := by
  have hw2 := hl.wf hi.toWF hne
  have hlen := hl.buckets_length
  obtain ⟨_, _, hb, _, _, _, _, hplace⟩ := hl
  have hnodes := hplace hi
  refine ⟨hw2, ?_, ?_⟩
  · intro b hblt
    rw [hlen] at hblt ⊢
    rw [hnodes, first_in_place, hb, List.getElem?_set]
    by_cases hbb : m.hash e.1 % m.buckets.length = b
    · have hlt := bucket_lt hne (m.hash e.1)
      rw [hbb] at hlt
      simp [hbb, hlt]
    · simp only [hbb, if_false]
      exact hi.heads b hblt
  · rw [hlen, hnodes]
    exact contiguous_place _ hi.contiguous

theorem IsLinked.find_new [DecidableEq K] {m m2 : UnorderedMap K V} {e : K × V}
    (hne : m.buckets ≠ []) (hl : IsLinked m e m2) :
    m2.find e.1 = some (BasePtr.node m.list.alloc) := by
  have hlen := hl.buckets_length
  obtain ⟨hh, _, hb, _, _, _, ⟨s, hs⟩, _⟩ := hl
  have hne2 : m2.buckets ≠ [] := by
    intro hnil
    rw [hb] at hnil
    exact hne (by simpa using hnil)
  have hlt := bucket_lt hne (m.hash e.1)
  have hp : m2.buckets[m.hash e.1 % m.buckets.length]? =
      some (BasePtr.node m.list.alloc) := by
    rw [hb, List.getElem?_set]
    simp [hlt]
  simp [UnorderedMap.find, hne2, hp, hs, UnorderedMap.find_loop, UnorderedMap.bucketId, hlen, hh]

theorem IsLinked.deref_new {m m2 : UnorderedMap K V} {e : K × V} (hw : WF m)
    (hne : m.buckets ≠ []) (hl : IsLinked m e m2) :
    m2.deref (BasePtr.node m.list.alloc) = some e := by
  have hw2 := hl.wf hw hne
  have h := deref_of_mem hw2 (hl.mem_nodes.2 (Or.inl rfl))
  simpa using h

/-! ## The cases of `insert_impl` -/

theorem insert_main_cases [DecidableEq K]
    (R : UnorderedMap K V → Nat → Option (UnorderedMap K V)) {m : UnorderedMap K V}
    (hw : WF m) (hne : m.buckets ≠ []) (e : K × V) :
    (∃ n ∈ m.list.nodes, n.value.element.1 = e.1 ∧
      UnorderedMap.insert_main R m e = some (m, BasePtr.node n.addr, false)) ∨
    (∃ m2, IsLinked m e m2 ∧
      UnorderedMap.insert_main R m e =
        UnorderedMap.insert_finish R m2 (m.hash e.1 % m.buckets.length)) := by
  have hlt := bucket_lt hne (m.hash e.1)
  have hp : m.buckets[m.hash e.1 % m.buckets.length]? =
      some (m.buckets[m.hash e.1 % m.buckets.length]) := by
    simp [List.getElem?_eq_getElem hlt]
  have hfresh : ∀ x ∈ m.list.nodes, x.addr ≠
      (⟨m.list.alloc, ⟨e, m.hash e.1⟩⟩ : TemplateNode (HashedNode K V)).addr := by
    intro x hx
    exact Nat.ne_of_lt (hw.addr_lt x hx)
  rcases hw.head_live _ _ hp with h0 | ⟨n, hn, hpn, _⟩
  · rw [h0] at hp
    right
    refine ⟨{ m with
        list := { nodes := m.list.nodes ++ [⟨m.list.alloc, ⟨e, m.hash e.1⟩⟩],
                  list_size := m.list.list_size + 1, alloc := m.list.alloc + 1 },
        buckets := m.buckets.set (m.hash e.1 % m.buckets.length)
          (BasePtr.node m.list.alloc) }, ?_, ?_⟩
    · refine ⟨rfl, rfl, rfl, rfl, rfl, List.perm_append_singleton _ _,
        ⟨[], append_nodes_from hfresh⟩, ?_⟩
      intro hi
      have hh := hi.heads _ hlt
      rw [hp] at hh
      have hnull := first_in_eq_null (Option.some.inj hh).symm
      exact (place_eq_append _ hnull).symm
    · simp [UnorderedMap.insert_main, hne, hp, ListT.insert, ListT.end,
        UnorderedMap.bucketId]
  · rw [hpn] at hp
    obtain ⟨s, hs⟩ := nodes_from_of_mem hn
    cases hloop : UnorderedMap.insert_loop (m.hash e.1) e.1 s with
    | some found =>
      left
      obtain ⟨n', hn', hna, hnk⟩ := insert_loop_eq_some hloop
      refine ⟨n', nodes_from_subset hs n' hn', hnk, ?_⟩
      simp [UnorderedMap.insert_main, hne, UnorderedMap.bucketId, hp, hs, hloop, hna]
    | none =>
      right
      obtain ⟨r, hr⟩ := link_before_of_mem
        (⟨m.list.alloc, ⟨e, m.hash e.1⟩⟩ : TemplateNode (HashedNode K V)) hn
      refine ⟨{ m with
          list := { nodes := r, list_size := m.list.list_size + 1,
                    alloc := m.list.alloc + 1 },
          buckets := m.buckets.set (m.hash e.1 % m.buckets.length)
            (BasePtr.node m.list.alloc) }, ?_, ?_⟩
      · refine ⟨rfl, rfl, rfl, rfl, rfl, link_before_perm hr,
          link_before_nodes_from hfresh hr, ?_⟩
        intro hi
        have hh := hi.heads _ hlt
        rw [hp] at hh
        have hpl := link_before_eq_place (B := m.buckets.length)
          (⟨m.list.alloc, ⟨e, m.hash e.1⟩⟩ : TemplateNode (HashedNode K V))
          hi.addr_nodup (Option.some.inj hh).symm
        rw [hr] at hpl
        exact Option.some.inj hpl
      · simp [UnorderedMap.insert_main, hne, hp, hs, hloop, ListT.insert, hr,
          UnorderedMap.bucketId]

end UMap

/-! ## Kept entries -/

namespace UMap

variable {K V : Type}

theorem Retained.refl (l : List (K × V)) : Retained l l :=
  ⟨List.Subperm.refl l, fun x hx => ⟨x, hx, rfl⟩⟩

theorem Retained.of_perm {inp out : List (K × V)} (h : out.Perm inp) : Retained inp out :=
  ⟨h.subperm, fun x hx => ⟨x, h.mem_iff.2 hx, rfl⟩⟩

theorem Retained.trans {a b c : List (K × V)} (h1 : Retained a b) (h2 : Retained b c) :
    Retained a c := by
  refine ⟨h2.1.trans h1.1, ?_⟩
  intro x hx
  obtain ⟨y, hy, hyx⟩ := h1.2 x hx
  obtain ⟨z, hz, hzy⟩ := h2.2 y hy
  exact ⟨z, hz, hzy.trans hyx⟩

theorem Retained.drop_present {l : List (K × V)} {e : K × V}
    (h : ∃ y ∈ l, y.1 = e.1) : Retained (e :: l) l := by
  refine ⟨(List.sublist_cons_self e l).subperm, ?_⟩
  intro x hx
  rcases List.mem_cons.1 hx with rfl | h'
  · exact h
  · exact ⟨x, h', rfl⟩

theorem Retained.append_right {a b : List (K × V)} (r : List (K × V)) (h : Retained a b) :
    Retained (a ++ r) (b ++ r) := by
  refine ⟨(List.subperm_append_right r).2 h.1, ?_⟩
  intro x hx
  rcases List.mem_append.1 hx with h1 | h2
  · obtain ⟨y, hy, hyx⟩ := h.2 x h1
    exact ⟨y, List.mem_append_left _ hy, hyx⟩
  · exact ⟨x, List.mem_append_right _ h2, rfl⟩

theorem Retained.cons {a b : List (K × V)} (e : K × V) (h : Retained a b) :
    Retained (e :: a) (e :: b) := by
  refine ⟨(List.subperm_cons e).2 h.1, ?_⟩
  intro x hx
  rcases List.mem_cons.1 hx with rfl | h'
  · exact ⟨x, List.mem_cons_self _ _, rfl⟩
  · obtain ⟨y, hy, hyx⟩ := h.2 x h'
    exact ⟨y, List.mem_cons_of_mem _ hy, hyx⟩

theorem Retained.perm_left {a a' b : List (K × V)} (hp : a.Perm a') (h : Retained a b) :
    Retained a' b := by
  refine ⟨(hp.subperm_left).1 h.1, ?_⟩
  intro x hx
  exact h.2 x (hp.mem_iff.2 hx)

theorem Retained.length_le {a b : List (K × V)} (h : Retained a b) : b.length ≤ a.length :=
  h.1.length_le

/-- When the keys are pairwise distinct, every entry is kept. -/
theorem Retained.perm_of_nodup {inp out : List (K × V)} (h : Retained inp out)
    (hnd : (inp.map Prod.fst).Nodup) : out.Perm inp := by
  have hinj : ∀ x ∈ inp, ∀ y ∈ inp, x.1 = y.1 → x = y :=
    List.inj_on_of_nodup_map hnd
  have hsub : inp ⊆ out := by
    intro x hx
    obtain ⟨y, hy, hyx⟩ := h.2 x hx
    have hyin : y ∈ inp := h.1.subset hy
    have := hinj y hyin x hx hyx
    exact this ▸ hy
  exact h.1.antisymm ((List.Nodup.of_map _ hnd).subperm hsub)

/-- An entry whose key no other entry carries is kept, and stays the only one
with its key. -/
theorem Retained.mem_of_unique {inp out : List (K × V)} (h : Retained inp out)
    {e : K × V} (he : e ∈ inp) (huniq : ∀ x ∈ inp, x.1 = e.1 → x = e) :
    e ∈ out ∧ ∀ y ∈ out, y.1 = e.1 → y = e := by
  have hall : ∀ y ∈ out, y.1 = e.1 → y = e := fun y hy hk => huniq y (h.1.subset hy) hk
  obtain ⟨y, hy, hyk⟩ := h.2 e he
  exact ⟨hall y hy hyk ▸ hy, hall⟩

/-! ## The cleared table and the load bound -/

theorem cleared_inv (m : UnorderedMap K V) (c : Nat) : Inv (cleared m c) := by
  refine ⟨⟨rfl, List.nodup_nil, ?_, ?_, ?_, ?_⟩, ?_, trivial⟩
  · intro n hn; cases hn
  · intro n hn; cases hn
  · intro h; exact absurd rfl h
  · intro b p hbp
    left
    simp only [cleared, List.getElem?_replicate] at hbp
    split at hbp
    · exact (Option.some.inj hbp).symm
    · cases hbp
  · intro b hb
    simp only [cleared, List.length_replicate] at hb ⊢
    simp [List.getElem?_replicate, hb, first_in]

theorem cleared_loadOk (m : UnorderedMap K V) (c : Nat) (h : 0 < m.max_load_factor_value) :
    LoadOk (cleared m c) := by
  unfold LoadOk
  rw [load_factor_eq]
  have : (cleared m c).size = 0 := rfl
  rw [this, load_of_zero]
  exact h.le

theorem loadOk_of_not_gt {m : UnorderedMap K V}
    (h : ¬ m.load_factor > m.max_load_factor) : LoadOk m :=
  not_lt.1 h

theorem not_fits_of_gt {m : UnorderedMap K V}
    (h : m.load_factor > m.max_load_factor) :
    ¬ Fits m.max_load_factor_value m.size m.buckets.length :=
  not_le.2 h

theorem fits_of_loadOk {m : UnorderedMap K V} (h : LoadOk m) :
    Fits m.max_load_factor_value m.size m.buckets.length := h

end UMap

/-! ## `insert_impl` and `rehash` complete -/

namespace UMap

variable {K V : Type}

theorem insert_body_of_buckets [DecidableEq K]
    (R : UnorderedMap K V → Nat → Option (UnorderedMap K V)) {m : UnorderedMap K V}
    (hne : m.buckets ≠ []) (e : K × V) :
    UnorderedMap.insert_body R m e = UnorderedMap.insert_main R m e := by
  simp [UnorderedMap.insert_body, hne]

theorem insert_main_spec [DecidableEq K]
    {R : UnorderedMap K V → Nat → Option (UnorderedMap K V)} {m : UnorderedMap K V}
    {N c : Nat} (hw : WF m) (hc1 : 1 ≤ c) (hc : c ≤ m.buckets.length)
    (hN : m.list.nodes.length + 1 ≤ N) (hR : Grows R N c m.max_load_factor_value)
    (e : K × V) :
    ∃ r, UnorderedMap.insert_main R m e = some r ∧ InsertPost m e r := by
  have hne : m.buckets ≠ [] := List.length_pos.1 (by omega)
  have hlt := bucket_lt hne (m.hash e.1)
  rcases insert_main_cases R hw hne e with ⟨n, hn, hnk, hres⟩ | ⟨m2, hl, hres⟩
  · exact ⟨_, hres, Or.inl ⟨rfl, rfl, n, hn, rfl, hnk⟩⟩
  · have hblen := hl.buckets_length
    by_cases hload : m2.load_factor > m2.max_load_factor
    · obtain ⟨m1, hm1, hpost⟩ := hR m2 (hl.wf hw hne) hl.2.1 (by omega)
        (by rw [hl.length]; exact hN) hload
      have hb1 : m.hash e.1 % m.buckets.length < m1.buckets.length := by
        have := hpost.2.2.2.1
        omega
      refine ⟨(m1, m1.buckets[m.hash e.1 % m.buckets.length], true), ?_,
        Or.inr (Or.inr ⟨rfl, m2, hl, hload, hpost, ?_⟩)⟩
      · rw [hres]
        simp [UnorderedMap.insert_finish, hload, hm1, List.getElem?_eq_getElem hb1]
      · simp [List.getElem?_eq_getElem hb1]
    · have hhead : m2.buckets[m.hash e.1 % m.buckets.length]? =
          some (BasePtr.node m.list.alloc) := by
        rw [hl.2.2.1, List.getElem?_set]
        simp [hlt]
      refine ⟨(m2, BasePtr.node m.list.alloc, true), ?_,
        Or.inr (Or.inl ⟨rfl, hl, hload, rfl⟩)⟩
      rw [hres]
      simp [UnorderedMap.insert_finish, hload, hhead]

/-- What every case of a completed `insert_impl` has in common. -/
theorem InsertPost.summary {m : UnorderedMap K V} {e : K × V}
    {r : UnorderedMap K V × BasePtr × Bool} (hw : WF m) (hne : m.buckets ≠ [])
    (hp : InsertPost m e r) :
    WF r.1 ∧ (Inv m → Inv r.1) ∧ r.1.hash = m.hash ∧
    r.1.max_load_factor_value = m.max_load_factor_value ∧
    m.buckets.length ≤ r.1.buckets.length ∧
    r.1.list.nodes.length ≤ m.list.nodes.length + 1 ∧
    Retained (e :: m.entries) r.1.entries ∧
    (LoadOk m ∨ r.2.2 = true → LoadOk r.1) ∧ m.list.alloc ≤ r.1.list.alloc := by
  rcases hp with ⟨hf, hm, n, hn, _, hnk⟩ | ⟨_, hl, hload, _⟩ | ⟨_, m2, hl, _, hpost, _⟩
  · rw [hm]
    refine ⟨hw, id, rfl, rfl, le_refl _, Nat.le_succ _, ?_, ?_, le_refl _⟩
    · exact Retained.drop_present ⟨_, mem_entries hn, hnk⟩
    · rintro (h | h)
      · exact h
      · rw [hf] at h
        cases h
  · have hne1 : r.1.buckets ≠ [] := by
      intro hnil
      have := hl.buckets_length
      rw [hnil] at this
      exact hne (List.length_eq_zero.1 this.symm)
    refine ⟨hl.wf hw hne, fun hi => hl.inv hi hne, hl.1, hl.2.1, ?_, ?_, ?_, ?_, ?_⟩
    · rw [hl.buckets_length]
    · rw [hl.length]
    · exact Retained.of_perm hl.entries_perm
    · intro _
      exact loadOk_of_not_gt hload
    · rw [hl.2.2.2.1]
      exact Nat.le_succ _
  · obtain ⟨hi1, hh1, hm1, hb1, hlo1, hret1, ha1⟩ := hpost
    refine ⟨hi1.toWF, fun _ => hi1, hh1.trans hl.1, hm1.trans hl.2.1, ?_, ?_, ?_,
      fun _ => hlo1, ?_⟩
    · have := hl.buckets_length
      omega
    · have h1 := hret1.length_le
      simp only [UnorderedMap.entries, List.length_map] at h1
      rw [hl.length] at h1
      exact h1
    · exact (Retained.of_perm hl.entries_perm).trans hret1
    · rw [hl.2.2.2.1] at ha1
      omega

theorem insert_fold_spec [DecidableEq K]
    {R : UnorderedMap K V → Nat → Option (UnorderedMap K V)} {N c : Nat} {mlf : ℚ}
    (hc1 : 1 ≤ c) (hR : Grows R N c mlf) :
    ∀ (es : List (K × V)) (acc : UnorderedMap K V), Inv acc →
      acc.max_load_factor_value = mlf → c ≤ acc.buckets.length →
      acc.list.nodes.length + es.length ≤ N → LoadOk acc →
      ∃ m1, es.foldlM (fun a e => (UnorderedMap.insert_body R a e).map Prod.fst) acc =
          some m1 ∧
        Inv m1 ∧ m1.hash = acc.hash ∧ m1.max_load_factor_value = mlf ∧
        acc.buckets.length ≤ m1.buckets.length ∧ LoadOk m1 ∧
        Retained (acc.entries ++ es) m1.entries ∧ acc.list.alloc ≤ m1.list.alloc := by
  intro es
  induction es with
  | nil =>
    intro acc hi hm _ _ hlo
    refine ⟨acc, rfl, hi, rfl, hm, le_refl _, hlo, ?_, le_refl _⟩
    rw [List.append_nil]
    exact Retained.refl _
  | cons e es ih =>
    intro acc hi hm hc hN hlo
    have hne : acc.buckets ≠ [] := List.length_pos.1 (by omega)
    rw [List.length_cons] at hN
    obtain ⟨r, hr, hpost⟩ := insert_main_spec (R := R) (N := N) (c := c) hi.toWF hc1 hc
      (by omega) (hm ▸ hR) e
    obtain ⟨_, hinv, hh, hmm, hb, hlen, hret, hload, ha⟩ := hpost.summary hi.toWF hne
    obtain ⟨m1, hm1, hi1, hh1, hmlf1, hb1, hlo1, hret1, ha1⟩ :=
      ih r.1 (hinv hi) (hmm.trans hm) (by omega) (by omega) (hload (Or.inl hlo))
    refine ⟨m1, ?_, hi1, hh1.trans hh, hmlf1, by omega, hlo1, ?_, by omega⟩
    · rw [List.foldlM_cons, insert_body_of_buckets R hne, hr]
      exact hm1
    · have h1 : Retained (e :: acc.entries ++ es) (r.1.entries ++ es) :=
        Retained.append_right es hret
      have h2 : (e :: acc.entries ++ es).Perm (acc.entries ++ e :: es) := by
        simpa using (@List.perm_middle _ e acc.entries es).symm
      exact (h1.perm_left h2).trans hret1

theorem grows_of_le {R : UnorderedMap K V → Nat → Option (UnorderedMap K V)} {N c : Nat}
    {mlf : ℚ} (hc1 : 1 ≤ c) (hN : Fits mlf N c) : Grows R N c mlf := by
  intro m2 hw hm hc hlen hload
  exfalso
  have h1 := not_fits_of_gt hload
  rw [hm, UnorderedMap.size, ListT.size, hw.size_eq] at h1
  exact h1 (fits_mono hN hlen hc hc1)

theorem pow_bucket_le {c B : Nat} (hc : c ≤ B) (F : Nat) :
    c * 2 ^ (F + 1) ≤ 2 * B * 2 ^ F := by
  rw [pow_succ]
  have : c * (2 ^ F * 2) = 2 * c * 2 ^ F := by ring
  rw [this]
  exact Nat.mul_le_mul_right _ (Nat.mul_le_mul_left _ hc)

theorem grows_of_spec {R : UnorderedMap K V → Nat → Option (UnorderedMap K V)} {N c F : Nat}
    {mlf : ℚ} (hc1 : 1 ≤ c) (hmlf : 0 < mlf) (hR : RehashSpec R F)
    (hN : Fits mlf N (c * 2 ^ (F + 1))) : Grows R N c mlf := by
  intro m2 hw2 hm hc hlen _
  refine hR m2 (2 * m2.buckets.length) hw2.size_eq (hm ▸ hmlf) (by omega) ?_
  rw [hm]
  exact fits_mono hN hlen (pow_bucket_le hc F)
    (Nat.one_le_iff_ne_zero.2 (by have := Nat.pos_of_ne_zero (pow_ne_zero (F + 1) (two_ne_zero)); positivity))

theorem rehash_succ [DecidableEq K] (fuel : Nat) {m : UnorderedMap K V}
    (hs : m.list.list_size = m.list.nodes.length) (c : Nat) :
    UnorderedMap.rehash (fuel + 1) m c =
      m.entries.foldlM
        (fun a e => (UnorderedMap.insert_body (UnorderedMap.rehash fuel) a e).map Prod.fst)
        (cleared m c) := by
  simp only [UnorderedMap.rehash, move_construct_eq hs, Option.some_bind,
    UnorderedMap.entries, List.foldlM_map, cleared]

/-- With `max_load_factor > 0` and `c >= 1`, `rehash(c)` completes within a
recursion depth of `F + 1` whenever the nodes fit into `c * 2^F` buckets, and
re-establishes head correctness, chain
contiguity and the load bound. -/
theorem rehash_spec [DecidableEq K] :
    ∀ (F fuel : Nat), F + 1 ≤ fuel →
      RehashSpec (UnorderedMap.rehash fuel : UnorderedMap K V → Nat → Option _) F := by
  intro F
  induction F with
  | zero =>
    intro fuel hfuel m c hs hmlf hc1 hN
    obtain ⟨fuel', rfl⟩ : ∃ f, fuel = f + 1 := ⟨fuel - 1, by omega⟩
    rw [rehash_succ fuel' hs]
    have hg : Grows (UnorderedMap.rehash fuel' : UnorderedMap K V → Nat → Option _)
        m.list.nodes.length c m.max_load_factor_value := grows_of_le hc1 (by simpa using hN)
    obtain ⟨m1, hm1, hi1, hh1, hmlf1, hb1, hlo1, hret1, ha1⟩ :=
      insert_fold_spec hc1 hg m.entries (cleared m c) (cleared_inv m c) rfl
        (by simp [cleared]) (by simp [cleared, UnorderedMap.entries])
        (cleared_loadOk m c hmlf)
    refine ⟨m1, hm1, hi1, hh1, hmlf1, ?_, hlo1, ?_, ha1⟩
    · simpa [cleared] using hb1
    · simpa [cleared, UnorderedMap.entries] using hret1
  | succ F ih =>
    intro fuel hfuel m c hs hmlf hc1 hN
    obtain ⟨fuel', rfl⟩ : ∃ f, fuel = f + 1 := ⟨fuel - 1, by omega⟩
    rw [rehash_succ fuel' hs]
    have hg : Grows (UnorderedMap.rehash fuel' : UnorderedMap K V → Nat → Option _)
        m.list.nodes.length c m.max_load_factor_value := grows_of_spec hc1 hmlf (ih fuel' (by omega)) hN
    obtain ⟨m1, hm1, hi1, hh1, hmlf1, hb1, hlo1, hret1, ha1⟩ :=
      insert_fold_spec hc1 hg m.entries (cleared m c) (cleared_inv m c) rfl
        (by simp [cleared]) (by simp [cleared, UnorderedMap.entries])
        (cleared_loadOk m c hmlf)
    refine ⟨m1, hm1, hi1, hh1, hmlf1, ?_, hlo1, ?_, ha1⟩
    · simpa [cleared] using hb1
    · simpa [cleared, UnorderedMap.entries] using hret1

end UMap

/-! ## `insert` on a well-formed table -/

namespace UMap

variable {K V : Type}

theorem rehash_nil [DecidableEq K] (fuel : Nat) {m : UnorderedMap K V}
    (hs : m.list.list_size = m.list.nodes.length) (h : m.list.nodes = []) (c : Nat) :
    UnorderedMap.rehash (fuel + 1) m c = some (cleared m c) := by
  rw [rehash_succ fuel hs]
  simp [UnorderedMap.entries, h]

theorem exists_pow_bound {mlf : ℚ} (hmlf : 0 < mlf) (n : Nat) :
    ∃ F : Nat, Fits mlf n (2 ^ F) := by
  obtain ⟨F, hF⟩ := exists_fits hmlf (le_refl 1) n
  exact ⟨F, by simpa using hF⟩

theorem one_le_two_pow (F : Nat) : 1 ≤ 2 ^ F := Nat.one_le_two_pow

theorem pow_le_bucket {B : Nat} (hB : 1 ≤ B) (F : Nat) : 2 ^ F ≤ B * 2 ^ (F + 1) := by
  rw [pow_succ]
  calc 2 ^ F = 1 * 2 ^ F := (Nat.one_mul _).symm
    _ ≤ B * (2 ^ F * 2) := by
        apply Nat.mul_le_mul hB
        omega

theorem prepared_buckets_ne (m : UnorderedMap K V) : (prepared m).buckets ≠ [] := by
  unfold prepared
  by_cases h : m.buckets = []
  · simp [h, cleared, default_bucket_count]
  · simp [h]

theorem prepared_fields {m : UnorderedMap K V} (hw : WF m) :
    WF (prepared m) ∧ (prepared m).list.nodes = m.list.nodes ∧
    (prepared m).hash = m.hash ∧
    (prepared m).max_load_factor_value = m.max_load_factor_value ∧
    (prepared m).list.alloc = m.list.alloc ∧ (prepared m).list.list_size = m.list.list_size := by
  unfold prepared
  by_cases h : m.buckets = []
  · have hn : m.list.nodes = [] := by
      by_contra hne
      exact hw.buckets_ne hne h
    have hs := hw.size_eq
    rw [hn] at hs
    rw [if_pos h]
    exact ⟨(cleared_inv m _).toWF, hn.symm, rfl, rfl, rfl, hs.symm⟩
  · rw [if_neg h]
    exact ⟨hw, rfl, rfl, rfl, rfl, rfl⟩

theorem insert_body_prepared [DecidableEq K] (fuel : Nat) {m : UnorderedMap K V}
    (hw : WF m) (e : K × V) :
    UnorderedMap.insert_body (UnorderedMap.rehash (fuel + 1)) m e =
      UnorderedMap.insert_main (UnorderedMap.rehash (fuel + 1)) (prepared m) e := by
  unfold prepared
  by_cases h : m.buckets = []
  · have hn : m.list.nodes = [] := by
      by_contra hne
      exact hw.buckets_ne hne h
    simp [UnorderedMap.insert_body, h, rehash_nil fuel hw.size_eq hn]
  · simp [UnorderedMap.insert_body, h]

/-- On a well-formed table with a positive `max_load_factor`, `insert` completes
once the recursion budget exceeds `F`, where `size() + 1` entries fit into `2^F`
buckets. -/
theorem insert_spec [DecidableEq K] {m : UnorderedMap K V} (hw : WF m)
    (hmlf : 0 < m.max_load_factor_value) (e : K × V) {F fuel : Nat} (hfuel : F + 1 ≤ fuel)
    (hF : Fits m.max_load_factor_value (m.list.nodes.length + 1) (2 ^ F)) :
    ∃ r, m.insert fuel e = some r ∧ InsertPost (prepared m) e r := by
  obtain ⟨fuel', rfl⟩ : ∃ f, fuel = f + 1 := ⟨fuel - 1, by omega⟩
  obtain ⟨hwp, hnodes, _, hmp, _, _⟩ := prepared_fields hw
  have hne := prepared_buckets_ne m
  have hc1 : 1 ≤ (prepared m).buckets.length := List.length_pos.2 hne
  have hg : Grows (UnorderedMap.rehash (fuel' + 1) : UnorderedMap K V → Nat → Option _)
      (m.list.nodes.length + 1) (prepared m).buckets.length
      (prepared m).max_load_factor_value := by
    refine grows_of_spec hc1 (hmp ▸ hmlf) (rehash_spec F (fuel' + 1) hfuel) ?_
    rw [hmp]
    exact fits_mono hF (le_refl _) (pow_le_bucket hc1 F) (one_le_two_pow F)
  have := insert_main_spec (R := UnorderedMap.rehash (fuel' + 1)) hwp hc1 (le_refl _)
    (by rw [hnodes]) hg e
  simpa [UnorderedMap.insert, UnorderedMap.insert_impl, insert_body_prepared fuel' hw]
    using this

theorem at_of_find_node [DecidableEq K] {m : UnorderedMap K V} {key : K} {a : Nat}
    {e : K × V} (hf : m.find key = some (BasePtr.node a))
    (hd : m.deref (BasePtr.node a) = some e) : m.at_ key = some (Except.ok e.2) := by
  simp [UnorderedMap.at_, hf, hd, ListT.end]

theorem at_of_find_root [DecidableEq K] {m : UnorderedMap K V} {key : K}
    (hf : m.find key = some BasePtr.root) :
    m.at_ key = some (Except.error UnorderedMapAtKeyNotFoundException.mk) := by
  simp [UnorderedMap.at_, hf, ListT.end]

end UMap

/-! ## Sequences of inserts -/

namespace UMap

variable {K V : Type}

theorem prepared_inv {m : UnorderedMap K V} (hi : Inv m) : Inv (prepared m) := by
  unfold prepared
  by_cases h : m.buckets = []
  · rw [if_pos h]
    exact cleared_inv m _
  · rw [if_neg h]
    exact hi

theorem insert_all_prepared [DecidableEq K] (fuel : Nat) {m : UnorderedMap K V} (hw : WF m)
    (e : K × V) (es : List (K × V)) :
    m.insert_all (fuel + 1) (e :: es) = (prepared m).insert_all (fuel + 1) (e :: es) := by
  simp only [UnorderedMap.insert_all, List.foldlM_cons, UnorderedMap.insert,
    UnorderedMap.insert_impl]
  rw [insert_body_prepared fuel hw, insert_body_of_buckets _ (prepared_buckets_ne m)]

theorem construct_succ [DecidableEq K] (fuel bucket_count : Nat) (hash : K → Nat) :
    (UnorderedMap.construct (fuel + 1) bucket_count hash : Option (UnorderedMap K V)) =
      some (cleared (UnorderedMap.default_constructed hash) bucket_count) :=
  rehash_nil fuel rfl rfl bucket_count

/-- The properties of the table that a sequence of inserts of pairwise distinct
keys into an empty table with correct heads yields. -/
theorem insert_all_distinct [DecidableEq K] {t0 : UnorderedMap K V} (hi : Inv t0)
    (hempty : t0.list.nodes = []) (hmlf : 0 < t0.max_load_factor_value)
    (elements : List (K × V)) (hnd : (elements.map Prod.fst).Nodup) (F fuel : Nat)
    (hfuel : F + 2 ≤ fuel)
    (hF : Fits t0.max_load_factor_value elements.length (2 ^ F)) :
    ∃ t, t0.insert_all fuel elements = some t ∧ Inv t ∧ t.entries.Perm elements := by
  cases elements with
  | nil =>
    refine ⟨t0, rfl, hi, ?_⟩
    simp [UnorderedMap.entries, hempty]
  | cons e es =>
    obtain ⟨fuel', rfl⟩ : ∃ f, fuel = f + 1 := ⟨fuel - 1, by omega⟩
    rw [insert_all_prepared fuel' hi.toWF]
    obtain ⟨_, hnodes, _, hmp, _, hsize⟩ := prepared_fields hi.toWF
    have hne := prepared_buckets_ne t0
    have hc1 : 1 ≤ (prepared t0).buckets.length := List.length_pos.2 hne
    have hlo : LoadOk (prepared t0) := by
      have hs : (prepared t0).size = 0 := by
        rw [UnorderedMap.size, ListT.size, hsize, hi.size_eq, hempty, List.length_nil]
      rw [LoadOk, load_factor_eq, hs, load_of_zero, UnorderedMap.max_load_factor, hmp]
      exact hmlf.le
    have hg : Grows (UnorderedMap.rehash (fuel' + 1) : UnorderedMap K V → Nat → Option _)
        (e :: es).length (prepared t0).buckets.length t0.max_load_factor_value :=
      grows_of_spec hc1 hmlf (rehash_spec F (fuel' + 1) (by omega))
        (fits_mono hF (le_refl _) (pow_le_bucket hc1 F) (one_le_two_pow F))
    obtain ⟨t, ht, hit, _, _, _, _, hret, _⟩ :=
      insert_fold_spec hc1 hg (e :: es) (prepared t0) (prepared_inv hi) hmp (le_refl _)
        (by rw [hnodes, hempty]; simp) hlo
    refine ⟨t, ht, hit, ?_⟩
    have hent : (prepared t0).entries = [] := by
      simp [UnorderedMap.entries, hnodes, hempty]
    rw [hent, List.nil_append] at hret
    exact hret.perm_of_nodup hnd

end UMap

/-! ## The operations preserve well-formedness -/

namespace UMap

variable {K V : Type}

theorem insert_main_sound [DecidableEq K]
    {R : UnorderedMap K V → Nat → Option (UnorderedMap K V)} (hR : Sound R)
    {m : UnorderedMap K V} (hw : WF m) (hne : m.buckets ≠ []) {e : K × V}
    {r : UnorderedMap K V × BasePtr × Bool}
    (h : UnorderedMap.insert_main R m e = some r) : InsertSound m e r.1 := by
  rcases insert_main_cases R hw hne e with ⟨n, hn, hnk, hres⟩ | ⟨m2, hl, hres⟩
  · rw [hres] at h
    cases h
    exact ⟨hw, id, rfl, rfl, fun _ => le_refl _, hne,
      Retained.drop_present ⟨_, mem_entries hn, hnk⟩, le_refl _⟩
  · rw [hres] at h
    have hw2 := hl.wf hw hne
    have hne2 : m2.buckets ≠ [] := by
      intro hnil
      have := hl.buckets_length
      rw [hnil] at this
      exact hne (List.length_eq_zero.1 this.symm)
    unfold UnorderedMap.insert_finish at h
    by_cases hload : m2.load_factor > m2.max_load_factor
    · simp only [hload, if_true] at h
      obtain ⟨m1, hm1, h1⟩ := Option.bind_eq_some.1 h
      obtain ⟨p, _, hp⟩ := Option.map_eq_some'.1 h1
      subst hp
      obtain ⟨hi1, hh1, hmm1, hb1, hret1, ha1⟩ := hR m2 _ m1 hw2.size_eq hm1
      have hlen := hl.buckets_length
      show InsertSound m e m1
      refine ⟨hi1.toWF, fun _ => hi1, hh1.trans hl.1, hmm1.trans hl.2.1, fun _ => by omega,
        ?_, (Retained.of_perm hl.entries_perm).trans hret1, ?_⟩
      · have : 0 < m2.buckets.length := List.length_pos.2 hne2
        exact List.length_pos.1 (by omega)
      · rw [hl.2.2.2.1] at ha1
        omega
    · simp only [hload, if_false, Option.some_bind] at h
      obtain ⟨p, _, hp⟩ := Option.map_eq_some'.1 h
      subst hp
      show InsertSound m e m2
      refine ⟨hw2, fun hi => hl.inv hi hne, hl.1, hl.2.1, fun _ => ?_, hne2,
        Retained.of_perm hl.entries_perm, ?_⟩
      · rw [hl.buckets_length]
      · rw [hl.2.2.2.1]
        exact Nat.le_succ _

theorem insert_body_sound [DecidableEq K]
    {R : UnorderedMap K V → Nat → Option (UnorderedMap K V)} (hR : Sound R)
    {m : UnorderedMap K V} (hw : WF m) {e : K × V}
    {r : UnorderedMap K V × BasePtr × Bool}
    (h : UnorderedMap.insert_body R m e = some r) : InsertSound m e r.1 := by
  by_cases hb : m.buckets = []
  · simp only [UnorderedMap.insert_body, hb, if_true] at h
    obtain ⟨m5, hm5, h1⟩ := Option.bind_eq_some.1 h
    obtain ⟨hi5, hh5, hmm5, hb5, hret5, ha5⟩ := hR m _ m5 hw.size_eq hm5
    have hne5 : m5.buckets ≠ [] := by
      apply List.length_pos.1
      simp only [default_bucket_count] at hb5
      omega
    obtain ⟨hw1, _, hh1, hmm1, _, hne1, hret1, ha1⟩ := insert_main_sound hR hi5.toWF hne5 h1
    have hinv1 := (insert_main_sound hR hi5.toWF hne5 h1).2.1
    refine ⟨hw1, fun _ => hinv1 hi5, hh1.trans hh5, hmm1.trans hmm5,
      fun hne => absurd hb hne, hne1, ?_, by omega⟩
    have h2 : Retained (e :: m.entries) (e :: m5.entries) := hret5.cons e
    exact h2.trans hret1
  · rw [insert_body_of_buckets R hb] at h
    exact insert_main_sound hR hw hb h

theorem insert_fold_sound [DecidableEq K]
    {R : UnorderedMap K V → Nat → Option (UnorderedMap K V)} (hR : Sound R) :
    ∀ (es : List (K × V)) (acc m1 : UnorderedMap K V), Inv acc →
      es.foldlM (fun a e => (UnorderedMap.insert_body R a e).map Prod.fst) acc = some m1 →
      Inv m1 ∧ m1.hash = acc.hash ∧
      m1.max_load_factor_value = acc.max_load_factor_value ∧
      acc.buckets.length ≤ m1.buckets.length ∧
      Retained (acc.entries ++ es) m1.entries ∧ acc.list.alloc ≤ m1.list.alloc := by
  intro es
  induction es with
  | nil =>
    intro acc m1 hi h
    cases h
    refine ⟨hi, rfl, rfl, le_refl _, ?_, le_refl _⟩
    rw [List.append_nil]
    exact Retained.refl _
  | cons e es ih =>
    intro acc m1 hi h
    rw [List.foldlM_cons] at h
    obtain ⟨a1, ha1, h1⟩ := Option.bind_eq_some.1 h
    obtain ⟨r, hr, hra⟩ := Option.map_eq_some'.1 ha1
    subst hra
    obtain ⟨_, hinv, hh, hmm, hb, hne1, hret, ha⟩ := insert_body_sound hR hi.toWF hr
    obtain ⟨hi1, hh1, hmm1, hb1, hret1, haa1⟩ := ih r.1 m1 (hinv hi) h1
    refine ⟨hi1, hh1.trans hh, hmm1.trans hmm, ?_, ?_, by omega⟩
    · by_cases hne : acc.buckets = []
      · simp [hne]
      · have := hb hne
        omega
    · have h2 : Retained (e :: acc.entries ++ es) (r.1.entries ++ es) :=
        Retained.append_right es hret
      have h3 : (e :: acc.entries ++ es).Perm (acc.entries ++ e :: es) := by
        simpa using (@List.perm_middle _ e acc.entries es).symm
      exact (h2.perm_left h3).trans hret1

/-- Whatever the recursion budget, the load factors and the requested bucket
count: a completed `rehash` re-establishes head correctness and chain
contiguity, keeps hash function and `max_load_factor`, and keeps an entry for
every key. -/
theorem rehash_sound [DecidableEq K] (fuel : Nat) :
    Sound (UnorderedMap.rehash fuel : UnorderedMap K V → Nat → Option _) := by
  induction fuel with
  | zero =>
    intro m c m1 _ h
    simp [UnorderedMap.rehash] at h
  | succ fuel ih =>
    intro m c m1 hs h
    rw [rehash_succ fuel hs] at h
    obtain ⟨hi1, hh1, hmm1, hb1, hret1, ha1⟩ :=
      insert_fold_sound ih m.entries (cleared m c) m1 (cleared_inv m c) h
    refine ⟨hi1, hh1, hmm1, ?_, ?_, ha1⟩
    · simpa [cleared] using hb1
    · simpa [cleared, UnorderedMap.entries] using hret1

/-- A completed `insert` leaves a well-formed table well-formed and keeps head
correctness and chain contiguity. -/
theorem insert_preserves_wf [DecidableEq K] {m : UnorderedMap K V} (hw : WF m) {fuel : Nat}
    {e : K × V} {r : UnorderedMap K V × BasePtr × Bool} (h : m.insert fuel e = some r) :
    WF r.1 ∧ (Inv m → Inv r.1) :=
  ⟨(insert_body_sound (rehash_sound fuel) hw h).1,
    (insert_body_sound (rehash_sound fuel) hw h).2.1⟩

/-- A table that the constructor returns has correct heads and is contiguous. -/
theorem construct_inv [DecidableEq K] {fuel bucket_count : Nat} {hash : K → Nat}
    {t : UnorderedMap K V} (h : UnorderedMap.construct fuel bucket_count hash = some t) :
    Inv t :=
  (rehash_sound fuel _ _ _ rfl h).1

theorem default_constructed_inv (hash : K → Nat) :
    Inv (UnorderedMap.default_constructed hash : UnorderedMap K V) :=
  cleared_inv (UnorderedMap.default_constructed hash) 0

theorem set_max_load_factor_wf {m : UnorderedMap K V} (hw : WF m) (ml : ℚ) :
    WF (m.set_max_load_factor ml) :=
  ⟨hw.size_eq, hw.addr_nodup, hw.addr_lt, hw.hash_eq, hw.buckets_ne, hw.head_live⟩

end UMap

/-! ## `erase` and assignment preserve well-formedness -/

namespace UMap

variable {K V T : Type}

theorem node_at_eq_some {l : List (TemplateNode T)} {a : Nat} {n : TemplateNode T}
    (h : ListT.node_at l a = some n) : n ∈ l ∧ n.addr = a := by
  induction l with
  | nil => simp [ListT.node_at] at h
  | cons x l ih =>
    by_cases hx : x.addr = a
    · simp [ListT.node_at, hx] at h
      subst h
      exact ⟨List.mem_cons_self _ _, hx⟩
    · simp [ListT.node_at, hx] at h
      exact ⟨List.mem_cons_of_mem _ (ih h).1, (ih h).2⟩

theorem unlink_eq_some {l r : List (TemplateNode T)} {a : Nat} {p : BasePtr}
    (h : ListT.unlink l a = some (r, p)) :
    r.Sublist l ∧ r.length + 1 = l.length ∧ ∀ n ∈ l, n.addr ≠ a → n ∈ r := by
  induction l generalizing r with
  | nil => simp [ListT.unlink] at h
  | cons x l ih =>
    by_cases hx : x.addr = a
    · simp [ListT.unlink, hx] at h
      obtain ⟨rfl, _⟩ := h
      refine ⟨List.sublist_cons_self _ _, rfl, ?_⟩
      intro n hn hna
      rcases List.mem_cons.1 hn with rfl | h'
      · exact absurd hx hna
      · exact h'
    · simp only [ListT.unlink, hx, if_false] at h
      obtain ⟨u, hu, hur⟩ := Option.map_eq_some'.1 h
      cases hur
      obtain ⟨hsub, hlen, hmem⟩ := ih (r := u.1) hu
      refine ⟨hsub.cons₂ x, by simp [hlen], ?_⟩
      intro n hn hna
      rcases List.mem_cons.1 hn with rfl | h'
      · exact List.mem_cons_self _ _
      · exact List.mem_cons_of_mem _ (hmem n h' hna)

/-- Unlinking a live node and giving the slots contents that refer to remaining
nodes of the right bucket leaves a well-formed table. -/
theorem unlink_wf {m : UnorderedMap K V} (hw : WF m) {a : Nat}
    {nodes1 : List (TemplateNode (HashedNode K V))} {p : BasePtr}
    (hu : ListT.unlink m.list.nodes a = some (nodes1, p)) (hne : m.buckets ≠ [])
    {buckets1 : List BasePtr} (hlen : buckets1.length = m.buckets.length)
    (hlive : ∀ b q, buckets1[b]? = some q → q = BasePtr.null ∨
      ∃ n ∈ nodes1, q = BasePtr.node n.addr ∧ n.value.hash % m.buckets.length = b) :
    WF { m with list := { nodes := nodes1, list_size := m.list.list_size - 1,
                          alloc := m.list.alloc },
                buckets := buckets1 } := by
  obtain ⟨hsub, hl, _⟩ := unlink_eq_some hu
  refine ⟨?_, ?_, ?_, ?_, ?_, ?_⟩
  · show m.list.list_size - 1 = nodes1.length
    rw [hw.size_eq]
    omega
  · exact (hsub.map TemplateNode.addr).nodup hw.addr_nodup
  · intro n hn
    exact hw.addr_lt n (hsub.subset hn)
  · intro n hn
    exact hw.hash_eq n (hsub.subset hn)
  · intro _ hnil
    apply hne
    apply List.length_eq_zero.1
    rw [← hlen]
    exact List.length_eq_zero.2 hnil
  · intro b q hbq
    show q = BasePtr.null ∨ ∃ n ∈ nodes1, q = BasePtr.node n.addr ∧
      n.value.hash % buckets1.length = b
    rw [hlen]
    exact hlive b q hbq

/-- A completed `erase` leaves a well-formed table well-formed. -/
theorem erase_preserves_wf {m : UnorderedMap K V} (hw : WF m) {pos : BasePtr}
    {r : UnorderedMap K V × BasePtr} (h : m.erase pos = some r) : WF r.1 := by
  cases pos with
  | null => simp [UnorderedMap.erase] at h
  | root => simp [UnorderedMap.erase] at h
  | node a =>
    simp only [UnorderedMap.erase] at h
    obtain ⟨erased, herased, h⟩ := Option.bind_eq_some.1 h
    obtain ⟨hemem, headdr⟩ := node_at_eq_some herased
    by_cases hb : m.buckets = []
    · simp [hb] at h
    · simp only [hb, if_false] at h
      obtain ⟨head, hhead, h⟩ := Option.bind_eq_some.1 h
      obtain ⟨lr, hlr, h⟩ := Option.bind_eq_some.1 h
      simp only [ListT.erase] at hlr
      obtain ⟨u, hu, hlr⟩ := Option.map_eq_some'.1 hlr
      subst hlr
      obtain ⟨_, _, hkeep⟩ := unlink_eq_some (r := u.1) (p := u.2) hu
      have hother : ∀ n ∈ m.list.nodes, n ≠ erased → n ∈ u.1 := by
        intro n hn hne
        apply hkeep n hn
        intro hna
        apply hne
        have h1 := node_at_of_mem hw.addr_nodup hn
        rw [hna, herased] at h1
        exact (Option.some.inj h1).symm
      have hset : ∀ q0 : BasePtr, (q0 = BasePtr.null ∨ ∃ n ∈ u.1, q0 = BasePtr.node n.addr ∧
            n.value.hash % m.buckets.length = m.bucketId erased.value.hash) →
          WF { m with list := { nodes := u.1, list_size := m.list.list_size - 1,
                                alloc := m.list.alloc },
                      buckets := m.buckets.set (m.bucketId erased.value.hash) q0 } := by
        intro q0 hq0
        refine unlink_wf hw hu hb (by simp) ?_
        intro b q hbq
        rw [List.getElem?_set] at hbq
        by_cases hbb : m.bucketId erased.value.hash = b
        · simp only [hbb, if_true] at hbq
          split at hbq
          · cases hbq
            rw [← hbb]
            exact hq0
          · cases hbq
        · simp only [hbb, if_false] at hbq
          rcases hw.head_live b q hbq with h0 | ⟨n, hn, hqn, hnb⟩
          · exact Or.inl h0
          · refine Or.inr ⟨n, hother n hn ?_, hqn, hnb⟩
            intro hne
            rw [hne] at hnb
            exact hbb hnb
      by_cases hh : head = BasePtr.node a
      · simp only [hh, if_true] at h
        cases hp : u.2 with
        | null =>
          simp only [hp] at h
          cases h
          exact hset _ (Or.inl rfl)
        | root =>
          simp only [hp] at h
          cases h
          exact hset _ (Or.inl rfl)
        | node b0 =>
          simp only [hp] at h
          obtain ⟨next_node, hnext, h⟩ := Option.map_eq_some'.1 h
          obtain ⟨hnmem, hnaddr⟩ := node_at_eq_some hnext
          by_cases hhash : next_node.value.hash = erased.value.hash
          · simp only [hhash, if_true] at h
            subst h
            refine hset _ (Or.inr ⟨next_node, hnmem, by rw [hnaddr], ?_⟩)
            rw [hhash]
            rfl
          · simp only [hhash, if_false] at h
            subst h
            exact hset _ (Or.inl rfl)
      · simp only [hh, if_false] at h
        cases h
        refine unlink_wf hw hu hb rfl ?_
        intro b q hbq
        rcases hw.head_live b q hbq with h0 | ⟨n, hn, hqn, hnb⟩
        · exact Or.inl h0
        · refine Or.inr ⟨n, hother n hn ?_, hqn, hnb⟩
          intro hne
          apply hh
          have hb' : b = m.bucketId erased.value.hash := by
            rw [← hnb, hne]
            rfl
          rw [hb', hhead] at hbq
          rw [Option.some.inj hbq, hqn, hne, headdr]

theorem assign_node_eq_some {a : Nat} {value : V}
    {l r : List (TemplateNode (HashedNode K V))}
    (h : UnorderedMap.assign_node a value l = some r) :
    r.map TemplateNode.addr = l.map TemplateNode.addr ∧
    (∀ n ∈ r, ∃ n0 ∈ l, n.addr = n0.addr ∧ n.value.hash = n0.value.hash ∧
      n.value.element.1 = n0.value.element.1) ∧
    (∀ n0 ∈ l, ∃ n ∈ r, n.addr = n0.addr ∧ n.value.hash = n0.value.hash ∧
      n.value.element.1 = n0.value.element.1) := by
  induction l generalizing r with
  | nil => simp [UnorderedMap.assign_node] at h
  | cons x l ih =>
    by_cases hx : x.addr = a
    · simp only [UnorderedMap.assign_node, if_pos hx, Option.some.injEq] at h
      subst h
      refine ⟨by simp, ?_, ?_⟩
      · intro n hn
        rcases List.mem_cons.1 hn with rfl | h'
        · exact ⟨x, List.mem_cons_self _ _, rfl, rfl, rfl⟩
        · exact ⟨n, List.mem_cons_of_mem _ h', rfl, rfl, rfl⟩
      · intro n0 hn0
        rcases List.mem_cons.1 hn0 with rfl | h'
        · exact ⟨_, List.mem_cons_self _ _, rfl, rfl, rfl⟩
        · exact ⟨n0, List.mem_cons_of_mem _ h', rfl, rfl, rfl⟩
    · simp only [UnorderedMap.assign_node, if_neg hx] at h
      obtain ⟨r', hr', hrr⟩ := Option.map_eq_some'.1 h
      subst hrr
      obtain ⟨h1, h2, h3⟩ := ih hr'
      refine ⟨by simp [h1], ?_, ?_⟩
      · intro n hn
        rcases List.mem_cons.1 hn with rfl | h'
        · exact ⟨n, List.mem_cons_self _ _, rfl, rfl, rfl⟩
        · obtain ⟨n0, hn0, hrest⟩ := h2 n h'
          exact ⟨n0, List.mem_cons_of_mem _ hn0, hrest⟩
      · intro n0 hn0
        rcases List.mem_cons.1 hn0 with rfl | h'
        · exact ⟨n0, List.mem_cons_self _ _, rfl, rfl, rfl⟩
        · obtain ⟨n, hn, hrest⟩ := h3 n0 h'
          exact ⟨n, List.mem_cons_of_mem _ hn, hrest⟩

/-- Assigning through a reference to a mapped value leaves a well-formed table
well-formed. -/
theorem assign_preserves_wf {m m1 : UnorderedMap K V} (hw : WF m) {ref : BasePtr} {value : V}
    (h : m.assign ref value = some m1) : WF m1 := by
  cases ref with
  | null => simp [UnorderedMap.assign] at h
  | root => simp [UnorderedMap.assign] at h
  | node a =>
    simp only [UnorderedMap.assign] at h
    obtain ⟨r, hr, hm1⟩ := Option.map_eq_some'.1 h
    subst hm1
    obtain ⟨haddr, hfwd, hbwd⟩ := assign_node_eq_some hr
    have hlen : r.length = m.list.nodes.length := by
      have := congrArg List.length haddr
      simpa using this
    refine ⟨?_, ?_, ?_, ?_, ?_, ?_⟩
    · show m.list.list_size = r.length
      rw [hlen, hw.size_eq]
    · show (r.map TemplateNode.addr).Nodup
      rw [haddr]
      exact hw.addr_nodup
    · intro n hn
      obtain ⟨n0, hn0, ha, _, _⟩ := hfwd n hn
      show n.addr < m.list.alloc
      rw [ha]
      exact hw.addr_lt n0 hn0
    · intro n hn
      obtain ⟨n0, hn0, _, hh, hk⟩ := hfwd n hn
      show n.value.hash = m.hash n.value.element.1
      rw [hh, hk]
      exact hw.hash_eq n0 hn0
    · intro hne
      apply hw.buckets_ne
      intro hnil
      apply hne
      show r = []
      apply List.length_eq_zero.1
      rw [hlen, hnil]
      rfl
    · intro b q hbq
      rcases hw.head_live b q hbq with h0 | ⟨n0, hn0, hqn, hnb⟩
      · exact Or.inl h0
      · obtain ⟨n, hn, ha, hh, _⟩ := hbwd n0 hn0
        refine Or.inr ⟨n, hn, by rw [hqn, ha], ?_⟩
        show n.value.hash % m.buckets.length = b
        rw [hh]
        exact hnb

/-- A completed `operator[]` leaves a well-formed table well-formed. -/
theorem operator_index_preserves_wf [DecidableEq K] [Inhabited V] {m : UnorderedMap K V}
    (hw : WF m) {fuel : Nat} {key : K} {r : UnorderedMap K V × BasePtr}
    (h : m.operator_index fuel key = some r) : WF r.1 := by
  simp only [UnorderedMap.operator_index] at h
  obtain ⟨it, _, h⟩ := Option.bind_eq_some.1 h
  by_cases hit : it = m.list.end
  · simp only [hit, if_true] at h
    obtain ⟨res, hres, h⟩ := Option.bind_eq_some.1 h
    obtain ⟨_, _, h⟩ := Option.map_eq_some'.1 h
    subst h
    exact (insert_preserves_wf hw hres).1
  · simp only [hit, if_false] at h
    cases h
    exact hw

end UMap

/-! ## `erase` on a live handle -/

namespace UMap

variable {K V T : Type}

theorem unlink_of_split {pre post : List (TemplateNode T)} {n : TemplateNode T}
    (hnd : ((pre ++ n :: post).map TemplateNode.addr).Nodup) :
    ListT.unlink (pre ++ n :: post) n.addr = some (pre ++ post, ListT.begin_ptr post) := by
  induction pre with
  | nil => simp [ListT.unlink]
  | cons x pre ih =>
    rw [List.cons_append, List.map_cons, List.nodup_cons] at hnd
    have hx : x.addr ≠ n.addr := by
      intro e
      apply hnd.1
      rw [e]
      exact List.mem_map_of_mem _ (List.mem_append_right _ (List.mem_cons_self _ _))
    simp [ListT.unlink, hx, ih hnd.2]

theorem node_at_of_mem_addr {l : List (TemplateNode T)} {n : TemplateNode T} (h : n ∈ l) :
    ∃ n', ListT.node_at l n.addr = some n' := by
  induction l with
  | nil => cases h
  | cons x l ih =>
    by_cases hx : x.addr = n.addr
    · exact ⟨x, by simp [ListT.node_at, hx]⟩
    · rcases List.mem_cons.1 h with rfl | h'
      · exact absurd rfl hx
      · obtain ⟨n', hn'⟩ := ih h'
        exact ⟨n', by simp [ListT.node_at, hx, hn']⟩

/-- The result of `erase` on a handle to the live node `n`, which splits the
list into `pre ++ n :: post`. -/
theorem erase_of_split {m : UnorderedMap K V} (hw : WF m)
    {pre post : List (TemplateNode (HashedNode K V))} {n : TemplateNode (HashedNode K V)}
    (hsplit : m.list.nodes = pre ++ n :: post) :
    ∃ r, m.erase (BasePtr.node n.addr) = some r ∧ r.1.list.nodes = pre ++ post ∧
      r.1.list.list_size = m.list.list_size - 1 ∧ r.2 = ListT.begin_ptr post ∧
      r.1.hash = m.hash ∧ r.1.max_load_factor_value = m.max_load_factor_value ∧
      r.1.buckets.length = m.buckets.length ∧ r.1.list.alloc = m.list.alloc := by
  have hn : n ∈ m.list.nodes := by
    rw [hsplit]
    exact List.mem_append_right _ (List.mem_cons_self _ _)
  have hne : m.buckets ≠ [] := hw.buckets_ne (List.ne_nil_of_mem hn)
  have hna := node_at_of_mem hw.addr_nodup hn
  have hnd := hw.addr_nodup
  rw [hsplit] at hnd
  have hu := unlink_of_split hnd
  rw [← hsplit] at hu
  have hlt := bucket_lt hne n.value.hash
  have hhead : m.buckets[m.bucketId n.value.hash]? =
      some (m.buckets[n.value.hash % m.buckets.length]) := by
    simp [UnorderedMap.bucketId, List.getElem?_eq_getElem hlt]
  simp only [UnorderedMap.erase, hna, Option.some_bind, hne, if_false, hhead, ListT.erase, hu,
    Option.map_some']
  by_cases hh : m.buckets[n.value.hash % m.buckets.length] = BasePtr.node n.addr
  · simp only [hh, if_true]
    cases post with
    | nil => exact ⟨_, rfl, rfl, rfl, rfl, rfl, rfl, by simp, rfl⟩
    | cons y post =>
      obtain ⟨y', hy'⟩ := node_at_of_mem_addr
        (List.mem_append_right pre (List.mem_cons_self y post))
      simp only [ListT.begin_ptr, hy', Option.map_some']
      by_cases hyh : y'.value.hash = n.value.hash
      · simp only [hyh, if_true]
        exact ⟨_, rfl, rfl, rfl, rfl, rfl, rfl, by simp, rfl⟩
      · simp only [hyh, if_false]
        exact ⟨_, rfl, rfl, rfl, rfl, rfl, rfl, by simp, rfl⟩
  · simp only [hh, if_false]
    exact ⟨_, rfl, rfl, rfl, rfl, rfl, rfl, rfl, rfl⟩

end UMap

/-! ## The cases of a completed `insert_impl` -/

namespace UMap

variable {K V : Type}

theorem wf_of_check {m : UnorderedMap K V} (h : WFCheck m) : WF m := by
  obtain ⟨h1, h2, h3, h4, h5, h6⟩ := h
  refine ⟨h1, h2, h3, h4, ?_, ?_⟩
  · intro hn hb
    apply h5
    · intro h0
      exact hn (List.length_eq_zero.1 h0)
    · rw [hb]
      rfl
  · intro b p hbp
    exact h6 (b, p) (List.mk_mem_enum_iff_getElem?.2 hbp)

theorem insert_main_some [DecidableEq K]
    {R : UnorderedMap K V → Nat → Option (UnorderedMap K V)} {m : UnorderedMap K V}
    (hw : WF m) (hne : m.buckets ≠ []) {e : K × V} {r : UnorderedMap K V × BasePtr × Bool}
    (h : UnorderedMap.insert_main R m e = some r) : InsertCases R m e r := by
  rcases insert_main_cases R hw hne e with ⟨n, hn, hnk, hres⟩ | ⟨m2, hl, hres⟩
  · rw [hres] at h
    exact Or.inl ⟨n, hn, hnk, (Option.some.inj h).symm⟩
  · rw [hres] at h
    unfold UnorderedMap.insert_finish at h
    have hlt := bucket_lt hne (m.hash e.1)
    by_cases hload : m2.load_factor > m2.max_load_factor
    · simp only [hload, if_true] at h
      obtain ⟨m1, hm1, h1⟩ := Option.bind_eq_some.1 h
      obtain ⟨p, hp, hpr⟩ := Option.map_eq_some'.1 h1
      exact Or.inr (Or.inr ⟨m2, m1, p, hl, hload, hm1, hp, hpr.symm⟩)
    · simp only [hload, if_false, Option.some_bind] at h
      obtain ⟨p, hp, hpr⟩ := Option.map_eq_some'.1 h
      have hhead : m2.buckets[m.hash e.1 % m.buckets.length]? =
          some (BasePtr.node m.list.alloc) := by
        rw [hl.2.2.1, List.getElem?_set]
        simp [hlt]
      rw [hhead] at hp
      cases hp
      exact Or.inr (Or.inl ⟨m2, hl, hload, hpr.symm⟩)

/-- A completed `insert_impl` first completed its guard: it worked on the table
itself when that has buckets and on the result of `rehash(default_bucket_count)`
otherwise. -/
theorem insert_body_some [DecidableEq K]
    {R : UnorderedMap K V → Nat → Option (UnorderedMap K V)} (hR : Sound R)
    {m : UnorderedMap K V} (hw : WF m) {e : K × V} {r : UnorderedMap K V × BasePtr × Bool}
    (h : UnorderedMap.insert_body R m e = some r) :
    ∃ m0, WF m0 ∧ m0.buckets ≠ [] ∧ InsertCases R m0 e r ∧
      ((m.buckets ≠ [] ∧ m0 = m) ∨
        (m.buckets = [] ∧ R m default_bucket_count = some m0)) := by
  by_cases hb : m.buckets = []
  · simp only [UnorderedMap.insert_body, hb, if_true] at h
    obtain ⟨m5, hm5, h1⟩ := Option.bind_eq_some.1 h
    obtain ⟨hi5, _, _, hb5, _, _⟩ := hR m _ m5 hw.size_eq hm5
    have hne5 : m5.buckets ≠ [] := by
      apply List.length_pos.1
      simp only [default_bucket_count] at hb5
      omega
    exact ⟨m5, hi5.toWF, hne5, insert_main_some hi5.toWF hne5 h1, Or.inr ⟨hb, hm5⟩⟩
  · rw [insert_body_of_buckets R hb] at h
    exact ⟨m, hw, hb, insert_main_some hw hb h, Or.inl ⟨hb, rfl⟩⟩

end UMap

/-! ## The load bound along the public operations -/

namespace UMap

variable {K V : Type}

theorem cleared_loadOk_of_nonneg (m : UnorderedMap K V) (c : Nat)
    (h : 0 ≤ m.max_load_factor_value) : LoadOk (cleared m c) := by
  unfold LoadOk
  rw [load_factor_eq]
  have : (cleared m c).size = 0 := rfl
  rw [this, load_of_zero]
  exact h

theorem insert_body_load [DecidableEq K]
    {R : UnorderedMap K V → Nat → Option (UnorderedMap K V)} (hR : Sound R)
    (hL : LoadSound R) {m : UnorderedMap K V} (hw : WF m)
    (hmlf : 0 ≤ m.max_load_factor_value) (hlo : LoadOk m) {e : K × V}
    {r : UnorderedMap K V × BasePtr × Bool}
    (h : UnorderedMap.insert_body R m e = some r) : LoadOk r.1 := by
  obtain ⟨m0, hw0, hne0, hcases, hm0⟩ := insert_body_some hR hw h
  have hpre : LoadOk m0 ∧ m0.max_load_factor_value = m.max_load_factor_value := by
    rcases hm0 with ⟨_, rfl⟩ | ⟨_, hm5⟩
    · exact ⟨hlo, rfl⟩
    · exact ⟨hL m _ m0 hw.size_eq hmlf hm5, (hR m _ m0 hw.size_eq hm5).2.2.1⟩
  rcases hcases with ⟨n, _, _, hr⟩ | ⟨m2, hl, hload, hr⟩ | ⟨m2, m1, p, hl, _, hm1, _, hr⟩
  · rw [hr]
    exact hpre.1
  · rw [hr]
    have hne2 : m2.buckets ≠ [] := by
      intro hnil
      have := hl.buckets_length
      rw [hnil] at this
      exact hne0 (List.length_eq_zero.1 this.symm)
    exact loadOk_of_not_gt hload
  · rw [hr]
    refine hL m2 _ m1 (hl.wf hw0 hne0).size_eq ?_ hm1
    rw [hl.2.1, hpre.2]
    exact hmlf

theorem insert_fold_load [DecidableEq K]
    {R : UnorderedMap K V → Nat → Option (UnorderedMap K V)} (hR : Sound R)
    (hL : LoadSound R) :
    ∀ (es : List (K × V)) (acc m1 : UnorderedMap K V), WF acc →
      0 ≤ acc.max_load_factor_value → LoadOk acc →
      es.foldlM (fun a e => (UnorderedMap.insert_body R a e).map Prod.fst) acc = some m1 →
      LoadOk m1 := by
  intro es
  induction es with
  | nil =>
    intro acc m1 _ _ hlo h
    cases h
    exact hlo
  | cons e es ih =>
    intro acc m1 hw hmlf hlo h
    rw [List.foldlM_cons] at h
    obtain ⟨a1, ha1, h1⟩ := Option.bind_eq_some.1 h
    obtain ⟨r, hr, hra⟩ := Option.map_eq_some'.1 ha1
    subst hra
    obtain ⟨hw1, _, _, hmm, _⟩ := insert_body_sound hR hw hr
    exact ih r.1 m1 hw1 (hmm ▸ hmlf) (insert_body_load hR hL hw hmlf hlo hr) h1

/-- Whatever the recursion budget and the requested bucket count: a completed
`rehash` on a table with a non-negative `max_load_factor` establishes the load
bound. -/
theorem rehash_load_sound [DecidableEq K] (fuel : Nat) :
    LoadSound (UnorderedMap.rehash fuel : UnorderedMap K V → Nat → Option _) := by
  induction fuel with
  | zero =>
    intro m c m1 _ _ h
    simp [UnorderedMap.rehash] at h
  | succ fuel ih =>
    intro m c m1 hs hmlf h
    rw [rehash_succ fuel hs] at h
    exact insert_fold_load (rehash_sound fuel) ih m.entries (cleared m c) m1
      (cleared_inv m c).toWF hmlf (cleared_loadOk_of_nonneg m c hmlf) h

/-- What a completed `erase` leaves of the other members. -/
theorem erase_some_fields {m : UnorderedMap K V} (hw : WF m) {pos : BasePtr}
    {r : UnorderedMap K V × BasePtr} (h : m.erase pos = some r) :
    r.1.list.list_size + 1 = m.list.list_size ∧ r.1.buckets.length = m.buckets.length ∧
    r.1.max_load_factor_value = m.max_load_factor_value ∧ r.1.hash = m.hash := by
  cases pos with
  | null => simp [UnorderedMap.erase] at h
  | root => simp [UnorderedMap.erase] at h
  | node a =>
    have h' := h
    simp only [UnorderedMap.erase] at h'
    obtain ⟨erased, herased, _⟩ := Option.bind_eq_some.1 h'
    obtain ⟨hemem, headdr⟩ := node_at_eq_some herased
    obtain ⟨pre, post, hsplit⟩ := List.append_of_mem hemem
    obtain ⟨r', hr', _, hsize, _, hh, hmm, hb, _⟩ := erase_of_split hw hsplit
    rw [headdr, h] at hr'
    cases hr'
    have hpos : 0 < m.list.list_size := by
      rw [hw.size_eq]
      exact List.length_pos.2 (List.ne_nil_of_mem hemem)
    exact ⟨by omega, hb, hmm, hh⟩

theorem assign_some_fields {m m1 : UnorderedMap K V} {ref : BasePtr} {value : V}
    (h : m.assign ref value = some m1) :
    m1.list.list_size = m.list.list_size ∧ m1.buckets = m.buckets ∧
    m1.max_load_factor_value = m.max_load_factor_value ∧ m1.hash = m.hash := by
  cases ref with
  | null => simp [UnorderedMap.assign] at h
  | root => simp [UnorderedMap.assign] at h
  | node a =>
    simp only [UnorderedMap.assign] at h
    obtain ⟨r, _, hm1⟩ := Option.map_eq_some'.1 h
    subst hm1
    exact ⟨rfl, rfl, rfl, rfl⟩

theorem reserve_some [DecidableEq K] {m m1 : UnorderedMap K V} {fuel count : Nat}
    (h : m.reserve fuel count = some m1) :
    ∃ c, UnorderedMap.rehash fuel m c = some m1 := by
  unfold UnorderedMap.reserve at h
  split at h
  · cases h
  · split at h
    · cases h
    · exact ⟨_, h⟩

/-- Along the public operations the table stays well-formed, `max_load_factor`
stays positive, and the load bound holds as long as every newly set
`max_load_factor` respects it. -/
theorem reachableBy_invariant [DecidableEq K] [Inhabited V]
    {allow : UnorderedMap K V → ℚ → Prop}
    (hallow : ∀ m ml, 0 < ml → allow m ml → Fits ml m.size m.buckets.length)
    {t : UnorderedMap K V} (h : ReachableBy allow t) :
    WF t ∧ 0 < t.max_load_factor_value ∧ LoadOk t := by
  induction h with
  | default_constructed hash =>
    refine ⟨(default_constructed_inv hash).toWF, by simp [UnorderedMap.default_constructed],
      ?_⟩
    unfold LoadOk
    rw [load_factor_eq]
    have : (UnorderedMap.default_constructed hash : UnorderedMap K V).size = 0 := rfl
    rw [this, load_of_zero]
    simp [UnorderedMap.default_constructed, UnorderedMap.max_load_factor]
  | @construct fuel c hash t hc =>
    have hs := rehash_sound fuel _ _ _ rfl hc
    have hmlf : t.max_load_factor_value = 1 := hs.2.2.1
    refine ⟨hs.1.toWF, by rw [hmlf]; exact one_pos, ?_⟩
    exact rehash_load_sound fuel _ _ _ rfl (by simp [UnorderedMap.default_constructed]) hc
  | @insert m fuel e r _ hr ih =>
    obtain ⟨hw, hmlf, hlo⟩ := ih
    obtain ⟨hw1, _, _, hmm, _⟩ := insert_body_sound (rehash_sound fuel) hw hr
    exact ⟨hw1, hmm ▸ hmlf,
      insert_body_load (rehash_sound fuel) (rehash_load_sound fuel) hw hmlf.le hlo hr⟩
  | @operator_index m fuel key r _ hr ih =>
    obtain ⟨hw, hmlf, hlo⟩ := ih
    simp only [UnorderedMap.operator_index] at hr
    obtain ⟨it, _, hr⟩ := Option.bind_eq_some.1 hr
    by_cases hit : it = m.list.end
    · simp only [hit, if_true] at hr
      obtain ⟨res, hres, hr⟩ := Option.bind_eq_some.1 hr
      obtain ⟨_, _, hr⟩ := Option.map_eq_some'.1 hr
      subst hr
      obtain ⟨hw1, _, _, hmm, _⟩ := insert_body_sound (rehash_sound fuel) hw hres
      exact ⟨hw1, hmm ▸ hmlf,
        insert_body_load (rehash_sound fuel) (rehash_load_sound fuel) hw hmlf.le hlo hres⟩
    · simp only [hit, if_false] at hr
      cases hr
      exact ⟨hw, hmlf, hlo⟩
  | @assign m m1 ref value _ hr ih =>
    obtain ⟨hw, hmlf, hlo⟩ := ih
    obtain ⟨hs, hb, hmm, _⟩ := assign_some_fields hr
    refine ⟨assign_preserves_wf hw hr, hmm ▸ hmlf, ?_⟩
    unfold LoadOk at hlo ⊢
    rw [load_factor_eq] at hlo ⊢
    simpa [UnorderedMap.size, ListT.size, UnorderedMap.max_load_factor, hs, hb, hmm]
      using hlo
  | @erase m pos r _ hr ih =>
    obtain ⟨hw, hmlf, hlo⟩ := ih
    obtain ⟨hs, hb, hmm, _⟩ := erase_some_fields hw hr
    refine ⟨erase_preserves_wf hw hr, hmm ▸ hmlf, ?_⟩
    unfold LoadOk at hlo ⊢
    rw [load_factor_eq] at hlo ⊢
    simp only [UnorderedMap.size, ListT.size, UnorderedMap.max_load_factor] at hlo ⊢
    rw [hb, hmm]
    exact le_trans (load_of_mono_left (by omega) _) hlo
  | @reserve m m1 fuel count _ hr ih =>
    obtain ⟨hw, hmlf, _⟩ := ih
    obtain ⟨c, hc⟩ := reserve_some hr
    have hs := rehash_sound fuel _ _ _ hw.size_eq hc
    exact ⟨hs.1.toWF, hs.2.2.1 ▸ hmlf, rehash_load_sound fuel _ _ _ hw.size_eq hmlf.le hc⟩
  | @max_load_factor m ml _ hml hal ih =>
    obtain ⟨hw, _, _⟩ := ih
    exact ⟨set_max_load_factor_wf hw ml, hml, hallow m ml hml hal⟩

end UMap

/-! ## Bucket counts that stay, and `rehash(0)` -/

namespace UMap

variable {K V : Type}

/-- Whatever the callee: when the load factor cannot be exceeded, a completed
`insert_impl` keeps the bucket count. -/
theorem insert_main_steady [DecidableEq K]
    {R : UnorderedMap K V → Nat → Option (UnorderedMap K V)} {m : UnorderedMap K V}
    (hw : WF m) (hne : m.buckets ≠ []) {e : K × V} {r : UnorderedMap K V × BasePtr × Bool}
    (hN : Fits m.max_load_factor_value (m.list.nodes.length + 1) m.buckets.length)
    (h : UnorderedMap.insert_main R m e = some r) :
    WF r.1 ∧ r.1.buckets.length = m.buckets.length ∧
    r.1.max_load_factor_value = m.max_load_factor_value ∧
    r.1.list.nodes.length ≤ m.list.nodes.length + 1 := by
  rcases insert_main_some hw hne h with ⟨n, _, _, hr⟩ | ⟨m2, hl, _, hr⟩ |
    ⟨m2, m1, p, hl, hload, _, _, _⟩
  · rw [hr]
    exact ⟨hw, rfl, rfl, Nat.le_succ _⟩
  · rw [hr]
    exact ⟨hl.wf hw hne, hl.buckets_length, hl.2.1, by rw [hl.length]⟩
  · exfalso
    have h1 := not_fits_of_gt hload
    rw [UnorderedMap.size, ListT.size, (hl.wf hw hne).size_eq,
      hl.length, hl.2.1, hl.buckets_length] at h1
    exact h1 hN

theorem insert_fold_steady [DecidableEq K]
    {R : UnorderedMap K V → Nat → Option (UnorderedMap K V)} :
    ∀ (es : List (K × V)) (acc m1 : UnorderedMap K V), WF acc → acc.buckets ≠ [] →
      Fits acc.max_load_factor_value (acc.list.nodes.length + es.length) acc.buckets.length →
      es.foldlM (fun a e => (UnorderedMap.insert_body R a e).map Prod.fst) acc = some m1 →
      m1.buckets.length = acc.buckets.length := by
  intro es
  induction es with
  | nil =>
    intro acc m1 _ _ _ h
    cases h
    rfl
  | cons e es ih =>
    intro acc m1 hw hne hN h
    rw [List.foldlM_cons, insert_body_of_buckets R hne] at h
    obtain ⟨a1, ha1, h1⟩ := Option.bind_eq_some.1 h
    obtain ⟨r, hr, hra⟩ := Option.map_eq_some'.1 ha1
    subst hra
    rw [List.length_cons] at hN
    have hB1 : 1 ≤ acc.buckets.length := List.length_pos.2 hne
    have hN1 : Fits acc.max_load_factor_value (acc.list.nodes.length + 1) acc.buckets.length :=
      fits_mono hN (by omega) (le_refl _) hB1
    obtain ⟨hw1, hb1, hm1, hlen1⟩ := insert_main_steady hw hne hN1 hr
    have hne1 : r.1.buckets ≠ [] := by
      intro hnil
      rw [hnil] at hb1
      exact hne (List.length_eq_zero.1 hb1.symm)
    rw [← hb1]
    refine ih r.1 m1 hw1 hne1 ?_ h1
    rw [hm1, hb1]
    exact fits_mono hN (by omega) (le_refl _) hB1

/-- A completed `rehash(c)`, `c >= 1`, of a table whose nodes fit into `c`
buckets ends with exactly `c` buckets. -/
theorem rehash_steady [DecidableEq K] {fuel : Nat} {m m1 : UnorderedMap K V} {c : Nat}
    (hs : m.list.list_size = m.list.nodes.length) (hc1 : 1 ≤ c)
    (hN : Fits m.max_load_factor_value m.list.nodes.length c)
    (h : UnorderedMap.rehash fuel m c = some m1) : m1.buckets.length = c := by
  cases fuel with
  | zero => simp [UnorderedMap.rehash] at h
  | succ fuel =>
    rw [rehash_succ fuel hs] at h
    have hne : (cleared m c).buckets ≠ [] := by
      apply List.length_pos.1
      simp only [cleared, List.length_replicate]
      omega
    have := insert_fold_steady m.entries (cleared m c) m1 (cleared_inv m c).toWF hne
      (by simpa [cleared, UnorderedMap.entries] using hN) h
    simpa [cleared] using this

/-- On a table with entries `rehash(0)` does what `rehash(default_bucket_count)`
does: the first re-insertion finds no buckets and rehashes the still empty list. -/
theorem rehash_zero [DecidableEq K] (fuel : Nat) {m : UnorderedMap K V}
    (hs : m.list.list_size = m.list.nodes.length) (hne : m.list.nodes ≠ []) :
    UnorderedMap.rehash (fuel + 2) m 0 =
      UnorderedMap.rehash (fuel + 2) m default_bucket_count := by
  rw [rehash_succ (fuel + 1) hs, rehash_succ (fuel + 1) hs]
  cases hent : m.entries with
  | nil =>
    exfalso
    apply hne
    have := congrArg List.length hent
    simp only [UnorderedMap.entries, List.length_map, List.length_nil] at this
    exact List.length_eq_zero.1 this
  | cons e es =>
    rw [List.foldlM_cons, List.foldlM_cons, insert_body_prepared fuel (cleared_inv m 0).toWF]
    have hprep : prepared (cleared m 0) = cleared m default_bucket_count := by
      simp [prepared, cleared]
    rw [hprep, insert_body_of_buckets _ (by simp [cleared, default_bucket_count])]

/-- In a table with correct heads and pairwise distinct keys, `find` returns a
handle to each entry. -/
theorem find_of_perm [DecidableEq K] {t : UnorderedMap K V} (hi : Inv t)
    {elements : List (K × V)} (hperm : t.entries.Perm elements)
    (hnd : (elements.map Prod.fst).Nodup) :
    ∀ x ∈ elements, ∃ a, t.find x.1 = some (BasePtr.node a) ∧
      t.deref (BasePtr.node a) = some x := by
  have hinj : ∀ x ∈ elements, ∀ y ∈ elements, x.1 = y.1 → x = y :=
    List.inj_on_of_nodup_map hnd
  intro e he
  obtain ⟨n, hn, hne⟩ := List.mem_map.1 (hperm.mem_iff.2 he)
  obtain ⟨n', hn', hfind, hkey⟩ := find_complete hi hn
  have hn'e : n'.value.element = e := by
    refine hinj _ (hperm.mem_iff.1 (mem_entries hn')) _ he ?_
    rw [hkey, hne]
  refine ⟨n'.addr, ?_, ?_⟩
  · rw [← hne]
    exact hfind
  · rw [deref_of_mem hi.toWF hn', hn'e]

end UMap

/-! ## `rehash` for every bucket count, and the nodes it allocates -/

namespace UMap

variable {K V T : Type}

/-- With a positive `max_load_factor` and `c >= 1`, `rehash(c)` completes for
every sufficient recursion budget; it ends with at least `c` buckets and with
exactly `c` when the nodes of the table fit into `c` buckets. -/
theorem rehash_total [DecidableEq K] {m : UnorderedMap K V}
    (hs : m.list.list_size = m.list.nodes.length) (hmlf : 0 < m.max_load_factor_value)
    {c : Nat} (hc1 : 1 ≤ c) :
    ∃ F, ∀ fuel, F + 1 ≤ fuel →
      ∃ m1, UnorderedMap.rehash fuel m c = some m1 ∧ RehashPost m c m1 ∧
        (Fits m.max_load_factor_value m.list.nodes.length c →
          m1.buckets.length = c) := by
  obtain ⟨F, hF'⟩ := exists_fits hmlf hc1 m.list.nodes.length
  refine ⟨F, ?_⟩
  intro fuel hfuel
  obtain ⟨m1, hm1, hpost⟩ := rehash_spec F fuel hfuel m c hs hmlf hc1 hF'
  exact ⟨m1, hm1, hpost, fun hN => rehash_steady hs hc1 hN hm1⟩

theorem node_at_eq_none {l : List (TemplateNode T)} {a : Nat}
    (h : ∀ n ∈ l, n.addr ≠ a) : ListT.node_at l a = none := by
  induction l with
  | nil => rfl
  | cons x l ih =>
    simp [ListT.node_at, h x (List.mem_cons_self _ _),
      ih (fun n hn => h n (List.mem_cons_of_mem _ hn))]

theorem insert_body_fresh [DecidableEq K]
    {R : UnorderedMap K V → Nat → Option (UnorderedMap K V)} (hR : Sound R)
    (hF : FreshSound R) {m : UnorderedMap K V} (hw : WF m) {A : Nat}
    (hA : A ≤ m.list.alloc) (hnodes : ∀ n ∈ m.list.nodes, A ≤ n.addr) {e : K × V}
    {r : UnorderedMap K V × BasePtr × Bool}
    (h : UnorderedMap.insert_body R m e = some r) :
    A ≤ r.1.list.alloc ∧ ∀ n ∈ r.1.list.nodes, A ≤ n.addr := by
  obtain ⟨m0, hw0, hne0, hcases, hm0⟩ := insert_body_some hR hw h
  have hpre : A ≤ m0.list.alloc ∧ ∀ n ∈ m0.list.nodes, A ≤ n.addr := by
    rcases hm0 with ⟨_, rfl⟩ | ⟨_, hm5⟩
    · exact ⟨hA, hnodes⟩
    · have h1 := (hR m _ m0 hw.size_eq hm5).2.2.2.2.2
      exact ⟨le_trans hA h1, fun n hn => le_trans hA (hF m _ m0 hw.size_eq hm5 n hn)⟩
  rcases hcases with ⟨n, _, _, hr⟩ | ⟨m2, hl, _, hr⟩ | ⟨m2, m1, p, hl, _, hm1, _, hr⟩
  · rw [hr]
    exact hpre
  · rw [hr]
    refine ⟨by rw [hl.2.2.2.1]; exact Nat.le_succ_of_le hpre.1, ?_⟩
    intro n hn
    rcases hl.mem_nodes.1 hn with rfl | h'
    · exact hpre.1
    · exact hpre.2 n h'
  · rw [hr]
    have hw2 := hl.wf hw0 hne0
    have ha2 : A ≤ m2.list.alloc := by
      rw [hl.2.2.2.1]
      exact Nat.le_succ_of_le hpre.1
    exact ⟨le_trans ha2 (hR m2 _ m1 hw2.size_eq hm1).2.2.2.2.2,
      fun n hn => le_trans ha2 (hF m2 _ m1 hw2.size_eq hm1 n hn)⟩

theorem insert_fold_fresh [DecidableEq K]
    {R : UnorderedMap K V → Nat → Option (UnorderedMap K V)} (hR : Sound R)
    (hF : FreshSound R) {A : Nat} :
    ∀ (es : List (K × V)) (acc m1 : UnorderedMap K V), WF acc → A ≤ acc.list.alloc →
      (∀ n ∈ acc.list.nodes, A ≤ n.addr) →
      es.foldlM (fun a e => (UnorderedMap.insert_body R a e).map Prod.fst) acc = some m1 →
      ∀ n ∈ m1.list.nodes, A ≤ n.addr := by
  intro es
  induction es with
  | nil =>
    intro acc m1 _ _ hnodes h
    cases h
    exact hnodes
  | cons e es ih =>
    intro acc m1 hw hA hnodes h
    rw [List.foldlM_cons] at h
    obtain ⟨a1, ha1, h1⟩ := Option.bind_eq_some.1 h
    obtain ⟨r, hr, hra⟩ := Option.map_eq_some'.1 ha1
    subst hra
    obtain ⟨hA1, hnodes1⟩ := insert_body_fresh hR hF hw hA hnodes hr
    exact ih r.1 m1 (insert_body_sound hR hw hr).1 hA1 hnodes1 h1

/-- Every node of the table after a completed `rehash` was allocated by that
`rehash`: its address is not below the allocation watermark at the call. -/
theorem rehash_fresh_sound [DecidableEq K] (fuel : Nat) :
    FreshSound (UnorderedMap.rehash fuel : UnorderedMap K V → Nat → Option _) := by
  induction fuel with
  | zero =>
    intro m c m1 _ h
    simp [UnorderedMap.rehash] at h
  | succ fuel ih =>
    intro m c m1 hs h
    rw [rehash_succ fuel hs] at h
    refine insert_fold_fresh (rehash_sound fuel) ih m.entries (cleared m c) m1
      (cleared_inv m c).toWF (le_refl _) ?_ h
    intro n hn
    cases hn

end UMap

namespace UMap

variable {K V : Type}

/-- With a positive `max_load_factor`, `rehash(c)` completes for every `c` and
every sufficient recursion budget; the result satisfies the invariants and the
load bound, retains the entries, has at least `rehash_target m c` buckets, and
exactly that many when the nodes fit. -/
theorem rehash_any [DecidableEq K] {m : UnorderedMap K V}
    (hs : m.list.list_size = m.list.nodes.length) (hmlf : 0 < m.max_load_factor_value)
    (c : Nat) :
    ∃ F, ∀ fuel, F + 2 ≤ fuel →
      ∃ m1, UnorderedMap.rehash fuel m c = some m1 ∧ RehashPost m c m1 ∧
        rehash_target m c ≤ m1.buckets.length ∧
        (Fits m.max_load_factor_value m.list.nodes.length (rehash_target m c) →
          m1.buckets.length = rehash_target m c) := by
  by_cases hc : c = 0
  · subst hc
    by_cases hn : m.list.nodes.length = 0
    · refine ⟨0, ?_⟩
      intro fuel hfuel
      obtain ⟨fuel', rfl⟩ : ∃ f, fuel = f + 1 := ⟨fuel - 1, by omega⟩
      have hnil : m.list.nodes = [] := List.length_eq_zero.1 hn
      refine ⟨cleared m 0, rehash_nil fuel' hs hnil 0, ?_, ?_, ?_⟩
      · refine ⟨cleared_inv m 0, rfl, rfl, Nat.zero_le _, ?_, ?_, le_refl _⟩
        · exact cleared_loadOk m 0 hmlf
        · simp [UnorderedMap.entries, hnil, cleared, Retained]
      · simp [rehash_target, hn]
      · intro _
        simp [rehash_target, hn, cleared]
    · have htarget : rehash_target m 0 = default_bucket_count := by
        simp [rehash_target, hn]
      have hne : m.list.nodes ≠ [] := fun h => hn (by rw [h]; rfl)
      obtain ⟨F, hF⟩ := @rehash_total _ _ _ m hs hmlf default_bucket_count (by decide)
      refine ⟨F, ?_⟩
      intro fuel hfuel
      obtain ⟨fuel', rfl⟩ : ∃ f, fuel = f + 2 := ⟨fuel - 2, by omega⟩
      obtain ⟨m1, hm1, hpost, hsteady⟩ := hF (fuel' + 2) (by omega)
      rw [htarget]
      refine ⟨m1, by rw [rehash_zero fuel' hs hne]; exact hm1, ?_, hpost.2.2.2.1, hsteady⟩
      obtain ⟨h1, h2, h3, _, h5, h6, h7⟩ := hpost
      exact ⟨h1, h2, h3, Nat.zero_le _, h5, h6, h7⟩
  · have htarget : rehash_target m c = c := by
      simp [rehash_target, hc]
    obtain ⟨F, hF⟩ := @rehash_total _ _ _ m hs hmlf c (by omega)
    refine ⟨F, ?_⟩
    intro fuel hfuel
    obtain ⟨m1, hm1, hpost, hsteady⟩ := hF fuel (by omega)
    rw [htarget]
    exact ⟨m1, hm1, hpost, hpost.2.2.2.1, hsteady⟩

end UMap

/-! ## Growth at strict excess -/

namespace UMap

variable {K V : Type}

theorem cleared_buckets_length (m : UnorderedMap K V) (c : Nat) :
    (cleared m c).buckets.length = c := by
  simp [cleared]

theorem set_max_load_factor_inv {m : UnorderedMap K V} (hi : Inv m) (ml : ℚ) :
    Inv (m.set_max_load_factor ml) :=
  ⟨set_max_load_factor_wf hi.toWF ml, hi.heads, hi.contiguous⟩

/-- One doubling more than the exact bound asks for always makes the entries
fit. -/
theorem fits_of_exact_double {mlf : ℚ} (hmlf : 0 ≤ mlf) {n B k : Nat}
    (h : (n : ℚ) ≤ mlf * (B : ℚ) * 2 ^ k) : Fits mlf n (B * 2 ^ (k + 1)) := by
  rcases Nat.eq_zero_or_pos B with h0 | hB
  · subst h0
    have hn : n = 0 := by
      have : (n : ℚ) ≤ 0 := by simpa using h
      exact_mod_cast le_antisymm this (Nat.cast_nonneg n)
    subst hn
    unfold Fits
    rw [load_of_zero]
    exact hmlf
  · apply fits_of_roomy (Nat.mul_pos hB (Nat.pos_pow_of_pos _ (by decide)))
    rw [pow_succ]
    push_cast
    linarith

/-- When the entries fit, the exact bound holds after one more doubling. -/
theorem exact_double_of_fits {mlf : ℚ} (hmlf : 0 ≤ mlf) {n B k : Nat} (hB : 1 ≤ B)
    (h : Fits mlf n (B * 2 ^ k)) : (n : ℚ) ≤ mlf * (B : ℚ) * 2 ^ (k + 1) := by
  have h1 := bound_of_fits (Nat.mul_pos hB (Nat.pos_pow_of_pos _ (by decide))) hmlf h
  push_cast at h1
  have h2 : (0 : ℚ) ≤ mlf * (B : ℚ) * 2 ^ k := by positivity
  have h3 : mlf * ((B : ℚ) * 2 ^ k) * (1 + 1 / 2 ^ (22 : ℕ)) ≤ mlf * (B : ℚ) * 2 ^ k * 2 := by
    have : (1 : ℚ) + 1 / 2 ^ (22 : ℕ) ≤ 2 := by norm_num
    calc mlf * ((B : ℚ) * 2 ^ k) * (1 + 1 / 2 ^ (22 : ℕ))
        = mlf * (B : ℚ) * 2 ^ k * (1 + 1 / 2 ^ (22 : ℕ)) := by ring
      _ ≤ mlf * (B : ℚ) * 2 ^ k * 2 := mul_le_mul_of_nonneg_left this h2
  rw [pow_succ]
  linarith

theorem range_entries_length (n : Nat) :
    ((List.range n).map fun k => ((k, 0) : Nat × Nat)).length = n := by
  rw [List.length_map, List.length_range]

theorem range_entries_nodup (n : Nat) :
    (((List.range n).map fun k => ((k, 0) : Nat × Nat)).map Prod.fst).Nodup := by
  rw [List.map_map]
  have : (Prod.fst ∘ fun k => ((k, 0) : Nat × Nat)) = id := rfl
  rw [this, List.map_id]
  exact List.nodup_range n

/-- Inserting pairwise distinct keys into an empty table with correct heads
whose `B >= 1` buckets they all fit into completes and keeps the bucket count. -/
theorem insert_all_fits [DecidableEq K] {t0 : UnorderedMap K V} (hi : Inv t0)
    (hempty : t0.list.nodes = []) (hmlf : 0 < t0.max_load_factor_value)
    (hB : 1 ≤ t0.buckets.length) (elements : List (K × V))
    (hnd : (elements.map Prod.fst).Nodup)
    (hfit : Fits t0.max_load_factor_value elements.length t0.buckets.length)
    (fuel : Nat) (hfuel : t0.buckets.length + 2 ≤ fuel) :
    ∃ t, t0.insert_all fuel elements = some t ∧
      Inv t ∧ t.entries.Perm elements ∧ t.buckets.length = t0.buckets.length ∧
      t.max_load_factor_value = t0.max_load_factor_value ∧ t.hash = t0.hash := by
  have hF : Fits t0.max_load_factor_value elements.length (2 ^ t0.buckets.length) :=
    fits_mono hfit (le_refl _) (le_of_lt (Nat.lt_two_pow _)) hB
  obtain ⟨t, ht, hit, hperm⟩ := insert_all_distinct hi hempty hmlf elements hnd
    t0.buckets.length fuel hfuel hF
  have hs := insert_fold_sound (rehash_sound fuel) elements _ t hi ht
  refine ⟨t, ht, hit, hperm, ?_, hs.2.2.1, hs.2.1⟩
  have hne : t0.buckets ≠ [] := List.length_pos.1 hB
  exact insert_fold_steady elements _ t hi.toWF hne (by rw [hempty]; simpa using hfit) ht

/-- Inserting at most `B` pairwise distinct keys into the table constructed
with `B >= 1` buckets completes and keeps the bucket count at `B`. -/
theorem insert_all_steady [DecidableEq K] (hash : K → Nat) {B : Nat} (hB : 1 ≤ B)
    (elements : List (K × V)) (hnd : (elements.map Prod.fst).Nodup)
    (hlen : elements.length ≤ B) {fuel : Nat} (hfuel : B + 2 ≤ fuel) :
    ∃ t, (cleared (UnorderedMap.default_constructed hash : UnorderedMap K V) B).insert_all
        fuel elements = some t ∧
      Inv t ∧ t.entries.Perm elements ∧ t.buckets.length = B ∧
      t.max_load_factor_value = 1 := by
  have hi0 := cleared_inv (UnorderedMap.default_constructed hash : UnorderedMap K V) B
  have hb0 : (cleared (UnorderedMap.default_constructed hash : UnorderedMap K V) B).buckets.length
      = B := by simp [cleared]
  obtain ⟨t, ht, hit, hperm, hb, hm, _⟩ := insert_all_fits hi0 rfl
    (by simp [cleared, UnorderedMap.default_constructed]) (by rw [hb0]; exact hB) elements hnd
    (by
      rw [hb0]
      have : (cleared (UnorderedMap.default_constructed hash :
          UnorderedMap K V) B).max_load_factor_value = 1 := rfl
      rw [this]
      exact fits_one hlen)
    fuel (le_of_eq_of_le (by rw [hb0]) hfuel)
  exact ⟨t, ht, hit, hperm, hb.trans hb0, hm⟩

/-- An `insert` of an absent key into a table whose buckets the entries do not
fit into once the key is added, while they fit into twice as many, doubles the
bucket count and keeps every entry. -/
theorem insert_excess_doubles [DecidableEq K] {t : UnorderedMap K V} (hi : Inv t)
    (hB : 1 ≤ t.buckets.length)
    (hover : ¬ Fits t.max_load_factor_value (t.list.nodes.length + 1) t.buckets.length)
    (hfit : Fits t.max_load_factor_value (t.list.nodes.length + 1) (2 * t.buckets.length))
    {e : K × V}
    (hnd : ((e :: t.entries).map Prod.fst).Nodup) {fuel : Nat}
    {r : UnorderedMap K V × BasePtr × Bool} (hr : t.insert fuel e = some r) :
    r.1.buckets.length = 2 * t.buckets.length ∧ Inv r.1 ∧ r.1.entries.Perm (e :: t.entries) := by
  have hne : t.buckets ≠ [] := List.length_pos.1 hB
  obtain ⟨m0, _, _, hcases, hm0⟩ := insert_body_some (rehash_sound fuel) hi.toWF hr
  rcases hm0 with ⟨_, rfl⟩ | ⟨hnil, _⟩
  swap
  · exact absurd hnil hne
  rcases hcases with ⟨n, hn, hkey, _⟩ | ⟨m2, hl, hload, _⟩ | ⟨m2, m1, p, hl, _, hm1, _, hr1⟩
  · exfalso
    rw [List.map_cons, List.nodup_cons] at hnd
    apply hnd.1
    rw [← hkey]
    exact List.mem_map_of_mem Prod.fst (mem_entries hn)
  · exfalso
    apply hover
    have hw2 := hl.wf hi.toWF hne
    have h1 : Fits m2.max_load_factor_value m2.size m2.buckets.length := not_lt.1 hload
    rw [UnorderedMap.size, ListT.size, hw2.size_eq, hl.length, hl.2.1,
      hl.buckets_length] at h1
    exact h1
  · rw [hr1]
    have hw2 := hl.wf hi.toWF hne
    have hlen2 : m2.buckets.length = m0.buckets.length := hl.buckets_length
    have hsteady : m1.buckets.length = 2 * m2.buckets.length := by
      refine rehash_steady hw2.size_eq (by omega) ?_ hm1
      rw [hl.2.1, hl.length, hlen2]
      exact hfit
    obtain ⟨hi1, _, _, _, hret, _⟩ := rehash_sound fuel m2 _ m1 hw2.size_eq hm1
    have hperm2 := hl.entries_perm
    have hnd2 : (m2.entries.map Prod.fst).Nodup :=
      ((hperm2.map Prod.fst).nodup_iff).2 hnd
    refine ⟨by rw [hsteady, hlen2], hi1, (hret.perm_of_nodup hnd2).trans hperm2⟩

end UMap

/-! ## Segments of links -/

namespace UMap

variable {T : Type}

theorem seg_frame {mem mem1 : Memory T} :
    ∀ (ps : List Link) (p q : Link), Seg mem p ps q →
      (∀ x ∈ p :: ps, mem1.next x = mem.next x) →
      (∀ x ∈ ps ++ [q], mem1.previous x = mem.previous x) → Seg mem1 p ps q := by
  intro ps
  induction ps with
  | nil =>
    intro p q h hn hp
    exact ⟨by rw [hn p (List.mem_cons_self _ _)]; exact h.1,
      by rw [hp q (by simp)]; exact h.2⟩
  | cons a rest ih =>
    intro p q h hn hp
    refine ⟨by rw [hn p (List.mem_cons_self _ _)]; exact h.1,
      by rw [hp a (by simp)]; exact h.2.1, ?_⟩
    exact ih a q h.2.2 (fun x hx => hn x (List.mem_cons_of_mem _ hx))
      (fun x hx => hp x (by simpa using Or.inr (by simpa using hx)))

theorem seg_next_last {mem : Memory T} :
    ∀ (xs ys : List Link) (p q : Link), Seg mem p (xs ++ ys) q →
      mem.next (seg_last p xs) = some (seg_head ys q) ∧
      mem.previous (seg_head ys q) = some (seg_last p xs) := by
  intro xs
  induction xs with
  | nil =>
    intro ys p q h
    cases ys with
    | nil => exact h
    | cons y ys => exact ⟨h.1, h.2.1⟩
  | cons x xs ih =>
    intro ys p q h
    exact ih ys x q h.2.2

theorem seg_last_mem (p : Link) (xs : List Link) : seg_last p xs ∈ p :: xs := by
  induction xs generalizing p with
  | nil => simp [seg_last]
  | cons x xs ih =>
    simp only [seg_last]
    exact List.mem_cons_of_mem _ (ih x)

theorem seg_head_mem (ys : List Link) (q : Link) : seg_head ys q ∈ ys ++ [q] := by
  cases ys <;> simp [seg_head]

theorem seg_last_append (p : Link) (xs : List Link) (n : Link) :
    seg_last p (xs ++ [n]) = n := by
  induction xs generalizing p with
  | nil => rfl
  | cons x xs ih => exact ih x

/-- Linking the node `n` between the last of `p :: xs` and the first of
`ys ++ [q]`. -/
theorem seg_link {mem mem1 : Memory T} (n : Link) :
    ∀ (xs ys : List Link) (p q : Link), Seg mem p (xs ++ ys) q →
      (p :: (xs ++ ys)).Nodup → (xs ++ ys ++ [q]).Nodup →
      mem1.next (seg_last p xs) = some n → mem1.previous n = some (seg_last p xs) →
      mem1.next n = some (seg_head ys q) → mem1.previous (seg_head ys q) = some n →
      (∀ x ∈ p :: (xs ++ ys), x ≠ seg_last p xs → mem1.next x = mem.next x) →
      (∀ x ∈ xs ++ ys ++ [q], x ≠ seg_head ys q → mem1.previous x = mem.previous x) →
      Seg mem1 p (xs ++ n :: ys) q := by
  intro xs
  induction xs with
  | nil =>
    intro ys p q h hnd1 hnd2 h1 h2 h3 h4 hfn hfp
    simp only [List.nil_append, seg_last] at *
    refine ⟨h1, h2, ?_⟩
    cases ys with
    | nil => exact ⟨h3, h4⟩
    | cons y ys =>
      simp only [seg_head] at h3 h4 hfp
      refine ⟨h3, h4, ?_⟩
      refine seg_frame ys y q h.2.2 ?_ ?_
      · intro x hx
        apply hfn x (List.mem_cons_of_mem _ hx)
        rintro rfl
        exact (List.nodup_cons.1 hnd1).1 hx
      · intro x hx
        apply hfp x (List.mem_cons_of_mem _ hx)
        rintro rfl
        simp only [List.cons_append, List.nodup_cons] at hnd2
        exact hnd2.1 hx
  | cons x xs ih =>
    intro ys p q h hnd1 hnd2 h1 h2 h3 h4 hfn hfp
    simp only [List.cons_append, seg_last] at *
    have hlast := seg_last_mem x xs
    have hhead := seg_head_mem ys q
    refine ⟨?_, ?_, ?_⟩
    · rw [hfn p (List.mem_cons_self _ _) ?_]
      · exact h.1
      · rintro rfl
        have := (List.nodup_cons.1 hnd1).1
        apply this
        rcases List.mem_cons.1 hlast with h' | h'
        · rw [h']; exact List.mem_cons_self _ _
        · exact List.mem_cons_of_mem _ (List.mem_append_left _ h')
    · rw [hfp x (List.mem_cons_self _ _) ?_]
      · exact h.2.1
      · rintro hx
        have := (List.nodup_cons.1 hnd2).1
        apply this
        rw [hx]
        rcases List.mem_append.1 hhead with h' | h'
        · exact List.mem_append_left _ (List.mem_append_right _ h')
        · exact List.mem_append_right _ h'
    · exact ih ys x q h.2.2 (List.nodup_cons.1 hnd1).2 (List.nodup_cons.1 hnd2).2
        h1 h2 h3 h4 (fun y hy => hfn y (List.mem_cons_of_mem _ hy))
        (fun y hy => hfp y (List.mem_cons_of_mem _ hy))

/-- Unlinking the node `a` that stands between the last of `p :: xs` and the
first of `ys ++ [q]`. -/
theorem seg_unlink {mem mem1 : Memory T} (a : Link) :
    ∀ (xs ys : List Link) (p q : Link), Seg mem p (xs ++ a :: ys) q →
      (p :: (xs ++ a :: ys)).Nodup → (xs ++ a :: ys ++ [q]).Nodup →
      mem1.next (seg_last p xs) = some (seg_head ys q) →
      mem1.previous (seg_head ys q) = some (seg_last p xs) →
      (∀ x ∈ p :: (xs ++ ys), x ≠ seg_last p xs → mem1.next x = mem.next x) →
      (∀ x ∈ xs ++ ys ++ [q], x ≠ seg_head ys q → mem1.previous x = mem.previous x) →
      Seg mem1 p (xs ++ ys) q := by
  intro xs
  induction xs with
  | nil =>
    intro ys p q h hnd1 hnd2 h1 h2 hfn hfp
    simp only [List.nil_append, seg_last] at *
    cases ys with
    | nil => exact ⟨h1, h2⟩
    | cons y ys =>
      simp only [seg_head] at h1 h2 hfp
      refine ⟨h1, h2, ?_⟩
      have hseg : Seg mem y ys q := h.2.2.2.2
      refine seg_frame ys y q hseg ?_ ?_
      · intro x hx
        apply hfn x (List.mem_cons_of_mem _ hx)
        rintro rfl
        exact (List.nodup_cons.1 hnd1).1 (List.mem_cons_of_mem _ hx)
      · intro x hx
        have hnd3 : (y :: (ys ++ [q])).Nodup := by
          simpa using (List.nodup_cons.1 hnd2).2
        apply hfp x (List.mem_cons_of_mem _ hx)
        rintro rfl
        exact (List.nodup_cons.1 hnd3).1 hx
  | cons x xs ih =>
    intro ys p q h hnd1 hnd2 h1 h2 hfn hfp
    simp only [List.cons_append, seg_last] at *
    have hlast := seg_last_mem x xs
    have hhead := seg_head_mem ys q
    refine ⟨?_, ?_, ?_⟩
    · rw [hfn p (List.mem_cons_self _ _) ?_]
      · exact h.1
      · rintro rfl
        apply (List.nodup_cons.1 hnd1).1
        rcases List.mem_cons.1 hlast with h' | h'
        · rw [h']; exact List.mem_cons_self _ _
        · exact List.mem_cons_of_mem _ (List.mem_append_left _ h')
    · rw [hfp x (List.mem_cons_self _ _) ?_]
      · exact h.2.1
      · rintro hx
        apply (List.nodup_cons.1 hnd2).1
        rw [hx]
        rcases List.mem_append.1 hhead with h' | h'
        · exact List.mem_append_left _
            (List.mem_append_right _ (List.mem_cons_of_mem _ h'))
        · exact List.mem_append_right _ h'
    · exact ih ys x q h.2.2 (List.nodup_cons.1 hnd1).2 (List.nodup_cons.1 hnd2).2
        h1 h2 (fun y hy => hfn y (List.mem_cons_of_mem _ hy))
        (fun y hy => hfp y (List.mem_cons_of_mem _ hy))

end UMap

/-! ## `List::insert` and `List::erase` on a ring -/

namespace UMap

variable {T : Type}

theorem node_injective : Function.Injective Link.node := by
  intro a b h
  cases h
  rfl

theorem Ring.nodup_left {mem : Memory T} {l : ListObj} {addrs : List Nat}
    (h : Ring mem l addrs) : (l.root :: addrs.map Link.node).Nodup := by
  refine List.nodup_cons.2 ⟨by simp [ListObj.root], ?_⟩
  exact (List.nodup_map_iff node_injective).2 h.nodup

theorem Ring.nodup_right {mem : Memory T} {l : ListObj} {addrs : List Nat}
    (h : Ring mem l addrs) : (addrs.map Link.node ++ [l.root]).Nodup := by
  refine List.nodup_append.2 ⟨(List.nodup_map_iff node_injective).2 h.nodup,
    List.nodup_singleton _, ?_⟩
  intro x hx hx1
  simp only [List.mem_singleton] at hx1
  subst hx1
  simp [ListObj.root] at hx

theorem seg_last_ne_fresh {mem : Memory T} {l : ListObj} {addrs : List Nat}
    (h : ∀ a ∈ addrs, a < mem.watermark) :
    seg_last l.root (addrs.map Link.node) ≠ Link.node mem.watermark := by
  intro heq
  have hm := seg_last_mem l.root (addrs.map Link.node)
  rw [heq] at hm
  rcases List.mem_cons.1 hm with h1 | h1
  · simp [ListObj.root] at h1
  · obtain ⟨a, ha, hae⟩ := List.mem_map.1 h1
    cases hae
    exact absurd (h _ ha) (lt_irrefl _)

theorem seg_head_ne_fresh {mem : Memory T} {l : ListObj} {addrs : List Nat}
    (h : ∀ a ∈ addrs, a < mem.watermark) :
    seg_head (addrs.map Link.node) l.root ≠ Link.node mem.watermark := by
  intro heq
  have hm := seg_head_mem (addrs.map Link.node) l.root
  rw [heq] at hm
  rcases List.mem_append.1 hm with h1 | h1
  · obtain ⟨a, ha, hae⟩ := List.mem_map.1 h1
    cases hae
    exact absurd (h _ ha) (lt_irrefl _)
  · simp [ListObj.root] at h1

/-- `List::insert` at the position between `xs` and `ys` of a ring. -/
theorem ring_insert {mem : Memory T} {l : ListObj} {xs ys : List Nat}
    (h : Ring mem l (xs ++ ys)) (v : T) :
    ∃ mem1, l.insert mem (seg_head (ys.map Link.node) l.root) v =
        some (mem1, { l with list_size := l.list_size + 1 }, Link.node mem.watermark) ∧
      Ring mem1 { l with list_size := l.list_size + 1 } (xs ++ mem.watermark :: ys) ∧
      mem1.value mem.watermark = some v ∧
      (∀ a, a ≠ mem.watermark → mem1.value a = mem.value a) ∧
      mem1.watermark = mem.watermark + 1 ∧
      (∀ x, x ≠ seg_last l.root (xs.map Link.node) → x ≠ Link.node mem.watermark →
        mem1.next x = mem.next x) ∧
      (∀ x, x ≠ seg_head (ys.map Link.node) l.root → x ≠ Link.node mem.watermark →
        mem1.previous x = mem.previous x) := by
  have hseg : Seg mem l.root (xs.map Link.node ++ ys.map Link.node) l.root := by
    have := h.seg
    rwa [List.map_append] at this
  obtain ⟨hnext, hprev⟩ := seg_next_last _ _ _ _ hseg
  have hpv : seg_last l.root (xs.map Link.node) ≠ Link.node mem.watermark :=
    seg_last_ne_fresh (fun a ha => h.below a (List.mem_append_left _ ha))
  have hit : seg_head (ys.map Link.node) l.root ≠ Link.node mem.watermark :=
    seg_head_ne_fresh (fun a ha => h.below a (List.mem_append_right _ ha))
  have hfresh : mem.watermark ∉ xs ++ ys := fun hm => absurd (h.below _ hm) (lt_irrefl _)
  refine ⟨{ next := Function.update (Function.update mem.next (Link.node mem.watermark)
              (some (seg_head (ys.map Link.node) l.root)))
              (seg_last l.root (xs.map Link.node)) (some (Link.node mem.watermark)),
            previous := Function.update (Function.update mem.previous (Link.node mem.watermark)
              (some (seg_last l.root (xs.map Link.node))))
              (seg_head (ys.map Link.node) l.root) (some (Link.node mem.watermark)),
            value := Function.update mem.value mem.watermark (some v),
            watermark := mem.watermark + 1 }, ?_, ?_, ?_, ?_, rfl, ?_, ?_⟩
  · simp [ListObj.insert, Memory.set_previous, Memory.set_next, hprev, hnext,
      Function.update_noteq hit, Function.update_noteq hpv]
  · refine ⟨?_, ?_, ?_, ?_, ?_⟩
    · have hl := h.nodup_left
      have hr := h.nodup_right
      rw [List.map_append] at hl hr
      rw [List.map_append, List.map_cons]
      show Seg _ l.root _ l.root
      have hnotin : ∀ x ∈ l.root :: (xs.map Link.node ++ ys.map Link.node),
          x ≠ Link.node mem.watermark := by
        intro x hx heq
        subst heq
        rcases List.mem_cons.1 hx with h1 | h1
        · simp [ListObj.root] at h1
        · rw [← List.map_append] at h1
          obtain ⟨a, ha, hae⟩ := List.mem_map.1 h1
          cases hae
          exact hfresh ha
      refine seg_link (Link.node mem.watermark) _ _ _ _ hseg hl hr ?_ ?_ ?_ ?_ ?_ ?_
      · simp
      · simp [Function.update_noteq hit.symm]
      · simp [Function.update_noteq hpv.symm]
      · simp
      · intro x hx hx1
        simp [Function.update_noteq hx1, Function.update_noteq (hnotin x hx)]
      · intro x hx hx1
        have hx2 : x ≠ Link.node mem.watermark := by
          rcases List.mem_append.1 hx with h1 | h1
          · exact hnotin x (List.mem_cons_of_mem _ h1)
          · simp only [List.mem_singleton] at h1
            subst h1
            simp [ListObj.root]
        simp [Function.update_noteq hx1, Function.update_noteq hx2]
    · have := h.nodup
      rw [List.nodup_append] at this ⊢
      refine ⟨this.1, List.nodup_cons.2 ⟨fun hm => hfresh (List.mem_append_right _ hm),
        this.2.1⟩, ?_⟩
      intro a ha1 ha2
      rcases List.mem_cons.1 ha2 with h1 | h1
      · subst h1
        exact hfresh (List.mem_append_left _ ha1)
      · exact this.2.2 ha1 h1
    · intro a ha
      by_cases hw : a = mem.watermark
      · subst hw
        exact ⟨v, by simp⟩
      · have ha1 : a ∈ xs ++ ys := by
          simp only [List.mem_append, List.mem_cons] at ha ⊢
          tauto
        obtain ⟨w, hw1⟩ := h.live a ha1
        exact ⟨w, by simp [Function.update_noteq hw, hw1]⟩
    · intro a ha
      by_cases hw : a = mem.watermark
      · subst hw
        exact Nat.lt_succ_self _
      · have ha1 : a ∈ xs ++ ys := by
          simp only [List.mem_append, List.mem_cons] at ha ⊢
          tauto
        exact Nat.lt_succ_of_lt (h.below a ha1)
    · have := h.size_eq
      simp only [List.length_append, List.length_cons] at this ⊢
      omega
  · simp
  · intro a ha
    simp [Function.update_noteq ha]
  · intro x hx1 hx2
    simp [Function.update_noteq hx1, Function.update_noteq hx2]
  · intro x hx1 hx2
    simp [Function.update_noteq hx1, Function.update_noteq hx2]

end UMap

namespace UMap

variable {T : Type}

/-- `List::erase` of the node at address `a` of a ring. -/
theorem ring_erase {mem : Memory T} {l : ListObj} {xs ys : List Nat} {a : Nat}
    (h : Ring mem l (xs ++ a :: ys)) :
    ∃ mem1, l.erase mem (Link.node a) =
        some (mem1, { l with list_size := l.list_size - 1 },
          seg_head (ys.map Link.node) l.root) ∧
      Ring mem1 { l with list_size := l.list_size - 1 } (xs ++ ys) ∧
      mem1.value a = none ∧ mem1.next (Link.node a) = none ∧
      mem1.previous (Link.node a) = none ∧
      (∀ b, b ≠ a → mem1.value b = mem.value b) ∧
      mem1.watermark = mem.watermark ∧
      (∀ x, x ≠ seg_last l.root (xs.map Link.node) → x ≠ Link.node a →
        mem1.next x = mem.next x) ∧
      (∀ x, x ≠ seg_head (ys.map Link.node) l.root → x ≠ Link.node a →
        mem1.previous x = mem.previous x) := by
  have hseg : Seg mem l.root (xs.map Link.node ++ Link.node a :: ys.map Link.node) l.root := by
    have := h.seg
    rwa [List.map_append, List.map_cons] at this
  have hseg2 : Seg mem l.root ((xs.map Link.node ++ [Link.node a]) ++ ys.map Link.node)
      l.root := by
    simpa using hseg
  obtain ⟨hnext_pv, hprev_a⟩ := seg_next_last _ _ _ _ hseg
  obtain ⟨hnext_a, hprev_nx⟩ := seg_next_last _ _ _ _ hseg2
  rw [seg_last_append] at hnext_a hprev_nx
  simp only [seg_head] at hnext_pv hprev_a
  have hl := h.nodup_left
  have hr := h.nodup_right
  rw [List.map_append, List.map_cons] at hl hr
  have hpv : seg_last l.root (xs.map Link.node) ≠ Link.node a := by
    intro heq
    have hm := seg_last_mem l.root (xs.map Link.node)
    rw [heq] at hm
    have h1 := (List.nodup_cons.1 hl)
    rcases List.mem_cons.1 hm with h2 | h2
    · simp [ListObj.root] at h2
    · have h3 := (List.nodup_append.1 h1.2).2.2
      exact h3 h2 (List.mem_cons_self _ _)
  have hnx : seg_head (ys.map Link.node) l.root ≠ Link.node a := by
    intro heq
    have hm := seg_head_mem (ys.map Link.node) l.root
    rw [heq] at hm
    rcases List.mem_append.1 hm with h2 | h2
    · have h1 := (List.nodup_cons.1 hl).2
      have h3 := (List.nodup_cons.1 (List.nodup_append.1 h1).2.1).1
      exact h3 h2
    · simp [ListObj.root] at h2
  obtain ⟨v, hv⟩ := h.live a (by simp)
  refine ⟨{ next := Function.update (Function.update mem.next (Link.node a) none)
              (seg_last l.root (xs.map Link.node))
              (some (seg_head (ys.map Link.node) l.root)),
            previous := Function.update (Function.update mem.previous (Link.node a) none)
              (seg_head (ys.map Link.node) l.root)
              (some (seg_last l.root (xs.map Link.node))),
            value := Function.update mem.value a none,
            watermark := mem.watermark }, ?_, ?_, ?_, ?_, ?_, ?_, rfl, ?_, ?_⟩
  · simp [ListObj.erase, Memory.set_previous, Memory.set_next, hnext_a, hprev_a, hv,
      hprev_nx, hnext_pv, Function.update_noteq hnx, Function.update_noteq hpv]
  · refine ⟨?_, ?_, ?_, ?_, ?_⟩
    · rw [List.map_append]
      show Seg _ l.root _ l.root
      have hnotin : ∀ x ∈ l.root :: (xs.map Link.node ++ ys.map Link.node),
          x ≠ Link.node a := by
        intro x hx heq
        subst heq
        have h1 := List.nodup_cons.1 hl
        rcases List.mem_cons.1 hx with h2 | h2
        · simp [ListObj.root] at h2
        · have h3 := List.nodup_append.1 h1.2
          rcases List.mem_append.1 h2 with h4 | h4
          · exact h3.2.2 h4 (List.mem_cons_self _ _)
          · exact (List.nodup_cons.1 h3.2.1).1 h4
      refine seg_unlink (Link.node a) _ _ _ _ hseg hl (by simpa using hr) ?_ ?_ ?_ ?_
      · simp
      · simp
      · intro x hx hx1
        simp [Function.update_noteq hx1, Function.update_noteq (hnotin x hx)]
      · intro x hx hx1
        have hx2 : x ≠ Link.node a := by
          rcases List.mem_append.1 hx with h1 | h1
          · exact hnotin x (List.mem_cons_of_mem _ h1)
          · simp only [List.mem_singleton] at h1
            subst h1
            simp [ListObj.root]
        simp [Function.update_noteq hx1, Function.update_noteq hx2]
    · have := h.nodup
      rw [List.nodup_append] at this ⊢
      exact ⟨this.1, (List.nodup_cons.1 this.2.1).2,
        fun b hb1 hb2 => this.2.2 hb1 (List.mem_cons_of_mem _ hb2)⟩
    · intro b hb
      have hb1 : b ∈ xs ++ a :: ys := by
        simp only [List.mem_append, List.mem_cons] at hb ⊢
        tauto
      have hba : b ≠ a := by
        rintro rfl
        have hnd := h.nodup
        rw [List.nodup_append] at hnd
        rcases List.mem_append.1 hb with h1 | h1
        · exact hnd.2.2 h1 (List.mem_cons_self _ _)
        · exact (List.nodup_cons.1 hnd.2.1).1 h1
      obtain ⟨w, hw1⟩ := h.live b hb1
      exact ⟨w, by simp [Function.update_noteq hba, hw1]⟩
    · intro b hb
      have hb1 : b ∈ xs ++ a :: ys := by
        simp only [List.mem_append, List.mem_cons] at hb ⊢
        tauto
      exact h.below b hb1
    · have := h.size_eq
      simp only [List.length_append, List.length_cons] at this ⊢
      omega
  · simp
  · simp [Function.update_noteq hpv.symm]
  · simp [Function.update_noteq hnx.symm]
  · intro b hb
    simp [Function.update_noteq hb]
  · intro x hx1 hx2
    simp [Function.update_noteq hx1, Function.update_noteq hx2]
  · intro x hx1 hx2
    simp [Function.update_noteq hx1, Function.update_noteq hx2]

/-! ## Traversal of a ring -/

theorem seg_next_head {mem : Memory T} {p q : Link} {ps : List Link} (h : Seg mem p ps q) :
    mem.next p = some (seg_head ps q) := by
  cases ps with
  | nil => exact h.1
  | cons a rest => exact h.1

theorem seg_traverse {mem : Memory T} :
    ∀ (ps : List Link) (p q : Link), Seg mem p ps q → q ∉ ps →
      ∀ fuel, (ps.length ≤ fuel → mem.traverse q fuel (seg_head ps q) = some ps) ∧
        (fuel < ps.length → mem.traverse q fuel (seg_head ps q) = none) := by
  intro ps
  induction ps with
  | nil =>
    intro p q _ _ fuel
    refine ⟨fun _ => ?_, fun hlt => absurd hlt (Nat.not_lt_zero _)⟩
    cases fuel <;> simp [Memory.traverse, seg_head]
  | cons a rest ih =>
    intro p q h hq fuel
    have haq : a ≠ q := fun heq => hq (heq ▸ List.mem_cons_self _ _)
    have hrest := ih a q h.2.2 (fun hm => hq (List.mem_cons_of_mem _ hm))
    have hnext := seg_next_head h.2.2
    cases fuel with
    | zero =>
      refine ⟨fun hle => absurd hle (by simp), fun _ => ?_⟩
      show mem.traverse q 0 a = none
      simp [Memory.traverse, haq]
    | succ fuel =>
      refine ⟨fun hle => ?_, fun hlt => ?_⟩
      · have := (hrest fuel).1 (by simpa using hle)
        show mem.traverse q (fuel + 1) a = some (a :: rest)
        simp [Memory.traverse, haq, hnext, this]
      · have := (hrest fuel).2 (by simpa using hlt)
        show mem.traverse q (fuel + 1) a = none
        simp [Memory.traverse, haq, hnext, this]

/-- The loop from `begin()` to `end()` over a ring visits the nodes of the ring
in order; it needs exactly as many increments as the ring has nodes. -/
theorem Ring.nodes_eq {mem : Memory T} {l : ListObj} {addrs : List Nat}
    (h : Ring mem l addrs) (fuel : Nat) :
    (l.list_size ≤ fuel → l.nodes mem fuel = some (addrs.map Link.node)) ∧
      (fuel < l.list_size → l.nodes mem fuel = none) := by
  have hq : l.root ∉ addrs.map Link.node := by simp [ListObj.root]
  have ht := seg_traverse _ _ _ h.seg hq fuel
  have hb : l.begin mem = some (seg_head (addrs.map Link.node) l.root) := seg_next_head h.seg
  rw [h.size_eq]
  simp only [ListObj.nodes, hb, Option.some_bind, ListObj.end]
  simpa using ht

theorem Ring.nodes_some {mem : Memory T} {l : ListObj} {addrs : List Nat}
    (h : Ring mem l addrs) {fuel : Nat} {visited : List Link}
    (hv : l.nodes mem fuel = some visited) : visited = addrs.map Link.node := by
  by_cases hf : l.list_size ≤ fuel
  · rw [(h.nodes_eq fuel).1 hf] at hv
    exact (Option.some.inj hv).symm
  · rw [(h.nodes_eq fuel).2 (not_le.1 hf)] at hv
    cases hv

theorem seg_links_forward {mem : Memory T} :
    ∀ (ps : List Link) (p q : Link), Seg mem p ps q →
      ∀ n ∈ p :: ps, ∃ following, mem.next n = some following ∧
        mem.previous following = some n := by
  intro ps
  induction ps with
  | nil =>
    intro p q h n hn
    simp only [List.mem_singleton] at hn
    subst hn
    exact ⟨q, h⟩
  | cons a rest ih =>
    intro p q h n hn
    rcases List.mem_cons.1 hn with rfl | hn1
    · exact ⟨a, h.1, h.2.1⟩
    · exact ih a q h.2.2 n hn1

theorem seg_links_backward {mem : Memory T} :
    ∀ (ps : List Link) (p q : Link), Seg mem p ps q →
      ∀ n ∈ ps ++ [q], ∃ preceding, mem.previous n = some preceding ∧
        mem.next preceding = some n := by
  intro ps
  induction ps with
  | nil =>
    intro p q h n hn
    simp only [List.nil_append, List.mem_singleton] at hn
    subst hn
    exact ⟨p, h.2, h.1⟩
  | cons a rest ih =>
    intro p q h n hn
    rcases List.mem_cons.1 hn with rfl | hn1
    · exact ⟨p, h.2.1, h.1⟩
    · exact ih a q h.2.2 n hn1

/-- A ring keeps its shape under changes of the memory outside it. -/
theorem Ring.frame {mem mem1 : Memory T} {l : ListObj} {addrs : List Nat}
    (h : Ring mem l addrs)
    (hn : ∀ x ∈ l.root :: addrs.map Link.node, mem1.next x = mem.next x)
    (hp : ∀ x ∈ l.root :: addrs.map Link.node, mem1.previous x = mem.previous x)
    (hv : ∀ a ∈ addrs, mem1.value a = mem.value a)
    (hw : mem.watermark ≤ mem1.watermark) : Ring mem1 l addrs := by
  refine ⟨seg_frame _ _ _ h.seg hn ?_, h.nodup, ?_, ?_, h.size_eq⟩
  · intro x hx
    apply hp
    rcases List.mem_append.1 hx with h1 | h1
    · exact List.mem_cons_of_mem _ h1
    · simp only [List.mem_singleton] at h1
      rw [h1]
      exact List.mem_cons_self _ _
  · intro a ha
    rw [hv a ha]
    exact h.live a ha
  · intro a ha
    exact lt_of_lt_of_le (h.below a ha) hw

end UMap

/-! ## Moving the nodes of one ring to the end of another -/

namespace UMap

variable {T : Type}

theorem seg_suffix {mem : Memory T} :
    ∀ (xs ys : List Link) (a p q : Link), Seg mem p (xs ++ a :: ys) q → Seg mem a ys q := by
  intro xs
  induction xs with
  | nil =>
    intro ys a p q h
    exact h.2.2
  | cons x xs ih =>
    intro ys a p q h
    exact ih ys a x q h.2.2

theorem seg_next_mem {mem : Memory T} :
    ∀ (ps : List Link) (p q : Link), Seg mem p ps q →
      ∀ n ∈ p :: ps, ∃ following, mem.next n = some following ∧ following ∈ ps ++ [q] := by
  intro ps
  induction ps with
  | nil =>
    intro p q h n hn
    simp only [List.mem_singleton] at hn
    subst hn
    exact ⟨q, h.1, by simp⟩
  | cons a rest ih =>
    intro p q h n hn
    rcases List.mem_cons.1 hn with rfl | hn1
    · exact ⟨a, h.1, by simp⟩
    · obtain ⟨f, hf, hfm⟩ := ih a q h.2.2 n hn1
      exact ⟨f, hf, List.mem_cons_of_mem _ hfm⟩

theorem seg_previous_mem {mem : Memory T} :
    ∀ (ps : List Link) (p q : Link), Seg mem p ps q →
      ∀ n ∈ ps ++ [q], ∃ preceding, mem.previous n = some preceding ∧
        mem.next preceding = some n ∧ preceding ∈ p :: ps := by
  intro ps
  induction ps with
  | nil =>
    intro p q h n hn
    simp only [List.nil_append, List.mem_singleton] at hn
    subst hn
    exact ⟨p, h.2, h.1, by simp⟩
  | cons a rest ih =>
    intro p q h n hn
    rcases List.mem_cons.1 hn with rfl | hn1
    · exact ⟨p, h.2.1, h.1, by simp⟩
    · obtain ⟨f, hf, hfn, hfm⟩ := ih a q h.2.2 n hn1
      exact ⟨f, hf, hfn, List.mem_cons_of_mem _ hfm⟩

/-- Two rings with different sentinels in one memory share no node. -/
theorem ring_disjoint {mem : Memory T} {this other : ListObj} {as_ bs : List Nat}
    (ht : Ring mem this as_) (ho : Ring mem other bs) (hid : this.id ≠ other.id) :
    ∀ a ∈ as_, a ∉ bs := by
  have key : ∀ (ys : List Nat) (a : Nat), a ∈ as_ →
      Seg mem (Link.node a) (ys.map Link.node) other.root → False := by
    intro ys
    induction ys with
    | nil =>
      intro a ha hseg
      obtain ⟨f, hf, hfm⟩ := seg_next_mem _ _ _ ht.seg (Link.node a)
        (List.mem_cons_of_mem _ (List.mem_map_of_mem _ ha))
      have h1 : mem.next (Link.node a) = some other.root := hseg.1
      rw [h1] at hf
      cases hf
      rcases List.mem_append.1 hfm with h2 | h2
      · simp [ListObj.root] at h2
      · simp only [List.mem_singleton, ListObj.root, Link.root.injEq] at h2
        exact hid h2.symm
    | cons y ys ih =>
      intro a ha hseg
      obtain ⟨f, hf, hfm⟩ := seg_next_mem _ _ _ ht.seg (Link.node a)
        (List.mem_cons_of_mem _ (List.mem_map_of_mem _ ha))
      have h1 : mem.next (Link.node a) = some (Link.node y) := hseg.1
      rw [h1] at hf
      cases hf
      have hy : y ∈ as_ := by
        rcases List.mem_append.1 hfm with h2 | h2
        · obtain ⟨c, hc, hce⟩ := List.mem_map.1 h2
          cases hce
          exact hc
        · simp [ListObj.root] at h2
      exact ih y hy hseg.2.2
  intro a ha hb
  obtain ⟨xs, ys, rfl⟩ := List.append_of_mem hb
  have hseg := ho.seg
  rw [List.map_append, List.map_cons] at hseg
  exact key ys a ha (seg_suffix _ _ _ _ _ hseg)

/-- The memory after one node was taken from the front of `other` and linked
at the end of `this`, described field by field. -/
theorem relink_rings {mem mem1 : Memory T} {this other : ListObj} {as_ bs : List Nat}
    {b : Nat} (ht : Ring mem this as_) (ho : Ring mem other (b :: bs))
    (hid : this.id ≠ other.id)
    (hn : ∀ x, mem1.next x =
      if x = seg_last this.root (as_.map Link.node) then some (Link.node b)
      else if x = Link.node b then some this.root
      else if x = other.root then some (seg_head (bs.map Link.node) other.root)
      else mem.next x)
    (hp : ∀ x, mem1.previous x =
      if x = this.root then some (Link.node b)
      else if x = Link.node b then some (seg_last this.root (as_.map Link.node))
      else if x = seg_head (bs.map Link.node) other.root then some other.root
      else mem.previous x)
    (hv : ∀ a ∈ as_ ++ b :: bs, mem1.value a = mem.value a)
    (hw : mem.watermark ≤ mem1.watermark) :
    Ring mem1 { this with list_size := this.list_size + 1 } (as_ ++ [b]) ∧
      Ring mem1 { other with list_size := other.list_size - 1 } bs := by
  have hdis := ring_disjoint ht ho hid
  have hb_as : b ∉ as_ := fun hb => hdis b hb (List.mem_cons_self _ _)
  have hb_bs : b ∉ bs := (List.nodup_cons.1 ho.nodup).1
  have hroots : this.root ≠ other.root := by
    simp only [ListObj.root, ne_eq, Link.root.injEq]
    exact hid
  -- where the pointers involved lie
  have hlast_mem := seg_last_mem this.root (as_.map Link.node)
  have hnx_mem := seg_head_mem (bs.map Link.node) other.root
  have in_this : ∀ x ∈ this.root :: as_.map Link.node,
      x ≠ Link.node b ∧ x ≠ other.root ∧ x ≠ seg_head (bs.map Link.node) other.root := by
    intro x hx
    rcases List.mem_cons.1 hx with rfl | h1
    · refine ⟨by simp [ListObj.root], hroots, ?_⟩
      intro heq
      rw [← heq] at hnx_mem
      rcases List.mem_append.1 hnx_mem with h2 | h2
      · simp [ListObj.root] at h2
      · exact hroots (by simpa using h2)
    · obtain ⟨c, hc, rfl⟩ := List.mem_map.1 h1
      refine ⟨?_, by simp [ListObj.root], ?_⟩
      · intro heq
        cases heq
        exact hb_as hc
      · intro heq
        rw [← heq] at hnx_mem
        rcases List.mem_append.1 hnx_mem with h2 | h2
        · obtain ⟨d, hd, hde⟩ := List.mem_map.1 h2
          cases hde
          exact hdis c hc (List.mem_cons_of_mem _ hd)
        · simp [ListObj.root] at h2
  have in_other : ∀ x ∈ other.root :: bs.map Link.node,
      x ≠ Link.node b ∧ x ≠ this.root ∧ x ≠ seg_last this.root (as_.map Link.node) := by
    intro x hx
    rcases List.mem_cons.1 hx with rfl | h1
    · refine ⟨by simp [ListObj.root], hroots.symm, ?_⟩
      intro heq
      exact (in_this _ hlast_mem).2.1 heq.symm
    · obtain ⟨c, hc, rfl⟩ := List.mem_map.1 h1
      refine ⟨?_, by simp [ListObj.root], ?_⟩
      · intro heq
        cases heq
        exact hb_bs hc
      · intro heq
        rw [← heq] at hlast_mem
        rcases List.mem_cons.1 hlast_mem with h2 | h2
        · simp [ListObj.root] at h2
        · obtain ⟨d, hd, hde⟩ := List.mem_map.1 h2
          cases hde
          exact hdis c hd (List.mem_cons_of_mem _ hc)
  have hlast := in_this _ hlast_mem
  have hnx : seg_head (bs.map Link.node) other.root ≠ Link.node b ∧
      seg_head (bs.map Link.node) other.root ≠ this.root := by
    rcases List.mem_append.1 hnx_mem with h2 | h2
    · exact ⟨(in_other _ (List.mem_cons_of_mem _ h2)).1,
        (in_other _ (List.mem_cons_of_mem _ h2)).2.1⟩
    · simp only [List.mem_singleton] at h2
      rw [h2]
      exact ⟨by simp [ListObj.root], hroots.symm⟩
  constructor
  · refine ⟨?_, ?_, ?_, ?_, ?_⟩
    · show Seg mem1 this.root ((as_ ++ [b]).map Link.node) this.root
      rw [List.map_append, List.map_cons, List.map_nil]
      have hseg : Seg mem this.root (as_.map Link.node ++ []) this.root := by
        simpa using ht.seg
      refine seg_link (Link.node b) _ [] _ _ hseg (by simpa using ht.nodup_left)
        (by simpa using ht.nodup_right) ?_ ?_ ?_ ?_ ?_ ?_
      · rw [hn]
        simp
      · rw [hp]
        simp [(in_this _ (List.mem_cons_self _ _)).1.symm]
      · rw [hn]
        simp [hlast.1.symm, seg_head]
      · rw [hp]
        simp [seg_head]
      · intro x hx hx1
        have hx2 := in_this x (by simpa using hx)
        rw [hn]
        simp [hx1, hx2.1, hx2.2.1]
      · intro x hx hx1
        simp only [seg_head] at hx1
        have hx' : x ∈ this.root :: as_.map Link.node := by
          simp only [List.append_nil, List.mem_append, List.mem_singleton] at hx
          rcases hx with h1 | h1
          · exact List.mem_cons_of_mem _ h1
          · rw [h1]
            exact List.mem_cons_self _ _
        have hx2 := in_this x hx'
        rw [hp]
        simp [hx1, hx2.1, hx2.2.2]
    · rw [List.nodup_append]
      refine ⟨ht.nodup, List.nodup_singleton _, ?_⟩
      intro c hc1 hc2
      simp only [List.mem_singleton] at hc2
      subst hc2
      exact hb_as hc1
    · intro c hc
      rw [hv c (by
        simp only [List.mem_append, List.mem_singleton, List.mem_cons] at hc ⊢
        tauto)]
      rcases List.mem_append.1 hc with h1 | h1
      · exact ht.live c h1
      · simp only [List.mem_singleton] at h1
        subst h1
        exact ho.live c (List.mem_cons_self _ _)
    · intro c hc
      refine lt_of_lt_of_le ?_ hw
      rcases List.mem_append.1 hc with h1 | h1
      · exact ht.below c h1
      · simp only [List.mem_singleton] at h1
        subst h1
        exact ho.below c (List.mem_cons_self _ _)
    · have := ht.size_eq
      simp only [List.length_append, List.length_singleton]
      omega
  · refine ⟨?_, (List.nodup_cons.1 ho.nodup).2, ?_, ?_, ?_⟩
    · show Seg mem1 other.root (bs.map Link.node) other.root
      have hseg : Seg mem other.root ([] ++ Link.node b :: bs.map Link.node) other.root := by
        simpa using ho.seg
      have := @seg_unlink T mem mem1 (Link.node b) [] (bs.map Link.node) other.root other.root
        hseg (by simpa using ho.nodup_left) (by simpa using ho.nodup_right) ?_ ?_ ?_ ?_
      · simpa using this
      · rw [hn]
        simp [seg_last, hlast.2.1.symm, (in_other _ (List.mem_cons_self _ _)).1]
      · rw [hp]
        simp [seg_last, hnx.1, hnx.2]
      · intro x hx hx1
        simp only [seg_last] at hx1
        have hx2 := in_other x (by simpa using hx)
        rw [hn]
        simp [hx1, hx2.1, hx2.2.2]
      · intro x hx hx1
        have hx' : x ∈ other.root :: bs.map Link.node := by
          simp only [List.nil_append, List.mem_append, List.mem_singleton] at hx
          rcases hx with h1 | h1
          · exact List.mem_cons_of_mem _ h1
          · rw [h1]
            exact List.mem_cons_self _ _
        have hx2 := in_other x hx'
        rw [hp]
        simp [hx1, hx2.1, hx2.2.1]
    · intro c hc
      rw [hv c (by simp [hc])]
      exact ho.live c (List.mem_cons_of_mem _ hc)
    · intro c hc
      exact lt_of_lt_of_le (ho.below c (List.mem_cons_of_mem _ hc)) hw
    · have := ho.size_eq
      simp only [List.length_cons] at this
      show other.list_size - 1 = bs.length
      omega

end UMap

namespace UMap

variable {T : Type}

/-- The pointers that one step of a move reads and writes, and what they are
distinct from. -/
theorem move_step_facts {mem : Memory T} {this other : ListObj} {as_ bs : List Nat} {b : Nat}
    (ht : Ring mem this as_) (ho : Ring mem other (b :: bs)) (hid : this.id ≠ other.id) :
    mem.next other.root = some (Link.node b) ∧
    mem.previous (Link.node b) = some other.root ∧
    mem.next (Link.node b) = some (seg_head (bs.map Link.node) other.root) ∧
    mem.previous (seg_head (bs.map Link.node) other.root) = some (Link.node b) ∧
    mem.previous this.root = some (seg_last this.root (as_.map Link.node)) ∧
    mem.next (seg_last this.root (as_.map Link.node)) = some this.root ∧
    this.root ≠ other.root ∧ this.root ≠ Link.node b ∧ other.root ≠ Link.node b ∧
    this.root ≠ seg_head (bs.map Link.node) other.root ∧
    seg_head (bs.map Link.node) other.root ≠ Link.node b ∧
    seg_last this.root (as_.map Link.node) ≠ other.root ∧
    seg_last this.root (as_.map Link.node) ≠ Link.node b ∧
    seg_last this.root (as_.map Link.node) ≠ seg_head (bs.map Link.node) other.root := by
  have hdis := ring_disjoint ht ho hid
  have hroots : this.root ≠ other.root := by
    simp only [ListObj.root, ne_eq, Link.root.injEq]
    exact hid
  have hso : Seg mem other.root ([] ++ Link.node b :: bs.map Link.node) other.root := by
    simpa using ho.seg
  have hso2 : Seg mem other.root ([Link.node b] ++ bs.map Link.node) other.root := by
    simpa using ho.seg
  have hst : Seg mem this.root (as_.map Link.node ++ []) this.root := by
    simpa using ht.seg
  obtain ⟨h1, h2⟩ := seg_next_last _ _ _ _ hso
  obtain ⟨h3, h4⟩ := seg_next_last _ _ _ _ hso2
  obtain ⟨h5, h6⟩ := seg_next_last _ _ _ _ hst
  simp only [seg_last, seg_head] at h1 h2 h3 h4 h5 h6
  have hlast_mem := seg_last_mem this.root (as_.map Link.node)
  have hnx_mem := seg_head_mem (bs.map Link.node) other.root
  have hb_bs : b ∉ bs := (List.nodup_cons.1 ho.nodup).1
  have hnx_b : seg_head (bs.map Link.node) other.root ≠ Link.node b := by
    intro heq
    rw [heq] at hnx_mem
    rcases List.mem_append.1 hnx_mem with h | h
    · obtain ⟨c, hc, hce⟩ := List.mem_map.1 h
      cases hce
      exact hb_bs hc
    · simp [ListObj.root] at h
  have hrt_nx : this.root ≠ seg_head (bs.map Link.node) other.root := by
    intro heq
    rw [← heq] at hnx_mem
    rcases List.mem_append.1 hnx_mem with h | h
    · simp [ListObj.root] at h
    · exact hroots (by simpa using h)
  have hlast_ro : seg_last this.root (as_.map Link.node) ≠ other.root := by
    intro heq
    rw [heq] at hlast_mem
    rcases List.mem_cons.1 hlast_mem with h | h
    · exact hroots h.symm
    · simp [ListObj.root] at h
  have hlast_b : seg_last this.root (as_.map Link.node) ≠ Link.node b := by
    intro heq
    rw [heq] at hlast_mem
    rcases List.mem_cons.1 hlast_mem with h | h
    · simp [ListObj.root] at h
    · obtain ⟨c, hc, hce⟩ := List.mem_map.1 h
      cases hce
      exact hdis _ hc (List.mem_cons_self _ _)
  have hlast_nx : seg_last this.root (as_.map Link.node) ≠
      seg_head (bs.map Link.node) other.root := by
    intro heq
    rcases List.mem_cons.1 hlast_mem with h | h
    · exact hrt_nx (by rw [← h, heq])
    · obtain ⟨c, hc, hce⟩ := List.mem_map.1 h
      rw [← heq, ← hce] at hnx_mem
      rcases List.mem_append.1 hnx_mem with h' | h'
      · obtain ⟨d, hd, hde⟩ := List.mem_map.1 h'
        cases hde
        exact hdis _ hc (List.mem_cons_of_mem _ hd)
      · simp [ListObj.root] at h'
  exact ⟨h1, h2, h3, h4, h6, h5, hroots, by simp [ListObj.root], by simp [ListObj.root],
    hrt_nx, hnx_b, hlast_ro, hlast_b, hlast_nx⟩

/-- One iteration of the loop of the move constructor. -/
theorem move_construct_body_spec {mem : Memory T} {this other : ListObj}
    {as_ bs : List Nat} {b : Nat}
    (ht : Ring mem this as_) (ho : Ring mem other (b :: bs)) (hid : this.id ≠ other.id) :
    ∃ mem1, ListObj.move_construct_body mem this other =
        some (mem1, { this with list_size := this.list_size + 1 },
          { other with list_size := other.list_size - 1 }) ∧
      Ring mem1 { this with list_size := this.list_size + 1 } (as_ ++ [b]) ∧
      Ring mem1 { other with list_size := other.list_size - 1 } bs ∧
      mem1.value = mem.value ∧ mem1.watermark = mem.watermark := by
  obtain ⟨h1, h2, h3, h4, h5, h6, d1, d2, d3, d4, d5, d6, d7, d8⟩ :=
    move_step_facts ht ho hid
  obtain ⟨r1, r2⟩ := @relink_rings T mem
    { mem with
      next := Function.update (Function.update (Function.update mem.next other.root
        (some (seg_head (bs.map Link.node) other.root))) (Link.node b) (some this.root))
        (seg_last this.root (as_.map Link.node)) (some (Link.node b)),
      previous := Function.update (Function.update (Function.update mem.previous
        (seg_head (bs.map Link.node) other.root) (some other.root)) (Link.node b)
        (some (seg_last this.root (as_.map Link.node)))) this.root (some (Link.node b)) }
    this other as_ bs b ht ho hid
    (by intro x; simp only [Function.update_apply])
    (by intro x; simp only [Function.update_apply])
    (by intro a _; rfl) (le_refl _)
  refine ⟨_, ?_, r1, r2, rfl, rfl⟩
  simp [ListObj.move_construct_body, ListObj.take_first, ListObj.begin, ListObj.end,
    Memory.set_next, Memory.set_previous, h1, h2, h3, h4, h5, h6,
    Function.update_apply, d1, d2, d3, d4, d5, d6, d7, d8, d1.symm, d2.symm, d3.symm,
    d4.symm, d5.symm, d6.symm, d7.symm, d8.symm]

/-- One iteration of the loop of `move_ones_nodes_to_the_other`. -/
theorem move_ones_body_spec {mem : Memory T} {this other : ListObj}
    {as_ bs : List Nat} {b : Nat}
    (ht : Ring mem this as_) (ho : Ring mem other (b :: bs)) (hid : this.id ≠ other.id) :
    ∃ mem1, ListObj.move_ones_body mem this other =
        some (mem1, { this with list_size := this.list_size + 1 },
          { other with list_size := other.list_size - 1 }) ∧
      Ring mem1 { this with list_size := this.list_size + 1 } (as_ ++ [b]) ∧
      Ring mem1 { other with list_size := other.list_size - 1 } bs ∧
      mem1.value = mem.value ∧ mem1.watermark = mem.watermark := by
  obtain ⟨h1, h2, h3, h4, h5, h6, d1, d2, d3, d4, d5, d6, d7, d8⟩ :=
    move_step_facts ht ho hid
  obtain ⟨r1, r2⟩ := @relink_rings T mem
    { mem with
      next := Function.update (Function.update (Function.update mem.next other.root
        (some (seg_head (bs.map Link.node) other.root))) (Link.node b) (some this.root))
        (seg_last this.root (as_.map Link.node)) (some (Link.node b)),
      previous := Function.update (Function.update (Function.update mem.previous
        (seg_head (bs.map Link.node) other.root) (some other.root)) this.root
        (some (Link.node b))) (Link.node b)
        (some (seg_last this.root (as_.map Link.node))) }
    this other as_ bs b ht ho hid
    (by intro x; simp only [Function.update_apply])
    (by
      intro x
      simp only [Function.update_apply]
      by_cases hx : x = this.root
      · subst hx
        simp [d2]
      · simp [hx])
    (by intro a _; rfl) (le_refl _)
  refine ⟨_, ?_, r1, r2, rfl, rfl⟩
  simp [ListObj.move_ones_body, ListObj.take_first, ListObj.begin, ListObj.end,
    Memory.set_next, Memory.set_previous, h1, h2, h3, h4, h5, h6,
    Function.update_apply, d1, d2, d3, d4, d5, d6, d7, d8, d1.symm, d2.symm, d3.symm,
    d4.symm, d5.symm, d6.symm, d7.symm, d8.symm]

end UMap

namespace UMap

variable {T : Type}

/-- The pointers of two rings with different sentinels are distinct. -/
theorem rings_apart {mem : Memory T} {this other : ListObj} {as_ bs : List Nat}
    (ht : Ring mem this as_) (ho : Ring mem other bs) (hid : this.id ≠ other.id) :
    ∀ x ∈ this.root :: as_.map Link.node, x ∉ other.root :: bs.map Link.node := by
  have hdis := ring_disjoint ht ho hid
  intro x hx hx2
  rcases List.mem_cons.1 hx with rfl | h1
  · rcases List.mem_cons.1 hx2 with h2 | h2
    · simp only [ListObj.root, Link.root.injEq] at h2
      exact hid h2
    · simp [ListObj.root] at h2
  · obtain ⟨c, hc, rfl⟩ := List.mem_map.1 h1
    rcases List.mem_cons.1 hx2 with h2 | h2
    · simp [ListObj.root] at h2
    · obtain ⟨d, hd, hde⟩ := List.mem_map.1 h2
      cases hde
      exact hdis _ hc hd

theorem fresh_not_in_ring {mem : Memory T} {l : ListObj} {addrs : List Nat}
    (h : Ring mem l addrs) : Link.node mem.watermark ∉ l.root :: addrs.map Link.node := by
  intro hm
  rcases List.mem_cons.1 hm with h1 | h1
  · simp [ListObj.root] at h1
  · obtain ⟨c, hc, hce⟩ := List.mem_map.1 h1
    cases hce
    exact absurd (h.below _ hc) (lt_irrefl _)

/-- One iteration of the loop of the reconstructing branch of the move
assignment. -/
theorem move_reconstruct_body_spec {mem : Memory T} {this other : ListObj}
    {as_ bs : List Nat} {b : Nat}
    (ht : Ring mem this as_) (ho : Ring mem other (b :: bs)) (hid : this.id ≠ other.id) :
    ∃ mem1, ListObj.move_reconstruct_body mem this other =
        some (mem1, { this with list_size := this.list_size + 1 },
          { other with list_size := other.list_size - 1 }) ∧
      Ring mem1 { this with list_size := this.list_size + 1 } (as_ ++ [mem.watermark]) ∧
      Ring mem1 { other with list_size := other.list_size - 1 } bs ∧
      mem1.value mem.watermark = mem.value b ∧ mem1.value b = none ∧
      (∀ c, c ≠ b → c ≠ mem.watermark → mem1.value c = mem.value c) ∧
      mem1.watermark = mem.watermark + 1 := by
  obtain ⟨h1, h2, h3, h4, h5, h6, d1, d2, d3, d4, d5, d6, d7, d8⟩ :=
    move_step_facts ht ho hid
  have hapart := rings_apart ht ho hid
  have hfresh_t := fresh_not_in_ring ht
  have hfresh_o := fresh_not_in_ring ho
  have hlast_mem := seg_last_mem this.root (as_.map Link.node)
  have hnx_mem := seg_head_mem (bs.map Link.node) other.root
  have hro_new : other.root ≠ Link.node mem.watermark := by simp [ListObj.root]
  have hrt_new : this.root ≠ Link.node mem.watermark := by simp [ListObj.root]
  have hlast_new : seg_last this.root (as_.map Link.node) ≠ Link.node mem.watermark :=
    fun heq => hfresh_t (heq ▸ hlast_mem)
  have hb_w : b ≠ mem.watermark := fun heq =>
    absurd (ho.below b (List.mem_cons_self _ _)) (by rw [heq]; exact lt_irrefl _)
  have hnx_new : seg_head (bs.map Link.node) other.root ≠ Link.node mem.watermark := by
    intro heq
    rw [heq] at hnx_mem
    apply hfresh_o
    rcases List.mem_append.1 hnx_mem with h | h
    · exact List.mem_cons_of_mem _ (List.mem_cons_of_mem _ h)
    · simp [ListObj.root] at h
  obtain ⟨vb, hvb⟩ := ho.live b (List.mem_cons_self _ _)
  -- the memory after the construction of the new node
  have ho1 : Ring
      ({ next := Function.update mem.next (Link.node mem.watermark) (some this.root),
         previous := Function.update mem.previous (Link.node mem.watermark)
           (some (seg_last this.root (as_.map Link.node))),
         value := Function.update mem.value mem.watermark (some vb),
         watermark := mem.watermark + 1 } : Memory T) other ([] ++ b :: bs) := by
    refine Ring.frame ho ?_ ?_ ?_ (Nat.le_succ _)
    · intro x hx
      have : x ≠ Link.node mem.watermark := fun heq => hfresh_o (heq ▸ hx)
      simp [Function.update_noteq this]
    · intro x hx
      have : x ≠ Link.node mem.watermark := fun heq => hfresh_o (heq ▸ hx)
      simp [Function.update_noteq this]
    · intro a ha
      have : a ≠ mem.watermark := fun heq =>
        absurd (ho.below a ha) (by rw [heq]; exact lt_irrefl _)
      simp [Function.update_noteq this]
  obtain ⟨mem2, herase, hring2, hval_b, _, _, hval2, hw2, hn2, hp2⟩ := ring_erase ho1
  simp only [List.nil_append, List.map_nil, seg_last] at hring2 hn2 hp2
  have hn2_last : mem2.next (seg_last this.root (as_.map Link.node)) = some this.root := by
    rw [hn2 _ d6 d7]
    simp [Function.update_noteq hlast_new, h6]
  have hp2_rt : mem2.previous this.root =
      some (seg_last this.root (as_.map Link.node)) := by
    rw [hp2 _ d4 d2]
    simp [Function.update_noteq hrt_new, h5]
  refine ⟨{ mem2 with
      next := Function.update mem2.next (seg_last this.root (as_.map Link.node))
        (some (Link.node mem.watermark)),
      previous := Function.update mem2.previous this.root
        (some (Link.node mem.watermark)) }, ?_, ?_, ?_, ?_, ?_, ?_, hw2⟩
  · simp [ListObj.move_reconstruct_body, ListObj.begin, ListObj.end, h1, h5, h6,
      Memory.value_at, hvb, Function.update_noteq hro_new, herase, hn2_last,
      Memory.set_previous, Memory.set_next, hp2_rt]
  · refine ⟨?_, ?_, ?_, ?_, ?_⟩
    · show Seg _ this.root ((as_ ++ [mem.watermark]).map Link.node) this.root
      rw [List.map_append, List.map_cons, List.map_nil]
      have hseg : Seg mem this.root (as_.map Link.node ++ []) this.root := by
        simpa using ht.seg
      refine seg_link (Link.node mem.watermark) _ [] _ _ hseg (by simpa using ht.nodup_left)
        (by simpa using ht.nodup_right) ?_ ?_ ?_ ?_ ?_ ?_
      · simp
      · simp only [Function.update_noteq hrt_new.symm]
        rw [hp2 _ hnx_new.symm (by
          intro heq
          cases heq
          exact hb_w rfl)]
        simp
      · simp only [Function.update_noteq hlast_new.symm]
        rw [hn2 _ hro_new.symm (by
          intro heq
          cases heq
          exact hb_w rfl)]
        simp [seg_head]
      · simp [seg_head]
      · intro x hx hx1
        have hxo := hapart x (by simpa using hx)
        have hx_ro : x ≠ other.root := fun heq => hxo (heq ▸ List.mem_cons_self _ _)
        have hx_b : x ≠ Link.node b := fun heq =>
          hxo (heq ▸ List.mem_cons_of_mem _ (List.mem_cons_self _ _))
        have hx_new : x ≠ Link.node mem.watermark := fun heq =>
          hfresh_t (heq ▸ (by simpa using hx))
        simp only [Function.update_noteq hx1]
        rw [hn2 x hx_ro hx_b]
        simp [Function.update_noteq hx_new]
      · intro x hx hx1
        simp only [seg_head] at hx1
        have hx' : x ∈ this.root :: as_.map Link.node := by
          simp only [List.append_nil, List.mem_append, List.mem_singleton] at hx
          rcases hx with h | h
          · exact List.mem_cons_of_mem _ h
          · rw [h]
            exact List.mem_cons_self _ _
        have hxo := hapart x hx'
        have hx_nx : x ≠ seg_head (bs.map Link.node) other.root := by
          intro heq
          apply hxo
          rw [heq]
          rcases List.mem_append.1 hnx_mem with h | h
          · exact List.mem_cons_of_mem _ (List.mem_cons_of_mem _ h)
          · simp only [List.mem_singleton] at h
            rw [h]
            exact List.mem_cons_self _ _
        have hx_b : x ≠ Link.node b := fun heq =>
          hxo (heq ▸ List.mem_cons_of_mem _ (List.mem_cons_self _ _))
        have hx_new : x ≠ Link.node mem.watermark := fun heq => hfresh_t (heq ▸ hx')
        simp only [Function.update_noteq hx1]
        rw [hp2 x hx_nx hx_b]
        simp [Function.update_noteq hx_new]
    · rw [List.nodup_append]
      refine ⟨ht.nodup, List.nodup_singleton _, ?_⟩
      intro c hc1 hc2
      simp only [List.mem_singleton] at hc2
      subst hc2
      exact absurd (ht.below _ hc1) (lt_irrefl _)
    · intro c hc
      show ∃ v, mem2.value c = some v
      rcases List.mem_append.1 hc with hc1 | hc1
      · have hcb : c ≠ b := fun heq =>
          ring_disjoint ht ho hid c hc1 (heq ▸ List.mem_cons_self _ _)
        have hcw : c ≠ mem.watermark := fun heq =>
          absurd (ht.below c hc1) (by rw [heq]; exact lt_irrefl _)
        rw [hval2 c hcb]
        simp only [Function.update_noteq hcw]
        exact ht.live c hc1
      · simp only [List.mem_singleton] at hc1
        subst hc1
        rw [hval2 _ hb_w.symm]
        exact ⟨vb, by simp⟩
    · intro c hc
      show c < mem2.watermark
      rw [hw2]
      rcases List.mem_append.1 hc with hc1 | hc1
      · exact Nat.lt_succ_of_lt (ht.below c hc1)
      · simp only [List.mem_singleton] at hc1
        subst hc1
        exact Nat.lt_succ_self _
    · have := ht.size_eq
      simp only [List.length_append, List.length_singleton]
      omega
  · refine Ring.frame hring2 ?_ ?_ (fun _ _ => rfl) (le_refl _)
    · intro x hx
      have : x ≠ seg_last this.root (as_.map Link.node) := by
        intro heq
        refine hapart _ hlast_mem ?_
        rw [← heq]
        rcases List.mem_cons.1 hx with h | h
        · rw [h]
          exact List.mem_cons_self _ _
        · exact List.mem_cons_of_mem _ (List.mem_cons_of_mem _ h)
      simp [Function.update_noteq this]
    · intro x hx
      have : x ≠ this.root := by
        intro heq
        refine hapart _ (List.mem_cons_self _ _) ?_
        rw [← heq]
        rcases List.mem_cons.1 hx with h | h
        · rw [h]
          exact List.mem_cons_self _ _
        · exact List.mem_cons_of_mem _ (List.mem_cons_of_mem _ h)
      simp [Function.update_noteq this]
  · show mem2.value mem.watermark = mem.value b
    rw [hval2 _ hb_w.symm]
    simp [hvb]
  · exact hval_b
  · intro c hcb hcw
    show mem2.value c = mem.value c
    rw [hval2 c hcb]
    simp [Function.update_noteq hcw]

end UMap

/-! ## The loops over whole rings -/

namespace UMap

variable {T : Type}

theorem Ring.empty_iff {mem : Memory T} {l : ListObj} {addrs : List Nat}
    (h : Ring mem l addrs) : l.empty = true ↔ addrs = [] := by
  simp only [ListObj.empty, beq_iff_eq, h.size_eq]
  exact List.length_eq_zero

/-- A loop whose body takes the first node of `other` and links it at the end of
`this` moves all nodes, in order. -/
theorem move_while_relinks
    {body : Memory T → ListObj → ListObj → Option (Memory T × ListObj × ListObj)}
    (hbody : ∀ (mem : Memory T) (this other : ListObj) (as_ bs : List Nat) (b : Nat),
      Ring mem this as_ → Ring mem other (b :: bs) → this.id ≠ other.id →
      ∃ mem1, body mem this other =
          some (mem1, { this with list_size := this.list_size + 1 },
            { other with list_size := other.list_size - 1 }) ∧
        Ring mem1 { this with list_size := this.list_size + 1 } (as_ ++ [b]) ∧
        Ring mem1 { other with list_size := other.list_size - 1 } bs ∧
        mem1.value = mem.value ∧ mem1.watermark = mem.watermark) :
    ∀ (bs : List Nat) (mem : Memory T) (this other : ListObj) (as_ : List Nat),
      Ring mem this as_ → Ring mem other bs → this.id ≠ other.id →
      ∃ mem1 this1 other1,
        ListObj.move_while body other.list_size mem this other = some (mem1, this1, other1) ∧
        Ring mem1 this1 (as_ ++ bs) ∧ Ring mem1 other1 [] ∧
        this1.id = this.id ∧ other1.id = other.id ∧
        mem1.value = mem.value ∧ mem1.watermark = mem.watermark := by
  intro bs
  induction bs with
  | nil =>
    intro mem this other as_ ht ho _
    have hsz : other.list_size = 0 := ho.size_eq
    refine ⟨mem, this, other, ?_, by simpa using ht, ho, rfl, rfl, rfl, rfl⟩
    rw [hsz]
    simp [ListObj.move_while, ListObj.empty, hsz]
  | cons b bs ih =>
    intro mem this other as_ ht ho hid
    have hsz : other.list_size = bs.length + 1 := ho.size_eq
    obtain ⟨mem1, hb, ht1, ho1, hv1, hw1⟩ := hbody mem this other as_ bs b ht ho hid
    obtain ⟨mem2, this2, other2, hloop, ht2, ho2, hid1, hid2, hv2, hw2⟩ :=
      ih mem1 _ _ (as_ ++ [b]) ht1 ho1 hid
    refine ⟨mem2, this2, other2, ?_, by simpa using ht2, ho2, hid1, hid2,
      hv2.trans hv1, hw2.trans hw1⟩
    rw [hsz]
    have hne : other.empty = false := by simp [ListObj.empty, hsz]
    simp only [ListObj.move_while, hne, hb, Option.some_bind]
    have hsz1 : ({ other with list_size := other.list_size - 1 } : ListObj).list_size =
        bs.length := by
      show other.list_size - 1 = bs.length
      omega
    rw [hsz1] at hloop
    simpa using hloop

theorem read_values_congr {mem mem1 : Memory T} :
    ∀ (addrs : List Nat), (∀ a ∈ addrs, mem1.value a = mem.value a) →
      mem1.read_values (addrs.map Link.node) = mem.read_values (addrs.map Link.node) := by
  intro addrs
  induction addrs with
  | nil => intro _; rfl
  | cons a rest ih =>
    intro h
    simp only [List.map_cons, Memory.read_values, Memory.value_at]
    rw [h a (List.mem_cons_self _ _), ih (fun c hc => h c (List.mem_cons_of_mem _ hc))]

/-- The reconstructing loop of the move assignment moves all values, in order,
into new nodes and destroys the nodes of `other`. -/
theorem move_while_reconstructs :
    ∀ (bs : List Nat) (mem : Memory T) (this other : ListObj) (as_ : List Nat),
      Ring mem this as_ → Ring mem other bs → this.id ≠ other.id →
      ∃ mem1 this1 other1 news,
        ListObj.move_while ListObj.move_reconstruct_body other.list_size mem this other =
          some (mem1, this1, other1) ∧
        Ring mem1 this1 (as_ ++ news) ∧ Ring mem1 other1 [] ∧
        this1.id = this.id ∧ other1.id = other.id ∧
        mem1.read_values (news.map Link.node) = mem.read_values (bs.map Link.node) ∧
        (∀ c ∈ bs, mem1.value c = none) ∧
        (∀ c, c ∉ bs → c < mem.watermark → mem1.value c = mem.value c) ∧
        mem.watermark ≤ mem1.watermark ∧ (∀ n ∈ news, mem.watermark ≤ n) := by
  intro bs
  induction bs with
  | nil =>
    intro mem this other as_ ht ho _
    have hsz : other.list_size = 0 := ho.size_eq
    refine ⟨mem, this, other, [], ?_, by simpa using ht, ho, rfl, rfl, rfl, ?_, ?_, le_refl _,
      ?_⟩
    · rw [hsz]
      simp [ListObj.move_while, ListObj.empty, hsz]
    · intro c hc
      cases hc
    · intro c _ _
      rfl
    · intro n hn
      cases hn
  | cons b bs ih =>
    intro mem this other as_ ht ho hid
    have hsz : other.list_size = bs.length + 1 := ho.size_eq
    obtain ⟨mem1, hb, ht1, ho1, hvw, hvb, hv1, hw1⟩ := move_reconstruct_body_spec ht ho hid
    obtain ⟨mem2, this2, other2, news, hloop, ht2, ho2, hid1, hid2, hread, hdead, hv2, hw2,
      hnews⟩ := ih mem1 _ _ (as_ ++ [mem.watermark]) ht1 ho1 hid
    have hb_bs : b ∉ bs := (List.nodup_cons.1 ho.nodup).1
    have hb_lt : b < mem.watermark := ho.below b (List.mem_cons_self _ _)
    have hw_bs : mem.watermark ∉ bs := fun hm =>
      absurd (ho.below _ (List.mem_cons_of_mem _ hm)) (lt_irrefl _)
    refine ⟨mem2, this2, other2, mem.watermark :: news, ?_, by simpa using ht2, ho2, hid1,
      hid2, ?_, ?_, ?_, ?_, ?_⟩
    · rw [hsz]
      have hne : other.empty = false := by simp [ListObj.empty, hsz]
      simp only [ListObj.move_while, hne, hb, Option.some_bind]
      have hsz1 : ({ other with list_size := other.list_size - 1 } : ListObj).list_size =
          bs.length := by
        show other.list_size - 1 = bs.length
        omega
      rw [hsz1] at hloop
      simpa using hloop
    · simp only [List.map_cons, Memory.read_values, Memory.value_at]
      rw [hread, hv2 _ hw_bs (by rw [hw1]; exact Nat.lt_succ_self _), hvw]
      have : mem1.read_values (bs.map Link.node) = mem.read_values (bs.map Link.node) := by
        apply read_values_congr
        intro c hc
        refine hv1 c ?_ ?_
        · rintro rfl
          exact hb_bs hc
        · rintro rfl
          exact hw_bs hc
      rw [this]
    · intro c hc
      rcases List.mem_cons.1 hc with rfl | hc1
      · rw [hv2 _ hb_bs (by rw [hw1]; exact Nat.lt_succ_of_lt hb_lt)]
        exact hvb
      · exact hdead c hc1
    · intro c hc hlt
      have hcb : c ≠ b := fun heq => hc (heq ▸ List.mem_cons_self _ _)
      have hcbs : c ∉ bs := fun hm => hc (List.mem_cons_of_mem _ hm)
      rw [hv2 c hcbs (by rw [hw1]; exact Nat.lt_succ_of_lt hlt)]
      exact hv1 c hcb (ne_of_lt hlt)
    · rw [hw1] at hw2
      omega
    · intro n hn
      rcases List.mem_cons.1 hn with rfl | hn1
      · exact le_refl _
      · have := hnews n hn1
        rw [hw1] at this
        omega

/-- The loop `while (!empty()) pop_back();` destroys all nodes of the ring and
touches nothing else. -/
theorem pop_while_spec :
    ∀ (n : Nat) (as_ : List Nat) (mem : Memory T) (l : ListObj), as_.length = n →
      Ring mem l as_ →
      ∃ mem1 l1, ListObj.pop_while l.list_size mem l = some (mem1, l1) ∧
        Ring mem1 l1 [] ∧ l1.id = l.id ∧ l1.list_size = 0 ∧
        (∀ a ∈ as_, mem1.value a = none) ∧
        (∀ c, c ∉ as_ → mem1.value c = mem.value c) ∧
        mem1.watermark = mem.watermark ∧
        (∀ x, x ∉ l.root :: as_.map Link.node →
          mem1.next x = mem.next x ∧ mem1.previous x = mem.previous x) := by
  intro n
  induction n with
  | zero =>
    intro as_ mem l hlen h
    have hnil : as_ = [] := List.length_eq_zero.1 hlen
    subst hnil
    have hsz : l.list_size = 0 := h.size_eq
    refine ⟨mem, l, ?_, h, rfl, hsz, ?_, fun _ _ => rfl, rfl, fun _ _ => ⟨rfl, rfl⟩⟩
    · rw [hsz]
      simp [ListObj.pop_while, ListObj.empty, hsz]
    · intro a ha
      cases ha
  | succ n ih =>
    intro as_ mem l hlen h
    obtain ⟨xs, a, rfl⟩ : ∃ xs a, as_ = xs ++ [a] := by
      rcases List.eq_nil_or_concat as_ with h0 | ⟨xs, a, h1⟩
      · rw [h0] at hlen
        cases hlen
      · exact ⟨xs, a, by rw [h1, List.concat_eq_append]⟩
    have hxs : xs.length = n := by
      simp only [List.length_append, List.length_singleton] at hlen
      omega
    have hsz : l.list_size = n + 1 := by
      rw [h.size_eq, hlen]
    have hseg : Seg mem l.root ((xs ++ [a]).map Link.node ++ []) l.root := by
      simpa using h.seg
    obtain ⟨_, hprev⟩ := seg_next_last _ _ _ _ hseg
    simp only [seg_head, List.map_append, List.map_cons, List.map_nil,
      seg_last_append] at hprev
    obtain ⟨mem1, herase, hring1, hval_a, _, _, hval1, hw1, hn1, hp1⟩ := ring_erase h
    simp only [List.map_nil, seg_head, List.append_nil] at herase hring1 hp1
    obtain ⟨mem2, l2, hloop, hring2, hid2, hsz2, hdead2, hval2, hw2, hframe2⟩ :=
      ih xs mem1 _ hxs hring1
    have ha_xs : a ∉ xs := by
      have := h.nodup
      rw [List.nodup_append] at this
      intro hm
      exact this.2.2 hm (List.mem_singleton_self _)
    refine ⟨mem2, l2, ?_, hring2, hid2, hsz2, ?_, ?_, hw2.trans hw1, ?_⟩
    · rw [hsz]
      have hne : l.empty = false := by simp [ListObj.empty, hsz]
      simp only [ListObj.pop_while, hne, ListObj.pop_back, ListObj.end, hprev,
        Option.some_bind, herase, Option.map_some']
      have hsz1 : ({ l with list_size := l.list_size - 1 } : ListObj).list_size = n := by
        show l.list_size - 1 = n
        omega
      rw [hsz1] at hloop
      simpa using hloop
    · intro c hc
      rcases List.mem_append.1 hc with h1 | h1
      · exact hdead2 c h1
      · simp only [List.mem_singleton] at h1
        subst h1
        rw [hval2 _ ha_xs]
        exact hval_a
    · intro c hc
      have hc1 : c ∉ xs := fun hm => hc (List.mem_append_left _ hm)
      have hc2 : c ≠ a := fun heq => hc (by simp [heq])
      rw [hval2 c hc1, hval1 c hc2]
    · intro x hx
      have hx1 : x ∉ l.root :: xs.map Link.node := by
        intro hm
        apply hx
        rcases List.mem_cons.1 hm with h1 | h1
        · rw [h1]
          exact List.mem_cons_self _ _
        · exact List.mem_cons_of_mem _ (by simp only [List.map_append, List.mem_append]; exact Or.inl h1)
      have hx_a : x ≠ Link.node a := by
        intro heq
        apply hx
        rw [heq]
        exact List.mem_cons_of_mem _ (List.mem_map_of_mem _ (by simp))
      have hx_last : x ≠ seg_last l.root (xs.map Link.node) := fun heq =>
        hx1 (heq ▸ seg_last_mem _ _)
      have hx_root : x ≠ l.root := fun heq => hx1 (heq ▸ List.mem_cons_self _ _)
      obtain ⟨h3, h4⟩ := hframe2 x hx1
      exact ⟨h3.trans (hn1 x hx_last hx_a), h4.trans (hp1 x hx_root hx_a)⟩

end UMap

namespace UMap

variable {K V T : Type}

theorem ring_construct (mem : Memory T) (id : Nat) :
    Ring (ListObj.construct mem id).1 (ListObj.construct mem id).2 [] := by
  refine ⟨?_, List.nodup_nil, ?_, ?_, rfl⟩
  · show Seg _ (Link.root id) [] (Link.root id)
    simp [Seg, ListObj.construct]
  · intro a ha
    cases ha
  · intro a ha
    cases ha

theorem construct_frame {mem : Memory T} {other : ListObj} {bs : List Nat}
    (ho : Ring mem other bs) {id : Nat} (hid : id ≠ other.id) :
    Ring (ListObj.construct mem id).1 other bs := by
  have hne : ∀ x ∈ other.root :: bs.map Link.node, x ≠ Link.root id := by
    intro x hx heq
    subst heq
    rcases List.mem_cons.1 hx with h | h
    · simp only [ListObj.root, Link.root.injEq] at h
      exact hid h
    · simp at h
  refine Ring.frame ho ?_ ?_ (fun _ _ => rfl) (le_refl _)
  · intro x hx
    simp [ListObj.construct, Function.update_noteq (hne x hx)]
  · intro x hx
    simp [ListObj.construct, Function.update_noteq (hne x hx)]

/-- The move constructor relinks all nodes of `other`, in order, into the new
list and leaves `other` empty. -/
theorem move_construct_spec {mem : Memory T} {other : ListObj} {bs : List Nat}
    (ho : Ring mem other bs) {id : Nat} (hid : id ≠ other.id) :
    ∃ mem1 this1 other1, ListObj.move_construct mem other id = some (mem1, this1, other1) ∧
      Ring mem1 this1 bs ∧ Ring mem1 other1 [] ∧ this1.id = id ∧ other1.id = other.id ∧
      mem1.value = mem.value ∧ mem1.watermark = mem.watermark := by
  obtain ⟨mem1, this1, other1, hloop, ht1, ho1, hid1, hid2, hv, hw⟩ :=
    move_while_relinks (fun _ _ _ _ _ _ => move_construct_body_spec) bs
      (ListObj.construct mem id).1 (ListObj.construct mem id).2 other []
      (ring_construct mem id) (construct_frame ho hid) hid
  exact ⟨mem1, this1, other1, hloop, by simpa using ht1, ho1, hid1, hid2, hv, hw⟩

theorem Ring.to_list_eq {mem : Memory T} {l : ListObj} {addrs : List Nat}
    (h : Ring mem l addrs) : l.to_list mem = mem.read_values (addrs.map Link.node) := by
  simp [ListObj.to_list, (h.nodes_eq l.list_size).1 (le_refl _)]

theorem read_values_live {mem : Memory T} :
    ∀ (addrs : List Nat), (∀ a ∈ addrs, ∃ v, mem.value a = some v) →
      ∃ vs, mem.read_values (addrs.map Link.node) = some vs ∧ vs.length = addrs.length := by
  intro addrs
  induction addrs with
  | nil =>
    intro _
    exact ⟨[], rfl, rfl⟩
  | cons a rest ih =>
    intro h
    obtain ⟨v, hv⟩ := h a (List.mem_cons_self _ _)
    obtain ⟨vs, hvs, hlen⟩ := ih (fun c hc => h c (List.mem_cons_of_mem _ hc))
    refine ⟨v :: vs, ?_, by simp [hlen]⟩
    simp [Memory.read_values, Memory.value_at, hv, hvs]

/-- Every reachable state of a list is a ring. -/
theorem listReachable_ring {mem : Memory T} {l : ListObj} (h : ListReachable mem l) :
    ∃ addrs, Ring mem l addrs := by
  induction h with
  | construct mem id => exact ⟨[], ring_construct mem id⟩
  | @insert mem l it value r _ hpos hr ih =>
    obtain ⟨addrs, hring⟩ := ih
    have hsplit : ∃ xs ys, addrs = xs ++ ys ∧ it = seg_head (ys.map Link.node) l.root := by
      rcases hpos with rfl | ⟨fuel, visited, hv, hit⟩
      · exact ⟨addrs, [], by simp, rfl⟩
      · rw [hring.nodes_some hv] at hit
        obtain ⟨a, ha, rfl⟩ := List.mem_map.1 hit
        obtain ⟨xs, ys, rfl⟩ := List.append_of_mem ha
        exact ⟨xs, a :: ys, rfl, rfl⟩
    obtain ⟨xs, ys, rfl, rfl⟩ := hsplit
    obtain ⟨mem1, hins, hring1, _⟩ := ring_insert hring value
    rw [hins] at hr
    cases hr
    exact ⟨_, hring1⟩
  | @erase mem l it r _ hpos hr ih =>
    obtain ⟨addrs, hring⟩ := ih
    obtain ⟨fuel, visited, hv, hit⟩ := hpos
    rw [hring.nodes_some hv] at hit
    obtain ⟨a, ha, rfl⟩ := List.mem_map.1 hit
    obtain ⟨xs, ys, rfl⟩ := List.append_of_mem ha
    obtain ⟨mem1, her, hring1, _⟩ := ring_erase hring
    rw [her] at hr
    cases hr
    exact ⟨_, hring1⟩
  | @pop_back mem l r _ hne hr ih =>
    obtain ⟨addrs, hring⟩ := ih
    have hnn : addrs ≠ [] := by
      intro h0
      rw [hring.empty_iff.2 h0] at hne
      cases hne
    obtain ⟨xs, a, rfl⟩ : ∃ xs a, addrs = xs ++ [a] := by
      rcases List.eq_nil_or_concat addrs with h0 | ⟨xs, a, h1⟩
      · exact absurd h0 hnn
      · exact ⟨xs, a, by rw [h1, List.concat_eq_append]⟩
    have hseg : Seg mem l.root ((xs ++ [a]).map Link.node ++ []) l.root := by
      simpa using hring.seg
    obtain ⟨_, hprev⟩ := seg_next_last _ _ _ _ hseg
    simp only [seg_head, List.map_append, List.map_cons, List.map_nil,
      seg_last_append] at hprev
    obtain ⟨mem1, her, hring1, _⟩ := ring_erase hring
    simp only [ListObj.pop_back, ListObj.end, hprev, Option.some_bind, her,
      Option.map_some'] at hr
    cases hr
    exact ⟨_, by simpa using hring1⟩
  | @assign mem l a value _ hpos ih =>
    obtain ⟨addrs, hring⟩ := ih
    refine ⟨addrs, ⟨seg_frame _ _ _ hring.seg (fun _ _ => rfl) (fun _ _ => rfl),
      hring.nodup, ?_, hring.below, hring.size_eq⟩⟩
    intro c hc
    by_cases hca : c = a
    · subst hca
      exact ⟨value, by simp⟩
    · obtain ⟨w, hw⟩ := hring.live c hc
      exact ⟨w, by simp [Function.update_noteq hca, hw]⟩
  | @move_construct mem other id r _ hid hr ih =>
    obtain ⟨bs, hring⟩ := ih
    obtain ⟨mem1, this1, other1, hm, ht1, _⟩ := move_construct_spec hring hid
    rw [hm] at hr
    cases hr
    exact ⟨bs, ht1⟩
  | @moved_from mem other id r _ hid hr ih =>
    obtain ⟨bs, hring⟩ := ih
    obtain ⟨mem1, this1, other1, hm, _, ho1, _⟩ := move_construct_spec hring hid
    rw [hm] at hr
    cases hr
    exact ⟨[], ho1⟩

/-- Along the public operations the table stays well-formed, whatever values
`max_load_factor` is set to. -/
theorem reachableBy_wf [DecidableEq K] [Inhabited V]
    {allow : UnorderedMap K V → ℚ → Prop} {t : UnorderedMap K V}
    (h : ReachableBy allow t) : WF t := by
  induction h with
  | default_constructed hash => exact (default_constructed_inv hash).toWF
  | @construct fuel c hash t hc => exact (rehash_sound fuel _ _ _ rfl hc).1.toWF
  | @insert m fuel e r _ hr ih => exact (insert_body_sound (rehash_sound fuel) ih hr).1
  | @operator_index m fuel key r _ hr ih => exact operator_index_preserves_wf ih hr
  | @assign m m1 ref value _ hr ih => exact assign_preserves_wf ih hr
  | @erase m pos r _ hr ih => exact erase_preserves_wf ih hr
  | @reserve m m1 fuel count _ hr ih =>
    obtain ⟨c, hc⟩ := reserve_some hr
    exact (rehash_sound fuel _ _ _ ih.size_eq hc).1.toWF
  | @max_load_factor m ml _ _ _ ih => exact set_max_load_factor_wf ih ml

end UMap

namespace UMap

variable {T : Type}

theorem read_values_append (mem : Memory T) :
    ∀ (xs ys : List Link), mem.read_values (xs ++ ys) =
      (mem.read_values xs).bind fun vs => (mem.read_values ys).map fun ws => vs ++ ws := by
  intro xs
  induction xs with
  | nil =>
    intro ys
    simp [Memory.read_values]
  | cons x xs ih =>
    intro ys
    rw [List.cons_append]
    simp only [Memory.read_values]
    rw [ih]
    cases mem.value_at x <;> cases mem.read_values xs <;> cases mem.read_values ys <;> rfl

/-- The move assignment on two different lists: both branches empty `this`,
move the values of `other` in order, and leave `other` empty; the relinking
branch keeps the nodes, the reconstructing branch destroys them. -/
theorem move_assign_spec (allocators_equal : Bool) {mem : Memory T} {this other : ListObj}
    {as_ bs : List Nat} (ht : Ring mem this as_) (ho : Ring mem other bs)
    (hid : this.id ≠ other.id) :
    ∃ mem1 this1 other1 news,
      ListObj.move_assign allocators_equal mem this other = some (mem1, this1, other1) ∧
      Ring mem1 this1 news ∧ Ring mem1 other1 [] ∧
      this1.id = this.id ∧ other1.id = other.id ∧
      mem1.read_values (news.map Link.node) = mem.read_values (bs.map Link.node) ∧
      (∀ a ∈ as_, mem1.value a = none) ∧
      (allocators_equal = true → news = bs) ∧
      (allocators_equal = false → ∀ b ∈ bs, mem1.value b = none) := by
  have hdis := ring_disjoint ht ho hid
  have hapart := rings_apart ht ho hid
  obtain ⟨mem0, this0, hpop, ht0, hid0, _, hdead0, hval0, hw0, hframe0⟩ :=
    pop_while_spec as_.length as_ mem this rfl ht
  have ho0 : Ring mem0 other bs := by
    refine Ring.frame ho ?_ ?_ ?_ (le_of_eq hw0.symm)
    · intro x hx
      exact (hframe0 x (fun hm => hapart x hm hx)).1
    · intro x hx
      exact (hframe0 x (fun hm => hapart x hm hx)).2
    · intro b hb
      exact hval0 b (fun hm => hdis b hm hb)
  have hid0' : this0.id ≠ other.id := by
    rw [hid0]
    exact hid
  have hread0 : mem0.read_values (bs.map Link.node) = mem.read_values (bs.map Link.node) :=
    read_values_congr bs (fun b hb => hval0 b (fun hm => hdis b hm hb))
  cases allocators_equal with
  | true =>
    obtain ⟨mem1, this1, other1, hloop, ht1, ho1, hid1, hid2, hv1, _⟩ :=
      move_while_relinks (fun _ _ _ _ _ _ => move_ones_body_spec) bs mem0 this0 other []
        ht0 ho0 hid0'
    refine ⟨mem1, this1, other1, bs, ?_, by simpa using ht1, ho1, hid1.trans hid0, hid2, ?_,
      ?_, fun _ => rfl, fun h => by cases h⟩
    · simp [ListObj.move_assign, hid, hpop, ListObj.move_ones_nodes_to_the_other, hloop]
    · rw [← hread0]
      exact read_values_congr bs (fun b _ => by rw [hv1])
    · intro a ha
      rw [hv1]
      exact hdead0 a ha
  | false =>
    obtain ⟨mem1, this1, other1, news, hloop, ht1, ho1, hid1, hid2, hread, hdead, hv1, _, _⟩ :=
      move_while_reconstructs bs mem0 this0 other [] ht0 ho0 hid0'
    refine ⟨mem1, this1, other1, news, ?_, by simpa using ht1, ho1, hid1.trans hid0, hid2,
      hread.trans hread0, ?_, (fun h => by cases h), fun _ => hdead⟩
    · simp [ListObj.move_assign, hid, hpop, hloop]
    · intro a ha
      rw [hv1 a (hdis a ha) (by rw [hw0]; exact ht.below a ha)]
      exact hdead0 a ha

theorem sample_ring_zero : Ring sample_memory { id := 0, list_size := 2 } [0, 1] := by
  refine ⟨?_, by decide, ?_, ?_, rfl⟩
  · simp [Seg, sample_memory, ListObj.root]
  · intro a ha
    simp only [List.mem_cons, List.mem_singleton, List.not_mem_nil, or_false] at ha
    rcases ha with rfl | rfl
    · exact ⟨10, rfl⟩
    · exact ⟨20, rfl⟩
  · intro a ha
    simp only [List.mem_cons, List.mem_singleton, List.not_mem_nil, or_false] at ha
    rcases ha with rfl | rfl <;> decide

theorem sample_ring_one : Ring sample_memory { id := 1, list_size := 1 } [2] := by
  refine ⟨?_, by decide, ?_, ?_, rfl⟩
  · simp [Seg, sample_memory, ListObj.root]
  · intro a ha
    simp only [List.mem_singleton] at ha
    subst ha
    exact ⟨30, rfl⟩
  · intro a ha
    simp only [List.mem_singleton] at ha
    subst ha
    decide

end UMap

/-! ## The model with raising calls, when nothing raises -/

namespace UMap

variable {K V : Type}

theorem insert_finish_raising_never
    (R : UnorderedMap K V → Nat → Option (UnorderedMap K V)) (m : UnorderedMap K V)
    (shrinked_hash : Nat) :
    UnorderedMap.insert_finish_raising (fun t c => (R t c).map fun t1 => Outcome.returned t1 ())
        m shrinked_hash =
      (UnorderedMap.insert_finish R m shrinked_hash).map fun r => Outcome.returned r.1 r.2 := by
  unfold UnorderedMap.insert_finish_raising UnorderedMap.insert_finish
  by_cases h : m.load_factor > m.max_load_factor
  · simp only [if_pos h]
    cases R m (2 * m.buckets.length) with
    | none => rfl
    | some m1 =>
      simp only [Option.map_some', Option.some_bind]
      cases m1.buckets[shrinked_hash]? <;> rfl
  · simp only [if_neg h, Option.some_bind]
    cases m.buckets[shrinked_hash]? <;> rfl

theorem insert_main_raising_never [DecidableEq K]
    (R : UnorderedMap K V → Nat → Option (UnorderedMap K V)) (m : UnorderedMap K V)
    (e : K × V) :
    UnorderedMap.insert_main_raising (fun _ => false)
        (fun t c => (R t c).map fun t1 => Outcome.returned t1 ()) m e =
      (UnorderedMap.insert_main R m e).map fun r => Outcome.returned r.1 r.2 := by
  unfold UnorderedMap.insert_main_raising UnorderedMap.insert_main
  by_cases hb : m.buckets = []
  · simp [hb]
  · simp only [hb, if_false, Bool.false_eq_true]
    cases hslot : m.buckets[m.bucketId (m.hash e.1)]? with
    | none => rfl
    | some p =>
      cases p with
      | null =>
        simp only []
        cases m.list.insert m.list.end { element := e, hash := m.hash e.1 } with
        | none => rfl
        | some r =>
          simp only [Option.some_bind]
          exact insert_finish_raising_never R _ _
      | root =>
        simp only []
        cases m.list.insert BasePtr.root { element := e, hash := m.hash e.1 } with
        | none => rfl
        | some r =>
          simp only [Option.some_bind]
          exact insert_finish_raising_never R _ _
      | node a =>
        simp only []
        cases ListT.nodes_from m.list.nodes a with
        | none => rfl
        | some scanned =>
          simp only [Option.some_bind]
          cases UnorderedMap.insert_loop (m.hash e.1) e.1 scanned with
          | some found => rfl
          | none =>
            simp only []
            cases m.list.insert (BasePtr.node a) { element := e, hash := m.hash e.1 } with
            | none => rfl
            | some r =>
              simp only [Option.some_bind]
              exact insert_finish_raising_never R _ _

theorem insert_body_raising_never [DecidableEq K]
    (R : UnorderedMap K V → Nat → Option (UnorderedMap K V)) (m : UnorderedMap K V)
    (e : K × V) :
    UnorderedMap.insert_body_raising (fun _ => false)
        (fun t c => (R t c).map fun t1 => Outcome.returned t1 ()) m e =
      (UnorderedMap.insert_body R m e).map fun r => Outcome.returned r.1 r.2 := by
  unfold UnorderedMap.insert_body_raising UnorderedMap.insert_body
  by_cases hb : m.buckets = []
  · simp only [hb, if_true]
    cases R m default_bucket_count with
    | none => rfl
    | some m1 =>
      simp only [Option.map_some', Option.some_bind]
      exact insert_main_raising_never R m1 e
  · simp only [hb, if_false, Option.some_bind]
    exact insert_main_raising_never R m e

theorem reinsert_raising_never [DecidableEq K]
    (R : UnorderedMap K V → Nat → Option (UnorderedMap K V)) :
    ∀ (nodes : List (TemplateNode (HashedNode K V))) (acc : UnorderedMap K V),
      UnorderedMap.reinsert_raising
          (UnorderedMap.insert_body_raising (fun _ => false)
            (fun t c => (R t c).map fun t1 => Outcome.returned t1 ())) nodes acc =
        (nodes.foldlM
          (fun a n => (UnorderedMap.insert_body R a n.value.element).map Prod.fst) acc).map
          fun t1 => Outcome.returned t1 () := by
  intro nodes
  induction nodes with
  | nil =>
    intro acc
    rfl
  | cons n rest ih =>
    intro acc
    rw [List.foldlM_cons]
    simp only [UnorderedMap.reinsert_raising, insert_body_raising_never]
    cases UnorderedMap.insert_body R acc n.value.element with
    | none => rfl
    | some r =>
      simp only [Option.map_some', Option.some_bind]
      exact ih r.1

/-- When the hash functor never raises, `rehash` with raising calls returns
exactly what `rehash` returns. -/
theorem rehash_raising_never [DecidableEq K] :
    ∀ (fuel : Nat) (m : UnorderedMap K V) (c : Nat),
      UnorderedMap.rehash_raising (fun _ => false) fuel m c =
        (UnorderedMap.rehash fuel m c).map fun t1 => Outcome.returned t1 () := by
  intro fuel
  induction fuel with
  | zero =>
    intro m c
    rfl
  | succ fuel ih =>
    intro m c
    have hR : UnorderedMap.rehash_raising (fun _ => false) fuel =
        fun (t : UnorderedMap K V) c =>
          (UnorderedMap.rehash fuel t c).map fun t1 => Outcome.returned t1 () := by
      funext t c
      exact ih t c
    simp only [UnorderedMap.rehash_raising, UnorderedMap.rehash, hR]
    cases m.list.move_construct with
    | none => rfl
    | some moved =>
      simp only [Option.some_bind]
      exact reinsert_raising_never _ _ _

end UMap

/-! ## The list operations that the table performs -/

namespace UMap

variable {K V : Type}

end UMap

/-! ## The link-level list refines the list of the table model -/

namespace UMap

variable {T : Type}

theorem Represents.nodes_visited {mem : Memory T} {l : ListObj} {s : ListT T}
    (h : Represents mem l s) :
    l.nodes mem l.list_size = some (s.nodes.map fun n => Link.node n.addr) := by
  have := (h.ring.nodes_eq l.list_size).1 (le_refl _)
  simpa [List.map_map] using this

/-- What the links of a ring satisfy. -/
theorem Ring.consistent {mem : Memory T} {l : ListObj} {addrs : List Nat}
    (hring : Ring mem l addrs) :
    l.end ∉ addrs.map Link.node ∧ l.cend mem = some l.end ∧
    ∀ n ∈ l.end :: addrs.map Link.node,
      (∃ following, mem.next n = some following ∧ mem.previous following = some n ∧
        following ∈ l.end :: addrs.map Link.node) ∧
      (∃ preceding, mem.previous n = some preceding ∧ mem.next preceding = some n ∧
        preceding ∈ l.end :: addrs.map Link.node) := by
  refine ⟨by simp [ListObj.end, ListObj.root], ?_, ?_⟩
  · have h1 := seg_next_head hring.seg
    obtain ⟨f, hf, hfb⟩ := seg_links_forward _ _ _ hring.seg l.root (List.mem_cons_self _ _)
    rw [h1] at hf
    cases hf
    simp [ListObj.cend, h1, hfb, ListObj.end]
  · intro n hn
    constructor
    · obtain ⟨f, hf, hfb⟩ := seg_links_forward _ _ _ hring.seg n hn
      obtain ⟨f1, hf1, hfm⟩ := seg_next_mem _ _ _ hring.seg n hn
      rw [hf] at hf1
      cases hf1
      refine ⟨f, hf, hfb, ?_⟩
      rcases List.mem_append.1 hfm with h1 | h1
      · exact List.mem_cons_of_mem _ h1
      · simp only [List.mem_singleton] at h1
        rw [h1]
        exact List.mem_cons_self _ _
    · have hn1 : n ∈ addrs.map Link.node ++ [l.root] := by
        rcases List.mem_cons.1 hn with h1 | h1
        · rw [h1]
          exact List.mem_append_right _ (List.mem_singleton_self _)
        · exact List.mem_append_left _ h1
      obtain ⟨p, hp, hpn, hpm⟩ := seg_previous_mem _ _ _ hring.seg n hn1
      exact ⟨p, hp, hpn, hpm⟩

theorem sample_reached_isSome : sample_reached.isSome = true := by
  decide!

end UMap

/-! ## The nested rehashes only double, and never past what is needed -/

namespace UMap

variable {K V : Type}

theorem insert_fold_doubles [DecidableEq K]
    {R : UnorderedMap K V → Nat → Option (UnorderedMap K V)} (hS : Sound R)
    (hD : DoubleSound R) {c k N : Nat} {mlf : ℚ} (hmlf : 0 < mlf) (hc1 : 1 ≤ c)
    (hN : Fits mlf N (c * 2 ^ k)) :
    ∀ (es : List (K × V)) (acc m1 : UnorderedMap K V), WF acc →
      acc.max_load_factor_value = mlf →
      (∃ j, j ≤ k ∧ acc.buckets.length = c * 2 ^ j) →
      acc.list.nodes.length + es.length ≤ N →
      es.foldlM (fun a e => (UnorderedMap.insert_body R a e).map Prod.fst) acc = some m1 →
      ∃ j, j ≤ k ∧ m1.buckets.length = c * 2 ^ j := by
  intro es
  induction es with
  | nil =>
    intro acc m1 _ _ hb _ h
    cases h
    exact hb
  | cons e es ih =>
    intro acc m1 hw hm hb hlen h
    obtain ⟨j, hjk, hbj⟩ := hb
    have hpos : 0 < acc.buckets.length := by
      rw [hbj]
      exact Nat.mul_pos (by omega) (Nat.pos_pow_of_pos _ (by decide))
    have hne : acc.buckets ≠ [] := List.length_pos.1 hpos
    rw [List.foldlM_cons, insert_body_of_buckets R hne] at h
    obtain ⟨a1, ha1, h1⟩ := Option.bind_eq_some.1 h
    obtain ⟨r, hr, hra⟩ := Option.map_eq_some'.1 ha1
    subst hra
    rw [List.length_cons] at hlen
    rcases insert_main_some hw hne hr with ⟨n, _, _, hres⟩ | ⟨m2, hl, _, hres⟩ |
      ⟨m2, m0, p, hl, hload, hm0, _, hres⟩
    · rw [hres] at h1
      exact ih acc m1 hw hm ⟨j, hjk, hbj⟩ (by omega) h1
    · rw [hres] at h1
      refine ih m2 m1 (hl.wf hw hne) (hl.2.1.trans hm) ⟨j, hjk, ?_⟩ ?_ h1
      · rw [hl.buckets_length, hbj]
      · rw [hl.length]
        omega
    · rw [hres] at h1
      have hw2 := hl.wf hw hne
      have hne2 : m2.buckets ≠ [] := by
        apply List.length_pos.1
        rw [hl.buckets_length]
        exact hpos
      have hm2 : m2.max_load_factor_value = mlf := hl.2.1.trans hm
      have hgt := not_fits_of_gt hload
      rw [UnorderedMap.size, ListT.size, hw2.size_eq, hm2, hl.buckets_length, hbj] at hgt
      have hlen2 : m2.list.nodes.length ≤ N := by
        rw [hl.length]
        omega
      have hck : ∀ i, 1 ≤ c * 2 ^ i := fun i =>
        Nat.mul_pos (by omega) (Nat.pos_pow_of_pos _ (by decide))
      have hjlt : j < k := by
        by_contra hcon
        have hjk2 : j = k := by omega
        subst hjk2
        exact hgt (fits_mono hN hlen2 (le_refl _) (hck j))
      obtain ⟨d, hd⟩ : ∃ d, k = j + 1 + d := ⟨k - (j + 1), by omega⟩
      have hcq : 2 * m2.buckets.length * 2 ^ d = c * 2 ^ k := by
        rw [hl.buckets_length, hbj, hd, pow_add, pow_add]
        ring
      obtain ⟨j', hj', hb'⟩ := hD m2 (2 * m2.buckets.length) d m0 hw2.size_eq
        (hm2 ▸ hmlf) (by have := List.length_pos.2 hne2; omega) (by
          rw [hm2, hcq]
          exact fits_mono hN hlen2 (le_refl _) (hck k)) hm0
      obtain ⟨hi0, _, hmm0, _, hret0, _⟩ := hS m2 _ m0 hw2.size_eq hm0
      refine ih m0 m1 hi0.toWF (hmm0.trans hm2) ⟨j + 1 + j', by omega, ?_⟩ ?_ h1
      · rw [hb', hl.buckets_length, hbj, pow_add, pow_add]
        ring
      · have h3 := hret0.length_le
        have h4 := hl.length
        simp only [UnorderedMap.entries, List.length_map] at h3
        omega

/-- A completed `rehash(c)`, `c >= 1`, of a table whose nodes fit into
`c * 2^k` buckets ends with `c * 2^j` buckets for some `j <= k`. -/
theorem rehash_doubles [DecidableEq K] (fuel : Nat) :
    DoubleSound (UnorderedMap.rehash fuel : UnorderedMap K V → Nat → Option _) := by
  induction fuel with
  | zero =>
    intro m c k m1 _ _ _ _ h
    simp [UnorderedMap.rehash] at h
  | succ fuel ih =>
    intro m c k m1 hs hmlf hc1 hN h
    rw [rehash_succ fuel hs] at h
    refine insert_fold_doubles (rehash_sound fuel) ih hmlf hc1 hN m.entries (cleared m c) m1
      (cleared_inv m c).toWF rfl ⟨0, Nat.zero_le _, by simp [cleared]⟩ ?_ h
    simp [cleared, UnorderedMap.entries]

/-- A completed `insert` on a well-formed table whose nodes and one more fit
into `B * 2^k` buckets, `B` being the bucket count the insertion starts from,
ends with `B * 2^j` buckets for some `j <= k`. -/
theorem insert_doubles [DecidableEq K] {m : UnorderedMap K V} (hw : WF m)
    (hmlf : 0 < m.max_load_factor_value) {e : K × V} {k fuel : Nat}
    (hN : Fits m.max_load_factor_value (m.list.nodes.length + 1)
      ((prepared m).buckets.length * 2 ^ k))
    {r : UnorderedMap K V × BasePtr × Bool} (h : m.insert fuel e = some r) :
    ∃ j, j ≤ k ∧ r.1.buckets.length = (prepared m).buckets.length * 2 ^ j := by
  obtain ⟨hwp, hnodes, _, hmp, _, _⟩ := prepared_fields hw
  have hne := prepared_buckets_ne m
  have hmain : UnorderedMap.insert_main (UnorderedMap.rehash fuel) (prepared m) e = some r := by
    cases fuel with
    | zero =>
      by_cases hb : m.buckets = []
      · simp [UnorderedMap.insert, UnorderedMap.insert_impl, UnorderedMap.insert_body, hb,
          UnorderedMap.rehash] at h
      · have hp : prepared m = m := by simp [prepared, hb]
        rw [hp]
        simpa [UnorderedMap.insert, UnorderedMap.insert_impl, UnorderedMap.insert_body, hb]
          using h
    | succ fuel =>
      rw [← insert_body_prepared fuel hw]
      exact h
  have hfold : [e].foldlM
      (fun a e => (UnorderedMap.insert_body (UnorderedMap.rehash fuel) a e).map Prod.fst)
      (prepared m) = some r.1 := by
    rw [List.foldlM_cons, insert_body_of_buckets _ hne, hmain]
    rfl
  refine insert_fold_doubles (rehash_sound fuel) (rehash_doubles fuel) hmlf
    (List.length_pos.2 hne) hN [e] (prepared m) r.1 hwp hmp ⟨0, Nat.zero_le _, by simp⟩ ?_ hfold
  rw [hnodes]
  simp

/-- On a well-formed table with a positive `max_load_factor`, `insert` completes
within a recursion depth of `k + 1` when `size() + 1` entries fit into
`B * 2^k` buckets, `B` being the bucket count the insertion starts from. -/
theorem insert_within [DecidableEq K] {m : UnorderedMap K V} (hw : WF m)
    (hmlf : 0 < m.max_load_factor_value) (e : K × V) {k fuel : Nat} (hfuel : k + 1 ≤ fuel)
    (hN : Fits m.max_load_factor_value (m.list.nodes.length + 1)
      ((prepared m).buckets.length * 2 ^ k)) :
    ∃ r, m.insert fuel e = some r ∧ InsertPost (prepared m) e r := by
  obtain ⟨fuel', rfl⟩ : ∃ f, fuel = f + 1 := ⟨fuel - 1, by omega⟩
  obtain ⟨hwp, hnodes, _, hmp, _, _⟩ := prepared_fields hw
  have hne := prepared_buckets_ne m
  have hc1 : 1 ≤ (prepared m).buckets.length := List.length_pos.2 hne
  have hg : Grows (UnorderedMap.rehash (fuel' + 1) : UnorderedMap K V → Nat → Option _)
      (m.list.nodes.length + 1) (prepared m).buckets.length
      (prepared m).max_load_factor_value := by
    cases k with
    | zero =>
      refine grows_of_le hc1 ?_
      rw [hmp]
      simpa using hN
    | succ k =>
      refine grows_of_spec hc1 (hmp ▸ hmlf) (rehash_spec k (fuel' + 1) (by omega)) ?_
      rw [hmp]
      exact hN
  have := insert_main_spec (R := UnorderedMap.rehash (fuel' + 1)) hwp hc1 (le_refl _)
    (by rw [hnodes]) hg e
  simpa [UnorderedMap.insert, UnorderedMap.insert_impl, insert_body_prepared fuel' hw]
    using this

/-- On a table with a positive `max_load_factor`, `rehash(c)` completes within a
recursion depth of `k + 2` when the nodes fit into `B * 2^k` buckets, `B` being
the bucket count the rehash works towards, and ends with `B * 2^j` buckets for
some `j <= k`. -/
theorem rehash_within [DecidableEq K] {m : UnorderedMap K V}
    (hs : m.list.list_size = m.list.nodes.length) (hmlf : 0 < m.max_load_factor_value)
    (c : Nat) {k fuel : Nat} (hfuel : k + 2 ≤ fuel)
    (hN : Fits m.max_load_factor_value m.list.nodes.length (rehash_target m c * 2 ^ k)) :
    ∃ m1 j, UnorderedMap.rehash fuel m c = some m1 ∧ RehashPost m c m1 ∧ j ≤ k ∧
      m1.buckets.length = rehash_target m c * 2 ^ j := by
  obtain ⟨fuel', rfl⟩ : ∃ f, fuel = f + 2 := ⟨fuel - 2, by omega⟩
  by_cases hc : c = 0
  · subst hc
    by_cases hn : m.list.nodes.length = 0
    · have hnil : m.list.nodes = [] := List.length_eq_zero.1 hn
      refine ⟨cleared m 0, 0, rehash_nil (fuel' + 1) hs hnil 0, ?_, Nat.zero_le _, ?_⟩
      · refine ⟨cleared_inv m 0, rfl, rfl, Nat.zero_le _, ?_, ?_, le_refl _⟩
        · exact cleared_loadOk m 0 hmlf
        · simp [UnorderedMap.entries, hnil, cleared, Retained]
      · simp [rehash_target, hn, cleared]
    · have htarget : rehash_target m 0 = default_bucket_count := by
        simp [rehash_target, hn]
      have hne : m.list.nodes ≠ [] := fun h => hn (by rw [h]; rfl)
      rw [htarget] at hN ⊢
      obtain ⟨m1, hm1, hpost⟩ := rehash_spec k (fuel' + 2) (by omega) m default_bucket_count
        hs hmlf (by decide) hN
      obtain ⟨j, hj, hb⟩ := rehash_doubles (fuel' + 2) m default_bucket_count k m1 hs hmlf
        (by decide) hN hm1
      refine ⟨m1, j, by rw [rehash_zero fuel' hs hne]; exact hm1, ?_, hj, hb⟩
      obtain ⟨h1, h2, h3, _, h5, h6, h7⟩ := hpost
      exact ⟨h1, h2, h3, Nat.zero_le _, h5, h6, h7⟩
  · have htarget : rehash_target m c = c := by
      simp [rehash_target, hc]
    rw [htarget] at hN ⊢
    obtain ⟨m1, hm1, hpost⟩ := rehash_spec k (fuel' + 2) (by omega) m c hs hmlf (by omega) hN
    obtain ⟨j, hj, hb⟩ := rehash_doubles (fuel' + 2) m c k m1 hs hmlf (by omega) hN hm1
    exact ⟨m1, j, hm1, hpost, hj, hb⟩

theorem prepared_length (m : UnorderedMap K V) :
    (prepared m).buckets.length =
      if m.buckets = [] then default_bucket_count else m.buckets.length := by
  unfold prepared
  by_cases h : m.buckets = []
  · simp [h, cleared]
  · simp [h]

end UMap

/-! ## Range `erase` -/

namespace UMap

variable {K V : Type}

theorem bind_get_eq {α β : Type} (o : Option α) (f : α → Option β) (h : o.isSome = true)
    (h' : (o.bind f).isSome = true) : f (o.get h) = some ((o.bind f).get h') := by
  cases o with
  | none => simp at h
  | some a => simp

/-- The result of a range `erase` is reached by single `erase` calls. -/
theorem erase_range_reachable [DecidableEq K] [Inhabited V]
    {allow : UnorderedMap K V → ℚ → Prop} :
    ∀ (fuel : Nat) (m : UnorderedMap K V) (first last : BasePtr)
      (r : UnorderedMap K V × BasePtr), ReachableBy allow m →
      m.erase_range fuel first last = some r → ReachableBy allow r.1 ∧ r.2 = last := by
  intro fuel
  induction fuel with
  | zero =>
    intro m first last r hm h
    unfold UnorderedMap.erase_range at h
    split at h
    · cases h
      exact ⟨hm, rfl⟩
    · cases h
  | succ fuel ih =>
    intro m first last r hm h
    unfold UnorderedMap.erase_range at h
    split at h
    · cases h
      exact ⟨hm, rfl⟩
    · obtain ⟨r1, hr1, h1⟩ := Option.bind_eq_some.1 h
      exact ih r1.1 r1.2 last r (ReachableBy.erase hm hr1) h1

/-- On a well-formed table `erase(begin(), end())` completes after `size()`
iterations and leaves no node. -/
theorem erase_range_all :
    ∀ (fuel : Nat) (m : UnorderedMap K V), WF m → m.list.nodes.length ≤ fuel →
      ∃ r, m.erase_range fuel m.list.begin m.end = some r ∧ r.1.list.nodes = [] ∧
        r.1.list.list_size = 0 ∧ r.2 = m.end ∧ r.1.buckets.length = m.buckets.length := by
  intro fuel
  induction fuel with
  | zero =>
    intro m hw hlen
    have hnil : m.list.nodes = [] := List.length_eq_zero.1 (Nat.le_zero.1 hlen)
    refine ⟨(m, m.end), ?_, hnil, ?_, rfl, rfl⟩
    · simp [UnorderedMap.erase_range, ListT.begin, hnil, ListT.begin_ptr, UnorderedMap.end]
    · rw [hw.size_eq, hnil]
      rfl
  | succ fuel ih =>
    intro m hw hlen
    cases hnodes : m.list.nodes with
    | nil =>
      refine ⟨(m, m.end), ?_, hnodes, ?_, rfl, rfl⟩
      · simp [UnorderedMap.erase_range, ListT.begin, hnodes, ListT.begin_ptr,
          UnorderedMap.end]
      · rw [hw.size_eq, hnodes]
        rfl
    | cons n post =>
      obtain ⟨r1, hr1, hn1, hs1, hp1, _, _, hb1, _⟩ :=
        erase_of_split hw (show m.list.nodes = [] ++ n :: post from hnodes)
      have hw1 := erase_preserves_wf hw hr1
      rw [List.nil_append] at hn1
      obtain ⟨r, hr, h1, h2, h3, h4⟩ := ih r1.1 hw1 (by
        rw [hn1]
        rw [hnodes] at hlen
        simpa using hlen)
      refine ⟨r, ?_, h1, h2, h3, h4.trans hb1⟩
      have hbegin : m.list.begin = BasePtr.node n.addr := by
        simp [ListT.begin, hnodes, ListT.begin_ptr]
      have hne : ¬ BasePtr.node n.addr = m.end := by
        simp [UnorderedMap.end]
      rw [hbegin]
      unfold UnorderedMap.erase_range
      rw [if_neg hne, hr1, Option.some_bind]
      have : r1.2 = r1.1.list.begin := by
        rw [hp1]
        simp [ListT.begin, hn1]
      rw [this]
      exact hr

theorem sample_erased_isSome : sample_erased.isSome = true := by
  decide!

end UMap

/-! ## Contiguity and heads of concrete tables; where `insert_impl` links -/

namespace UMap

variable {K V : Type}

theorem contiguous_check_iff (B : Nat) (l : List (TemplateNode (HashedNode K V))) :
    contiguous_check B l = true ↔ Contiguous B l := by
  induction l with
  | nil => simp [contiguous_check, Contiguous]
  | cons x l ih =>
    simp only [contiguous_check, Contiguous, Bool.and_eq_true, ih, Bool.or_eq_true,
      Bool.not_eq_true', List.any_eq_false, beq_iff_eq]
    refine and_congr_left fun _ => ?_
    constructor
    · rintro (h | h) y hy hyx
      · exact absurd hyx (h y hy)
      · cases hl : l.head? with
        | none =>
          rw [hl] at h
          cases h
        | some z =>
          rw [hl] at h
          exact ⟨z, rfl, by simpa using h⟩
    · intro h
      by_cases hany : ∀ y ∈ l, ¬ y.value.hash % B = x.value.hash % B
      · exact Or.inl hany
      · right
        push_neg at hany
        obtain ⟨y, hy, hyx⟩ := hany
        obtain ⟨z, hz, hzx⟩ := h y hy hyx
        rw [hz]
        simpa using hzx

theorem inv_of_check {m : UnorderedMap K V} (h : InvCheck m) : Inv m :=
  ⟨wf_of_check h.1, h.2.1, (contiguous_check_iff _ _).1 h.2.2⟩

/-- When bucket `nd.hash % B` has a first node, `place` puts `nd` immediately
before it. -/
theorem place_before_first {B : Nat} (nd : TemplateNode (HashedNode K V))
    {l : List (TemplateNode (HashedNode K V))} {a : Nat}
    (h : first_in B (nd.value.hash % B) l = BasePtr.node a) :
    ∃ pre head post, l = pre ++ head :: post ∧ head.addr = a ∧
      head.value.hash % B = nd.value.hash % B ∧
      (∀ x ∈ pre, x.value.hash % B ≠ nd.value.hash % B) ∧
      place B nd l = pre ++ nd :: head :: post := by
  induction l with
  | nil => simp [first_in] at h
  | cons x l ih =>
    unfold first_in at h
    by_cases hx : x.value.hash % B = nd.value.hash % B
    · simp [hx] at h
      refine ⟨[], x, l, rfl, h, hx, ?_, ?_⟩
      · intro y hy
        cases hy
      · simp [place, hx]
    · simp [hx] at h
      obtain ⟨pre, head, post, hl, ha, hh, hpre, hp⟩ := ih h
      refine ⟨x :: pre, head, post, by rw [hl]; rfl, ha, hh, ?_, ?_⟩
      · intro y hy
        rcases List.mem_cons.1 hy with rfl | hy'
        · exact hx
        · exact hpre y hy'
      · simp [place, hx, hp]

end UMap

/-! ## The bucket vector after `erase` -/

namespace UMap

variable {K V : Type}

/-- The bucket vector that `erase` leaves: only the slot of the erased node can
change, and only when it referred to the erased node. -/
theorem erase_buckets {m : UnorderedMap K V} (hw : WF m)
    {pre post : List (TemplateNode (HashedNode K V))} {n : TemplateNode (HashedNode K V)}
    (hsplit : m.list.nodes = pre ++ n :: post) :
    ∃ r, m.erase (BasePtr.node n.addr) = some r ∧ r.1.list.nodes = pre ++ post ∧
      r.1.buckets =
        if m.buckets[n.value.hash % m.buckets.length]? = some (BasePtr.node n.addr) then
          m.buckets.set (n.value.hash % m.buckets.length) (promoted n.value.hash post)
        else m.buckets := by
  have hn : n ∈ m.list.nodes := by
    rw [hsplit]
    exact List.mem_append_right _ (List.mem_cons_self _ _)
  have hne : m.buckets ≠ [] := hw.buckets_ne (List.ne_nil_of_mem hn)
  have hna := node_at_of_mem hw.addr_nodup hn
  have hnd := hw.addr_nodup
  rw [hsplit] at hnd
  have hu := unlink_of_split hnd
  rw [← hsplit] at hu
  have hnd2 : ((pre ++ post).map TemplateNode.addr).Nodup := by
    rw [List.map_append, List.map_cons] at hnd
    rw [List.map_append]
    exact hnd.sublist (List.Sublist.append_left (List.sublist_cons_self _ _) _)
  have hlt := bucket_lt hne n.value.hash
  have hhead : m.buckets[m.bucketId n.value.hash]? =
      some (m.buckets[n.value.hash % m.buckets.length]) := by
    simp [UnorderedMap.bucketId, List.getElem?_eq_getElem hlt]
  have hget : m.buckets[n.value.hash % m.buckets.length]? =
      some (m.buckets[n.value.hash % m.buckets.length]) := by
    simp [List.getElem?_eq_getElem hlt]
  simp only [UnorderedMap.erase, hna, Option.some_bind, hne, if_false, hhead, ListT.erase, hu,
    Option.map_some']
  by_cases hh : m.buckets[n.value.hash % m.buckets.length] = BasePtr.node n.addr
  · have hcond : m.buckets[n.value.hash % m.buckets.length]? = some (BasePtr.node n.addr) := by
      rw [hget, hh]
    simp only [hh, if_true]
    rw [if_pos hcond]
    cases post with
    | nil => exact ⟨_, rfl, rfl, rfl⟩
    | cons y post =>
      have hy := node_at_of_mem hnd2 (List.mem_append_right pre (List.mem_cons_self y post))
      simp only [ListT.begin_ptr, hy, Option.map_some', promoted, UnorderedMap.bucketId]
      by_cases hyh : y.value.hash = n.value.hash
      · simp only [hyh, if_true]
        exact ⟨_, rfl, rfl, rfl⟩
      · simp only [hyh, if_false]
        exact ⟨_, rfl, rfl, rfl⟩
  · have hcond : ¬ m.buckets[n.value.hash % m.buckets.length]? =
        some (BasePtr.node n.addr) := by
      rw [hget]
      intro hcon
      exact hh (Option.some.inj hcon)
    simp only [hh, if_false]
    rw [if_neg hcond]
    exact ⟨_, rfl, rfl, rfl⟩

theorem first_in_append_of_not {B b : Nat} {pre : List (TemplateNode (HashedNode K V))}
    (l : List (TemplateNode (HashedNode K V)))
    (h : ∀ x ∈ pre, x.value.hash % B ≠ b) : first_in B b (pre ++ l) = first_in B b l := by
  induction pre with
  | nil => rfl
  | cons x pre ih =>
    have hx := h x (List.mem_cons_self _ _)
    simp only [List.cons_append, first_in, hx, if_false]
    exact ih (fun y hy => h y (List.mem_cons_of_mem _ hy))

theorem first_in_remove {B b : Nat} (pre post : List (TemplateNode (HashedNode K V)))
    {n : TemplateNode (HashedNode K V)} (h : n.value.hash % B ≠ b) :
    first_in B b (pre ++ n :: post) = first_in B b (pre ++ post) := by
  induction pre with
  | nil => simp [first_in, h]
  | cons x pre ih =>
    rw [List.cons_append, List.cons_append]
    unfold first_in
    rw [ih]

theorem first_in_of_none {B b : Nat} {l : List (TemplateNode (HashedNode K V))}
    (h : ∀ x ∈ l, x.value.hash % B ≠ b) : first_in B b l = BasePtr.null := by
  rcases first_in_null_or_node B b l with h0 | ⟨a, ha⟩
  · exact h0
  · obtain ⟨x, hx, _, hxb⟩ := first_in_eq_node ha
    exact absurd hxb (h x hx)

/-- Removing a node that is the only one of its bucket keeps the chains
contiguous. -/
theorem contiguous_remove_sole {B : Nat} {pre post : List (TemplateNode (HashedNode K V))}
    {n : TemplateNode (HashedNode K V)} (hc : Contiguous B (pre ++ n :: post))
    (hsole : ∀ x ∈ pre ++ post, x.value.hash % B ≠ n.value.hash % B) :
    Contiguous B (pre ++ post) := by
  induction pre with
  | nil => exact hc.2
  | cons x pre ih =>
    obtain ⟨h1, h2⟩ := hc
    refine ⟨?_, ih h2 (fun y hy => hsole y (List.mem_cons_of_mem _ hy))⟩
    intro y hy hyx
    have hy' : y ∈ pre ++ n :: post := by
      rcases List.mem_append.1 hy with h | h
      · exact List.mem_append_left _ h
      · exact List.mem_append_right _ (List.mem_cons_of_mem _ h)
    obtain ⟨z, hz, hzx⟩ := h1 y hy' hyx
    cases pre with
    | nil =>
      exfalso
      have hzn : n = z := by simpa using hz
      have := hsole x (List.mem_cons_self _ _)
      rw [← hzn] at hzx
      exact this hzx.symm
    | cons p pre =>
      exact ⟨z, by simpa using hz, hzx⟩

/-- On a table with correct heads and contiguous chains, `erase` of a node that
is the only one of its bucket completes, stores null in the slot of that
bucket, and leaves heads correct and chains contiguous. -/
theorem erase_sole {m : UnorderedMap K V} (hi : Inv m)
    {pre post : List (TemplateNode (HashedNode K V))} {n : TemplateNode (HashedNode K V)}
    (hsplit : m.list.nodes = pre ++ n :: post)
    (hsole : ∀ x ∈ pre ++ post, x.value.hash % m.buckets.length ≠
      n.value.hash % m.buckets.length) :
    ∃ r, m.erase (BasePtr.node n.addr) = some r ∧ r.1.list.nodes = pre ++ post ∧
      r.1.buckets = m.buckets.set (n.value.hash % m.buckets.length) BasePtr.null ∧
      Inv r.1 := by
  have hw := hi.toWF
  obtain ⟨r, hr, hnodes, hb⟩ := erase_buckets hw hsplit
  have hn : n ∈ m.list.nodes := by
    rw [hsplit]
    exact List.mem_append_right _ (List.mem_cons_self _ _)
  have hne : m.buckets ≠ [] := hw.buckets_ne (List.ne_nil_of_mem hn)
  have hlt := bucket_lt hne n.value.hash
  have hhead := hi.heads _ hlt
  have hfirst : first_in m.buckets.length (n.value.hash % m.buckets.length) m.list.nodes =
      BasePtr.node n.addr := by
    rw [hsplit, first_in_append_of_not _
      (fun x hx => hsole x (List.mem_append_left _ hx))]
    simp [first_in]
  rw [hfirst] at hhead
  have hprom : promoted n.value.hash post = BasePtr.null := by
    cases post with
    | nil => rfl
    | cons y post =>
      have hy := hsole y (List.mem_append_right _ (List.mem_cons_self _ _))
      have hyh : y.value.hash ≠ n.value.hash := fun e => hy (by rw [e])
      simp [promoted, hyh]
  rw [if_pos hhead, hprom] at hb
  have hlen : r.1.buckets.length = m.buckets.length := by
    rw [hb, List.length_set]
  refine ⟨r, hr, hnodes, hb, erase_preserves_wf hw hr, ?_, ?_⟩
  · intro b hblt
    rw [hlen] at hblt ⊢
    rw [hb, hnodes, List.getElem?_set]
    by_cases hbb : n.value.hash % m.buckets.length = b
    · subst hbb
      simp only [if_true, hlt]
      rw [first_in_of_none hsole]
    · simp only [hbb, if_false]
      rw [hi.heads b hblt, hsplit, first_in_remove pre post hbb]
  · rw [hlen, hnodes]
    have hc := hi.contiguous
    rw [hsplit] at hc
    exact contiguous_remove_sole hc hsole

/-- On a well-formed table with buckets in which one more node fits, `insert` of
an absent key links the new node and does not rehash. -/
theorem insert_fits [DecidableEq K] {m : UnorderedMap K V} (hw : WF m)
    (hne : m.buckets ≠ []) (hmlf : 0 < m.max_load_factor_value) (e : K × V)
    (habsent : e.1 ∉ m.keys)
    (hfit : Fits m.max_load_factor_value (m.list.nodes.length + 1) m.buckets.length)
    {fuel : Nat} (hfuel : 1 ≤ fuel) :
    ∃ r, m.insert fuel e = some r ∧ r.2.2 = true ∧ IsLinked m e r.1 ∧
      r.2.1 = BasePtr.node m.list.alloc := by
  have hprep : prepared m = m := by simp [prepared, hne]
  obtain ⟨r, hr, hpost⟩ := insert_within hw hmlf e (by omega : 0 + 1 ≤ fuel)
    (by rw [hprep]; simpa using hfit)
  rw [hprep] at hpost
  rcases hpost with ⟨_, _, n, hn, _, hnk⟩ | ⟨ht, hl, _, hret⟩ | ⟨_, m2, hl, hload, _⟩
  · exfalso
    apply habsent
    rw [← hnk]
    exact mem_keys hn
  · exact ⟨r, hr, ht, hl, hret⟩
  · exfalso
    have h1 := not_fits_of_gt hload
    rw [UnorderedMap.size, ListT.size, (hl.wf hw hne).size_eq,
      hl.length, hl.2.1, hl.buckets_length] at h1
    exact h1 hfit

end UMap

/-! ## Reachability of concrete runs -/

namespace UMap

variable {K V : Type}

theorem insert_all_reachable [DecidableEq K] [Inhabited V]
    {allow : UnorderedMap K V → ℚ → Prop} (fuel : Nat) :
    ∀ (elements : List (K × V)) (m t : UnorderedMap K V), ReachableBy allow m →
      m.insert_all fuel elements = some t → ReachableBy allow t := by
  intro elements
  induction elements with
  | nil =>
    intro m t hm h
    cases h
    exact hm
  | cons e es ih =>
    intro m t hm h
    unfold UnorderedMap.insert_all at h
    rw [List.foldlM_cons] at h
    obtain ⟨a1, ha1, h1⟩ := Option.bind_eq_some.1 h
    obtain ⟨r, hr, hra⟩ := Option.map_eq_some'.1 ha1
    subst hra
    exact ih r.1 t (ReachableBy.insert hm hr) h1

theorem table5_reachable {elements : List (Nat × Nat)} {t : UnorderedMap Nat Nat}
    (h : table5 elements = some t) : Reachable t := by
  unfold table5 at h
  obtain ⟨t0, ht0, h1⟩ := Option.bind_eq_some.1 h
  exact insert_all_reachable 3 elements t0 t (ReachableBy.construct ht0) h1

theorem sample_interleaved_reachable {t : UnorderedMap Nat Nat}
    (h : sample_interleaved = some t) : Reachable t := by
  unfold sample_interleaved at h
  obtain ⟨t0, ht0, h1⟩ := Option.bind_eq_some.1 h
  obtain ⟨it, _, h2⟩ := Option.bind_eq_some.1 h1
  obtain ⟨r, hr, h3⟩ := Option.bind_eq_some.1 h2
  obtain ⟨r2, hr2, h4⟩ := Option.map_eq_some'.1 h3
  subst h4
  exact ReachableBy.insert (ReachableBy.erase (table5_reachable ht0) hr) hr2

end UMap

/-! ## What `rehash` reads -/

namespace UMap

variable {K V : Type}

/-- The result of `rehash` depends on the table through its entries in list
order, its hash function, `max_load_factor` and the allocation watermark only:
the cached hashes of the nodes are not read. -/
theorem rehash_congr [DecidableEq K] {m m' : UnorderedMap K V} (c fuel : Nat)
    (hs : m.list.list_size = m.list.nodes.length)
    (hs' : m'.list.list_size = m'.list.nodes.length)
    (hent : m'.entries = m.entries) (hh : m'.hash = m.hash)
    (hmlf : m'.max_load_factor_value = m.max_load_factor_value)
    (ha : m'.list.alloc = m.list.alloc) :
    UnorderedMap.rehash fuel m' c = UnorderedMap.rehash fuel m c := by
  cases fuel with
  | zero => simp [UnorderedMap.rehash]
  | succ fuel =>
    rw [rehash_succ fuel hs, rehash_succ fuel hs', hent]
    have hcl : cleared m' c = cleared m c := by
      unfold cleared
      rw [ha]
      cases m
      cases m'
      simp only at hh hmlf
      simp [hh, hmlf]
    rw [hcl]

end UMap

/-! ## The full rebuild of the heads -/

namespace UMap

variable {K V : Type}

end UMap

/-! ## The copy of a table -/

namespace UMap

variable {K V T : Type}

end UMap

/-! ## Copies of a list at the level of links -/

namespace UMap

variable {T : Type}

/-- The copying loop from the position between `done` and `rest` of the ring of
`other` on: it completes, appends new nodes with the values of `rest` in order
to `this`, and leaves `other` and all older nodes as they are. -/
theorem copy_loop_spec :
    ∀ (rest done : List Nat) (mem : Memory T) (this other : ListObj) (as_ : List Nat)
      (fuel : Nat), Ring mem this as_ → Ring mem other (done ++ rest) →
      this.id ≠ other.id → rest.length ≤ fuel →
      ∃ mem1 this1 news,
        ListObj.copy_loop other fuel mem this (seg_head (rest.map Link.node) other.root) =
          some (mem1, this1) ∧
        Ring mem1 this1 (as_ ++ news) ∧ this1.id = this.id ∧
        Ring mem1 other (done ++ rest) ∧
        mem1.read_values (news.map Link.node) = mem.read_values (rest.map Link.node) ∧
        (∀ c, c < mem.watermark → mem1.value c = mem.value c) ∧
        mem.watermark ≤ mem1.watermark ∧ (∀ n ∈ news, mem.watermark ≤ n) := by
  intro rest
  induction rest with
  | nil =>
    intro done mem this other as_ fuel ht ho _ _
    have hcend : other.cend mem = some other.root := ho.consistent.2.1
    refine ⟨mem, this, [], ?_, by simpa using ht, rfl, ho, rfl, fun _ _ => rfl, le_refl _, ?_⟩
    · cases fuel <;> simp [ListObj.copy_loop, hcend, seg_head]
    · intro n hn
      cases hn
  | cons b rest ih =>
    intro done mem this other as_ fuel ht ho hid hfuel
    obtain ⟨fuel', rfl⟩ : ∃ f, fuel = f + 1 := ⟨fuel - 1, by
      simp only [List.length_cons] at hfuel
      omega⟩
    have hcend : other.cend mem = some other.root := ho.consistent.2.1
    have hb_mem : b ∈ done ++ b :: rest := List.mem_append_right _ (List.mem_cons_self _ _)
    obtain ⟨v, hv⟩ := ho.live b hb_mem
    have hne : ¬ Link.node b = other.root := by simp [ListObj.root]
    obtain ⟨mem1, hins, ht1, hvw, hvo, hw1, hfn, hfp⟩ :=
      @ring_insert T mem this as_ [] (by simpa using ht) v
    have hapart := rings_apart ht ho hid
    have hfresh_o := fresh_not_in_ring ho
    have hlast_mem := seg_last_mem this.root (as_.map Link.node)
    have ho1 : Ring mem1 other (done ++ b :: rest) := by
      refine Ring.frame ho ?_ ?_ ?_ (by rw [hw1]; exact Nat.le_succ _)
      · intro x hx
        refine hfn x ?_ ?_
        · intro heq
          exact hapart _ hlast_mem (heq ▸ hx)
        · intro heq
          exact hfresh_o (heq ▸ hx)
      · intro x hx
        refine hfp x ?_ ?_
        · intro heq
          apply hapart this.root (List.mem_cons_self _ _)
          rw [heq] at hx
          simpa [seg_head] using hx
        · intro heq
          exact hfresh_o (heq ▸ hx)
      · intro a ha
        apply hvo
        intro heq
        exact absurd (ho.below a ha) (by rw [heq]; exact lt_irrefl _)
    have hseg : Seg mem other.root
        ((done.map Link.node ++ [Link.node b]) ++ rest.map Link.node) other.root := by
      have := ho.seg
      simpa [List.map_append] using this
    have hnext_b : mem.next (Link.node b) = some (seg_head (rest.map Link.node) other.root) := by
      have := (seg_next_last _ _ _ _ hseg).1
      rwa [seg_last_append] at this
    have hb_ring : Link.node b ∈ other.root :: (done ++ b :: rest).map Link.node :=
      List.mem_cons_of_mem _ (List.mem_map_of_mem _ hb_mem)
    have hnext_b1 : mem1.next (Link.node b) =
        some (seg_head (rest.map Link.node) other.root) := by
      rw [← hnext_b]
      refine hfn _ ?_ ?_
      · intro heq
        exact hapart _ hlast_mem (heq ▸ hb_ring)
      · intro heq
        exact hfresh_o (heq ▸ hb_ring)
    have ho1' : Ring mem1 other ((done ++ [b]) ++ rest) := by
      simpa using ho1
    have ht1' : Ring mem1 { this with list_size := this.list_size + 1 }
        (as_ ++ [mem.watermark]) := ht1
    obtain ⟨mem2, this2, news, hloop, ht2, hid2, ho2, hread, hv2, hw2, hnews⟩ :=
      ih (done ++ [b]) mem1 { this with list_size := this.list_size + 1 } other
        (as_ ++ [mem.watermark]) fuel' ht1' ho1' hid (by
          simp only [List.length_cons] at hfuel
          omega)
    have hw_rest : mem.watermark ∉ rest := fun hm =>
      absurd (ho.below _ (List.mem_append_right _ (List.mem_cons_of_mem _ hm))) (lt_irrefl _)
    refine ⟨mem2, this2, mem.watermark :: news, ?_, by simpa using ht2, hid2,
      by simpa using ho2, ?_, ?_, ?_, ?_⟩
    · have hpush : ListObj.push_back mem this v =
          some (mem1, { this with list_size := this.list_size + 1 }) := by
        have hins' : this.insert mem this.end v =
            some (mem1, { this with list_size := this.list_size + 1 },
              Link.node mem.watermark) := hins
        simp [ListObj.push_back, ListObj.pointer_inserter, ListObj.pointer_inserter_loop,
          hins']
      simp only [ListObj.copy_loop, hcend, Option.some_bind, List.map_cons, seg_head, hne,
        if_false, Memory.value_at, hv, hpush, hnext_b1]
      exact hloop
    · simp only [List.map_cons, Memory.read_values, Memory.value_at]
      rw [hread, hv2 _ (by rw [hw1]; exact Nat.lt_succ_self _), hvw, hv]
      have : mem1.read_values (rest.map Link.node) = mem.read_values (rest.map Link.node) := by
        apply read_values_congr
        intro c hc
        apply hvo
        rintro rfl
        exact hw_rest hc
      rw [this]
    · intro c hc
      rw [hv2 c (by rw [hw1]; exact Nat.lt_succ_of_lt hc)]
      exact hvo c (ne_of_lt hc)
    · rw [hw1] at hw2
      omega
    · intro n hn
      rcases List.mem_cons.1 hn with rfl | hn1
      · exact le_refl _
      · have := hnews n hn1
        rw [hw1] at this
        omega

/-- The loop `while (previous_size--) pop_front();` destroys the first
`previous_size` nodes of the ring and touches nothing outside the ring. -/
theorem pop_front_times_spec :
    ∀ (as_ news : List Nat) (mem : Memory T) (l : ListObj), Ring mem l (as_ ++ news) →
      ∃ mem1 l1, ListObj.pop_front_times as_.length mem l = some (mem1, l1) ∧
        Ring mem1 l1 news ∧ l1.id = l.id ∧
        (∀ a ∈ as_, mem1.value a = none) ∧
        (∀ c, c ∉ as_ → mem1.value c = mem.value c) ∧
        mem1.watermark = mem.watermark ∧
        (∀ x, x ∉ l.root :: (as_ ++ news).map Link.node →
          mem1.next x = mem.next x ∧ mem1.previous x = mem.previous x) := by
  intro as_
  induction as_ with
  | nil =>
    intro news mem l h
    refine ⟨mem, l, rfl, by simpa using h, rfl, ?_, fun _ _ => rfl, rfl, fun _ _ => ⟨rfl, rfl⟩⟩
    intro a ha
    cases ha
  | cons a as_ ih =>
    intro news mem l h
    have h' : Ring mem l ([] ++ a :: (as_ ++ news)) := by simpa using h
    obtain ⟨mem1, hers, hr1, hva, _, _, hvo, hw1, hfn, hfp⟩ := ring_erase h'
    have hbegin : l.begin mem = some (Link.node a) := by
      have := seg_next_head h.seg
      simpa [seg_head] using this
    have hr1' : Ring mem1 { l with list_size := l.list_size - 1 } (as_ ++ news) := by
      simpa using hr1
    obtain ⟨mem2, l2, hloop, hr2, hid2, hdead, hv2, hw2, hframe⟩ := ih news mem1 _ hr1'
    have ha_notin : a ∉ as_ := by
      have := h.nodup
      simp only [List.cons_append, List.nodup_cons, List.mem_append] at this
      exact fun hm => this.1 (Or.inl hm)
    refine ⟨mem2, l2, ?_, hr2, hid2, ?_, ?_, hw2.trans hw1, ?_⟩
    · have hpop : ListObj.pop_front mem l =
          some (mem1, { l with list_size := l.list_size - 1 }) := by
        simp [ListObj.pop_front, hbegin, hers]
      simp only [List.length_cons, ListObj.pop_front_times, hpop, Option.some_bind]
      exact hloop
    · intro c hc
      rcases List.mem_cons.1 hc with rfl | hc1
      · rw [hv2 _ ha_notin]
        exact hva
      · exact hdead c hc1
    · intro c hc
      have hca : c ≠ a := fun heq => hc (heq ▸ List.mem_cons_self _ _)
      have hcas : c ∉ as_ := fun hm => hc (List.mem_cons_of_mem _ hm)
      rw [hv2 c hcas]
      exact hvo c hca
    · intro x hx
      have hxroot : x ≠ l.root := fun heq => hx (heq ▸ List.mem_cons_self _ _)
      have hxa : x ≠ Link.node a := by
        intro heq
        apply hx
        rw [heq]
        simp
      have hxtail : x ∉ (as_ ++ news).map Link.node := by
        intro hm
        apply hx
        simp only [List.cons_append, List.map_cons, List.mem_cons]
        exact Or.inr (Or.inr hm)
      have hx1 : x ∉ ({ l with list_size := l.list_size - 1 } : ListObj).root ::
          (as_ ++ news).map Link.node := by
        intro hm
        rcases List.mem_cons.1 hm with h1 | h1
        · exact hxroot h1
        · exact hxtail h1
      obtain ⟨hn2, hp2⟩ := hframe x hx1
      refine ⟨?_, ?_⟩
      · rw [hn2]
        exact hfn x (by simpa [seg_last] using hxroot) hxa
      · rw [hp2]
        refine hfp x ?_ hxa
        intro heq
        have hm := seg_head_mem ((as_ ++ news).map Link.node) l.root
        rw [← heq] at hm
        rcases List.mem_append.1 hm with h1 | h1
        · exact hxtail h1
        · simp only [List.mem_singleton] at h1
          exact hxroot h1

/-- The copy constructor: the new list holds new nodes with the values of
`other` in order; `other` and all nodes that existed before are unchanged. -/
theorem copy_construct_spec {mem : Memory T} {other : ListObj} {bs : List Nat}
    (ho : Ring mem other bs) {id : Nat} (hid : id ≠ other.id) {fuel : Nat}
    (hfuel : bs.length ≤ fuel) :
    ∃ mem1 this1 news, ListObj.copy_construct fuel mem other id = some (mem1, this1) ∧
      Ring mem1 this1 news ∧ this1.id = id ∧ Ring mem1 other bs ∧
      mem1.read_values (news.map Link.node) = mem.read_values (bs.map Link.node) ∧
      (∀ c, c < mem.watermark → mem1.value c = mem.value c) ∧
      (∀ n ∈ news, mem.watermark ≤ n) := by
  have ho0 := construct_frame ho hid
  obtain ⟨mem1, this1, news, hloop, ht1, hid1, ho1, hread, hv, _, hnews⟩ :=
    copy_loop_spec bs [] (ListObj.construct mem id).1 (ListObj.construct mem id).2 other []
      fuel (ring_construct mem id) (by simpa using ho0) hid hfuel
  have hbegin : other.cbegin (ListObj.construct mem id).1 =
      some (seg_head (bs.map Link.node) other.root) := seg_next_head ho0.seg
  refine ⟨mem1, this1, news, ?_, by simpa using ht1, hid1, by simpa using ho1,
    hread.trans (read_values_congr bs (fun _ _ => rfl)), hv, hnews⟩
  simp only [ListObj.copy_construct, hbegin, Option.some_bind]
  exact hloop

/-- The copy assignment on two different lists: `this` ends with new nodes
holding the values of `other` in order, its previous nodes are destroyed, and
`other` is unchanged. -/
theorem copy_assign_spec {mem : Memory T} {this other : ListObj} {as_ bs : List Nat}
    (ht : Ring mem this as_) (ho : Ring mem other bs) (hid : this.id ≠ other.id)
    {fuel : Nat} (hfuel : bs.length ≤ fuel) :
    ∃ mem1 this1 news, ListObj.copy_assign fuel mem this other = some (mem1, this1) ∧
      Ring mem1 this1 news ∧ this1.id = this.id ∧ Ring mem1 other bs ∧
      mem1.read_values (news.map Link.node) = mem.read_values (bs.map Link.node) ∧
      mem1.read_values (bs.map Link.node) = mem.read_values (bs.map Link.node) ∧
      (∀ a ∈ as_, mem1.value a = none) ∧ (∀ n ∈ news, mem.watermark ≤ n) := by
  obtain ⟨mem1, this1, news, hloop, ht1, hid1, ho1, hread, hv, hw, hnews⟩ :=
    copy_loop_spec bs [] mem this other as_ fuel ht (by simpa using ho) hid hfuel
  have ho1' : Ring mem1 other bs := by simpa using ho1
  have hid1' : this1.id ≠ other.id := by
    rw [hid1]
    exact hid
  obtain ⟨mem2, this2, hpop, ht2, hid2, hdead, hv2, hw2, hframe⟩ :=
    pop_front_times_spec as_ news mem1 this1 ht1
  have hapart := rings_apart ht1 ho1' hid1'
  have hdis := ring_disjoint ht ho hid
  have hbegin : other.cbegin mem = some (seg_head (bs.map Link.node) other.root) :=
    seg_next_head ho.seg
  have hnews_as : ∀ n ∈ news, n ∉ as_ := by
    intro n hn hm
    have h1 := hnews n hn
    have h2 := ht.below n hm
    omega
  have hbs_as : ∀ b ∈ bs, b ∉ as_ := fun b hb hm => hdis b hm hb
  refine ⟨mem2, this2, news, ?_, ht2, hid2.trans hid1, ?_, ?_, ?_, ?_, hnews⟩
  · have hsz : this.size = as_.length := ht.size_eq
    simp only [ListObj.copy_assign, hid, if_false, hbegin, Option.some_bind, hloop, hsz]
    exact hpop
  · refine Ring.frame ho1' ?_ ?_ ?_ (le_of_eq hw2.symm)
    · intro x hx
      exact (hframe x (fun hm => hapart x hm hx)).1
    · intro x hx
      exact (hframe x (fun hm => hapart x hm hx)).2
    · intro b hb
      exact hv2 b (hbs_as b hb)
  · rw [← hread]
    exact read_values_congr news (fun n hn => hv2 n (hnews_as n hn))
  · have h1 : mem2.read_values (bs.map Link.node) = mem1.read_values (bs.map Link.node) :=
      read_values_congr bs (fun b hb => hv2 b (hbs_as b hb))
    have h2 : mem1.read_values (bs.map Link.node) = mem.read_values (bs.map Link.node) :=
      read_values_congr bs (fun b hb => hv b (ho.below b hb))
    rw [h1, h2]
  · intro a ha
    exact hdead a ha

end UMap

/-! ## The code at the failing inputs -/

namespace UMap

/-- C2 (code at the failing input): with buckets `5` and identity hash, after
`insert (0,10)` and `insert (5,20)` the key `0` is present (`find 0` returns the
node holding `(0,10)`), yet `insert (0,30)` reports `inserted = true`, the size
becomes `3` and the list holds two entries with key `0`. -/
theorem insert_present_key_links_second_entry :
    ((table5 [(0, 10), (5, 20)]).map fun t =>
        (t.find 0, t.deref (BasePtr.node 0), t.size)) =
      some (some (BasePtr.node 0), some (0, 10), 2) ∧
    ((table5 [(0, 10), (5, 20)]).bind fun t =>
      (t.insert 3 (0, 30)).map fun r => (r.2.2, r.1.size)) = some (true, 3) ∧
    ((table5 [(0, 10), (5, 20)]).bind fun t =>
      (t.insert 3 (0, 30)).map fun r => r.1.entries) =
      some [(0, 30), (5, 20), (0, 10)] := by
  decide!

/-- C3 (code at the failing input): with keys `0..4` in five buckets, `insert (7,17)`
grows the table to ten buckets and returns `inserted = true` with a handle whose
entry is `(2,12)`, not the new entry `(7,17)`. -/
theorem insert_rehash_returns_handle_of_other_entry :
    ((table5 [(0, 10), (1, 11), (2, 12), (3, 13), (4, 14)]).bind fun t =>
      (t.insert 3 (7, 17)).map fun r =>
        (t.find 7, r.2.2, r.1.buckets.length, r.1.deref r.2.1)) =
      some (some BasePtr.root, true, 10, some (2, 12)) := by
  decide!

/-- C4 (code at the failing input): with keys `0..4` in five buckets, `m[7] = 99`
leaves `at(7)` at the default value `0` and overwrites the value of key `2`. -/
theorem index_assign_rehash_writes_other_entry :
    ((table5 [(0, 10), (1, 11), (2, 12), (3, 13), (4, 14)]).bind fun t =>
      (t.index_assign 3 7 99).map fun t1 => (t.at_ 2, t1.at_ 7, t1.at_ 2)) =
      some (some (Except.ok 12), some (Except.ok 0), some (Except.ok 99)) := by
  decide!

/-- C5 (counterexample): after `insert (0,1)`, `insert (1,2)`, `insert (0,3)` the
third call reports `inserted = false`, `size()` is `2`, `at(1)` is `2`, and `at(0)`
is still `1`, not `3`. -/
theorem insert_present_key_keeps_old_value :
    ((table5 [(0, 1), (1, 2)]).bind fun t =>
      (t.insert 3 (0, 3)).map fun r => (r.2.2, r.1.size, r.1.at_ 0, r.1.at_ 1)) =
      some (false, 2, some (Except.ok 1), some (Except.ok 2)) ∧
    ¬ ((table5 [(0, 1), (1, 2)]).bind fun t =>
      (t.insert 3 (0, 3)).map fun r => r.1.at_ 0) =
      some (some (Except.ok (3 : Nat))) := by
  constructor
  · decide!
  · decide!

/-- C6 (code at the failing input): keys `0` and `5` share bucket `0` of five;
erasing the entry of key `5` (the recorded head) empties the slot although the
entry of key `0` follows it, so `find 0`, which succeeded before, returns `end()`. -/
theorem erase_head_loses_following_chain_member :
    ((table5 [(0, 10), (5, 20)]).bind fun t =>
      (t.find 5).bind fun h =>
      (t.erase h).map fun r => (t.find 0, t.at_ 0, r.1.find 0, r.1.at_ 0)) =
      some (some (BasePtr.node 0), some (Except.ok 10), some BasePtr.root,
        some (Except.error UnorderedMapAtKeyNotFoundException.mk)) ∧
    ((table5 [(0, 10), (5, 20)]).bind fun t =>
      (t.find 5).bind fun h => (t.erase h).map fun r => r.1.entries) = some [(0, 10)] := by
  decide!

/-- C7 (code at the failing input): after `insert (0,10)`, `insert (5,20)`,
`insert (0,30)` the list holds two entries with key `0`; erasing the one the
first insert returned (node `0`, still live) leaves `find 0` successful. -/
theorem erase_then_find_same_key_succeeds :
    ((table5 [(0, 10), (5, 20), (0, 30)]).bind fun t =>
      (t.erase (BasePtr.node 0)).map fun r =>
        (t.deref (BasePtr.node 0), r.1.find 0, r.1.at_ 0)) =
      some (some (0, 10), some (BasePtr.node 2), some (Except.ok 30)) ∧
    ((table5 [(0, 10), (5, 20), (0, 30)]).bind fun t =>
      (t.erase (BasePtr.node 0)).map fun r => r.1.entries) = some [(0, 30), (5, 20)] := by
  decide!

/-- C9 (code at the failing input): in the table built by the inserts
`(0,10), (5,11), (0,12), (1,13), (2,14)` the key `3` is absent; `operator[](3)`
triggers the doubling rehash, which drops the entry `(0,10)`, so `size()` is `5`
before and `5` after. -/
theorem operator_index_absent_key_size_unchanged :
    ((table5 [(0, 10), (5, 11), (0, 12), (1, 13), (2, 14)]).bind fun t =>
      (t.operator_index 3 3).map fun r => (t.find 3, t.size, r.1.size, r.1.at_ 3)) =
      some (some BasePtr.root, 5, 5, some (Except.ok 0)) ∧
    ((table5 [(0, 10), (5, 11), (0, 12), (1, 13), (2, 14)]).map fun t => t.entries) =
      some [(0, 12), (5, 11), (0, 10), (1, 13), (2, 14)] ∧
    ((table5 [(0, 10), (5, 11), (0, 12), (1, 13), (2, 14)]).bind fun t =>
      (t.operator_index 3 3).map fun r => r.1.entries) =
      some [(0, 12), (5, 11), (1, 13), (2, 14), (3, 0)] := by
  decide!

end UMap

/-! ## The code at further inputs -/

namespace UMap

/-- C11 (counterexample): after three inserts into five buckets,
`max_load_factor(0.5)` only stores the new limit; the table keeps `3` entries in
`5` buckets, so `load_factor()` is `0.6f`, the binary32 value
`5033165/8388608`, and exceeds `max_load_factor() = 1/2`. -/
theorem max_load_factor_setter_keeps_bucket_count :
    ((table5 [(0, 1), (1, 2), (2, 3)]).map fun t =>
      ((t.set_max_load_factor (1 / 2)).size, (t.set_max_load_factor (1 / 2)).buckets.length,
        (t.set_max_load_factor (1 / 2)).load_factor,
        (t.set_max_load_factor (1 / 2)).max_load_factor)) =
      some (3, 5, 5033165 / 8388608, 1 / 2) ∧
    ((table5 [(0, 1), (1, 2), (2, 3)]).map fun t =>
      decide ((t.set_max_load_factor (1 / 2)).load_factor ≤
        (t.set_max_load_factor (1 / 2)).max_load_factor)) = some false := by
  constructor
  · decide!
  · decide!

/-- C13 (code at the failing input): the table built by `insert (0,10)`,
`insert (5,20)`, `insert (0,30)` into five buckets holds three entries and
`at(0)` is `30`. `reserve(10)` leaves ten buckets with two entries, the entry
`(0,10)` is gone; `reserve(5)` keeps the three entries but `at(0)` becomes `10`. -/
theorem reserve_changes_entries_of_repeated_key :
    ((table5 [(0, 10), (5, 20), (0, 30)]).map fun t => (t.size, t.entries, t.at_ 0)) =
      some (3, [(0, 30), (5, 20), (0, 10)], some (Except.ok 30)) ∧
    ((table5 [(0, 10), (5, 20), (0, 30)]).bind fun t =>
      (t.reserve 3 10).map fun r => (r.buckets.length, r.size, r.entries)) =
      some (10, 2, [(0, 30), (5, 20)]) ∧
    ((table5 [(0, 10), (5, 20), (0, 30)]).bind fun t =>
      (t.reserve 3 5).map fun r => (r.buckets.length, r.size, r.entries)) =
      some (5, 3, [(0, 10), (5, 20), (0, 30)]) ∧
    ((table5 [(0, 10), (5, 20), (0, 30)]).bind fun t =>
      (t.reserve 3 5).map fun r => r.at_ 0) = some (some (Except.ok 10)) := by
  refine ⟨?_, ?_, ?_, ?_⟩
  · decide!
  · decide!
  · decide!
  · decide!

/-- C14 (counterexample): `insert (0,10)` creates the node at address `0` and
`find 0` returns it; after the rehash of `reserve(10)` no node lives at address
`0`, the entry `(0,10)` is held by the newly allocated node at address `1`. -/
theorem rehash_replaces_the_node_of_an_entry :
    ((table5 [(0, 10)]).map fun t => (t.find 0, t.deref (BasePtr.node 0))) =
      some (some (BasePtr.node 0), some (0, 10)) ∧
    ((table5 [(0, 10)]).bind fun t =>
      (t.reserve 3 10).map fun t1 =>
        (t1.deref (BasePtr.node 0), t1.find 0, t1.deref (BasePtr.node 1),
          t1.list.nodes.map TemplateNode.addr)) =
      some (none, some (BasePtr.node 1), some (0, 10), [1]) := by
  constructor
  · decide!
  · decide!

/-- The quotient of `reserve` is a binary32 value: with `max_load_factor(0.7f)`
on five empty buckets, `reserve(7)` asks for `ceil(float(7) / 0.7f) = 10`
buckets and leaves ten, while the ceiling of the exact quotient `7 / 0.7f` is
`11`; with `max_load_factor(4194304.0f)`, `reserve(16777217)` asks for `4`
buckets, `float(16777217)` being `16777216`, while the ceiling of the exact
quotient is `5`. -/
theorem reserve_rounds_the_quotient :
    reserve_target ((cleared (UnorderedMap.default_constructed id : UnorderedMap Nat Nat)
      5).set_max_load_factor point_seven) 7 = 10 ∧
    ((UnorderedMap.reserve 3 ((cleared (UnorderedMap.default_constructed id :
      UnorderedMap Nat Nat) 5).set_max_load_factor point_seven) 7).map fun r =>
        r.buckets.length) = some 10 ∧
    ⌈(7 : ℚ) / point_seven⌉ = 11 ∧
    reserve_target ((cleared (UnorderedMap.default_constructed id : UnorderedMap Nat Nat)
      5).set_max_load_factor 4194304) 16777217 = 4 ∧
    ⌈(16777217 : ℚ) / 4194304⌉ = 5 := by
  refine ⟨?_, ?_, ?_, ?_, ?_⟩
  · decide!
  · decide!
  · decide!
  · decide!
  · decide!

/-- C18 (code at the failing input): the table built by `insert (0,10)`,
`insert (1,20)`, `insert (2,30)` into five buckets, then `reserve(10)` with a
hash functor that raises for the key `1`. Without the exception the rehash
returns a table with the three entries in ten buckets. With it the call is
left by the exception after one re-insertion: the table has ten buckets and
the single entry `(0,10)`, the keys `1` and `2` are no longer found. -/
theorem rehash_left_by_exception_keeps_reinserted_entries_only :
    ((table5 [(0, 10), (1, 20), (2, 30)]).map fun t => (t.entries, t.buckets.length)) =
      some ([(0, 10), (1, 20), (2, 30)], 5) ∧
    ((table5 [(0, 10), (1, 20), (2, 30)]).bind fun t =>
      (t.reserve 3 10).map fun t1 => (t1.entries, t1.buckets.length)) =
      some ([(0, 10), (1, 20), (2, 30)], 10) ∧
    ((table5 [(0, 10), (1, 20), (2, 30)]).bind fun t =>
      (t.reserve_raising (fun k => k == 1) 3 10).map fun o =>
        (o.is_raised, o.table.entries, o.table.size, o.table.buckets.length)) =
      some (true, [(0, 10)], 1, 10) ∧
    ((table5 [(0, 10), (1, 20), (2, 30)]).bind fun t =>
      (t.reserve_raising (fun k => k == 1) 3 10).map fun o =>
        (o.table.at_ 0, o.table.at_ 1, o.table.at_ 2)) =
      some (some (Except.ok 10),
        some (Except.error UnorderedMapAtKeyNotFoundException.mk),
        some (Except.error UnorderedMapAtKeyNotFoundException.mk)) := by
  refine ⟨?_, ?_, ?_, ?_⟩
  · decide!
  · decide!
  · decide!
  · decide!

end UMap

/-! ## The code at inputs of `erase` followed by `insert` -/

namespace UMap

/-- C23 (code at the failing input): after `insert (2,10)` and `insert (7,20)`
into five buckets the list is `[(7,20), (2,10)]`, both nodes in bucket `2`, and
every slot holds the first node of its bucket. `erase(find(7))` removes the
head of bucket `2`; the next node has the cached hash `2`, which maps to bucket
`2` but differs from the erased hash `7`, and slot `2` becomes null although the
node of key `2` is the first node of bucket `2`: the heads are no longer
correct, and `find(2)` returns `end()`. -/
theorem erase_of_head_empties_slot_of_occupied_bucket :
    ((table5 [(2, 10), (7, 20)]).map fun t =>
      (t.entries, t.list.nodes.map fun n => t.bucketId n.value.hash, t.buckets,
        decide (∀ b, b < t.buckets.length →
          t.buckets[b]? = some (first_in t.buckets.length b t.list.nodes)))) =
      some ([(7, 20), (2, 10)], [2, 2],
        [BasePtr.null, BasePtr.null, BasePtr.node 1, BasePtr.null, BasePtr.null], true) ∧
    ((table5 [(2, 10), (7, 20)]).bind fun t =>
      (t.find 7).bind fun it => (t.erase it).map fun r =>
        (r.1.entries, r.1.list.nodes.map fun n => r.1.bucketId n.value.hash, r.1.buckets)) =
      some ([(2, 10)], [2],
        [BasePtr.null, BasePtr.null, BasePtr.null, BasePtr.null, BasePtr.null]) ∧
    ((table5 [(2, 10), (7, 20)]).bind fun t =>
      (t.find 7).bind fun it => (t.erase it).map fun r =>
        (first_in r.1.buckets.length 2 r.1.list.nodes,
          decide (∀ b, b < r.1.buckets.length →
            r.1.buckets[b]? = some (first_in r.1.buckets.length b r.1.list.nodes)),
          r.1.find 2)) =
      some (BasePtr.node 0, false, some BasePtr.root) := by
  refine ⟨?_, ?_, ?_⟩
  · decide!
  · decide!
  · decide!

/-- C24 (code at the failing input): `insert (0,10)`, `insert (5,20)`,
`insert (1,30)` into five buckets, then `erase(find(5))` and `insert (10,40)`,
all of them public operations. The `erase` empties slot `0` although the node
of key `0` stays (its cached hash `0` is not the erased hash `5`), so the
`insert` of key `10` finds slot `0` null and links its node at the end of the
list: the bucket ids along the list are `0, 1, 0`, and the nodes of bucket `0`
are separated by a node of bucket `1`. -/
theorem chain_contiguity_lost_by_erase_then_insert :
    (sample_interleaved.map fun t =>
      (t.entries, t.list.nodes.map fun n => t.bucketId n.value.hash, t.buckets.length)) =
      some ([(0, 10), (1, 30), (10, 40)], [0, 1, 0], 5) ∧
    ∃ t, sample_interleaved = some t ∧ Reachable t ∧
      ¬ Contiguous t.buckets.length t.list.nodes := by
  constructor
  · decide!
  · have h : (sample_interleaved.map fun t =>
        contiguous_check t.buckets.length t.list.nodes) = some false := by decide!
    obtain ⟨t, ht, hc⟩ := Option.map_eq_some'.1 h
    refine ⟨t, ht, sample_interleaved_reachable ht, ?_⟩
    intro hcon
    rw [(contiguous_check_iff _ _).2 hcon] at hc
    cases hc

/-- C27 (counterexample): `sample_table` and `sample_reseeded` hold the same
nodes with the same cached hashes `5`, `0`, `1`; their hash functors yield `k`
and `k + 1`. `rehash(5)` of `sample_reseeded` leaves the cached hashes `1`, `6`,
`2` of the keys `0`, `5`, `1`: the values are computed anew by the functor and
the stored ones are not carried over; and the results of `rehash(5)` on the two
tables differ although the stored hashes agree. -/
theorem rehash_stores_newly_computed_hashes :
    (sample_reseeded.list.nodes.map fun n => (n.value.element.1, n.value.hash)) =
      [(5, 5), (0, 0), (1, 1)] ∧
    (sample_table.list.nodes.map fun n => (n.value.element.1, n.value.hash)) =
      [(5, 5), (0, 0), (1, 1)] ∧
    ((UnorderedMap.rehash 3 sample_reseeded 5).map fun t =>
      (t.list.nodes.map fun n => (n.value.element.1, n.value.hash), t.buckets)) =
      some ([(0, 1), (5, 6), (1, 2)],
        [BasePtr.null, BasePtr.node 4, BasePtr.node 5, BasePtr.null, BasePtr.null]) ∧
    ((UnorderedMap.rehash 3 sample_table 5).map fun t =>
      (t.list.nodes.map fun n => (n.value.element.1, n.value.hash), t.buckets)) =
      some ([(0, 0), (5, 5), (1, 1)],
        [BasePtr.node 4, BasePtr.node 5, BasePtr.null, BasePtr.null, BasePtr.null]) := by
  refine ⟨?_, ?_, ?_, ?_⟩
  · decide
  · decide
  · decide!
  · decide!

end UMap

/-! ## The claims -/

namespace UMap

variable {K V : Type}

/-- C1: for every hash function, every initial bucket count and every sequence
of inserts of pairwise distinct keys into a newly constructed table, the calls
complete (for every sufficient recursion budget), `size()` equals the number of
inserts, `find(k)` returns a handle to the entry with key `k` for every inserted
entry, and `find(k')` returns `end()` for every key that was never inserted. -/
theorem insert_distinct_keys_size_and_find [DecidableEq K] (hash : K → Nat)
    (bucket_count : Nat) (elements : List (K × V))
    (hnd : (elements.map Prod.fst).Nodup) :
    ∃ fuel0, ∀ fuel, fuel0 ≤ fuel →
      ∃ t : UnorderedMap K V,
        ((UnorderedMap.construct fuel bucket_count hash).bind fun t0 =>
          t0.insert_all fuel elements) = some t ∧
        t.size = elements.length ∧
        (∀ e ∈ elements, ∃ a, t.find e.1 = some (BasePtr.node a) ∧
          t.deref (BasePtr.node a) = some e) ∧
        ∀ k, k ∉ elements.map Prod.fst → t.find k = some t.end := by
  refine ⟨elements.length + 2, ?_⟩
  intro fuel hfuel
  obtain ⟨fuel', rfl⟩ : ∃ f, fuel = f + 1 := ⟨fuel - 1, by omega⟩
  have hF : Fits (cleared (UnorderedMap.default_constructed hash : UnorderedMap K V)
      bucket_count).max_load_factor_value elements.length (2 ^ elements.length) := by
    have : (cleared (UnorderedMap.default_constructed hash : UnorderedMap K V)
        bucket_count).max_load_factor_value = 1 := rfl
    rw [this]
    exact fits_one (le_of_lt (Nat.lt_two_pow elements.length))
  obtain ⟨t, ht, hit, hperm⟩ := insert_all_distinct
    (cleared_inv (UnorderedMap.default_constructed hash : UnorderedMap K V) bucket_count)
    rfl (by simp [cleared, UnorderedMap.default_constructed]) elements hnd
    elements.length (fuel' + 1) (by omega) hF
  have hinj : ∀ x ∈ elements, ∀ y ∈ elements, x.1 = y.1 → x = y :=
    List.inj_on_of_nodup_map hnd
  refine ⟨t, ?_, ?_, ?_, ?_⟩
  · rw [construct_succ]
    exact ht
  · rw [UnorderedMap.size, ListT.size, hit.size_eq, ← hperm.length_eq,
      UnorderedMap.entries, List.length_map]
  · intro e he
    obtain ⟨n, hn, hne⟩ := List.mem_map.1 (hperm.mem_iff.2 he)
    obtain ⟨n', hn', hfind, hkey⟩ := find_complete hit hn
    have hn'e : n'.value.element = e := by
      refine hinj _ (hperm.mem_iff.1 (mem_entries hn')) _ he ?_
      rw [hkey, hne]
    refine ⟨n'.addr, ?_, ?_⟩
    · rw [← hne]
      exact hfind
    · rw [deref_of_mem hit.toWF hn', hn'e]
  · intro k hk
    rcases find_spec hit.toWF k with h | ⟨n, hn, _, hnk⟩
    · exact h
    · exfalso
      apply hk
      rw [← hnk]
      exact List.mem_map_of_mem Prod.fst (hperm.mem_iff.1 (mem_entries hn))

/-- C1 (witness): six distinct keys, three of them in one bucket, inserted into
a table constructed with five buckets. -/
theorem insert_distinct_keys_size_and_find_witness :
    ([((0 : Nat), (10 : Nat)), (5, 20), (10, 30), (1, 40), (2, 50), (3, 60)].map
        Prod.fst).Nodup ∧
    ∃ fuel0, ∀ fuel, fuel0 ≤ fuel →
      ∃ t : UnorderedMap Nat Nat,
        ((UnorderedMap.construct fuel 5 id).bind fun t0 =>
          t0.insert_all fuel [(0, 10), (5, 20), (10, 30), (1, 40), (2, 50), (3, 60)]) =
          some t ∧
        t.size = [((0 : Nat), (10 : Nat)), (5, 20), (10, 30), (1, 40), (2, 50), (3, 60)].length ∧
        (∀ e ∈ [((0 : Nat), (10 : Nat)), (5, 20), (10, 30), (1, 40), (2, 50), (3, 60)],
          ∃ a, t.find e.1 = some (BasePtr.node a) ∧ t.deref (BasePtr.node a) = some e) ∧
        ∀ k, k ∉ [((0 : Nat), (10 : Nat)), (5, 20), (10, 30), (1, 40), (2, 50), (3, 60)].map
            Prod.fst → t.find k = some t.end :=
  ⟨by decide, insert_distinct_keys_size_and_find id 5 _ (by decide)⟩

/-- C5 (amended): for every well-formed table with a positive `max_load_factor`,
every key `k` that no entry of the table carries and every value `v`,
`insert(k, v)` completes, reports `inserted = true`, and afterwards `at(k)`
returns `v`, whether or not the insert triggers a rehash. -/
theorem insert_absent_key_then_at [DecidableEq K] (m : UnorderedMap K V) (element : K × V)
    (hw : WF m) (hmlf : 0 < m.max_load_factor) (habsent : element.1 ∉ m.keys) :
    ∃ fuel0, ∀ fuel, fuel0 ≤ fuel →
      ∃ r, m.insert fuel element = some r ∧ r.2.2 = true ∧
        r.1.at_ element.1 = some (Except.ok element.2) := by
  obtain ⟨F, hF⟩ := exists_pow_bound hmlf (m.list.nodes.length + 1)
  refine ⟨F + 1, ?_⟩
  intro fuel hfuel
  obtain ⟨r, hr, hpost⟩ := insert_spec hw hmlf element hfuel hF
  obtain ⟨hwp, hnodes, _, _, _, _⟩ := prepared_fields hw
  have hne := prepared_buckets_ne m
  have habs : ∀ n ∈ (prepared m).list.nodes, n.value.element.1 ≠ element.1 := by
    intro n hn hk
    rw [hnodes] at hn
    exact habsent (hk ▸ mem_keys hn)
  refine ⟨r, hr, ?_⟩
  rcases hpost with ⟨_, _, n, hn, _, hnk⟩ | ⟨ht, hl, _, _⟩ | ⟨ht, m2, hl, _, hpost2, _⟩
  · exact absurd hnk (habs n hn)
  · exact ⟨ht, at_of_find_node (hl.find_new hne) (hl.deref_new hwp hne)⟩
  · refine ⟨ht, ?_⟩
    obtain ⟨hi1, _, _, _, _, hret, _⟩ := hpost2
    have hmem2 : element ∈ m2.entries := hl.entries_perm.mem_iff.2 (List.mem_cons_self _ _)
    have huniq : ∀ x ∈ m2.entries, x.1 = element.1 → x = element := by
      intro x hx hk
      rcases List.mem_cons.1 (hl.entries_perm.mem_iff.1 hx) with h | h
      · exact h
      · obtain ⟨n, hn, hne'⟩ := List.mem_map.1 h
        exact absurd (by rw [← hk, ← hne']) (habs n hn)
    obtain ⟨hin, hall⟩ := hret.mem_of_unique hmem2 huniq
    obtain ⟨n, hn, hne'⟩ := List.mem_map.1 hin
    obtain ⟨n', hn', hfind, hkey⟩ := find_complete hi1 hn
    have hn'e : n'.value.element = element :=
      hall _ (mem_entries hn') (by rw [hkey, hne'])
    have hfind' : r.1.find element.1 = some (BasePtr.node n'.addr) := by
      rw [← hne']
      exact hfind
    exact at_of_find_node hfind' (by rw [deref_of_mem hi1.toWF hn', hn'e])

/-- C5 (witness): an empty one-bucket table whose `max_load_factor` is `1/4`, so
that the insert has to double the bucket count twice. -/
theorem insert_absent_key_then_at_witness :
    WF (cleared ((UnorderedMap.default_constructed id :
      UnorderedMap Nat Nat).set_max_load_factor (1 / 4)) 1) ∧
    ∃ fuel0, ∀ fuel, fuel0 ≤ fuel →
      ∃ r, (cleared ((UnorderedMap.default_constructed id :
          UnorderedMap Nat Nat).set_max_load_factor (1 / 4)) 1).insert fuel (3, 7) = some r ∧
        r.2.2 = true ∧ r.1.at_ 3 = some (Except.ok 7) :=
  ⟨(cleared_inv _ 1).toWF,
    insert_absent_key_then_at _ (3, 7) (cleared_inv _ 1).toWF
      (by norm_num [cleared, UnorderedMap.max_load_factor,
        UnorderedMap.set_max_load_factor])
      (by simp [cleared, UnorderedMap.keys])⟩

/-- C8: on a well-formed table `find` always returns a handle; `at(k)` signals
`UnorderedMapAtKeyNotFoundException` exactly when `find(k)` returns `end()`, which
is the case for every key no entry carries and for every key when the table has
no buckets; otherwise `find(k)` refers to a live entry with key `k` and `at(k)`
returns the value of that entry. -/
theorem at_signals_exactly_when_find_ends [DecidableEq K] (m : UnorderedMap K V)
    (hw : WF m) (key : K) :
    (∃ it, m.find key = some it) ∧
    (m.at_ key = some (Except.error UnorderedMapAtKeyNotFoundException.mk) ↔
      m.find key = some m.end) ∧
    (∀ it, m.find key = some it → it ≠ m.end →
      ∃ e, m.deref it = some e ∧ e.1 = key ∧ m.at_ key = some (Except.ok e.2)) ∧
    (key ∉ m.keys → m.find key = some m.end) ∧
    (m.buckets = [] → m.find key = some m.end) := by
  have hcases := find_spec hw key
  refine ⟨?_, ?_, ?_, ?_, ?_⟩
  · rcases hcases with h | ⟨n, _, h, _⟩
    · exact ⟨_, h⟩
    · exact ⟨_, h⟩
  · constructor
    · intro hat
      rcases hcases with h | ⟨n, hn, h, _⟩
      · exact h
      · rw [at_of_find_node h (deref_of_mem hw hn)] at hat
        cases hat
    · intro h
      exact at_of_find_root h
  · intro it hit hne
    rcases hcases with h | ⟨n, hn, h, hk⟩
    · rw [h] at hit
      exact absurd (Option.some.inj hit).symm hne
    · rw [h] at hit
      cases hit
      exact ⟨_, deref_of_mem hw hn, hk, at_of_find_node h (deref_of_mem hw hn)⟩
  · intro hk
    rcases hcases with h | ⟨n, hn, _, hnk⟩
    · exact h
    · exact absurd (hnk ▸ mem_keys hn) hk
  · intro hb
    simp [UnorderedMap.find, hb, UnorderedMap.end]

/-- C8 (witness): the default-constructed table, which has no buckets. -/
theorem at_signals_exactly_when_find_ends_witness :
    WF (cleared (UnorderedMap.default_constructed id : UnorderedMap Nat Nat) 0) ∧
    (cleared (UnorderedMap.default_constructed id : UnorderedMap Nat Nat) 0).at_ 4 =
      some (Except.error UnorderedMapAtKeyNotFoundException.mk) :=
  ⟨(cleared_inv _ 0).toWF,
    ((at_signals_exactly_when_find_ends _ (cleared_inv _ 0).toWF 4).2.1).2
      ((at_signals_exactly_when_find_ends _ (cleared_inv _ 0).toWF 4).2.2.2.2 rfl)⟩

/-- C10 (counterexample): `m(10)`, `max_load_factor(0.7f)`, inserts of the keys
`0` to `6`. The seventh insert links its entry (`inserted = true`) and leaves
seven entries in ten buckets: `load_factor()` is `float(7) / float(10)`, which
is `0.7f` itself, so the test `load_factor() > max_load_factor()` is false and
nothing is rehashed. Over exact rationals `0.7f * 10` is less than `7`. -/
theorem insert_keeps_buckets_at_equal_float_load :
    round32 (7 / 10) = point_seven ∧
    ((table10 [(0, 0), (1, 0), (2, 0), (3, 0), (4, 0), (5, 0)]).bind fun t =>
      (t.insert 3 (6, 0)).map fun r =>
        (r.2.2, r.1.size, r.1.buckets.length, r.1.max_load_factor, r.1.load_factor)) =
      some (true, 7, 10, point_seven, point_seven) ∧
    ((table10 [(0, 0), (1, 0), (2, 0), (3, 0), (4, 0), (5, 0)]).bind fun t =>
      (t.insert 3 (6, 0)).map fun r =>
        decide ((r.1.size : ℚ) ≤ r.1.max_load_factor * (r.1.buckets.length : ℚ))) =
      some false := by
  refine ⟨?_, ?_, ?_⟩
  · decide!
  · decide!
  · decide!

/-- C10 (amended): for every well-formed table with a positive `max_load_factor`
(whatever its current load), `insert` completes; it reports `inserted = true`
when no entry carries the key; and when it has linked a new entry
(`inserted = true`) then the table has buckets and
`load_factor() <= max_load_factor()` holds afterwards for the binary32 value that
`load_factor()` returns, so that the exact ratio `size() / bucket_count` exceeds
`max_load_factor()` by at most the factor `1 + 2^-22`. -/
theorem insert_linked_float_load_bound [DecidableEq K] (m : UnorderedMap K V)
    (element : K × V) (hw : WF m) (hmlf : 0 < m.max_load_factor) :
    ∃ fuel0, ∀ fuel, fuel0 ≤ fuel →
      ∃ r, m.insert fuel element = some r ∧
        (element.1 ∉ m.keys → r.2.2 = true) ∧
        (r.2.2 = true →
          r.1.buckets ≠ [] ∧ r.1.load_factor ≤ r.1.max_load_factor ∧
          (r.1.size : ℚ) ≤
            r.1.max_load_factor * (r.1.buckets.length : ℚ) * (1 + 1 / 2 ^ (22 : ℕ))) := by
  obtain ⟨F, hF⟩ := exists_pow_bound hmlf (m.list.nodes.length + 1)
  refine ⟨F + 1, ?_⟩
  intro fuel hfuel
  obtain ⟨r, hr, hpost⟩ := insert_spec hw hmlf element hfuel hF
  obtain ⟨hwp, hnodes, _, hmp, _, _⟩ := prepared_fields hw
  have hne := prepared_buckets_ne m
  obtain ⟨_, _, _, hmm, hb, _, _, hload, _⟩ := hpost.summary hwp hne
  refine ⟨r, hr, ?_, ?_⟩
  · intro habsent
    rcases hpost with ⟨_, _, n, hn, _, hnk⟩ | ⟨ht, _⟩ | ⟨ht, _⟩
    · exfalso
      apply habsent
      rw [← hnk]
      rw [hnodes] at hn
      exact mem_keys hn
    · exact ht
    · exact ht
  · intro ht
    have hlo : LoadOk r.1 := hload (Or.inr ht)
    have hpos : 1 ≤ r.1.buckets.length :=
      Nat.lt_of_lt_of_le (List.length_pos.2 hne) hb
    refine ⟨List.length_pos.1 hpos, hlo, ?_⟩
    have hm0 : 0 ≤ r.1.max_load_factor_value := by
      rw [hmm, hmp]
      exact hmlf.le
    exact bound_of_fits hpos hm0 (fits_of_loadOk hlo)

/-- C10 (witness): an empty one-bucket table whose `max_load_factor` was lowered
to `1/4`; the insert of the key `3`, which no entry carries, needs two
doublings and reports `inserted = true`. -/
theorem insert_linked_float_load_bound_witness :
    WF (cleared ((UnorderedMap.default_constructed id :
      UnorderedMap Nat Nat).set_max_load_factor (1 / 4)) 1) ∧
    (0 : ℚ) < (cleared ((UnorderedMap.default_constructed id :
      UnorderedMap Nat Nat).set_max_load_factor (1 / 4)) 1).max_load_factor ∧
    ∃ fuel0, ∀ fuel, fuel0 ≤ fuel →
      ∃ r, (cleared ((UnorderedMap.default_constructed id :
          UnorderedMap Nat Nat).set_max_load_factor (1 / 4)) 1).insert fuel (3, 7) = some r ∧
        r.2.2 = true ∧ r.1.buckets ≠ [] ∧ r.1.load_factor ≤ r.1.max_load_factor ∧
        (r.1.size : ℚ) ≤
          r.1.max_load_factor * (r.1.buckets.length : ℚ) * (1 + 1 / 2 ^ (22 : ℕ)) := by
  refine ⟨(cleared_inv _ 1).toWF,
    by norm_num [cleared, UnorderedMap.max_load_factor, UnorderedMap.set_max_load_factor], ?_⟩
  obtain ⟨fuel0, h⟩ := insert_linked_float_load_bound
    (cleared ((UnorderedMap.default_constructed id :
      UnorderedMap Nat Nat).set_max_load_factor (1 / 4)) 1) (3, 7) (cleared_inv _ 1).toWF
    (by norm_num [cleared, UnorderedMap.max_load_factor, UnorderedMap.set_max_load_factor])
  refine ⟨fuel0, fun fuel hfuel => ?_⟩
  obtain ⟨r, hr, habs, hlo⟩ := h fuel hfuel
  have ht : r.2.2 = true := habs (by simp [cleared, UnorderedMap.keys])
  exact ⟨r, hr, ht, (hlo ht).1, (hlo ht).2.1, (hlo ht).2.2⟩

end UMap

/-! ## The claims, continued -/

namespace UMap

variable {K V : Type}

/-- C16: on a well-formed table, `erase` on a handle to a live node `n` completes,
removes exactly that node (the list `pre ++ n :: post` becomes `pre ++ post`, so
all other entries keep their relative order), decreases `size()` by one and
returns a handle to the node that followed `n` (the first node of `post`), or
`end()` when `n` was the last node. Whether `n` is a recorded bucket head or not
plays no role. -/
theorem erase_removes_the_node_and_returns_next (m : UnorderedMap K V) (hw : WF m)
    (n : TemplateNode (HashedNode K V)) (hn : n ∈ m.list.nodes) :
    ∃ r pre post, m.erase (BasePtr.node n.addr) = some r ∧
      m.list.nodes = pre ++ n :: post ∧ r.1.list.nodes = pre ++ post ∧
      (∀ x ∈ pre ++ post, x ≠ n) ∧
      r.1.size + 1 = m.size ∧
      (post = [] → r.2 = m.end) ∧
      (∀ next_node rest, post = next_node :: rest → r.2 = BasePtr.node next_node.addr) := by
  obtain ⟨pre, post, hsplit⟩ := List.append_of_mem hn
  obtain ⟨r, hr, hnodes, hsize, hret, _⟩ := erase_of_split hw hsplit
  refine ⟨r, pre, post, hr, hsplit, hnodes, ?_, ?_, ?_, ?_⟩
  · intro x hx hxn
    subst hxn
    have hnd := hw.addr_nodup
    rw [hsplit, List.map_append, List.map_cons] at hnd
    have h1 := (List.nodup_append.1 hnd)
    rcases List.mem_append.1 hx with h | h
    · exact h1.2.2 (List.mem_map_of_mem _ h) (List.mem_cons_self _ _)
    · exact (List.nodup_cons.1 h1.2.1).1 (List.mem_map_of_mem _ h)
  · have hpos : 0 < m.list.list_size := by
      rw [hw.size_eq]
      exact List.length_pos.2 (List.ne_nil_of_mem hn)
    simp only [UnorderedMap.size, ListT.size, hsize]
    omega
  · intro hpost
    rw [hret, hpost]
    rfl
  · intro next_node rest hpost
    rw [hret, hpost]
    rfl

/-- C16 (witness): in `sample_table` the node at address `0` is the middle one of
three and not a recorded bucket head. -/
theorem erase_removes_the_node_and_returns_next_witness :
    WF sample_table ∧
    ({ addr := 0, value := { element := (0, 10), hash := 0 } } :
      TemplateNode (HashedNode Nat Nat)) ∈ sample_table.list.nodes ∧
    ∃ r pre post, sample_table.erase (BasePtr.node 0) = some r ∧
      sample_table.list.nodes =
        pre ++ { addr := 0, value := { element := (0, 10), hash := 0 } } :: post ∧
      r.1.list.nodes = pre ++ post ∧
      (∀ x ∈ pre ++ post,
        x ≠ ({ addr := 0, value := { element := (0, 10), hash := 0 } } :
          TemplateNode (HashedNode Nat Nat))) ∧
      r.1.size + 1 = sample_table.size ∧
      (post = [] → r.2 = sample_table.end) ∧
      (∀ next_node rest, post = next_node :: rest → r.2 = BasePtr.node next_node.addr) :=
  ⟨wf_of_check (by decide), by decide,
    erase_removes_the_node_and_returns_next sample_table (wf_of_check (by decide))
      { addr := 0, value := { element := (0, 10), hash := 0 } } (by decide)⟩

/-- C11 (amended): from a newly constructed table, after any finite sequence of
`insert`, `operator[]`, assignment through a returned reference, `erase`,
`reserve` and `max_load_factor(ml)` calls in which every `ml` is positive and
satisfies `load_factor() <= ml` at the time of the call when the table has
buckets, `load_factor() <= max_load_factor()` holds whenever the table has
buckets, for the binary32 value that `load_factor()` returns; the exact ratio
`size() / bucket_count` then exceeds `max_load_factor()` by at most the factor
`1 + 2^-22`. -/
theorem load_bound_when_limits_set_respect_it [DecidableEq K] [Inhabited V]
    (t : UnorderedMap K V)
    (h : ReachableBy (fun m ml => m.buckets ≠ [] → m.load_factor ≤ ml) t) :
    (t.buckets ≠ [] → t.load_factor ≤ t.max_load_factor) ∧
      (t.size : ℚ) ≤
        t.max_load_factor * (t.buckets.length : ℚ) * (1 + 1 / 2 ^ (22 : ℕ)) := by
  have hallow : ∀ (m : UnorderedMap K V) (ml : ℚ), 0 < ml →
      (m.buckets ≠ [] → m.load_factor ≤ ml) → Fits ml m.size m.buckets.length := by
    intro m ml hml hm
    by_cases hb : m.buckets = []
    · unfold Fits
      rw [hb, List.length_nil, load_of_no_buckets]
      exact hml.le
    · exact hm hb
  obtain ⟨hw, hmlf, hload⟩ := reachableBy_invariant hallow h
  refine ⟨fun _ => hload, ?_⟩
  by_cases hb : t.buckets = []
  · have hn : t.list.nodes = [] := by
      by_contra hne
      exact hw.buckets_ne hne hb
    have hs : t.size = 0 := by
      rw [UnorderedMap.size, ListT.size, hw.size_eq, hn, List.length_nil]
    rw [hs, hb]
    simp
  · exact bound_of_fits (List.length_pos.2 hb) hmlf.le (fits_of_loadOk hload)

/-- C11 (witness): the table constructed with five buckets, one insert, then
`max_load_factor(1/2)` while `load_factor()` is `0.2f`. -/
theorem load_bound_when_limits_set_respect_it_witness :
    (∃ t0 : UnorderedMap Nat Nat × BasePtr × Bool,
      (cleared (UnorderedMap.default_constructed id : UnorderedMap Nat Nat) 5).insert 1 (3, 7) =
        some t0 ∧
      ReachableBy (fun m ml => m.buckets ≠ [] → m.load_factor ≤ ml)
        (t0.1.set_max_load_factor (1 / 2)) ∧
      ((t0.1.set_max_load_factor (1 / 2)).buckets ≠ [] →
        (t0.1.set_max_load_factor (1 / 2)).load_factor ≤
          (t0.1.set_max_load_factor (1 / 2)).max_load_factor) ∧
      ((t0.1.set_max_load_factor (1 / 2)).size : ℚ) ≤
        (t0.1.set_max_load_factor (1 / 2)).max_load_factor *
          ((t0.1.set_max_load_factor (1 / 2)).buckets.length : ℚ) * (1 + 1 / 2 ^ (22 : ℕ))) := by
  have hins : ∃ t0, (cleared (UnorderedMap.default_constructed id : UnorderedMap Nat Nat)
      5).insert 1 (3, 7) = some t0 ∧ t0.1.buckets ≠ [] ∧ t0.1.load_factor ≤ 1 / 2 := by
    decide!
  obtain ⟨t0, ht0, hb0, hl0⟩ := hins
  have hreach : ReachableBy (fun m ml => m.buckets ≠ [] → m.load_factor ≤ ml)
      (t0.1.set_max_load_factor (1 / 2)) :=
    ReachableBy.max_load_factor
      (ReachableBy.insert (ReachableBy.construct (construct_succ 0 5 id)) ht0)
      (by norm_num) (fun _ => hl0)
  exact ⟨t0, ht0, hreach, load_bound_when_limits_set_respect_it _ hreach⟩

/-- C12 (counterexample): the table constructed with `B = 2^24` buckets (its
`max_load_factor` is `1`) and the `B + 1` keys `0, ..., B` under the identity
hash. `static_cast<float>(B + 1)` is `B`, so `load_factor()` is `1` after the
last insert as it was before, the test `load_factor() > max_load_factor()` is
false and the bucket count stays `B` instead of becoming `2 * B`. -/
theorem no_growth_at_two_pow_24_buckets :
    round32 ((2 ^ 24 + 1 : Nat) : ℚ) = ((2 ^ 24 : Nat) : ℚ) ∧
    ∃ fuel0, ∀ fuel, fuel0 ≤ fuel →
      ∃ t0 t : UnorderedMap Nat Nat,
        UnorderedMap.construct fuel (2 ^ 24) id = some t0 ∧
        t0.buckets.length = 2 ^ 24 ∧ t0.max_load_factor = 1 ∧
        t0.insert_all fuel ((List.range (2 ^ 24 + 1)).map fun k => (k, 0)) = some t ∧
        t.size = 2 ^ 24 + 1 ∧ t.buckets.length = 2 ^ 24 ∧ t.load_factor = 1 := by
  have hround : round32 ((2 ^ 24 + 1 : Nat) : ℚ) = ((2 ^ 24 : Nat) : ℚ) := by decide!
  refine ⟨hround, 2 ^ 24 + 3, ?_⟩
  intro fuel hfuel
  obtain ⟨fuel', rfl⟩ : ∃ f, fuel = f + 1 := ⟨fuel - 1, Nat.succ_pred_eq_of_pos (lt_of_lt_of_le (Nat.succ_pos _) hfuel) |>.symm⟩
  have hfuel' : 2 ^ 24 + 2 ≤ fuel' + 1 := Nat.le_trans (Nat.le_succ _) hfuel
  have h24 : ((2 ^ 24 : Nat) : ℚ) ≠ 0 := by
    have : (0 : ℚ) < ((2 ^ 24 : Nat) : ℚ) := Nat.cast_pos.2 (Nat.pos_pow_of_pos _ (by decide))
    exact ne_of_gt this
  have hload : load_of (2 ^ 24 + 1) (2 ^ 24) = 1 := by
    unfold load_of
    rw [hround, round32_natCast (le_refl _), div_self h24, round32_one]
  have hi0 := cleared_inv (UnorderedMap.default_constructed id : UnorderedMap Nat Nat) (2 ^ 24)
  have hb0 := cleared_buckets_length
    (UnorderedMap.default_constructed id : UnorderedMap Nat Nat) (2 ^ 24)
  have hlen := range_entries_length (2 ^ 24 + 1)
  have hm0 : (cleared (UnorderedMap.default_constructed id :
      UnorderedMap Nat Nat) (2 ^ 24)).max_load_factor_value = 1 := rfl
  obtain ⟨t, ht, hit, hperm, hb, hm, _⟩ := insert_all_fits hi0 rfl
    (by rw [hm0]; exact one_pos)
    (by rw [hb0]; exact Nat.one_le_two_pow)
    ((List.range (2 ^ 24 + 1)).map fun k => (k, 0)) (range_entries_nodup (2 ^ 24 + 1))
    (by
      rw [hb0, hlen, hm0]
      exact le_of_eq hload)
    (fuel' + 1) (le_of_eq_of_le (by rw [hb0]) hfuel')
  have hsize : t.size = 2 ^ 24 + 1 := by
    have := hperm.length_eq
    rw [UnorderedMap.entries, List.length_map] at this
    rw [UnorderedMap.size, ListT.size, hit.toWF.size_eq, this]
    exact hlen
  refine ⟨cleared (UnorderedMap.default_constructed id) (2 ^ 24), t,
    construct_succ fuel' (2 ^ 24) id, hb0, rfl, ht, hsize, hb.trans hb0, ?_⟩
  rw [load_factor_eq, hsize, hb.trans hb0]
  exact hload

/-- C12 (amended): for the table constructed with `B >= 1` buckets (its
`max_load_factor` is `1`) and `B + 1` pairwise distinct keys: the inserts of
the first `B` keys complete and the bucket count is `B` after each of them,
`load_factor()` being `1` after the last; the insert of the further key
completes, makes the bucket count exactly `2 * B` when `B < 2^24` (so that
`B + 1` is a binary32 value), and afterwards `find` returns for each of the
`B + 1` keys a node that holds the inserted entry. -/
theorem growth_on_strict_excess_below_two_pow_24 [DecidableEq K] (hash : K → Nat) (B : Nat)
    (hB : 1 ≤ B) (elements : List (K × V)) (further : K × V)
    (hlen : elements.length = B)
    (hnd : ((elements ++ [further]).map Prod.fst).Nodup) :
    ∃ fuel0, ∀ fuel, fuel0 ≤ fuel →
      ∃ (t0 t : UnorderedMap K V) (r : UnorderedMap K V × BasePtr × Bool),
        UnorderedMap.construct fuel B hash = some t0 ∧
        t0.buckets.length = B ∧ t0.max_load_factor = 1 ∧
        (∀ k, ∃ tk, t0.insert_all fuel (elements.take k) = some tk ∧
          tk.buckets.length = B) ∧
        t0.insert_all fuel elements = some t ∧ t.size = B ∧ t.buckets.length = B ∧
        t.load_factor = 1 ∧
        t.insert fuel further = some r ∧
        (B < 2 ^ 24 → r.1.buckets.length = 2 * B) ∧
        ∀ x ∈ elements ++ [further],
          ∃ a, r.1.find x.1 = some (BasePtr.node a) ∧
            r.1.deref (BasePtr.node a) = some x := by
  refine ⟨B + 3, ?_⟩
  intro fuel hfuel
  obtain ⟨fuel', rfl⟩ : ∃ f, fuel = f + 1 := ⟨fuel - 1, by omega⟩
  have hnd1 : (elements.map Prod.fst).Nodup := by
    rw [List.map_append] at hnd
    exact (List.nodup_append.1 hnd).1
  obtain ⟨t, ht, hit, hperm, hbt, hmt⟩ :=
    @insert_all_steady K V _ hash B hB elements hnd1 (le_of_eq hlen) (fuel' + 1) (by omega)
  have hsize : t.list.nodes.length = B := by
    have := hperm.length_eq
    simp only [UnorderedMap.entries, List.length_map] at this
    rw [this, hlen]
  have hmpos : 0 < t.max_load_factor_value := by
    rw [hmt]
    exact one_pos
  have hF : Fits t.max_load_factor_value (t.list.nodes.length + 1) (2 ^ (B + 1)) := by
    rw [hmt, hsize]
    exact fits_one (le_of_lt (Nat.lt_two_pow (B + 1)))
  obtain ⟨r, hr, hpost⟩ := @insert_spec K V _ t hit.toWF hmpos further (B + 1) (fuel' + 1)
    (by omega) hF
  have hnd2 : ((further :: t.entries).map Prod.fst).Nodup := by
    have hp : (further :: t.entries).Perm (elements ++ [further]) :=
      ((List.Perm.cons further hperm).trans (List.perm_append_singleton further elements).symm)
    exact ((hp.map Prod.fst).nodup_iff).2 hnd
  have hne : t.buckets ≠ [] := List.length_pos.1 (by omega)
  have hprep : prepared t = t := by simp [prepared, hne]
  rw [hprep] at hpost
  obtain ⟨_, hinv, _, _, _, _, hret, _, _⟩ := hpost.summary hit.toWF hne
  have hir : Inv r.1 := hinv hit
  have hpr : r.1.entries.Perm (further :: t.entries) := hret.perm_of_nodup hnd2
  have hpfinal : r.1.entries.Perm (elements ++ [further]) :=
    hpr.trans ((List.Perm.cons further hperm).trans
      (List.perm_append_singleton further elements).symm)
  refine ⟨cleared (UnorderedMap.default_constructed hash) B, t, r, construct_succ fuel' B hash,
    by simp [cleared], rfl, ?_, ht, ?_, hbt, ?_, hr, ?_,
    find_of_perm hir hpfinal hnd⟩
  · intro k
    obtain ⟨tk, htk, _, _, hbk, _⟩ :=
      @insert_all_steady K V _ hash B hB (elements.take k)
        (((List.take_sublist k elements).map Prod.fst).nodup hnd1)
        (by rw [List.length_take]; omega) (fuel' + 1) (by omega)
    exact ⟨tk, htk, hbk⟩
  · simp only [UnorderedMap.size, ListT.size]
    rw [hit.toWF.size_eq, hsize]
  · rw [load_factor_eq, UnorderedMap.size, ListT.size, hit.toWF.size_eq, hsize, hbt]
    exact load_of_self hB
  · intro hsmall
    have hdouble := (insert_excess_doubles hit (by omega)
      (by rw [hmt, hsize, hbt]; exact not_fits_succ hB hsmall)
      (by rw [hmt, hsize, hbt]; exact fits_one (by omega)) hnd2 hr).1
    rw [hdouble, hbt]

/-- C12 (witness): the instance of the specification, five buckets and the keys
`0, 5, 10, 1, 2` followed by the key `3`; the sixth insert gives ten buckets. -/
theorem growth_on_strict_excess_below_two_pow_24_witness :
    (([((0 : Nat), (10 : Nat)), (5, 20), (10, 30), (1, 40), (2, 50)] ++ [(3, 60)]).map
      Prod.fst).Nodup ∧
    ∃ fuel0, ∀ fuel, fuel0 ≤ fuel →
      ∃ (t0 t : UnorderedMap Nat Nat) (r : UnorderedMap Nat Nat × BasePtr × Bool),
        UnorderedMap.construct fuel 5 id = some t0 ∧
        t0.buckets.length = 5 ∧ t0.max_load_factor = 1 ∧
        (∀ k, ∃ tk, t0.insert_all fuel
            ([((0 : Nat), (10 : Nat)), (5, 20), (10, 30), (1, 40), (2, 50)].take k) = some tk ∧
          tk.buckets.length = 5) ∧
        t0.insert_all fuel [(0, 10), (5, 20), (10, 30), (1, 40), (2, 50)] = some t ∧
        t.size = 5 ∧ t.buckets.length = 5 ∧ t.load_factor = 1 ∧
        t.insert fuel (3, 60) = some r ∧ r.1.buckets.length = 2 * 5 ∧
        ∀ x ∈ [((0 : Nat), (10 : Nat)), (5, 20), (10, 30), (1, 40), (2, 50)] ++ [(3, 60)],
          ∃ a, r.1.find x.1 = some (BasePtr.node a) ∧
            r.1.deref (BasePtr.node a) = some x := by
  refine ⟨by decide, ?_⟩
  obtain ⟨fuel0, h⟩ := growth_on_strict_excess_below_two_pow_24 id 5 (by decide)
    [((0 : Nat), (10 : Nat)), (5, 20), (10, 30), (1, 40), (2, 50)] (3, 60) rfl (by decide)
  refine ⟨fuel0, fun fuel hfuel => ?_⟩
  obtain ⟨t0, t, r, h1, h2, h3, h4, h5, h6, h7, h8, h9, h10, h11⟩ := h fuel hfuel
  exact ⟨t0, t, r, h1, h2, h3, h4, h5, h6, h7, h8, h9, h10 (by norm_num), h11⟩

/-- C14 (amended): for every well-formed table with a positive `max_load_factor`
and every `c >= 1`, `rehash(c)` completes, and afterwards no node handle
obtained before is valid: no node of the table lives at the address of a node
of the table before, every node was allocated by the rehash. The entries are
retained by value: each entry afterwards is an entry from before, every key
keeps an entry, and when the keys are pairwise distinct the entries are the
same up to order. -/
theorem rehash_allocates_every_node_anew [DecidableEq K] (m : UnorderedMap K V) (c : Nat)
    (hw : WF m) (hmlf : 0 < m.max_load_factor) (hc : 1 ≤ c) :
    ∃ fuel0, ∀ fuel, fuel0 ≤ fuel →
      ∃ m1, UnorderedMap.rehash fuel m c = some m1 ∧
        (∀ n ∈ m.list.nodes, m1.deref (BasePtr.node n.addr) = none) ∧
        (∀ n1 ∈ m1.list.nodes, m.list.alloc ≤ n1.addr ∧
          ∀ n ∈ m.list.nodes, n1.addr ≠ n.addr) ∧
        m1.entries.Subperm m.entries ∧
        (∀ x ∈ m.entries, ∃ y ∈ m1.entries, y.1 = x.1) ∧
        ((m.entries.map Prod.fst).Nodup → m1.entries.Perm m.entries) := by
  obtain ⟨F, hF⟩ := @rehash_total K V _ m hw.size_eq hmlf c hc
  refine ⟨F + 1, ?_⟩
  intro fuel hfuel
  obtain ⟨m1, hm1, hpost, _⟩ := hF fuel hfuel
  have hfresh := rehash_fresh_sound fuel m c m1 hw.size_eq hm1
  have hret : Retained m.entries m1.entries := hpost.2.2.2.2.2.1
  refine ⟨m1, hm1, ?_, ?_, hret.1, hret.2, hret.perm_of_nodup⟩
  · intro n hn
    have hnone : ListT.node_at m1.list.nodes n.addr = none := by
      apply node_at_eq_none
      intro n1 hn1 heq
      have h1 := hfresh n1 hn1
      have h2 := hw.addr_lt n hn
      omega
    simp [UnorderedMap.deref, hnone]
  · intro n1 hn1
    refine ⟨hfresh n1 hn1, ?_⟩
    intro n hn heq
    have h1 := hfresh n1 hn1
    have h2 := hw.addr_lt n hn
    omega

/-- C14 (witness): `rehash(10)` of `sample_table`, whose nodes live at the
addresses `1`, `0` and `2`. -/
theorem rehash_allocates_every_node_anew_witness :
    WF sample_table ∧ (0 : ℚ) < sample_table.max_load_factor ∧
    ∃ fuel0, ∀ fuel, fuel0 ≤ fuel →
      ∃ m1, UnorderedMap.rehash fuel sample_table 10 = some m1 ∧
        (∀ n ∈ sample_table.list.nodes, m1.deref (BasePtr.node n.addr) = none) ∧
        (∀ n1 ∈ m1.list.nodes, sample_table.list.alloc ≤ n1.addr ∧
          ∀ n ∈ sample_table.list.nodes, n1.addr ≠ n.addr) ∧
        m1.entries.Subperm sample_table.entries ∧
        (∀ x ∈ sample_table.entries, ∃ y ∈ m1.entries, y.1 = x.1) ∧
        ((sample_table.entries.map Prod.fst).Nodup →
          m1.entries.Perm sample_table.entries) :=
  ⟨wf_of_check (by decide), by decide!,
    rehash_allocates_every_node_anew sample_table 10 (wf_of_check (by decide))
      (by decide!) (by decide)⟩

end UMap

/-! ## The claims about the list -/

namespace UMap

variable {K V T : Type}

/-- C19: on a list whose ring consists of the nodes `xs ++ ys`, with the values
`vxs ++ vys`, `List::insert(position, entry)` at the first node of `ys` (at
`end()` when `ys` is empty) completes, the overload that copies `entry`
(`pointer_inserter` for one element) with the same result; afterwards the ring is
`xs ++ [new_node] ++ ys` with a newly allocated `new_node`, the traversal from
`begin()` to `end()` visits exactly these nodes in this order, the values read
in order are `vxs ++ [entry] ++ vys`, the values of the old nodes are unchanged,
`size()` has grown by one, and the returned iterator refers to `new_node`. -/
theorem list_insert_links_before_position (mem : Memory T) (l : ListObj)
    (xs ys : List Nat) (entry : T) (h : Ring mem l (xs ++ ys)) :
    ∃ (vxs vys : List T) (mem1 : Memory T) (l1 : ListObj) (new_node : Nat),
      mem.read_values (xs.map Link.node) = some vxs ∧
      mem.read_values (ys.map Link.node) = some vys ∧
      l.to_list mem = some (vxs ++ vys) ∧
      l.insert mem (seg_head (ys.map Link.node) l.end) entry =
        some (mem1, l1, Link.node new_node) ∧
      l.pointer_inserter mem (seg_head (ys.map Link.node) l.end) entry 1 =
        some (mem1, l1, Link.node new_node) ∧
      new_node ∉ xs ++ ys ∧
      Ring mem1 l1 (xs ++ new_node :: ys) ∧
      l1.nodes mem1 l1.size = some ((xs ++ new_node :: ys).map Link.node) ∧
      l1.to_list mem1 = some (vxs ++ entry :: vys) ∧
      (∀ a ∈ xs ++ ys, mem1.value a = mem.value a) ∧
      l1.size = l.size + 1 := by
  obtain ⟨vxs, hvxs, _⟩ := @read_values_live T mem xs
    (fun a ha => h.live a (List.mem_append_left _ ha))
  obtain ⟨vys, hvys, _⟩ := @read_values_live T mem ys
    (fun a ha => h.live a (List.mem_append_right _ ha))
  obtain ⟨mem1, hins, hring1, hvnew, hvold, _, _, _⟩ := ring_insert h entry
  have hfresh : mem.watermark ∉ xs ++ ys := fun hm => absurd (h.below _ hm) (lt_irrefl _)
  have hold : ∀ a ∈ xs ++ ys, mem1.value a = mem.value a := by
    intro a ha
    apply hvold
    rintro rfl
    exact hfresh ha
  have hins1 : l.insert mem (seg_head (ys.map Link.node) l.end) entry = some
      (mem1, { l with list_size := l.list_size + 1 }, Link.node mem.watermark) := hins
  refine ⟨vxs, vys, mem1, _, mem.watermark, hvxs, hvys, ?_, hins, ?_, hfresh, hring1,
    (hring1.nodes_eq _).1 (le_refl _), ?_, hold, rfl⟩
  · rw [h.to_list_eq, List.map_append, read_values_append, hvxs, hvys]
    rfl
  · simp [ListObj.pointer_inserter, ListObj.pointer_inserter_loop, hins1]
  · rw [hring1.to_list_eq, List.map_append, read_values_append, List.map_cons]
    have h1 : mem1.read_values (xs.map Link.node) = some vxs := by
      rw [read_values_congr xs (fun a ha => hold a (List.mem_append_left _ ha))]
      exact hvxs
    have h2 : mem1.read_values (ys.map Link.node) = some vys := by
      rw [read_values_congr ys (fun a ha => hold a (List.mem_append_right _ ha))]
      exact hvys
    simp [Memory.read_values, Memory.value_at, h1, h2, hvnew]

/-- C19 (witness): an insert before the second node of the list `0` of
`sample_memory`, whose ring is `[0] ++ [1]`. -/
theorem list_insert_links_before_position_witness :
    Ring sample_memory { id := 0, list_size := 2 } ([0] ++ [1]) ∧
    ∃ (vxs vys : List Nat) (mem1 : Memory Nat) (l1 : ListObj) (new_node : Nat),
      sample_memory.read_values ([0].map Link.node) = some vxs ∧
      sample_memory.read_values ([1].map Link.node) = some vys ∧
      ListObj.to_list sample_memory { id := 0, list_size := 2 } = some (vxs ++ vys) ∧
      ListObj.insert sample_memory { id := 0, list_size := 2 }
          (seg_head ([1].map Link.node) (ListObj.end { id := 0, list_size := 2 })) 15 =
        some (mem1, l1, Link.node new_node) ∧
      ListObj.pointer_inserter sample_memory { id := 0, list_size := 2 }
          (seg_head ([1].map Link.node) (ListObj.end { id := 0, list_size := 2 })) 15 1 =
        some (mem1, l1, Link.node new_node) ∧
      new_node ∉ [0] ++ [1] ∧
      Ring mem1 l1 ([0] ++ new_node :: [1]) ∧
      l1.nodes mem1 l1.size = some (([0] ++ new_node :: [1]).map Link.node) ∧
      l1.to_list mem1 = some (vxs ++ 15 :: vys) ∧
      (∀ a ∈ [0] ++ [1], mem1.value a = sample_memory.value a) ∧
      l1.size = ListObj.size { id := 0, list_size := 2 } + 1 :=
  ⟨sample_ring_zero,
    list_insert_links_before_position sample_memory { id := 0, list_size := 2 } [0] [1] 15
      sample_ring_zero⟩

/-- C20: for two different lists in one memory, `this` with any nodes and
`other` with the values `vs` in ring order: move construction from `other`
completes, the new list has the values `vs` in order (it has the very nodes of
`other`, relinked) and `other` is left empty; move assignment `this = move(other)`
completes on the relinking branch (`alloc == other_alloc`) and on the
reconstructing branch alike, the nodes that `this` had before are destroyed,
`this` has the values `vs` in order and `other` is left empty, so both branches
yield the same sequence; the relinking branch keeps the nodes of `other`, the
reconstructing branch destroys them. -/
theorem move_transfer_keeps_entries_in_order (mem : Memory T) (this other : ListObj)
    (as_ bs : List Nat) (id : Nat) (ht : Ring mem this as_) (ho : Ring mem other bs)
    (hid : this.id ≠ other.id) (hnew : id ≠ other.id) :
    ∃ vs, other.to_list mem = some vs ∧
      (∃ r, ListObj.move_construct mem other id = some r ∧
        r.2.1.to_list r.1 = some vs ∧ r.2.1.size = vs.length ∧
        r.2.1.nodes r.1 r.2.1.size = some (bs.map Link.node) ∧
        r.2.2.to_list r.1 = some [] ∧ r.2.2.empty = true) ∧
      ∀ allocators_equal : Bool,
        ∃ r, ListObj.move_assign allocators_equal mem this other = some r ∧
          r.2.1.to_list r.1 = some vs ∧ r.2.1.size = vs.length ∧
          (∀ a ∈ as_, r.1.value a = none) ∧
          r.2.2.to_list r.1 = some [] ∧ r.2.2.empty = true ∧
          (allocators_equal = true →
            r.2.1.nodes r.1 r.2.1.size = some (bs.map Link.node)) ∧
          (allocators_equal = false → ∀ b ∈ bs, r.1.value b = none) := by
  obtain ⟨vs, hvs, hlen⟩ := @read_values_live T mem bs ho.live
  refine ⟨vs, by rw [ho.to_list_eq]; exact hvs, ?_, ?_⟩
  · obtain ⟨mem1, this1, other1, hm, ht1, ho1, _, _, hv, _⟩ := move_construct_spec ho hnew
    refine ⟨_, hm, ?_, ?_, (ht1.nodes_eq _).1 (le_refl _), ?_, ho1.empty_iff.2 rfl⟩
    · rw [ht1.to_list_eq, @read_values_congr T mem mem1 bs (fun b _ => by rw [hv])]
      exact hvs
    · show this1.list_size = vs.length
      rw [ht1.size_eq, hlen]
    · rw [ho1.to_list_eq]
      rfl
  · intro allocators_equal
    obtain ⟨mem1, this1, other1, news, hm, ht1, ho1, _, _, hread, hdead, heq, hne⟩ :=
      move_assign_spec allocators_equal ht ho hid
    have hvals : mem1.read_values (news.map Link.node) = some vs := hread.trans hvs
    obtain ⟨ws, hws, hwlen⟩ := @read_values_live T mem1 news ht1.live
    refine ⟨_, hm, ?_, ?_, hdead, ?_, ho1.empty_iff.2 rfl, ?_, hne⟩
    · rw [ht1.to_list_eq]
      exact hvals
    · show this1.list_size = vs.length
      rw [hvals] at hws
      cases hws
      rw [ht1.size_eq, hwlen]
    · rw [ho1.to_list_eq]
      rfl
    · intro htrue
      have := (ht1.nodes_eq this1.list_size).1 (le_refl _)
      rw [heq htrue] at this
      exact this

/-- C20 (witness): in `sample_memory`, the list `1` (one node) as destination
and the list `0` (values `10`, `20`) as source; the list `2` is the newly
constructed one. -/
theorem move_transfer_keeps_entries_in_order_witness :
    Ring sample_memory { id := 1, list_size := 1 } [2] ∧
    Ring sample_memory { id := 0, list_size := 2 } [0, 1] ∧
    ∃ vs, ListObj.to_list sample_memory { id := 0, list_size := 2 } = some vs ∧
      (∃ r, ListObj.move_construct sample_memory { id := 0, list_size := 2 } 2 = some r ∧
        r.2.1.to_list r.1 = some vs ∧ r.2.1.size = vs.length ∧
        r.2.1.nodes r.1 r.2.1.size = some ([0, 1].map Link.node) ∧
        r.2.2.to_list r.1 = some [] ∧ r.2.2.empty = true) ∧
      ∀ allocators_equal : Bool,
        ∃ r, ListObj.move_assign allocators_equal sample_memory { id := 1, list_size := 1 }
            { id := 0, list_size := 2 } = some r ∧
          r.2.1.to_list r.1 = some vs ∧ r.2.1.size = vs.length ∧
          (∀ a ∈ [2], r.1.value a = none) ∧
          r.2.2.to_list r.1 = some [] ∧ r.2.2.empty = true ∧
          (allocators_equal = true →
            r.2.1.nodes r.1 r.2.1.size = some ([0, 1].map Link.node)) ∧
          (allocators_equal = false → ∀ b ∈ [0, 1], r.1.value b = none) :=
  ⟨sample_ring_one, sample_ring_zero,
    move_transfer_keeps_entries_in_order sample_memory { id := 1, list_size := 1 }
      { id := 0, list_size := 2 } [2] [0, 1] 2 sample_ring_one sample_ring_zero
      (by decide) (by decide)⟩

end UMap

/-! ## Termination, doublings, and the structural invariants along the operations -/

namespace UMap

variable {K V : Type}

/-- C30 (counterexample): `m(16777221)`, `max_load_factor(0.99999994f)` (the
binary32 value `1 - 2^-24`), inserts of the keys `0` to `16777217`, then
`insert` of the key `16777218`. Over exact rationals the `16777219` entries
satisfy `size() <= max_load_factor() * bucket_count` without any doubling. But
`float(16777219)` and `float(16777221)` are both `16777220`, so
`load_factor()` is `1`, the test `load_factor() > max_load_factor()` is true
and the insert doubles the bucket count. -/
theorem insert_doubles_although_exact_bound_holds :
    ((16777219 : Nat) : ℚ) ≤ (16777215 / 16777216 : ℚ) * ((16777221 : Nat) : ℚ) ∧
    load_of 16777219 16777221 = 1 ∧
    ∃ fuel0, ∀ fuel, fuel0 ≤ fuel →
      ∃ (t0 t : UnorderedMap Nat Nat) (r : UnorderedMap Nat Nat × BasePtr × Bool),
        UnorderedMap.construct fuel 16777221 id = some t0 ∧
        (t0.set_max_load_factor (16777215 / 16777216)).insert_all fuel
          ((List.range 16777218).map fun k => (k, 0)) = some t ∧
        t.size = 16777218 ∧ t.buckets.length = 16777221 ∧
        t.max_load_factor = 16777215 / 16777216 ∧
        t.insert fuel (16777218, 0) = some r ∧ r.2.2 = true ∧ r.1.size = 16777219 ∧
        r.1.buckets.length = 2 * 16777221 := by
  have hload : load_of 16777219 16777221 = 1 := by
    unfold load_of
    decide!
  have hfit0 : Fits (16777215 / 16777216) 16777218 16777221 := by
    unfold Fits load_of
    decide!
  have hover : ¬ Fits (16777215 / 16777216) (16777218 + 1) 16777221 := by
    unfold Fits
    rw [hload]
    norm_num
  have hfit2 : Fits (16777215 / 16777216) (16777218 + 1) (2 * 16777221) :=
    fits_of_roomy (by norm_num) (by norm_num)
  obtain ⟨F, hF⟩ := exists_pow_bound (by norm_num : (0 : ℚ) < 16777215 / 16777216)
    (16777218 + 1)
  refine ⟨by norm_num, hload, 16777221 + 3 + F, ?_⟩
  intro fuel hfuel
  obtain ⟨fuel', rfl⟩ : ∃ f, fuel = f + 1 := ⟨fuel - 1, by omega⟩
  have hi0 : Inv ((cleared (UnorderedMap.default_constructed id : UnorderedMap Nat Nat)
      16777221).set_max_load_factor (16777215 / 16777216)) :=
    set_max_load_factor_inv (cleared_inv _ 16777221) _
  have hb0 : ((cleared (UnorderedMap.default_constructed id : UnorderedMap Nat Nat)
      16777221).set_max_load_factor (16777215 / 16777216)).buckets.length = 16777221 :=
    cleared_buckets_length (UnorderedMap.default_constructed id : UnorderedMap Nat Nat) 16777221
  have hm0 : ((cleared (UnorderedMap.default_constructed id : UnorderedMap Nat Nat)
      16777221).set_max_load_factor (16777215 / 16777216)).max_load_factor_value =
      16777215 / 16777216 := rfl
  obtain ⟨t, ht, hit, hperm, hb, hm, _⟩ := insert_all_fits hi0 rfl
    (by rw [hm0]; norm_num) (by rw [hb0]; norm_num)
    ((List.range 16777218).map fun k => (k, 0)) (range_entries_nodup 16777218)
    (by rw [hb0, hm0, range_entries_length]; exact hfit0)
    (fuel' + 1) (le_of_eq_of_le (by rw [hb0]) (by omega))
  have hbt : t.buckets.length = 16777221 := hb.trans hb0
  have hmt : t.max_load_factor_value = 16777215 / 16777216 := hm.trans hm0
  have hlen : t.list.nodes.length = 16777218 := by
    have := hperm.length_eq
    rw [UnorderedMap.entries, List.length_map] at this
    rw [this]
    exact range_entries_length 16777218
  have hsize : t.size = 16777218 := by
    rw [UnorderedMap.size, ListT.size, hit.toWF.size_eq, hlen]
  obtain ⟨r, hr, hpost⟩ := @insert_spec Nat Nat _ t hit.toWF (by rw [hmt]; norm_num)
    (16777218, 0) F (fuel' + 1) (by omega) (by rw [hmt, hlen]; exact hF)
  have hnd2 : ((((16777218 : Nat), (0 : Nat)) :: t.entries).map Prod.fst).Nodup := by
    have hp : (((16777218 : Nat), (0 : Nat)) :: t.entries).Perm
        ((16777218, 0) :: (List.range 16777218).map fun k => (k, 0)) :=
      List.Perm.cons _ hperm
    refine ((hp.map Prod.fst).nodup_iff).2 ?_
    rw [List.map_cons, List.nodup_cons]
    refine ⟨?_, range_entries_nodup 16777218⟩
    rw [List.map_map]
    have : (Prod.fst ∘ fun k => ((k, 0) : Nat × Nat)) = id := rfl
    rw [this, List.map_id, List.mem_range]
    exact lt_irrefl _
  obtain ⟨hdouble, hir, hpr⟩ := insert_excess_doubles hit (by rw [hbt]; norm_num)
    (by rw [hmt, hlen, hbt]; exact hover) (by rw [hmt, hlen, hbt]; exact hfit2) hnd2 hr
  have hne : t.buckets ≠ [] := List.length_pos.1 (by rw [hbt]; norm_num)
  have hprep : prepared t = t := by simp [prepared, hne]
  rw [hprep] at hpost
  have htrue : r.2.2 = true := by
    rcases hpost with ⟨_, _, n, hn, _, hnk⟩ | ⟨ht, _⟩ | ⟨ht, _⟩
    · exfalso
      rw [List.map_cons, List.nodup_cons] at hnd2
      apply hnd2.1
      rw [← hnk]
      exact List.mem_map_of_mem Prod.fst (mem_entries hn)
    · exact ht
    · exact ht
  have hsize1 : r.1.size = 16777219 := by
    have := hpr.length_eq
    rw [UnorderedMap.entries, List.length_map, List.length_cons, UnorderedMap.entries,
      List.length_map] at this
    rw [UnorderedMap.size, ListT.size, hir.toWF.size_eq, this, hlen]
  exact ⟨cleared (UnorderedMap.default_constructed id) 16777221, t, r,
    construct_succ fuel' 16777221 id, ht, hsize, hbt, hmt, hr, htrue, hsize1,
    by rw [hdouble, hbt]⟩

/-- C30 (amended): on every well-formed table with a positive `max_load_factor`,
`insert` and `reserve` terminate, with no more doublings than are needed to
make the test `load_factor() > max_load_factor()` false. Let `B` be the bucket
count the call starts from (for `insert` the current one,
`default_bucket_count` when there are no buckets; for `reserve(count)` the
target of its rehash), and let `load_of n b` be the binary32 value of
`load_factor()` for `n` entries in `b` buckets. Some `k` has
`load_of (size() + 1) (B * 2^k) <= max_load_factor()` (for `reserve`:
`load_of size() ...`); for every such `k` the call completes within a recursion
depth of `k + 2` and ends with `B * 2^j` buckets for some `j <= k`; and such a
`k` is `k0 + 1` whenever `size() + 1 <= max_load_factor * B * 2^k0` holds over
exact rationals (for `reserve`: `size() <= ...`), so that at most one doubling
more than the exact bound asks for is performed. -/
theorem insert_and_reserve_terminate [DecidableEq K] (m : UnorderedMap K V) (hw : WF m)
    (hmlf : 0 < m.max_load_factor) :
    (∃ k : Nat, load_of (m.size + 1)
        ((if m.buckets = [] then default_bucket_count else m.buckets.length) * 2 ^ k) ≤
      m.max_load_factor) ∧
    (∀ (element : K × V) (k fuel : Nat),
      load_of (m.size + 1)
          ((if m.buckets = [] then default_bucket_count else m.buckets.length) * 2 ^ k) ≤
        m.max_load_factor →
      k + 2 ≤ fuel →
      ∃ r j, m.insert fuel element = some r ∧ j ≤ k ∧
        r.1.buckets.length =
          (if m.buckets = [] then default_bucket_count else m.buckets.length) * 2 ^ j) ∧
    (∀ k0 : Nat,
      ((m.size + 1 : Nat) : ℚ) ≤ m.max_load_factor *
        ((if m.buckets = [] then default_bucket_count else m.buckets.length : Nat) : ℚ) *
        2 ^ k0 →
      load_of (m.size + 1)
          ((if m.buckets = [] then default_bucket_count else m.buckets.length) *
            2 ^ (k0 + 1)) ≤
        m.max_load_factor) ∧
    (∀ count : Nat,
      ∃ k : Nat, load_of m.size (reserve_target m count * 2 ^ k) ≤ m.max_load_factor) ∧
    (∀ (count k fuel : Nat),
      load_of m.size (reserve_target m count * 2 ^ k) ≤ m.max_load_factor →
      k + 2 ≤ fuel →
      ∃ m1 j, m.reserve fuel count = some m1 ∧ j ≤ k ∧
        m1.buckets.length = reserve_target m count * 2 ^ j) ∧
    (∀ count k0 : Nat,
      (m.size : ℚ) ≤ m.max_load_factor * (reserve_target m count : ℚ) * 2 ^ k0 →
      load_of m.size (reserve_target m count * 2 ^ (k0 + 1)) ≤ m.max_load_factor) := by
  have hsz : m.size = m.list.nodes.length := hw.size_eq
  have hmlf' : 0 < m.max_load_factor_value := hmlf
  have hB1 : 1 ≤ (if m.buckets = [] then default_bucket_count else m.buckets.length) := by
    rw [← prepared_length]
    exact List.length_pos.2 (prepared_buckets_ne m)
  refine ⟨?_, ?_, ?_, ?_, ?_, ?_⟩
  · exact exists_fits hmlf' hB1 (m.size + 1)
  · intro element k fuel hN hfuel
    have hN' : Fits m.max_load_factor_value (m.list.nodes.length + 1)
        ((prepared m).buckets.length * 2 ^ k) := by
      rw [prepared_length, ← hsz]
      exact hN
    obtain ⟨r, hr, _⟩ := insert_within hw hmlf' element (by omega : k + 1 ≤ fuel) hN'
    obtain ⟨j, hj, hb⟩ := insert_doubles hw hmlf' hN' hr
    rw [prepared_length] at hb
    exact ⟨r, j, hr, hj, hb⟩
  · intro k0 h
    exact fits_of_exact_double hmlf'.le h
  · intro count
    by_cases ht : reserve_target m count = 0
    · refine ⟨0, ?_⟩
      have hn : m.list.nodes.length = 0 := by
        unfold reserve_target rehash_target at ht
        by_contra hne
        split at ht
        · simp [default_bucket_count] at ht
        · rename_i hcon
          exact hcon ⟨ht, hne⟩
      rw [hsz, hn, load_of_zero]
      exact hmlf.le
    · exact exists_fits hmlf' (Nat.pos_of_ne_zero ht) m.size
  · intro count k fuel hN hfuel
    have hne : m.max_load_factor ≠ 0 := ne_of_gt hmlf
    have hceil : ¬ ⌈round32 (round32 (count : ℚ) / m.max_load_factor)⌉ < 0 :=
      not_lt.2 (Int.ceil_nonneg (round32_nonneg
        (div_nonneg (round32_nonneg (Nat.cast_nonneg count)) hmlf.le)))
    rw [hsz] at hN
    obtain ⟨m1, j, hm1, _, hj, hb⟩ := rehash_within hw.size_eq hmlf'
      ⌈round32 (round32 (count : ℚ) / m.max_load_factor)⌉.toNat hfuel hN
    refine ⟨m1, j, ?_, hj, hb⟩
    unfold UnorderedMap.reserve
    rw [if_neg hne, if_neg hceil]
    exact hm1
  · intro count k0 h
    exact fits_of_exact_double hmlf'.le h

/-- C30 (witness): `sample_table`, three entries in five buckets. -/
theorem insert_and_reserve_terminate_witness :
    WF sample_table ∧ (0 : ℚ) < sample_table.max_load_factor ∧
    (∃ k : Nat, load_of (sample_table.size + 1)
        ((if sample_table.buckets = [] then default_bucket_count
          else sample_table.buckets.length) * 2 ^ k) ≤
      sample_table.max_load_factor) ∧
    (∀ (element : Nat × Nat) (k fuel : Nat),
      load_of (sample_table.size + 1)
          ((if sample_table.buckets = [] then default_bucket_count
            else sample_table.buckets.length) * 2 ^ k) ≤
        sample_table.max_load_factor →
      k + 2 ≤ fuel →
      ∃ r j, sample_table.insert fuel element = some r ∧ j ≤ k ∧
        r.1.buckets.length =
          (if sample_table.buckets = [] then default_bucket_count
            else sample_table.buckets.length) * 2 ^ j) ∧
    (∀ k0 : Nat,
      ((sample_table.size + 1 : Nat) : ℚ) ≤ sample_table.max_load_factor *
        ((if sample_table.buckets = [] then default_bucket_count
          else sample_table.buckets.length : Nat) : ℚ) * 2 ^ k0 →
      load_of (sample_table.size + 1)
          ((if sample_table.buckets = [] then default_bucket_count
            else sample_table.buckets.length) * 2 ^ (k0 + 1)) ≤
        sample_table.max_load_factor) ∧
    (∀ count : Nat,
      ∃ k : Nat, load_of sample_table.size (reserve_target sample_table count * 2 ^ k) ≤
        sample_table.max_load_factor) ∧
    (∀ (count k fuel : Nat),
      load_of sample_table.size (reserve_target sample_table count * 2 ^ k) ≤
        sample_table.max_load_factor →
      k + 2 ≤ fuel →
      ∃ m1 j, sample_table.reserve fuel count = some m1 ∧ j ≤ k ∧
        m1.buckets.length = reserve_target sample_table count * 2 ^ j) ∧
    (∀ count k0 : Nat,
      (sample_table.size : ℚ) ≤
        sample_table.max_load_factor * (reserve_target sample_table count : ℚ) * 2 ^ k0 →
      load_of sample_table.size (reserve_target sample_table count * 2 ^ (k0 + 1)) ≤
        sample_table.max_load_factor) :=
  ⟨wf_of_check (by decide), by decide!,
    insert_and_reserve_terminate sample_table (wf_of_check (by decide)) (by decide!)⟩

/-- C29 (counterexample): `m(10)`, `max_load_factor(0.7f)`, inserts of the keys
`0` to `6`, then `rehash(10)`. The seven entries have pairwise distinct keys
and `7 <= 0.7f * 10` is false over exact rationals (the least `k` with
`7 <= 0.7f * 10 * 2^k` is `1`), but `rehash(10)` ends with exactly `10`
buckets: `load_factor()` is `float(7) / float(10) = 0.7f`, which does not
exceed `max_load_factor()`. -/
theorem rehash_keeps_count_at_equal_float_load :
    ((table10 [(0, 0), (1, 0), (2, 0), (3, 0), (4, 0), (5, 0), (6, 0)]).map fun t =>
      (t.size, t.keys, t.max_load_factor)) =
      some (7, [0, 1, 2, 3, 4, 5, 6], point_seven) ∧
    ((table10 [(0, 0), (1, 0), (2, 0), (3, 0), (4, 0), (5, 0), (6, 0)]).bind fun t =>
      (UnorderedMap.rehash 3 t 10).map fun r => (r.size, r.buckets.length, r.load_factor)) =
      some (7, 10, point_seven) ∧
    ¬ ((7 : ℚ) ≤ point_seven * 10) ∧ (7 : ℚ) ≤ point_seven * 10 * 2 ^ 1 := by
  refine ⟨?_, ?_, ?_, ?_⟩
  · decide!
  · decide!
  · decide!
  · decide!

/-- C29 (amended): for a well-formed table with pairwise distinct keys and a
positive `max_load_factor`, and `c >= 1`: let `load_of n b` be the binary32
value of `load_factor()` for `n` entries in `b` buckets. There is a least `k`
with `load_of size() (c * 2^k) <= max_load_factor()`, and `rehash(c)` completes
(within a recursion depth of `k + 2`) with exactly `c * 2^k` buckets and all
entries, so with exactly `c` buckets if and only if
`load_of size() c <= max_load_factor()`. This `k` and the least `k0` with
`size() <= max_load_factor * c * 2^k0` over exact rationals differ by at most
one: the exact bound holds for `k + 1`, and `k <= k0 + 1` for every `k0` for
which it holds. On a table with entries `rehash(0)` is
`rehash(default_bucket_count)`. -/
theorem rehash_ends_with_least_fitting_doubling [DecidableEq K] (m : UnorderedMap K V)
    (c : Nat) (hw : WF m) (hnd : m.keys.Nodup) (hmlf : 0 < m.max_load_factor) (hc : 1 ≤ c) :
    (∃ k : Nat, load_of m.size (c * 2 ^ k) ≤ m.max_load_factor ∧
      (∀ j, j < k → m.max_load_factor < load_of m.size (c * 2 ^ j)) ∧
      (m.size : ℚ) ≤ m.max_load_factor * (c : ℚ) * 2 ^ (k + 1) ∧
      (∀ k0 : Nat, (m.size : ℚ) ≤ m.max_load_factor * (c : ℚ) * 2 ^ k0 → k ≤ k0 + 1) ∧
      ∀ fuel, k + 2 ≤ fuel →
        ∃ m1, UnorderedMap.rehash fuel m c = some m1 ∧ m1.buckets.length = c * 2 ^ k ∧
          m1.size = m.size ∧ m1.entries.Perm m.entries ∧
          (m1.buckets.length = c ↔ load_of m.size c ≤ m.max_load_factor)) ∧
    (m.list.nodes ≠ [] → ∀ fuel,
      UnorderedMap.rehash (fuel + 2) m 0 =
        UnorderedMap.rehash (fuel + 2) m default_bucket_count) := by
  have hsz : m.size = m.list.nodes.length := hw.size_eq
  have hmlf' : 0 < m.max_load_factor_value := hmlf
  have hex : ∃ k : Nat, Fits m.max_load_factor_value m.size (c * 2 ^ k) :=
    exists_fits hmlf' hc m.size
  obtain ⟨k, hk, hmin⟩ : ∃ k : Nat, Fits m.max_load_factor_value m.size (c * 2 ^ k) ∧
      ∀ j, j < k → ¬ Fits m.max_load_factor_value m.size (c * 2 ^ j) := by
    classical
    exact ⟨Nat.find hex, Nat.find_spec hex, fun j hj => Nat.find_min hex hj⟩
  refine ⟨⟨k, hk, fun j hj => not_le.1 (hmin j hj), exact_double_of_fits hmlf'.le hc hk, ?_, ?_⟩,
    fun hne fuel => rehash_zero fuel hw.size_eq hne⟩
  · intro k0 h0
    by_contra hcon
    exact hmin (k0 + 1) (by omega) (fits_of_exact_double hmlf'.le h0)
  intro fuel hfuel
  have htarget : rehash_target m c = c := by
    simp only [rehash_target]
    rw [if_neg]
    intro hcon
    omega
  have hN := hk
  rw [hsz] at hN
  obtain ⟨m1, j, hm1, hpost, hj, hb⟩ := rehash_within hw.size_eq hmlf' c hfuel
    (by rw [htarget]; exact hN)
  rw [htarget] at hb
  obtain ⟨hi1, _, hmm1, _, hload, hret, _⟩ := hpost
  have hperm : m1.entries.Perm m.entries := hret.perm_of_nodup (by
    simpa [UnorderedMap.keys, UnorderedMap.entries] using hnd)
  have hlen : m1.list.nodes.length = m.list.nodes.length := by
    have := hperm.length_eq
    simpa [UnorderedMap.entries] using this
  have hsz1 : m1.size = m.size := by
    rw [hsz]
    show m1.list.list_size = _
    rw [hi1.size_eq, hlen]
  have hjk : j = k := by
    apply le_antisymm hj
    by_contra hcon
    apply hmin j (by omega)
    have h1 : Fits m1.max_load_factor_value m1.size m1.buckets.length := fits_of_loadOk hload
    rw [hsz1, hb, hmm1] at h1
    exact h1
  rw [hjk] at hb
  refine ⟨m1, hm1, hb, hsz1, hperm, ?_⟩
  rw [hb]
  constructor
  · intro h
    have h2 : 2 ^ k = 1 := by
      have h3 : c * 2 ^ k = c * 1 := by omega
      exact Nat.eq_of_mul_eq_mul_left (by omega) h3
    have h4 : c * 2 ^ k = c := by rw [h2, Nat.mul_one]
    rw [h4] at hk
    exact hk
  · intro h
    have h0 : k = 0 := by
      by_contra hcon
      apply hmin 0 (by omega)
      simpa using h
    rw [h0]
    simp

/-- C29 (witness): `rehash(1)` of `sample_table`, three entries with
`max_load_factor` one. -/
theorem rehash_ends_with_least_fitting_doubling_witness :
    WF sample_table ∧ sample_table.keys.Nodup ∧ (0 : ℚ) < sample_table.max_load_factor ∧
    1 ≤ 1 ∧
    (∃ k : Nat, load_of sample_table.size (1 * 2 ^ k) ≤ sample_table.max_load_factor ∧
      (∀ j, j < k → sample_table.max_load_factor < load_of sample_table.size (1 * 2 ^ j)) ∧
      (sample_table.size : ℚ) ≤ sample_table.max_load_factor * ((1 : Nat) : ℚ) * 2 ^ (k + 1) ∧
      (∀ k0 : Nat, (sample_table.size : ℚ) ≤
        sample_table.max_load_factor * ((1 : Nat) : ℚ) * 2 ^ k0 → k ≤ k0 + 1) ∧
      ∀ fuel, k + 2 ≤ fuel →
        ∃ m1, UnorderedMap.rehash fuel sample_table 1 = some m1 ∧
          m1.buckets.length = 1 * 2 ^ k ∧
          m1.size = sample_table.size ∧ m1.entries.Perm sample_table.entries ∧
          (m1.buckets.length = 1 ↔
            load_of sample_table.size 1 ≤ sample_table.max_load_factor)) ∧
    (sample_table.list.nodes ≠ [] → ∀ fuel,
      UnorderedMap.rehash (fuel + 2) sample_table 0 =
        UnorderedMap.rehash (fuel + 2) sample_table default_bucket_count) :=
  ⟨wf_of_check (by decide), by decide, by decide!, le_refl 1,
    rehash_ends_with_least_fitting_doubling sample_table 1 (wf_of_check (by decide))
      (by decide) (by decide!) (le_refl 1)⟩

/-- C28: in every table reachable by the public operations (`insert`,
`operator[]`, assignment through a returned reference, `erase`, `reserve`,
`max_load_factor(ml)`), every slot of the bucket vector is null or holds the
address of a node `n` that is linked in the table's own list and whose cached
hash modulo the bucket count is the index of the slot; the slot can be
dereferenced, the scan from it runs over nodes of the list only, and `find`
has a defined result for every key. The range form of `erase` leads to
reachable tables again, and `erase(begin(), end())` completes. -/
theorem bucket_slots_reference_live_nodes [DecidableEq K] [Inhabited V]
    (t : UnorderedMap K V) (ht : Reachable t) :
    (∀ b p, t.buckets[b]? = some p →
      p = BasePtr.null ∨
        ∃ n ∈ t.list.nodes, p = BasePtr.node n.addr ∧
          n.value.hash % t.buckets.length = b ∧
          t.deref p = some n.value.element ∧
          ∃ scanned, ListT.nodes_from t.list.nodes n.addr = some scanned ∧
            ∀ x ∈ scanned, x ∈ t.list.nodes) ∧
    (∀ key, ∃ p, t.find key = some p) ∧
    (∀ fuel first last r, t.erase_range fuel first last = some r → Reachable r.1) ∧
    (∀ fuel, t.size ≤ fuel →
      ∃ r, t.erase_range fuel t.list.begin t.end = some r ∧ r.1.size = 0 ∧
        Reachable r.1) := by
  have hw := reachableBy_wf ht
  refine ⟨?_, ?_, ?_, ?_⟩
  · intro b p hbp
    rcases hw.head_live b p hbp with h0 | ⟨n, hn, hp, hb⟩
    · exact Or.inl h0
    · obtain ⟨s, hs⟩ := nodes_from_of_mem hn
      refine Or.inr ⟨n, hn, hp, hb, ?_, s, hs, nodes_from_subset hs⟩
      rw [hp]
      exact deref_of_mem hw hn
  · intro key
    rcases find_spec hw key with h | ⟨n, _, h, _⟩
    · exact ⟨_, h⟩
    · exact ⟨_, h⟩
  · intro fuel first last r hr
    exact (erase_range_reachable fuel t first last r ht hr).1
  · intro fuel hfuel
    have hsz : t.size = t.list.nodes.length := hw.size_eq
    obtain ⟨r, hr, _, hs, _, _⟩ := erase_range_all fuel t hw (by omega)
    exact ⟨r, hr, hs, (erase_range_reachable fuel t _ _ r ht hr).1⟩

/-- C28 (witness): the table constructed with five buckets after `insert (0,10)`
and `erase` of the returned iterator. -/
theorem bucket_slots_reference_live_nodes_witness :
    Reachable (sample_erased.get sample_erased_isSome).1 ∧
    (∀ key, ∃ p, (sample_erased.get sample_erased_isSome).1.find key = some p) ∧
    (∀ fuel first last r,
      (sample_erased.get sample_erased_isSome).1.erase_range fuel first last = some r →
        Reachable r.1) := by
  have ht0 : Reachable (sample_reached.get sample_reached_isSome).1 :=
    ReachableBy.insert (ReachableBy.construct (construct_succ 0 5 id))
      (Option.some_get sample_reached_isSome).symm
  have ht : Reachable (sample_erased.get sample_erased_isSome).1 :=
    ReachableBy.erase ht0
      (bind_get_eq sample_reached (fun r => r.1.erase r.2.1) sample_reached_isSome
        sample_erased_isSome)
  exact ⟨ht, (bucket_slots_reference_live_nodes _ ht).2.1,
    (bucket_slots_reference_live_nodes _ ht).2.2.1⟩

/-- C25: on a table with correct heads and contiguous chains (`Inv`) and a
positive `max_load_factor`, `insert` of an absent key completes with
`inserted = true` and leaves heads correct and chains contiguous again, whether
or not it rehashes. When it does not rehash (there are buckets and the test
`load_factor() > max_load_factor()` is false for `size() + 1` entries, the
binary32 value `load_of (size() + 1) bucket_count` not exceeding
`max_load_factor()`), the bucket count stays, the new node is the last node of
the list if the slot of its bucket was null and sits immediately before the node
the slot referred to otherwise; in both cases the slot of its bucket refers to
the new node, which is the returned iterator and the node that `find` returns
for the key. The test is false in particular when
`size() + 1 <= max_load_factor * bucket_count` holds over exact rationals, both
counts are at most `2^24` and `max_load_factor()` is a binary32 value. -/
theorem insert_of_absent_key_keeps_structure [DecidableEq K] (m : UnorderedMap K V)
    (element : K × V) (hi : Inv m) (hmlf : 0 < m.max_load_factor)
    (habsent : element.1 ∉ m.keys) :
    ∃ fuel0, ∀ fuel, fuel0 ≤ fuel →
      ∃ r, m.insert fuel element = some r ∧ r.2.2 = true ∧ Inv r.1 ∧
        (∀ b, b < r.1.buckets.length →
          r.1.buckets[b]? = some (first_in r.1.buckets.length b r.1.list.nodes)) ∧
        Contiguous r.1.buckets.length r.1.list.nodes ∧
        (m.buckets ≠ [] →
          load_of (m.size + 1) m.buckets.length ≤ m.max_load_factor →
          r.1.buckets.length = m.buckets.length ∧
          r.2.1 = BasePtr.node m.list.alloc ∧
          r.1.buckets[m.bucketId (m.hash element.1)]? = some (BasePtr.node m.list.alloc) ∧
          r.1.find element.1 = some (BasePtr.node m.list.alloc) ∧
          r.1.deref (BasePtr.node m.list.alloc) = some element ∧
          (m.buckets[m.bucketId (m.hash element.1)]? = some BasePtr.null →
            r.1.list.nodes = m.list.nodes ++
              [{ addr := m.list.alloc,
                 value := { element := element, hash := m.hash element.1 } }]) ∧
          (∀ a, m.buckets[m.bucketId (m.hash element.1)]? = some (BasePtr.node a) →
            ∃ pre head post, m.list.nodes = pre ++ head :: post ∧ head.addr = a ∧
              r.1.list.nodes = pre ++
                { addr := m.list.alloc,
                  value := { element := element, hash := m.hash element.1 } } ::
                head :: post)) ∧
        (m.buckets ≠ [] → m.size + 1 ≤ 2 ^ 24 → m.buckets.length ≤ 2 ^ 24 →
          round32 m.max_load_factor = m.max_load_factor →
          ((m.size + 1 : Nat) : ℚ) ≤ m.max_load_factor * (m.buckets.length : ℚ) →
          load_of (m.size + 1) m.buckets.length ≤ m.max_load_factor) := by
  have hw := hi.toWF
  have hmlf' : 0 < m.max_load_factor_value := hmlf
  obtain ⟨F, hF⟩ := exists_pow_bound hmlf' (m.list.nodes.length + 1)
  refine ⟨F + 1, ?_⟩
  intro fuel hfuel
  obtain ⟨r, hr, hpost⟩ := insert_spec hw hmlf' element hfuel hF
  obtain ⟨hwp, hnodes, _, _, _, _⟩ := prepared_fields hw
  have hnep := prepared_buckets_ne m
  have hip : Inv (prepared m) := by
    unfold prepared
    by_cases hb : m.buckets = []
    · rw [if_pos hb]
      exact cleared_inv m _
    · rw [if_neg hb]
      exact hi
  have hir : Inv r.1 := (hpost.summary hwp hnep).2.1 hip
  have htrue : r.2.2 = true := by
    rcases hpost with ⟨_, _, n, hn, _, hnk⟩ | ⟨h, _⟩ | ⟨h, _⟩
    · exfalso
      apply habsent
      rw [← hnk]
      rw [hnodes] at hn
      exact mem_keys hn
    · exact h
    · exact h
  refine ⟨r, hr, htrue, hir, hir.heads, hir.contiguous, ?_,
    fun hne h1 h2 h3 h4 => fits_of_exact h1 h2 (List.length_pos.2 hne) h3 h4⟩
  intro hne hfit
  have hprep : prepared m = m := by simp [prepared, hne]
  rw [hprep] at hpost
  have hlt := bucket_lt hne (m.hash element.1)
  rcases hpost with ⟨hf, _⟩ | ⟨_, hl, _, hret⟩ | ⟨_, m2, hl, hload, _⟩
  · rw [htrue] at hf
    cases hf
  · have hslot : r.1.buckets[m.bucketId (m.hash element.1)]? =
        some (BasePtr.node m.list.alloc) := by
      rw [hl.2.2.1, List.getElem?_set]
      simp [UnorderedMap.bucketId, hlt]
    have hplace := hl.2.2.2.2.2.2.2 hi
    have hhead := hi.heads _ hlt
    refine ⟨hl.buckets_length, hret, hslot, hl.find_new hne, hl.deref_new hw hne, ?_, ?_⟩
    · intro hnull
      rw [UnorderedMap.bucketId, hhead] at hnull
      rw [hplace]
      exact place_eq_append _ (first_in_eq_null (Option.some.inj hnull))
    · intro a ha
      rw [UnorderedMap.bucketId, hhead] at ha
      obtain ⟨pre, head, post, h1, h2, _, _, h5⟩ :=
        place_before_first (B := m.buckets.length)
          ({ addr := m.list.alloc, value := { element := element, hash := m.hash element.1 } } :
            TemplateNode (HashedNode K V)) (Option.some.inj ha)
      exact ⟨pre, head, post, h1, h2, by rw [hplace, h5]⟩
  · exfalso
    have h1 := not_fits_of_gt hload
    have hsz : m.size = m.list.nodes.length := hw.size_eq
    rw [UnorderedMap.size, ListT.size, (hl.wf hw hne).size_eq,
      hl.length, hl.2.1, hl.buckets_length] at h1
    rw [hsz] at hfit
    exact h1 hfit

/-- C25 (witness): `insert (10,40)` into `sample_table`, whose bucket `0` has the
head at address `1`. -/
theorem insert_of_absent_key_keeps_structure_witness :
    Inv sample_table ∧ (0 : ℚ) < sample_table.max_load_factor ∧
    (10 : Nat) ∉ sample_table.keys ∧
    ∃ fuel0, ∀ fuel, fuel0 ≤ fuel →
      ∃ r, sample_table.insert fuel (10, 40) = some r ∧ r.2.2 = true ∧ Inv r.1 := by
  obtain ⟨fuel0, h⟩ := insert_of_absent_key_keeps_structure sample_table (10, 40)
    (inv_of_check (by decide)) (by decide!) (by decide)
  refine ⟨inv_of_check (by decide), by decide!, by decide, fuel0, ?_⟩
  intro fuel hfuel
  obtain ⟨r, h1, h2, h3, _⟩ := h fuel hfuel
  exact ⟨r, h1, h2, h3⟩

/-- C22: let `m` have correct heads and contiguous chains (`Inv`) and satisfy the
load bound, and let `n` be a node that is the only one of its bucket `b`. Then
`erase` of `n` completes, stores null in slot `b`, and leaves `size()` one
smaller with heads correct and chains contiguous; and a subsequent `insert` of
any key whose hash maps to `b` completes with `inserted = true` and `size()`
one larger, does not change the bucket count, and makes the new node the
content of slot `b`, which is the returned iterator and what `find` returns for
the key, with the inserted entry as its value. -/
theorem erase_sole_member_then_insert [DecidableEq K] (m : UnorderedMap K V)
    (n : TemplateNode (HashedNode K V)) (element : K × V)
    (hi : Inv m) (hload : LoadOk m) (hn : n ∈ m.list.nodes)
    (hsole : ∀ x ∈ m.list.nodes, m.bucketId x.value.hash = m.bucketId n.value.hash → x = n)
    (hbucket : m.bucketId (m.hash element.1) = m.bucketId n.value.hash) :
    ∃ r, m.erase (BasePtr.node n.addr) = some r ∧
      r.1.buckets[m.bucketId n.value.hash]? = some BasePtr.null ∧
      r.1.size + 1 = m.size ∧ Inv r.1 ∧
      ∀ fuel, 1 ≤ fuel →
        ∃ r2, r.1.insert fuel element = some r2 ∧ r2.2.2 = true ∧
          r2.1.size = r.1.size + 1 ∧ r2.1.buckets.length = m.buckets.length ∧
          r2.1.buckets[m.bucketId n.value.hash]? = some r2.2.1 ∧
          r2.1.find element.1 = some r2.2.1 ∧ r2.1.deref r2.2.1 = some element ∧
          Inv r2.1 := by
  have hw := hi.toWF
  obtain ⟨pre, post, hsplit⟩ := List.append_of_mem hn
  have hne : m.buckets ≠ [] := hw.buckets_ne (List.ne_nil_of_mem hn)
  have hlt := bucket_lt hne n.value.hash
  have hnd := hw.addr_nodup
  rw [hsplit] at hnd
  have hnotin : n ∉ pre ++ post := by
    intro hmem
    rw [List.map_append, List.map_cons] at hnd
    have h1 := List.nodup_middle.1 hnd
    rw [List.nodup_cons] at h1
    apply h1.1
    rw [← List.map_append]
    exact List.mem_map_of_mem _ hmem
  have hsub : ∀ x ∈ pre ++ post, x ∈ m.list.nodes := by
    intro x hx
    rw [hsplit]
    rcases List.mem_append.1 hx with h | h
    · exact List.mem_append_left _ h
    · exact List.mem_append_right _ (List.mem_cons_of_mem _ h)
  have hsole' : ∀ x ∈ pre ++ post, x.value.hash % m.buckets.length ≠
      n.value.hash % m.buckets.length := by
    intro x hx hxb
    exact hnotin (hsole x (hsub x hx) hxb ▸ hx)
  obtain ⟨r, hr, hnodes, hb, hir⟩ := erase_sole hi hsplit hsole'
  obtain ⟨r', hr', _, hsize, _, hh, hmm, hblen, _⟩ := erase_of_split hw hsplit
  rw [hr] at hr'
  cases hr'
  have hlenm : m.list.nodes.length = (pre ++ post).length + 1 := by
    rw [hsplit]
    simp only [List.length_append, List.length_cons]
    omega
  have hsz : r.1.size + 1 = m.size := by
    show r.1.list.list_size + 1 = m.list.list_size
    rw [hsize, hw.size_eq, hlenm]
    omega
  have hload' : Fits m.max_load_factor_value m.list.nodes.length m.buckets.length := by
    have h1 := fits_of_loadOk hload
    have h2 : m.size = m.list.nodes.length := hw.size_eq
    rw [h2] at h1
    exact h1
  have hmlf : 0 < m.max_load_factor_value :=
    lt_of_lt_of_le (load_of_pos (by omega) (List.length_pos.2 hne)) hload'
  have hner : r.1.buckets ≠ [] := by
    apply List.length_pos.1
    rw [hblen]
    exact List.length_pos.2 hne
  have habsent : element.1 ∉ r.1.keys := by
    intro hk
    obtain ⟨x, hx, hxk⟩ := List.mem_map.1 hk
    rw [hnodes] at hx
    apply hsole' x hx
    have h1 := hw.hash_eq x (hsub x hx)
    rw [h1, hxk]
    exact hbucket
  refine ⟨r, hr, ?_, hsz, hir, ?_⟩
  · rw [hb, List.getElem?_set]
    simp [UnorderedMap.bucketId, hlt]
  · intro fuel hfuel
    obtain ⟨r2, hr2, ht, hl, hret⟩ := insert_fits hir.toWF hner (hmm ▸ hmlf) element habsent
      (by
        rw [hmm, hblen, hnodes, ← hlenm]
        exact hload') hfuel
    have hidx : r.1.hash element.1 % r.1.buckets.length =
        m.bucketId n.value.hash := by
      rw [hh, hblen]
      exact hbucket
    refine ⟨r2, hr2, ht, hl.2.2.2.2.1, by rw [hl.buckets_length, hblen], ?_, ?_, ?_,
      hl.inv hir hner⟩
    · rw [hl.2.2.1, hidx, hret, List.getElem?_set]
      simp [hblen, UnorderedMap.bucketId, hlt]
    · rw [hret]
      exact hl.find_new hner
    · rw [hret]
      exact hl.deref_new hir.toWF hner

/-- C22 (witness): in `sample_table` the node of key `1` is the only one of
bucket `1`; it is erased and the key `6` is inserted. -/
theorem erase_sole_member_then_insert_witness :
    Inv sample_table ∧ LoadOk sample_table ∧
    ({ addr := 2, value := { element := (1, 30), hash := 1 } } :
      TemplateNode (HashedNode Nat Nat)) ∈ sample_table.list.nodes ∧
    (∀ x ∈ sample_table.list.nodes,
      sample_table.bucketId x.value.hash = sample_table.bucketId 1 →
        x = { addr := 2, value := { element := (1, 30), hash := 1 } }) ∧
    sample_table.bucketId (sample_table.hash 6) = sample_table.bucketId 1 ∧
    ∃ r, sample_table.erase (BasePtr.node 2) = some r ∧
      r.1.buckets[sample_table.bucketId 1]? = some BasePtr.null ∧
      r.1.size + 1 = sample_table.size ∧ Inv r.1 ∧
      ∀ fuel, 1 ≤ fuel →
        ∃ r2, r.1.insert fuel (6, 60) = some r2 ∧ r2.2.2 = true ∧
          r2.1.size = r.1.size + 1 ∧ r2.1.buckets.length = sample_table.buckets.length ∧
          r2.1.buckets[sample_table.bucketId 1]? = some r2.2.1 ∧
          r2.1.find (6, 60).1 = some r2.2.1 ∧ r2.1.deref r2.2.1 = some (6, 60) ∧
          Inv r2.1 :=
  ⟨inv_of_check (by decide), by unfold LoadOk; decide!, by decide, by decide, by decide,
    erase_sole_member_then_insert sample_table
      { addr := 2, value := { element := (1, 30), hash := 1 } } (6, 60)
      (inv_of_check (by decide)) (by unfold LoadOk; decide!) (by decide) (by decide)
      (by decide)⟩

/-- C27 (amended): `rehash` passes the entries of the list, in list order, to
`insert_impl`, which evaluates the hash function on each key anew; the cached
hashes stored before are not read. For every table whose counter agrees with
its list and whose `max_load_factor` is positive: `rehash(c)` is the fold of
`insert_impl` over the entries in list order, starting from the emptied table;
a table with the same entries, hash function, `max_load_factor` and allocation
watermark gives the same result whatever hashes its nodes hold; and `rehash(c)`
completes with every node holding the hash that the hash function yields for
its key, every key keeping an entry. In every table reachable by the public
operations each cached hash is the value of the (pure) hash function at the
key, which is why the recomputed value coincides with the cached one there. -/
theorem rehash_computes_every_hash_anew [DecidableEq K] [Inhabited V]
    (m : UnorderedMap K V) (c : Nat) (hs : m.list.list_size = m.list.nodes.length)
    (hmlf : 0 < m.max_load_factor) :
    (∀ fuel, UnorderedMap.rehash (fuel + 1) m c =
      m.entries.foldlM
        (fun a e => (UnorderedMap.insert_body (UnorderedMap.rehash fuel) a e).map Prod.fst)
        (cleared m c)) ∧
    (∀ (m' : UnorderedMap K V) (fuel : Nat), m'.list.list_size = m'.list.nodes.length →
      m'.entries = m.entries → m'.hash = m.hash → m'.max_load_factor = m.max_load_factor →
      m'.list.alloc = m.list.alloc →
      UnorderedMap.rehash fuel m' c = UnorderedMap.rehash fuel m c) ∧
    (∃ fuel0, ∀ fuel, fuel0 ≤ fuel →
      ∃ m1, UnorderedMap.rehash fuel m c = some m1 ∧
        (∀ n ∈ m1.list.nodes, n.value.hash = m.hash n.value.element.1) ∧
        m1.entries.Subperm m.entries ∧
        (∀ x ∈ m.entries, ∃ y ∈ m1.entries, y.1 = x.1)) ∧
    (∀ t : UnorderedMap K V, Reachable t →
      ∀ n ∈ t.list.nodes, n.value.hash = t.hash n.value.element.1) := by
  refine ⟨fun fuel => rehash_succ fuel hs c, ?_, ?_, ?_⟩
  · intro m' fuel hs' hent hh hm ha
    exact rehash_congr c fuel hs hs' hent hh hm ha
  · obtain ⟨F, hF⟩ := @rehash_any K V _ m hs hmlf c
    refine ⟨F + 2, ?_⟩
    intro fuel hfuel
    obtain ⟨m1, hm1, hpost, _⟩ := hF fuel hfuel
    obtain ⟨hi1, hh1, _, _, _, hret, _⟩ := hpost
    refine ⟨m1, hm1, ?_, hret.1, hret.2⟩
    intro n hn
    rw [hi1.hash_eq n hn, hh1]
  · intro t ht n hn
    exact (reachableBy_wf ht).hash_eq n hn

/-- C27 (witness): `rehash(5)` of `sample_reseeded`, whose nodes hold hashes that
the functor no longer yields. -/
theorem rehash_computes_every_hash_anew_witness :
    sample_reseeded.list.list_size = sample_reseeded.list.nodes.length ∧
    (0 : ℚ) < sample_reseeded.max_load_factor ∧
    ∃ fuel0, ∀ fuel, fuel0 ≤ fuel →
      ∃ m1, UnorderedMap.rehash fuel sample_reseeded 5 = some m1 ∧
        (∀ n ∈ m1.list.nodes, n.value.hash = sample_reseeded.hash n.value.element.1) ∧
        m1.entries.Subperm sample_reseeded.entries ∧
        (∀ x ∈ sample_reseeded.entries, ∃ y ∈ m1.entries, y.1 = x.1) :=
  ⟨by decide, by decide!,
    (rehash_computes_every_hash_anew sample_reseeded 5 (by decide) (by decide!)).2.2.1⟩

/-- C21: for two different lists in one memory, `this` with any nodes and
`other` with the values `vs` in ring order: copy construction from `other`
completes and the new list has the values `vs` in order, in newly allocated
nodes; copy assignment `this = other` completes, `this` ends with the values
`vs` in order and `size() = vs.length`, and the nodes that `this` had before
are destroyed, whatever they were; in both cases `other` still has its nodes
with the values `vs`. Self-assignment changes nothing. -/
theorem copy_keeps_entries_in_order {T : Type} (mem : Memory T) (this other : ListObj)
    (as_ bs : List Nat) (id : Nat) (ht : Ring mem this as_) (ho : Ring mem other bs)
    (hid : this.id ≠ other.id) (hnew : id ≠ other.id) :
    ∃ vs, other.to_list mem = some vs ∧
      (∀ fuel, bs.length ≤ fuel →
        ∃ r, ListObj.copy_construct fuel mem other id = some r ∧
          r.2.to_list r.1 = some vs ∧ r.2.size = vs.length ∧
          (∀ visited, r.2.nodes r.1 r.2.size = some visited →
            ∀ n ∈ visited, n ∉ bs.map Link.node) ∧
          other.to_list r.1 = some vs ∧
          other.nodes r.1 other.size = some (bs.map Link.node)) ∧
      (∀ fuel, bs.length ≤ fuel →
        ∃ r, ListObj.copy_assign fuel mem this other = some r ∧
          r.2.to_list r.1 = some vs ∧ r.2.size = vs.length ∧
          (∀ a ∈ as_, r.1.value a = none) ∧
          other.to_list r.1 = some vs ∧
          other.nodes r.1 other.size = some (bs.map Link.node)) ∧
      (∀ fuel, ListObj.copy_assign fuel mem other other = some (mem, other)) := by
  obtain ⟨vs, hvs, hlen⟩ := @read_values_live T mem bs ho.live
  refine ⟨vs, by rw [ho.to_list_eq]; exact hvs, ?_, ?_, ?_⟩
  · intro fuel hfuel
    obtain ⟨mem1, this1, news, hm, ht1, _, ho1, hread, hv, hnews⟩ :=
      copy_construct_spec ho hnew hfuel
    have hvals : mem1.read_values (news.map Link.node) = some vs := hread.trans hvs
    obtain ⟨ws, hws, hwlen⟩ := @read_values_live T mem1 news ht1.live
    refine ⟨_, hm, ?_, ?_, ?_, ?_, (ho1.nodes_eq _).1 (le_refl _)⟩
    · rw [ht1.to_list_eq]
      exact hvals
    · show this1.list_size = vs.length
      rw [hvals] at hws
      cases hws
      rw [ht1.size_eq, hwlen]
    · intro visited hvis n hn hmem
      have hvis' := ht1.nodes_some hvis
      rw [hvis'] at hn
      obtain ⟨c, hc, rfl⟩ := List.mem_map.1 hn
      obtain ⟨d, hd, hde⟩ := List.mem_map.1 hmem
      cases hde
      have h1 := hnews _ hc
      have h2 := ho.below _ hd
      omega
    · rw [ho1.to_list_eq, @read_values_congr T mem mem1 bs (fun b hb => hv b (ho.below b hb))]
      exact hvs
  · intro fuel hfuel
    obtain ⟨mem1, this1, news, hm, ht1, _, ho1, hread, hsrc, hdead, _⟩ :=
      copy_assign_spec ht ho hid hfuel
    have hvals : mem1.read_values (news.map Link.node) = some vs := hread.trans hvs
    obtain ⟨ws, hws, hwlen⟩ := @read_values_live T mem1 news ht1.live
    refine ⟨_, hm, ?_, ?_, hdead, ?_, (ho1.nodes_eq _).1 (le_refl _)⟩
    · rw [ht1.to_list_eq]
      exact hvals
    · show this1.list_size = vs.length
      rw [hvals] at hws
      cases hws
      rw [ht1.size_eq, hwlen]
    · rw [ho1.to_list_eq, hsrc]
      exact hvs
  · intro fuel
    simp [ListObj.copy_assign]

/-- C21 (witness): in `sample_memory`, the list `1` (one node) as destination
and the list `0` (values `10`, `20`) as source; the list `2` is the newly
constructed one. -/
theorem copy_keeps_entries_in_order_witness :
    Ring sample_memory { id := 1, list_size := 1 } [2] ∧
    Ring sample_memory { id := 0, list_size := 2 } [0, 1] ∧
    ∃ vs, ListObj.to_list sample_memory { id := 0, list_size := 2 } = some vs ∧
      (∀ fuel, [0, 1].length ≤ fuel →
        ∃ r, ListObj.copy_construct fuel sample_memory { id := 0, list_size := 2 } 2 = some r ∧
          r.2.to_list r.1 = some vs ∧ r.2.size = vs.length ∧
          (∀ visited, r.2.nodes r.1 r.2.size = some visited →
            ∀ n ∈ visited, n ∉ [0, 1].map Link.node) ∧
          ListObj.to_list r.1 { id := 0, list_size := 2 } = some vs ∧
          ListObj.nodes r.1 { id := 0, list_size := 2 }
            (ListObj.size { id := 0, list_size := 2 }) = some ([0, 1].map Link.node)) ∧
      (∀ fuel, [0, 1].length ≤ fuel →
        ∃ r, ListObj.copy_assign fuel sample_memory { id := 1, list_size := 1 }
            { id := 0, list_size := 2 } = some r ∧
          r.2.to_list r.1 = some vs ∧ r.2.size = vs.length ∧
          (∀ a ∈ [2], r.1.value a = none) ∧
          ListObj.to_list r.1 { id := 0, list_size := 2 } = some vs ∧
          ListObj.nodes r.1 { id := 0, list_size := 2 }
            (ListObj.size { id := 0, list_size := 2 }) = some ([0, 1].map Link.node)) ∧
      (∀ fuel, ListObj.copy_assign fuel sample_memory { id := 0, list_size := 2 }
        { id := 0, list_size := 2 } = some (sample_memory, { id := 0, list_size := 2 })) :=
  ⟨sample_ring_one, sample_ring_zero,
    copy_keeps_entries_in_order sample_memory { id := 1, list_size := 1 }
      { id := 0, list_size := 2 } [2] [0, 1] 2 sample_ring_one sample_ring_zero
      (by decide) (by decide)⟩

end UMap
